import Mathlib

/-!
# Metadata layer of the registry: embedding and verified properties

A shallow embedding of `registry/storage/metadata` (typed keys, transactions, tag and
manifest services) and of its in-memory store `registry/storage/metadata/inmemory`.

Conventions of the embedding

* A Go `string` is a Lean `String`; a Go `interface{}` holding one of the values the
  registry stores is an `Option Value` (`none` is the nil interface).
* A Go `error` is an `Option Error` (`none` is nil).
* A Go map is an association list without duplicate keys (`GoMap`); every order of the
  list is one possible iteration order of the Go map.
* A Go function that can panic returns `Except Fault _`.
* The shared, lock-protected `state` of the store is passed explicitly; every operation
  runs while holding the lock, so an operation is one atomic step on the state.
* Logging (`fmt.Printf`, `fmt.Println`) is not modelled.
-/

namespace Registry

/-! ## Values, errors, faults -/

/-- Modelled from the spec: `distribution.Descriptor`, declared outside the files at hand;
the spec gives it as `{digest, size, mediaType}`. -/
structure Descriptor where
  MediaType : String
  Size : Int
  Digest : String
deriving DecidableEq, Repr

/-- The dynamic values the registry stores under metadata keys: a `distribution.Descriptor`
(tags, blobs), a `digest.Digest` (direct manifest put), a `[]byte` payload (transactional
manifest put; `none` is the nil slice, which `reflect.DeepEqual` tells apart from an empty
one) and a `string` (upload keys). -/
inductive Value where
  | descriptor (d : Descriptor)
  | digest (d : String)
  | bytes (p : Option (List Nat))
  | string (s : String)
deriving DecidableEq, Repr

/-- The entries of a `distribution.ErrManifestVerification`, as far as `handlePutError` tells
them apart: `ErrManifestBlobUnknown`, `ErrManifestNameInvalid`, `ErrManifestUnverified`, an
`errcode.Error`, `digest.ErrDigestInvalidFormat`, and any other error. -/
inductive VerificationError where
  | ErrManifestBlobUnknown (Digest : String)
  | ErrManifestNameInvalid
  | ErrManifestUnverified
  | errcodeError (msg : String)
  | ErrDigestInvalidFormat
  | other (msg : String)
deriving DecidableEq, Repr

/-- Go error values that the modelled code creates or inspects. `errorf` stands for a value
built by `fmt.Errorf` or `errors.New`; it carries the format string only. -/
inductive Error where
  | ErrTransactionCanRetry
  | ErrKeyNotFound (Key : String)
  | ErrRepositoryUnknown (Name : String)
  | ErrTagUnknown (Tag : String)
  | ErrUnsupported
  | ErrBlobUnknown
  | ErrDigestInvalidFormat
  | errorf (format : String)
  | ErrFinishedWalk
  | ErrSkipDir
  | EOF
  | ErrAccessDenied
  | ErrManifestUnknownRevision (Name : String) (Revision : String)
  | ErrManifestVerification (errs : List VerificationError)
  | ErrDigestUnsupported
  | ErrBlobUploadUnknown
  | ErrBlobMounted (FromName : String) (FromDigest : String) (Descriptor : Descriptor)
deriving DecidableEq, Repr

/-- The error codes of the registry API (`registry/api/v2`, `registry/api/errcode`) that the
manifest handlers record. -/
inductive ErrorCode where
  | Unknown
  | Unsupported
  | Denied
  | DigestInvalid
  | NameInvalid
  | TagInvalid
  | ManifestUnknown
  | ManifestInvalid
  | ManifestUnverified
  | ManifestBlobUnknown
deriving DecidableEq, Repr

/-- An entry of the error list `Errors` of a request context: an error code, an error code
`WithDetail` (the detail is an error, a digest or a text), or a plain error. -/
inductive ApiError where
  | code (c : ErrorCode)
  | withDetail (c : ErrorCode) (detail : Error)
  | withText (c : ErrorCode) (detail : String)
  | plain (err : Error)
deriving DecidableEq, Repr

/-- Ways in which a Go call fails to return: a run-time panic, or (for models of loops that
take fuel) exhausted fuel. -/
inductive Fault where
  | panic (msg : String)
  | outOfFuel
deriving DecidableEq, Repr

deriving instance DecidableEq for Except

/-! ## Go maps -/

/-- A Go `map[string]α`: association list; well-formed when its keys are distinct. -/
abbrev GoMap (α : Type) := List (String × α)

namespace GoMap

variable {α : Type}

/-- The comma-ok lookup `v, ok := m[k]`. -/
def get? : GoMap α → String → Option α
  | [], _ => none
  | (k', v) :: m, k => if k' = k then some v else get? m k

/-- The assignment `m[k] = v`. -/
def set : GoMap α → String → α → GoMap α
  | [], k, v => [(k, v)]
  | (k', v') :: m, k, v => if k' = k then (k, v) :: m else (k', v') :: set m k v

/-- The builtin `delete(m, k)`. -/
def delete : GoMap α → String → GoMap α
  | [], _ => []
  | (k', v) :: m, k => if k' = k then delete m k else (k', v) :: delete m k

/-- The keys of the map, in the order of the list. -/
def keys (m : GoMap α) : List String := m.map Prod.fst

/-- Well-formedness of a Go map: no key occurs twice. -/
def WF (m : GoMap α) : Prop := (keys m).Nodup

instance (m : GoMap α) : Decidable m.WF := inferInstanceAs (Decidable (keys m).Nodup)

end GoMap

/-- The type `repository map[string]interface{}` of the in-memory store. -/
abbrev repository := GoMap (Option Value)

/-- The field `state map[reference.Named]repository`; a `reference.Named` is identified with
its name. -/
abbrev State := GoMap repository

/-- The record `MetadataUpdateRecord` of `metadata.go`. -/
structure MetadataUpdateRecord where
  Actual : Option Value
  Expected : Option Value
deriving DecidableEq, Repr

/-! ## The in-memory store (`inmemory.go`) -/

/-- The struct `inMemoryMetadataStore`: the shared state and the repository the view is
scoped to (`none` for the unscoped store built by `NewMetadataService`). -/
structure inMemoryMetadataStore where
  state : State
  repo : Option String
deriving DecidableEq, Repr

namespace inMemoryMetadataStore

/-- The constructor `NewMetadataService`. -/
def NewMetadataService : inMemoryMetadataStore := { state := [], repo := none }

/-- The method `RepositoryScoped`: the shared state after the call (the entry of `repo` is
created when missing) together with the scope of the returned view. -/
def RepositoryScoped (state : State) (repo : String) : inMemoryMetadataStore :=
  match state.get? repo with
  | some _ => { state := state, repo := some repo }
  | none => { state := state.set repo [], repo := some repo }

/-- The expression `m.state[m.repo]`; `none` is the nil map of a missing entry. -/
def repoMap (m : inMemoryMetadataStore) : Option repository :=
  match m.repo with
  | none => none
  | some r => m.state.get? r

/-- The state after the map `m.state[m.repo]` was mutated into `rp`. -/
def withRepoMap (m : inMemoryMetadataStore) (rp : repository) : State :=
  match m.repo with
  | none => m.state
  | some r => m.state.set r rp

/-- The helper `getOrNil`. -/
def getOrNil (m : inMemoryMetadataStore) (key : String) : Option Value :=
  match m.repoMap with
  | none => none
  | some rp =>
    match rp.get? key with
    | some val => val
    | none => none

/-- The method `Put`. Assigning into the nil map of a missing repository panics. -/
def Put (m : inMemoryMetadataStore) (key : String) (value : Option Value) :
    Except Fault (Option Error × State) :=
  match m.repoMap with
  | none => .error (.panic "assignment to entry in nil map")
  | some rp => .ok (none, m.withRepoMap (rp.set key value))

/-- First loop of `BatchPut`: `true` when some record's `Expected` differs from the current
value (the loop returns `ErrTransactionCanRetry` at the first such record). -/
def BatchPut.conflict (m : inMemoryMetadataStore) : GoMap MetadataUpdateRecord → Bool
  | [] => false
  | (k, v) :: rest =>
    if m.getOrNil k ≠ v.Expected then true else BatchPut.conflict m rest

/-- Second loop of `BatchPut` on the (possibly nil) map `m.state[m.repo]`. -/
def BatchPut.apply : Option repository → GoMap MetadataUpdateRecord →
    Except Fault (Option repository)
  | rp, [] => .ok rp
  | rp, (k, v) :: rest =>
    match v.Actual with
    | none => BatchPut.apply (rp.map (fun r => r.delete k)) rest
    | some a =>
      match rp with
      | none => .error (.panic "assignment to entry in nil map")
      | some r => BatchPut.apply (some (r.set k (some a))) rest

/-- The method `BatchPut`. -/
def BatchPut (m : inMemoryMetadataStore) (updates : GoMap MetadataUpdateRecord) :
    Except Fault (Option Error × State) :=
  if BatchPut.conflict m updates then .ok (some .ErrTransactionCanRetry, m.state)
  else
    match BatchPut.apply m.repoMap updates with
    | .error e => .error e
    | .ok none => .ok (none, m.state)
    | .ok (some rp) => .ok (none, m.withRepoMap rp)

/-- The method `Get`. -/
def Get (m : inMemoryMetadataStore) (key : String) : Option Value × Option Error :=
  (m.getOrNil key, none)

/-- The method `Delete`. -/
def Delete (m : inMemoryMetadataStore) (key : String) : Option Error × State :=
  match m.repoMap with
  | none => (some (.ErrKeyNotFound key), m.state)
  | some rp =>
    match rp.get? key with
    | none => (some (.ErrKeyNotFound key), m.state)
    | some _ => (none, m.withRepoMap (rp.delete key))

/-- The method `Exists`. -/
def Exists (m : inMemoryMetadataStore) (key : String) : Bool × Option Error :=
  match m.repoMap with
  | none => (false, none)
  | some rp =>
    match rp.get? key with
    | none => (false, none)
    | some _ => (true, none)

/-- Invariant of every view returned by `RepositoryScoped`: the view has a repository and
the state holds an entry for it. -/
def Scoped (m : inMemoryMetadataStore) : Prop := m.repoMap ≠ none

instance (m : inMemoryMetadataStore) : Decidable m.Scoped :=
  inferInstanceAs (Decidable (m.repoMap ≠ none))

end inMemoryMetadataStore

/-! ## Typed keys (`keys.go`) -/

/-- The key structs of `keys.go`. The first four implement `iterable`. -/
inductive Key where
  | ManifestDigestKey (Dgst : String)
  | TagKey (Tag : String)
  | RepoKey (Repo : String)
  | BlobKey (Dgst : String)
  | UploadStartedAtKey (ID : String)
  | UploadPathKey (ID : String)
deriving DecidableEq, Repr

/-- The `String` methods of the six key structs. -/
def Key.String : Key → String
  | .ManifestDigestKey d => "manifest::" ++ d
  | .TagKey t => "tag::" ++ t
  | .RepoKey r => "repo::" ++ r
  | .BlobKey d => "blob::" ++ d
  | .UploadStartedAtKey i => "upload::" ++ i ++ "::startedat"
  | .UploadPathKey i => "upload::" ++ i ++ "::path"

/-- Declarations of the packages `digest` and `reference` that the metadata package uses
and that are not among the files at hand, taken as parameters: the languages of
`digest.DigestRegexp` and `reference.TagRegexp` (does the whole string match?) and the error
result of `digest.ParseDigest`. -/
structure Externals where
  DigestRegexp : String → Bool
  TagRegexp : String → Bool
  ParseDigest : String → Option Error

/-- The text after the literal prefix `p`, when `s` starts with `p`. -/
def stripPrefix (p s : String) : Option String :=
  if p.toList.isPrefixOf s.toList then some (String.mk (s.toList.drop p.length)) else none

/-- The character class `[a-z0-9]`. -/
def isLowerAlnum (c : Char) : Bool :=
  (decide (97 ≤ c.toNat) && decide (c.toNat ≤ 122)) ||
    (decide (48 ≤ c.toNat) && decide (c.toNat ≤ 57))

/-- The piece `[a-z0-9]+` at the head of `s`: the rest of `s` after the longest run. -/
def alnumRun (s : List Char) : Option (List Char) :=
  if (s.takeWhile isLowerAlnum).isEmpty then none else some (s.dropWhile isLowerAlnum)

/-- One group `(?:[._]|__|[-]*)[a-z0-9]+` at the head of `s` (the alternatives are tried in
the order written): the rest of `s` after the group. -/
def repoGroup (s : List Char) : Option (List Char) :=
  let first : Option (List Char) :=
    match s with
    | c :: r => if c = '.' ∨ c = '_' then alnumRun r else none
    | [] => none
  let second : Option (List Char) :=
    match s with
    | '_' :: '_' :: r => alnumRun r
    | _ => none
  let third : Option (List Char) := alnumRun (s.dropWhile (fun c => c = '-'))
  (first.orElse (fun _ => second)).orElse (fun _ => third)

/-- The greedy repetition `(?: group )*` of `repoGroup`; every group consumes a character,
so fuel equal to the length of the text is enough. -/
def repoGroups : Nat → List Char → List Char
  | 0, s => s
  | fuel + 1, s =>
    match repoGroup s with
    | some r => repoGroups fuel r
    | none => s

/-- The capture of `^repo::([a-z0-9]+(?:(?:(?:[._]|__|[-]*)[a-z0-9]+)+)?)` on `keyStr`: the
pattern is not anchored at the end, so the capture is the longest prefix the greedy
pieces consume. -/
def repoRegexpCapture (keyStr : String) : Option String :=
  match stripPrefix "repo::" keyStr with
  | none => none
  | some body =>
    match alnumRun body.toList with
    | none => none
    | some r =>
      let rest := repoGroups r.length r
      some (String.mk (body.toList.take (body.length - rest.length)))

/-- The function `KeyFromString`. Its result is an `iterable`, possibly nil (`none`); it
panics on a key no pattern matches. In `^upload::(.*)$` the dot does not match a
newline. -/
def KeyFromString (x : Externals) (keyStr : String) : Except Fault (Option Key) :=
  match (stripPrefix "manifest::" keyStr).filter x.DigestRegexp with
  | some d => .ok (some (.ManifestDigestKey d))
  | none =>
  match (stripPrefix "tag::" keyStr).filter x.TagRegexp with
  | some t => .ok (some (.TagKey t))
  | none =>
  match (stripPrefix "blob::" keyStr).filter x.DigestRegexp with
  | some d => .ok (some (.BlobKey d))
  | none =>
  match repoRegexpCapture keyStr with
  | some r => .ok (some (.RepoKey r))
  | none =>
  match (stripPrefix "upload::" keyStr).filter (fun u => u.toList.all (fun c => c ≠ '\n')) with
  | some _ => .ok none
  | none => .error (.panic "error on key match: ")

/-! ## Iteration (`metadata.go`, `inmemory.go`) -/

/-- The struct `IterateParameters`; `IterType` is an `iterable` interface value. -/
structure IterateParameters where
  IterType : Option Key
  From : String
deriving DecidableEq, Repr

/-- The type `IterFunc`, a Go closure: `σ` is the state the closure captures. -/
abbrev IterFunc (σ : Type) := σ → String → Option Value → Option Error × σ

/-- Go's comparison `a <= b` of strings (lexicographic by character code). -/
def leChars : List Char → List Char → Bool
  | [], _ => true
  | _ :: _, [] => false
  | a :: as, b :: bs =>
    if a.toNat < b.toNat then true
    else if b.toNat < a.toNat then false
    else leChars as bs

/-- The order `sort.Strings` sorts by. -/
def strLe (a b : String) : Prop := leChars a.toList b.toList = true

instance : DecidableRel strLe :=
  fun a b => inferInstanceAs (Decidable (leChars a.toList b.toList = true))

/-- The function `sort.Strings`. -/
def sortStrings (l : List String) : List String := l.insertionSort strLe

namespace inMemoryMetadataStore

/-- The loop of `iterateRepositories` over the sorted repository names. -/
def iterateRepositories.loop {σ : Type} (params : IterateParameters) (iterFunc : IterFunc σ) :
    List String → σ → Option Error × σ
  | [], acc => (none, acc)
  | r :: rs, acc =>
    if params.From ≠ "" ∧ strLe r params.From then iterateRepositories.loop params iterFunc rs acc
    else
      match iterFunc acc r none with
      | (some err, acc') => (some err, acc')
      | (none, acc') => iterateRepositories.loop params iterFunc rs acc'

/-- The method `iterateRepositories`. -/
def iterateRepositories {σ : Type} (m : inMemoryMetadataStore) (params : IterateParameters)
    (iterFunc : IterFunc σ) (acc : σ) : Option Error × σ :=
  iterateRepositories.loop params iterFunc (sortStrings m.state.keys) acc

/-- The loop of `iterateRepository` over the sorted keys. -/
def iterateRepository.loop {σ : Type} (x : Externals) (params : IterateParameters)
    (iterFunc : IterFunc σ) (repository : repository) :
    List String → σ → Except Fault (Option Error × σ)
  | [], acc => .ok (none, acc)
  | k :: ks, acc =>
    let v : Option Value := (repository.get? k).getD none
    match KeyFromString x k with
    | .error e => .error e
    | .ok (some (.ManifestDigestKey dgst)) =>
      if params.IterType = some (.ManifestDigestKey "") then
        match iterFunc acc dgst v with
        | (some err, acc') => .ok (some err, acc')
        | (none, acc') => iterateRepository.loop x params iterFunc repository ks acc'
      else iterateRepository.loop x params iterFunc repository ks acc
    | .ok (some (.TagKey tag)) =>
      if params.IterType = some (.TagKey "") then
        match iterFunc acc tag v with
        | (some err, acc') => .ok (some err, acc')
        | (none, acc') => iterateRepository.loop x params iterFunc repository ks acc'
      else iterateRepository.loop x params iterFunc repository ks acc
    | .ok _ => iterateRepository.loop x params iterFunc repository ks acc

/-- The method `iterateRepository`; with no key it builds `ErrRepositoryUnknown` from
`m.repo.Name()`, a nil dereference on the unscoped store. -/
def iterateRepository {σ : Type} (x : Externals) (m : inMemoryMetadataStore)
    (params : IterateParameters) (iterFunc : IterFunc σ) (repository : repository) (acc : σ) :
    Except Fault (Option Error × σ) :=
  let keys := sortStrings (GoMap.keys repository)
  if keys.length = 0 then
    match m.repo with
    | none => .error (.panic "nil pointer dereference")
    | some r => .ok (some (.ErrRepositoryUnknown r), acc)
  else iterateRepository.loop x params iterFunc repository keys acc

/-- The method `Iterate`. -/
def Iterate {σ : Type} (x : Externals) (m : inMemoryMetadataStore) (params : IterateParameters)
    (iterFunc : IterFunc σ) (acc : σ) : Except Fault (Option Error × σ) :=
  if params.IterType = some (.RepoKey "") then .ok (m.iterateRepositories params iterFunc acc)
  else iterateRepository x m params iterFunc (m.repoMap.getD []) acc

end inMemoryMetadataStore

/-! ## Transactions (`transaction.go`) -/

/-- A `MetadataService` value of the in-memory implementation: a view onto the shared state,
determined by the repository it is scoped to. -/
abbrev MetadataService := Option String

/-- The view `ms` at the moment the shared state is `s`. -/
def MetadataService.on (ms : MetadataService) (s : State) : inMemoryMetadataStore :=
  { state := s, repo := ms }

/-- The struct `Transaction`; `id` is the generated uuid. -/
structure Transaction where
  id : String
  store : MetadataService
  prepared : GoMap MetadataUpdateRecord
  committed : Bool
deriving DecidableEq, Repr

/-- What a call sees and may change: the shared state of the store, the transaction carried
by the context (`GetTx(ctx)`, `none` when the context carries none) with its current
contents, and the error list `Errors` of the request context (empty outside the
handlers). -/
structure World where
  state : State
  tx : Option Transaction
  Errors : List ApiError := []
deriving DecidableEq, Repr

/-- The function `BeginTx`; `id` is the result of `uuid.Generate()`. -/
def BeginTx (id : String) (store : MetadataService) : Transaction :=
  { id := id, store := store, prepared := [], committed := false }

namespace Transaction

/-- The method `Transaction.Update`: it reads the store and writes the prepared set. -/
def Update (t : Transaction) (s : State) (key : String) (val : Option Value) :
    Option Error × Transaction :=
  if t.committed then (some (.errorf "Unable to update %s, already committed"), t)
  else
    match (t.store.on s).Get key with
    | (_, some err) => (some err, t)
    | (expected, none) =>
      (none, { t with prepared := t.prepared.set key { Actual := val, Expected := expected } })

/-- The method `Transaction.Commit`. -/
def Commit (t : Transaction) (s : State) : Except Fault (Option Error × Transaction × State) :=
  if t.committed then .ok (some (.errorf "Unable to commit %s, already committed"), t, s)
  else
    match (t.store.on s).BatchPut t.prepared with
    | .error e => .error e
    | .ok (some err, s') => .ok (some err, t, s')
    | .ok (none, s') => .ok (none, { t with committed := true }, s')

/-- The method `Transaction.Rollback`. -/
def Rollback (t : Transaction) : Option Error × Transaction :=
  if t.committed then (some (.errorf "Unable to rollback %s, already committed"), t)
  else (none, { t with prepared := [] })

end Transaction

/-- The function `canRetry`. -/
def canRetry (err : Error) : Bool := decide (err = .ErrTransactionCanRetry)

/-- The type `MetadataUpdateFunc`, a Go closure run with the context of `Update`. The first
argument counts the earlier invocations by `Update`: what a closure does (and what other
writers do to the store while it runs) may differ from one invocation to the next. A
closure cannot detach the transaction from the context: a result without transaction
stands for an untouched transaction. -/
abbrev MetadataUpdateFunc := Nat → World → Except Fault (Option Error × World)

/-- The loop of `Update` from the label `try` on, with the local `attempts`, the contents of
the transaction and the world at that point. Each `goto try` uses one unit of fuel. -/
def Update.try (f : MetadataUpdateFunc) :
    Nat → Nat → Transaction → World → Except Fault (Option Error × World)
  | 0, _, _, _ => .error .outOfFuel
  | fuel + 1, attempts, tx, w =>
    match f attempts { w with tx := some tx } with
    | .error e => .error e
    | .ok (some err, w1) => .ok (some err, { w1 with tx := some (w1.tx.getD tx) })
    | .ok (none, w1) =>
      let tx1 := w1.tx.getD tx
      if attempts = 1 then
        .ok (some (.errorf "transaction failed: %s"), { w1 with tx := some tx1 })
      else
        match tx1.Commit w1.state with
        | .error e => .error e
        | .ok (none, tx2, s2) => .ok (none, { w1 with state := s2, tx := some tx2 })
        | .ok (some txErr, tx2, s2) =>
          if canRetry txErr then Update.try f fuel (attempts + 1) tx2 { w1 with state := s2 }
          else .ok (some txErr, { w1 with state := s2, tx := some tx2 })

/-- The function `Update`. `repo` is `none` for a repository that is not `Metadatable` and
`some name` for a `metadataRepository`, whose `MetadataService()` is
`RepositoryScoped(base, name)`; `id` is the uuid `BeginTx` generates. The result holds the
final contents of the transaction `f` ran with. -/
def Update (repo : Option String) (id : String) (f : MetadataUpdateFunc) (w : World)
    (fuel : Nat) : Except Fault (Option Error × World) :=
  match repo with
  | none => f 0 w
  | some name =>
    let view := inMemoryMetadataStore.RepositoryScoped w.state name
    Update.try f fuel 0 (BeginTx id view.repo) { w with state := view.state }

/-! ## Tag service (`tagservice.go`) -/

/-- The struct `TagService`. -/
structure TagService where
  repo : String
  store : MetadataService
deriving DecidableEq, Repr

namespace TagService

/-- The method `TagService.Get`; on an error the descriptor is the zero value. -/
def Get (ts : TagService) (s : State) (tag : String) : Descriptor × Option Error :=
  let key := (Key.TagKey tag).String
  match (ts.store.on s).Get key with
  | (_, some err) => ({ MediaType := "", Size := 0, Digest := "" }, some err)
  | (none, none) => ({ MediaType := "", Size := 0, Digest := "" }, some (.ErrTagUnknown tag))
  | (some (.descriptor desc), none) => (desc, none)
  | (some _, none) =>
    ({ MediaType := "", Size := 0, Digest := "" }, some (.errorf "incorrect type for tag get: %s (%T)"))

/-- The method `TagService.Tag`. -/
def Tag (x : Externals) (ts : TagService) (w : World) (tag : String) (desc : Descriptor) :
    Except Fault (Option Error × World) :=
  match x.ParseDigest desc.Digest with
  | some err => .ok (some err, w)
  | none =>
    let key := (Key.TagKey tag).String
    match w.tx with
    | none =>
      match (ts.store.on w.state).Put key (some (.descriptor desc)) with
      | .error e => .error e
      | .ok (err, s') => .ok (err, { w with state := s' })
    | some tx =>
      match tx.Update w.state key (some (.descriptor desc)) with
      | (some err, tx') => .ok (some err, { w with tx := some tx' })
      | (none, tx') => .ok (none, { w with tx := some tx' })

/-- The method `TagService.Untag`. -/
def Untag (ts : TagService) (w : World) (tag : String) : Option Error × World :=
  let key := (Key.TagKey tag).String
  match w.tx with
  | none =>
    match (ts.store.on w.state).Delete key with
    | (err, s') => (err, { w with state := s' })
  | some tx =>
    match tx.Update w.state key none with
    | (some err, tx') => (some err, { w with tx := some tx' })
    | (none, tx') => (none, { w with tx := some tx' })

/-- The closure `All` passes to `Iterate`; it captures the slice `tags`. -/
def All.iterFunc : IterFunc (List String) :=
  fun tags key _ => (none, tags ++ [key])

/-- The method `TagService.All`. -/
def All (x : Externals) (ts : TagService) (s : State) :
    Except Fault (List String × Option Error) :=
  match (ts.store.on s).Iterate x { IterType := some (.TagKey ""), From := "" } All.iterFunc [] with
  | .error e => .error e
  | .ok (err, tags) => .ok (tags, err)

/-- The closure `Lookup` passes to `Iterate`; it captures the slice `tags`. -/
def Lookup.iterFunc (desc : Descriptor) : IterFunc (List String) :=
  fun tags key val =>
    match val with
    | some (.descriptor d) =>
      if desc.Digest = d.Digest then (none, tags ++ [key]) else (none, tags)
    | _ => (some (.errorf "incorrect type %T for key %s"), tags)

/-- The method `TagService.Lookup`. -/
def Lookup (x : Externals) (ts : TagService) (s : State) (desc : Descriptor) :
    Except Fault (List String × Option Error) :=
  match (ts.store.on s).Iterate x { IterType := some (.TagKey ""), From := "" }
      (Lookup.iterFunc desc) [] with
  | .error e => .error e
  | .ok (some (.ErrRepositoryUnknown _), tags) => .ok (tags, none)
  | .ok (none, tags) => .ok (tags, none)
  | .ok (some err, _) => .ok ([], some err)

end TagService

/-! ## Manifest service (`manifestservice.go`) -/

/-- The struct `manifestService`, without the schema-aware `manifestStore` it delegates blob
handling to. -/
structure manifestService where
  repo : String
  store : MetadataService
  deleteEnabled : Bool
deriving DecidableEq, Repr

namespace manifestService

/-- The method `manifestService.Exists`. -/
def Exists (t : manifestService) (s : State) (dgst : String) : Bool × Option Error :=
  (t.store.on s).Exists (Key.ManifestDigestKey dgst).String

/-- The method `manifestService.Delete`. -/
def Delete (t : manifestService) (w : World) (dgst : String) : Option Error × World :=
  if ¬ t.deleteEnabled then (some .ErrUnsupported, w)
  else
    match t.Exists w.state dgst with
    | (_, some err) => (some err, w)
    | (false, none) => (some .ErrBlobUnknown, w)
    | (true, none) =>
      let key := (Key.ManifestDigestKey dgst).String
      match w.tx with
      | none =>
        match (t.store.on w.state).Delete key with
        | (err, s') => (err, { w with state := s' })
      | some tx =>
        match tx.Update w.state key none with
        | (some err, tx') => (some err, { w with tx := some tx' })
        | (none, tx') => (none, { w with tx := some tx' })

end manifestService

/-- A call of one of the service methods that write tags or delete manifests. -/
inductive ServiceCall where
  | Tag (tag : String) (desc : Descriptor)
  | Untag (tag : String)
  | Delete (dgst : String)
deriving DecidableEq, Repr

/-- One service call in the world `w`: the error it returns and the world it leaves. -/
def ServiceCall.run (x : Externals) (ts : TagService) (ms : manifestService) (w : World) :
    ServiceCall → Except Fault (Option Error × World)
  | .Tag tag desc => ts.Tag x w tag desc
  | .Untag tag => .ok (ts.Untag w tag)
  | .Delete dgst => .ok (ms.Delete w dgst)

/-- A sequence of service calls, each made in the world its predecessor left, whatever error
the predecessor returned: the world after the last call. -/
def ServiceCall.runAll (x : Externals) (ts : TagService) (ms : manifestService) :
    World → List ServiceCall → Except Fault World
  | w, [] => .ok w
  | w, c :: cs =>
    match c.run x ts ms w with
    | .error e => .error e
    | .ok (_, w') => ServiceCall.runAll x ts ms w' cs

/-! ## Sample instantiation of the external declarations -/

/-- The character class `[A-Za-z0-9_+.-]`. -/
def isDigestAlgChar (c : Char) : Bool :=
  (decide (65 ≤ c.toNat) && decide (c.toNat ≤ 90)) || (decide (97 ≤ c.toNat) && decide (c.toNat ≤ 122)) ||
    (decide (48 ≤ c.toNat) && decide (c.toNat ≤ 57)) || c = '_' || c = '+' || c = '.' || c = '-'

/-- The character class `[A-Fa-f0-9]`. -/
def isHexChar (c : Char) : Bool :=
  (decide (65 ≤ c.toNat) && decide (c.toNat ≤ 70)) || (decide (97 ≤ c.toNat) && decide (c.toNat ≤ 102)) ||
    (decide (48 ≤ c.toNat) && decide (c.toNat ≤ 57))

/-- Modelled from the spec: the digest grammar `[A-Za-z0-9_+.-]+:[A-Fa-f0-9]+` (the value of
`digest.DigestRegexp`, declared outside the files at hand), as a whole-string match. -/
def specDigestRegexp (s : String) : Bool :=
  let alg := s.toList.takeWhile isDigestAlgChar
  match s.toList.dropWhile isDigestAlgChar with
  | ':' :: hex => !alg.isEmpty && !hex.isEmpty && hex.all isHexChar
  | _ => false

/-- A sample tag grammar for the examples: one to 128 characters of `[A-Za-z0-9_.-]`, the
first not `.` or `-`. -/
def sampleTagRegexp (s : String) : Bool :=
  let word (c : Char) : Bool := (isDigestAlgChar c && c ≠ '+')
  match s.toList with
  | [] => false
  | c :: r => word c && c ≠ '.' && c ≠ '-' && r.all word && decide (r.length ≤ 127)

/-- The externals used in the examples: the digest grammar of the spec, the sample tag
grammar, and a `ParseDigest` that accepts exactly the strings of the digest grammar. -/
def sampleExternals : Externals :=
  { DigestRegexp := specDigestRegexp
    TagRegexp := sampleTagRegexp
    ParseDigest := fun s => if specDigestRegexp s then none else some .ErrDigestInvalidFormat }

/-! ## Sample data for the examples -/

/-- A descriptor with a well-formed digest. -/
def sampleDesc : Descriptor :=
  { MediaType := "application/json", Size := 2, Digest := "sha256:ab" }

/-- Another descriptor, of a different digest. -/
def otherDesc : Descriptor :=
  { MediaType := "application/json", Size := 7, Digest := "sha256:cd" }

/-- A state with two repositories; `r` holds a manifest, two tags and an upload key. -/
def sampleState : State :=
  [("r", [("tag::b", some (.descriptor otherDesc)),
          ("manifest::sha256:ab", some (.digest "sha256:ab")),
          ("upload::u1::path", some (.string "/uploads/u1")),
          ("tag::a", some (.descriptor sampleDesc))]),
   ("q", [("tag::a", some (.descriptor otherDesc))])]

/-- The view of `sampleState` scoped to `r`. -/
def sampleView : inMemoryMetadataStore := { state := sampleState, repo := some "r" }

/-- An update set that deletes tag `a`, creates tag `c` and moves tag `b`. -/
def sampleUpdates : GoMap MetadataUpdateRecord :=
  [("tag::a", { Actual := none, Expected := some (.descriptor sampleDesc) }),
   ("tag::c", { Actual := some (.descriptor sampleDesc), Expected := none }),
   ("tag::b", { Actual := some (.descriptor sampleDesc), Expected := some (.descriptor otherDesc) })]

/-- The tag service of repository `r`. -/
def sampleTags : TagService := { repo := "r", store := some "r" }

/-- The manifest service of repository `r`, deletion enabled. -/
def sampleManifests : manifestService := { repo := "r", store := some "r", deleteEnabled := true }

/-- A fresh transaction on the view scoped to `r`. -/
def sampleTx : Transaction := BeginTx "tx-1" (some "r")

/-- A closure for `Update` that tags `a` with `desc` through the transaction of the context.
While its first invocation runs, another writer puts `other` under the same tag (a direct
write to the store that lands after the closure's `Transaction.Update` and before the
`Commit` of `Update`); later invocations meet no other writer. -/
def contendedTag (x : Externals) (ts : TagService) (desc other : Descriptor) :
    MetadataUpdateFunc :=
  fun n w =>
    match ts.Tag x w "a" desc with
    | .error e => .error e
    | .ok (some err, w') => .ok (some err, w')
    | .ok (none, w') =>
      if n = 0 then
        match (ts.store.on w'.state).Put (Key.TagKey "a").String (some (.descriptor other)) with
        | .error e => .error e
        | .ok (_, s') => .ok (none, { w' with state := s' })
      else .ok (none, w')


/-- The state `sampleState` after another writer moved tag `a` of `r` to `otherDesc`. -/
def movedState : State :=
  [("r", [("tag::b", some (.descriptor otherDesc)),
          ("manifest::sha256:ab", some (.digest "sha256:ab")),
          ("upload::u1::path", some (.string "/uploads/u1")),
          ("tag::a", some (.descriptor otherDesc))]),
   ("q", [("tag::a", some (.descriptor otherDesc))])]


/-- The sample transaction after `Update` of tag `c` to `sampleDesc` on `sampleState`. -/
def preparedTx : Transaction :=
  (sampleTx.Update sampleState "tag::c" (some (.descriptor sampleDesc))).2


/-- The world in which the tag service of `r` works directly on `sampleState`. -/
def directWorld : World := { state := sampleState, tx := none }

/-- The world in which the context carries the fresh sample transaction. -/
def txWorld : World := { state := sampleState, tx := some sampleTx }

/-- The state `sampleState` once tag `c` of `r` points to `sampleDesc`. -/
def taggedState : State :=
  sampleState.set "r" (((sampleState.get? "r").getD []).set "tag::c" (some (.descriptor sampleDesc)))

/-- The state `sampleState` once tag `a` of `r` is gone. -/
def untaggedState : State :=
  sampleState.set "r" (((sampleState.get? "r").getD []).delete "tag::a")


/-- What the closure of `Lookup` appends to `tags` when `iterateRepository` reaches key `k`
of `rp`: the tag name, when the key is a tag key whose descriptor has the digest of `desc`. -/
def TagService.Lookup.pick (x : Externals) (rp : repository) (desc : Descriptor) (k : String) :
    Option String :=
  match KeyFromString x k with
  | .ok (some (.TagKey tag)) =>
    match rp.get? k with
    | some (some (.descriptor d)) => if desc.Digest = d.Digest then some tag else none
    | _ => none
  | _ => none


/-- Does `KeyFromString` return on `k` (rather than panic)? -/
def keyParses (x : Externals) (k : String) : Bool :=
  match KeyFromString x k with
  | .ok _ => true
  | .error _ => false

/-- Does `KeyFromString` parse `k` to a `TagKey`? -/
def isTagEntry (x : Externals) (k : String) : Bool :=
  match KeyFromString x k with
  | .ok (some (.TagKey _)) => true
  | _ => false

/-- Does the interface value hold a `distribution.Descriptor`? -/
def holdsDescriptor : Option Value → Bool
  | some (.descriptor _) => true
  | _ => false

/-- The state reached from the empty repository `r` by the direct call `Tag("", sampleDesc)`:
the key `tag::` holds the descriptor. -/
def emptyTagState : State := [("r", [("tag::", some (.descriptor sampleDesc))])]


/-! ## Iteration as the spec words it -/

/-- The calls `Iterate` is to make, in the words of the spec: `fn` on each entry in turn with
the state its previous call left; the first non-nil error ends the iteration and is the
result. -/
def deliverAll {σ : Type} (fn : IterFunc σ) : List (String × Option Value) → σ → Option Error × σ
  | [], acc => (none, acc)
  | (name, v) :: rest, acc =>
    match fn acc name v with
    | (some err, acc') => (some err, acc')
    | (none, acc') => deliverAll fn rest acc'

/-- The entry of `rp` under key `k`, when `k` has the form `pre<name>`: the name without the
prefix and the stored value. -/
def entryWithPrefix (pre : String) (rp : repository) (k : String) :
    Option (String × Option Value) :=
  (stripPrefix pre k).map (fun name => (name, (rp.get? k).getD none))

/-- A closure for `Iterate` that records each call and fails on the name `stop`. -/
def recordUntil (stop : String) : IterFunc (List (String × Option Value)) :=
  fun calls name v =>
    if name = stop then (some (.errorf "stop"), calls ++ [(name, v)])
    else (none, calls ++ [(name, v)])


/-! ## Catalog (`catalog.go`) -/

/-- The closure `metadataRegistry.Repositories` passes to `Iterate`; it captures the slice
`items`, and `size` is `len(repos)`. -/
def metadataRegistry.Repositories.iterFunc (size : Nat) : IterFunc (List String) :=
  fun items key _ =>
    if (items ++ [key]).length ≥ size then (some .ErrFinishedWalk, items ++ [key])
    else (none, items ++ [key])

/-- The method `metadataRegistry.Repositories` on the unscoped store of the registry, whose
state is `state`; `size` is `len(repos)`. The result is `repos[:n]` and the error. -/
def metadataRegistry.Repositories (x : Externals) (state : State) (size : Nat)
    (lastRepo : String) : Except Fault (List String × Option Error) :=
  if size = 0 then .ok ([], some (.errorf "no space in slice"))
  else
    match inMemoryMetadataStore.Iterate x { state := state, repo := none }
        { IterType := some (.RepoKey ""), From := lastRepo }
        (metadataRegistry.Repositories.iterFunc size) [] with
    | .error e => .error e
    | .ok (err, items) =>
      if err ≠ none ∧ err ≠ some .ErrFinishedWalk then .ok ([], err)
      else .ok (items.take size, if items.length < size then some .EOF else none)

/-- The inner loop of `foreachRepository`: the ingester on each name of the page. -/
def foreachRepository.ingest {σ : Type} (ingester : σ → String → Option Error × σ) :
    List String → σ → Option Error × σ
  | [], acc => (none, acc)
  | repoName :: rest, acc =>
    match ingester acc repoName with
    | (some err, acc') => (some err, acc')
    | (none, acc') => foreachRepository.ingest ingester rest acc'

/-- The outer loop of `foreachRepository` from the point where the cursor is `last`; each
call of `Repositories` uses one unit of fuel. `Repositories` is the method of the
namespace, applied to the buffer size and the cursor. The inner loop assigns the result of
each call of the ingester to the variable `err` that held the error of `Repositories`, so
the test `err == io.EOF` after the inner loop reads the result of the last ingester call:
the loop ends only at an empty page or with an error. -/
def foreachRepository.loop {σ : Type}
    (Repositories : String → Except Fault (List String × Option Error))
    (ingester : σ → String → Option Error × σ) :
    Nat → String → σ → Except Fault (Option Error × σ)
  | 0, _, _ => .error .outOfFuel
  | fuel + 1, last, acc =>
    match Repositories last with
    | .error e => .error e
    | .ok (page, err) =>
      if err ≠ none ∧ err ≠ some .EOF then .ok (err, acc)
      else if page.length = 0 then .ok (none, acc)
      else
        match foreachRepository.ingest ingester page acc with
        | (some e, acc') => .ok (some e, acc')
        | (err, acc') =>
          if err = some .EOF then .ok (none, acc')
          else foreachRepository.loop Repositories ingester fuel (page.getLast?.getD "") acc'

/-- The function `foreachRepository`; `bufSize` is the length of `repoNameBuffer`, which the
source fixes to 100, and `Repositories` the method of the namespace `reg`. -/
def foreachRepository {σ : Type} (bufSize : Nat)
    (Repositories : Nat → String → Except Fault (List String × Option Error))
    (ingester : σ → String → Option Error × σ) (acc : σ) (fuel : Nat) :
    Except Fault (Option Error × σ) :=
  foreachRepository.loop (Repositories bufSize) ingester fuel "" acc

/-- An ingester that collects the names it is given. -/
def collect : List String → String → Option Error × List String :=
  fun acc repoName => (none, acc ++ [repoName])

/-- The paging as the description of the catalog words it: `Repositories` is called with the
cursor `last`, then with the last name of each page, until a page is empty or `io.EOF` is
returned; the result is the error, if any, and the pages in the order they were returned.
Each call uses one unit of fuel. -/
def pagesUntilEOF (Repositories : String → Except Fault (List String × Option Error)) :
    Nat → String → Except Fault (Option Error × List (List String))
  | 0, _ => .error .outOfFuel
  | fuel + 1, last =>
    match Repositories last with
    | .error e => .error e
    | .ok (page, err) =>
      if err ≠ none ∧ err ≠ some .EOF then .ok (err, [])
      else if page.length = 0 ∨ err = some .EOF then .ok (none, [page])
      else
        match pagesUntilEOF Repositories fuel (page.getLast?.getD "") with
        | .error e => .error e
        | .ok (e, pages) => .ok (e, page :: pages)


/-- Does the name `r` pass the cursor test of `iterateRepositories`? With an empty cursor
every name does, otherwise the names that do not sort at or before the cursor. -/
def pastCursor (frm r : String) : Bool := decide (¬ (frm ≠ "" ∧ strLe r frm))


/-! ## Filesystem-walk catalog (`catalog.go`) -/

/-- An entry of the storage driver below the repositories root: its path relative to the
root, as components, and whether it is a directory (`FileInfo.Path`, `FileInfo.IsDir`). -/
structure FileInfo where
  Path : List String
  IsDir : Bool
deriving DecidableEq, Repr

/-- The contents of the storage driver below the repositories root. -/
abbrev Driver := List FileInfo

/-- The children of the directory `dir` (`driver.List` then `driver.Stat`), in ascending
order of their names. -/
def Driver.children (driver : Driver) (dir : List String) : List FileInfo :=
  (sortStrings ((driver.filterMap (fun e =>
      if e.Path.dropLast = dir then e.Path.getLast? else none)).eraseDups)).filterMap
    (fun name => driver.find? (fun e => decide (e.Path = dir ++ [name])))

/-- The type `WalkFn`, a Go closure with captured state `σ`. -/
abbrev WalkFn (σ : Type) := σ → FileInfo → Option Error × σ

/-- The loop of `Walk` over the children of one directory; `descend` is the recursive call
of `Walk` on a child directory. -/
def Walk.children {σ : Type} (f : WalkFn σ)
    (descend : List String → σ → Except Fault (Option Error × σ)) :
    List FileInfo → σ → Except Fault (Option Error × σ)
  | [], acc => .ok (none, acc)
  | child :: rest, acc =>
    match f acc child with
    | (err, acc') =>
      if err ≠ none ∧ err ≠ some .ErrSkipDir then .ok (err, acc')
      else if child.IsDir ∧ err ≠ some .ErrSkipDir then
        match descend child.Path acc' with
        | .error e => .error e
        | .ok (some err', acc'') => .ok (some err', acc'')
        | .ok (none, acc'') => Walk.children f descend rest acc''
      else Walk.children f descend rest acc'

/-- Modelled from the spec: the function `Walk` of the storage package, which is not among
the files at hand. It walks the tree below `dir` depth-first, each directory's children in
ascending name order, calling `f` on an entry before its children; `ErrSkipDir` from `f`
skips the entry's subtree and any other error ends the walk and is returned. Fuel bounds
the depth of the tree. -/
def Walk {σ : Type} (driver : Driver) (f : WalkFn σ) :
    Nat → List String → σ → Except Fault (Option Error × σ)
  | 0, _, _ => .error .outOfFuel
  | fuel + 1, dir, acc => Walk.children f (Walk driver f fuel) (driver.children dir) acc

/-- The path string of an entry relative to the root (`filePath[len(root)+1:]`). -/
def FileInfo.repoPath (fileInfo : FileInfo) : String := "/".intercalate fileInfo.Path

/-- The function `strings.TrimSuffix`. -/
def trimSuffix (s suffix : String) : String :=
  if suffix.toList.isSuffixOf s.toList then
    String.mk (s.toList.take (s.length - suffix.length))
  else s

/-- The closure `registry.Repositories` passes to `Walk`; it captures `foundRepos`, and
`size` is `len(repos)`. -/
def registry.Repositories.walkFn (size : Nat) (last : String) : WalkFn (List String) :=
  fun foundRepos fileInfo =>
    let repoPath := fileInfo.repoPath
    let file := fileInfo.Path.getLast?.getD ""
    if file = "_layers" then
      let repoPath := trimSuffix repoPath "/_layers"
      if ¬ strLe repoPath last then (some .ErrSkipDir, foundRepos ++ [repoPath])
      else (some .ErrSkipDir, foundRepos)
    else if "_".toList.isPrefixOf file.toList then (some .ErrSkipDir, foundRepos)
    else if foundRepos.length = size then (some .ErrFinishedWalk, foundRepos)
    else (none, foundRepos)

/-- The method `registry.Repositories` of the filesystem-walk registry; `size` is
`len(repos)`, the result is `repos[:n]` and the error. -/
def registry.Repositories (driver : Driver) (fuel : Nat) (size : Nat) (last : String) :
    Except Fault (List String × Option Error) :=
  if size = 0 then .ok ([], some (.errorf "no space in slice"))
  else
    match Walk driver (registry.Repositories.walkFn size last) fuel [] [] with
    | .error e => .error e
    | .ok (err, foundRepos) =>
      if foundRepos.length ≤ size ∧ (err = none ∨ err = some .ErrSkipDir) then
        .ok (foundRepos.take size, some .EOF)
      else .ok (foundRepos.take size, err)

/-- A driver tree with the two repositories `a/b` and `a-b`. -/
def sampleDriver : Driver :=
  [{ Path := ["a"], IsDir := true },
   { Path := ["a", "b"], IsDir := true },
   { Path := ["a", "b", "_layers"], IsDir := true },
   { Path := ["a", "b", "_manifests"], IsDir := true },
   { Path := ["a-b"], IsDir := true },
   { Path := ["a-b", "_layers"], IsDir := true },
   { Path := ["a-b", "_manifests"], IsDir := true }]


/-! ## Manifests and the external collaborators of the handlers -/

/-- The result of `Manifest.Payload()`: media type, payload (`none` is the nil slice) and
error. -/
structure PayloadResult where
  mediaType : String
  payload : Option (List Nat)
  err : Option Error
deriving DecidableEq, Repr

/-- The struct `manifestlist.PlatformSpec`, as far as the handlers read it. -/
structure PlatformSpec where
  Architecture : String
  OS : String
deriving DecidableEq, Repr

/-- The struct `manifestlist.ManifestDescriptor`: a descriptor with a platform. -/
structure ManifestDescriptor where
  Descriptor : Descriptor
  Platform : PlatformSpec
deriving DecidableEq, Repr

/-- Modelled from the spec: a `distribution.Manifest`, one of `*schema1.SignedManifest`,
`*schema2.DeserializedManifest` and `*manifestlist.DeserializedManifestList` (types of the
manifest packages, which are not among the files at hand), with what the handlers read of
each: the result of `Payload()`, the canonical bytes of a signed manifest, the target and
the references of a schema2 manifest, the descriptors of a manifest list. -/
inductive Manifest where
  | SignedManifest (Canonical : List Nat) (Payload : PayloadResult)
  | DeserializedManifest (Target : Descriptor) (References : List Descriptor)
      (Payload : PayloadResult)
  | DeserializedManifestList (Manifests : List ManifestDescriptor) (Payload : PayloadResult)
deriving DecidableEq, Repr

/-- The method `Payload` of a manifest. -/
def Manifest.Payload : Manifest → PayloadResult
  | .SignedManifest _ p => p
  | .DeserializedManifest _ _ p => p
  | .DeserializedManifestList _ p => p

/-- What the handlers and the manifest service call outside the files at hand, taken as
parameters: the schema-aware `manifestStore` (its `Get` with the tag option, and its `Put`,
which may write to the metadata store on its way, for instance the `blob::` key of the
stored payload), `distribution.UnmarshalManifest`, `digest.FromBytes`, the blob store's `Get`
of a config blob, `reference.WithTag`, the schema1 builder (`AppendReference`, `Build`),
`reference.WithDigest` on the repository name, `BuildManifestURL`, and the media type
constants of the schema2 and manifest-list packages. -/
structure HandlerExternals where
  manifestStoreGet : String → Option String → Except Error Manifest
  manifestStorePut : Manifest → State → (String × Option Error) × State
  UnmarshalManifest : String → List Nat → Except Error (Manifest × Descriptor)
  FromBytes : List Nat → String
  blobsGet : String → Except Error (List Nat)
  WithTag : String → String → Option Error
  AppendReference : Descriptor → Option Error
  Build : String → List Nat → List Descriptor → Except Error Manifest
  WithDigest : String → String → Option Error
  BuildManifestURL : String → String → String
  MediaTypeManifest : String
  MediaTypeManifestList : String

namespace manifestService

/-- The method `manifestService.Get`; `tag` is the option `WithTag`, when given. -/
def Get (hx : HandlerExternals) (t : manifestService) (s : State) (dgst : String)
    (tag : Option String) : Except Error Manifest :=
  match t.Exists s dgst with
  | (_, some err) => .error err
  | (false, none) => .error (.ErrManifestUnknownRevision t.repo dgst)
  | (true, none) => hx.manifestStoreGet dgst tag

/-- The method `manifestService.Put`: the digest and the error it returns, and the world it
leaves. -/
def Put (hx : HandlerExternals) (t : manifestService) (w : World) (manifest : Manifest) :
    Except Fault ((String × Option Error) × World) :=
  match hx.manifestStorePut manifest w.state with
  | ((_, some err), s1) => .ok (("", some err), { w with state := s1 })
  | ((dgst, none), s1) =>
    let key := (Key.ManifestDigestKey dgst).String
    match w.tx with
    | none =>
      match (t.store.on s1).Put key (some (.digest dgst)) with
      | .error e => .error e
      | .ok (err, s2) => .ok ((dgst, err), { w with state := s2 })
    | some tx =>
      match manifest.Payload.err with
      | some err => .ok (("", some err), { w with state := s1 })
      | none =>
        match tx.Update s1 key (some (.bytes manifest.Payload.payload)) with
        | (some err, tx') => .ok ((dgst, some err), { w with state := s1, tx := some tx' })
        | (none, tx') => .ok ((dgst, none), { w with state := s1, tx := some tx' })

end manifestService

/-! ## The metadata-backed repository (`metadataregistry.go`) -/

/-- The struct `metadataRepository`: its name and the `deleteEnabled` flag of its
registry. -/
structure metadataRepository where
  name : String
  deleteEnabled : Bool
deriving DecidableEq, Repr

namespace metadataRepository

/-- The method `MetadataService`: the scoped view, and the state `RepositoryScoped`
leaves. -/
def MetadataService (repo : metadataRepository) (s : State) : Registry.MetadataService × State :=
  ((inMemoryMetadataStore.RepositoryScoped s repo.name).repo,
    (inMemoryMetadataStore.RepositoryScoped s repo.name).state)

/-- The method `Tags`. -/
def Tags (repo : metadataRepository) (s : State) : TagService × State :=
  ({ repo := repo.name, store := (repo.MetadataService s).1 }, (repo.MetadataService s).2)

/-- The method `Manifests`, called without options: each of its calls of `MetadataService`
scopes a view; the last one is the store of the manifest service. -/
def Manifests (repo : metadataRepository) (s : State) : manifestService × State :=
  let s1 := (repo.MetadataService s).2
  let s2 := (repo.MetadataService s1).2
  ({ repo := repo.name, store := (repo.MetadataService s2).1,
     deleteEnabled := repo.deleteEnabled }, (repo.MetadataService s2).2)

end metadataRepository


/-! ## Manifest handlers (`images.go`) -/

/-- What the manifest handlers read of the `http.Request`: the values of the `Accept` and
`If-None-Match` headers, the `Content-Type`, and the body as `copyFullPayload` delivers it
(`none` when it fails; it then reports the failure itself). -/
structure Request where
  Accept : List String
  IfNoneMatch : List String
  ContentType : String
  Body : Option (List Nat)
deriving DecidableEq, Repr

/-- What the handlers do to the `http.ResponseWriter`: the status of `WriteHeader`, if
called, the headers set, and the bytes of `Write`, if called. -/
structure Response where
  status : Option Nat
  header : GoMap String
  body : Option (Option (List Nat))
deriving DecidableEq, Repr

/-- The response nothing was written to. -/
def Response.empty : Response := { status := none, header := [], body := none }

/-- The struct `imageManifestHandler`: the repository of its context, and the tag or the
digest of the request. The `Errors` of its context are the `Errors` of the world. -/
structure imageManifestHandler where
  Repository : metadataRepository
  Tag : String
  Digest : String
deriving DecidableEq, Repr

/-- The constants `defaultArch` and `defaultOS`. -/
def defaultArch : String := "amd64"

/-- See `defaultArch`. -/
def defaultOS : String := "linux"

/-- The function `etagMatch`. -/
def etagMatch (r : Request) (etag : String) : Bool :=
  r.IfNoneMatch.any (fun headerVal =>
    decide (headerVal = etag) || decide (headerVal = "\"" ++ etag ++ "\""))

/-- The function `strings.Split(s, sep)` for a separator of one character. -/
def splitOnChar (sep : Char) : List Char → List (List Char)
  | [] => [[]]
  | c :: rest =>
    if c = sep then [] :: splitOnChar sep rest
    else
      match splitOnChar sep rest with
      | [] => [[c]]
      | h :: t => (c :: h) :: t

/-- The predicate `unicode.IsSpace`. -/
def isSpace (c : Char) : Bool :=
  let n := c.toNat
  (decide (9 ≤ n) && decide (n ≤ 13)) || n = 32 || n = 133 || n = 160 || n = 5760 ||
    (decide (8192 ≤ n) && decide (n ≤ 8202)) || n = 8232 || n = 8233 || n = 8239 ||
    n = 8287 || n = 12288

/-- The function `strings.TrimSpace`. -/
def trimSpace (s : List Char) : List Char :=
  ((s.dropWhile isSpace).reverse.dropWhile isSpace).reverse

/-- The media types named by the `Accept` header values, as the loop of `GetImageManifest`
reads them: each value split on `,`, cut at the first `;`, and trimmed. -/
def acceptedMediaTypes (accept : List String) : List String :=
  accept.flatMap (fun acceptHeader =>
    (splitOnChar ',' acceptHeader.toList).map (fun mediaType =>
      String.mk (trimSpace (mediaType.takeWhile (fun c => c ≠ ';')))))

/-- The flag `supportsSchema2` after the loop over the `Accept` headers. -/
def supportsSchema2 (hx : HandlerExternals) (r : Request) : Bool :=
  (acceptedMediaTypes r.Accept).any (fun mediaType => decide (mediaType = hx.MediaTypeManifest))

/-- The flag `supportsManifestList` after the loop over the `Accept` headers. -/
def supportsManifestList (hx : HandlerExternals) (r : Request) : Bool :=
  (acceptedMediaTypes r.Accept).any
    (fun mediaType => decide (mediaType = hx.MediaTypeManifestList))

/-- The loop of `convertSchema2Manifest` over the references: the first error of
`AppendReference`, if any. -/
def convertSchema2Manifest.append (hx : HandlerExternals) : List Descriptor → Option Error
  | [] => none
  | d :: rest =>
    match hx.AppendReference d with
    | some err => some err
    | none => convertSchema2Manifest.append hx rest

/-- The method `convertSchema2Manifest` on a schema2 manifest with the given target and
references: the manifest and error it returns, with the handler (whose `Digest` it sets)
and the world (whose `Errors` it extends). A built manifest that is not a signed manifest
makes the type assertion panic. -/
def convertSchema2Manifest (hx : HandlerExternals) (imh : imageManifestHandler) (w : World)
    (Target : Descriptor) (References : List Descriptor) :
    Except Fault (Except Error Manifest × imageManifestHandler × World) :=
  match hx.blobsGet Target.Digest with
  | .error err =>
    .ok (.error err, imh, { w with Errors := w.Errors ++ [.withDetail .ManifestInvalid err] })
  | .ok configJSON =>
    match (if imh.Tag ≠ "" then hx.WithTag imh.Repository.name imh.Tag else none) with
    | some err =>
      .ok (.error err, imh, { w with Errors := w.Errors ++ [.withDetail .TagInvalid err] })
    | none =>
      match convertSchema2Manifest.append hx References with
      | some err =>
        .ok (.error err, imh,
          { w with Errors := w.Errors ++ [.withDetail .ManifestInvalid err] })
      | none =>
        match hx.Build imh.Tag configJSON References with
        | .error err =>
          .ok (.error err, imh,
            { w with Errors := w.Errors ++ [.withDetail .ManifestInvalid err] })
        | .ok (.SignedManifest canonical p) =>
          .ok (.ok (.SignedManifest canonical p),
            { imh with Digest := hx.FromBytes canonical }, w)
        | .ok _ => .error (.panic "interface conversion")

/-- The end of `GetImageManifest`: the payload of `manifest` is written with the headers,
`Docker-Content-Digest` and `Etag` from the `Digest` of the handler. -/
def GetImageManifest.write (imh : imageManifestHandler) (manifest : Manifest) (resp : Response) :
    Response :=
  match manifest.Payload.err with
  | some _ => resp
  | none =>
    { resp with
      header := (((resp.header.set "Content-Type" manifest.Payload.mediaType).set
        "Content-Length" (toString ((manifest.Payload.payload.getD []).length))).set
        "Docker-Content-Digest" imh.Digest).set "Etag" ("\"" ++ imh.Digest ++ "\"")
      body := some manifest.Payload.payload }

/-- The loop of `GetImageManifest` over the descriptors of a manifest list: the digest of
the first one of the default platform, `""` when there is none. -/
def GetImageManifest.manifestDigest : List ManifestDescriptor → String
  | [] => ""
  | manifestDescriptor :: rest =>
    if manifestDescriptor.Platform.Architecture = defaultArch ∧
        manifestDescriptor.Platform.OS = defaultOS then
      manifestDescriptor.Descriptor.Digest
    else GetImageManifest.manifestDigest rest


/-- The part of `GetImageManifest` after the manifest is loaded: the rewriting for clients
that do not accept the stored schema, then the response. -/
def GetImageManifest.negotiate (hx : HandlerExternals) (manifests : manifestService)
    (imh : imageManifestHandler) (r : Request) (w : World) (manifest : Manifest) :
    Except Fault (imageManifestHandler × World × Response) :=
  match manifest with
  | .DeserializedManifest target refs _ =>
    if imh.Tag ≠ "" ∧ ¬ supportsSchema2 hx r then
      match convertSchema2Manifest hx imh w target refs with
      | .error e => .error e
      | .ok (.error _, imh', w') => .ok (imh', w', Response.empty)
      | .ok (.ok converted, imh', w') =>
        .ok (imh', w', GetImageManifest.write imh' converted Response.empty)
    else .ok (imh, w, GetImageManifest.write imh manifest Response.empty)
  | .DeserializedManifestList list _ =>
    if imh.Tag ≠ "" ∧ ¬ supportsManifestList hx r then
      let manifestDigest := GetImageManifest.manifestDigest list
      if manifestDigest = "" then
        .ok (imh, { w with Errors := w.Errors ++ [.code .ManifestUnknown] }, Response.empty)
      else
        match manifests.Get hx w.state manifestDigest none with
        | .error err =>
          .ok (imh, { w with Errors := w.Errors ++ [.withDetail .ManifestUnknown err] },
            Response.empty)
        | .ok (.DeserializedManifest target refs p) =>
          if ¬ supportsSchema2 hx r then
            match convertSchema2Manifest hx imh w target refs with
            | .error e => .error e
            | .ok (.error _, imh', w') => .ok (imh', w', Response.empty)
            | .ok (.ok converted, imh', w') =>
              .ok (imh', w', GetImageManifest.write imh' converted Response.empty)
          else
            .ok (imh, w,
              GetImageManifest.write imh (.DeserializedManifest target refs p) Response.empty)
        | .ok sub => .ok (imh, w, GetImageManifest.write imh sub Response.empty)
    else .ok (imh, w, GetImageManifest.write imh manifest Response.empty)
  | .SignedManifest _ _ => .ok (imh, w, GetImageManifest.write imh manifest Response.empty)

/-- The method `GetImageManifest`: the handler (with the `Digest` it ends with), the world
and the response. -/
def GetImageManifest (hx : HandlerExternals) (imh : imageManifestHandler) (r : Request)
    (w : World) : Except Fault (imageManifestHandler × World × Response) :=
  let manifests := (imh.Repository.Manifests w.state).1
  let s1 := (imh.Repository.Manifests w.state).2
  let s2 := if imh.Tag ≠ "" then (imh.Repository.Tags s1).2 else s1
  let w2 : World := { w with state := s2 }
  let got : Descriptor × Option Error :=
    if imh.Tag ≠ "" then (imh.Repository.Tags s1).1.Get s2 imh.Tag
    else ({ MediaType := "", Size := 0, Digest := imh.Digest }, none)
  match got with
  | (_, some err) =>
    .ok (imh, { w2 with Errors := w2.Errors ++ [.withDetail .ManifestUnknown err] },
      Response.empty)
  | (desc, none) =>
    let imh1 : imageManifestHandler :=
      if imh.Tag ≠ "" then { imh with Digest := desc.Digest } else imh
    if etagMatch r imh1.Digest then
      .ok (imh1, w2, { Response.empty with status := some 304 })
    else
      match manifests.Get hx s2 imh1.Digest (if imh.Tag ≠ "" then some imh.Tag else none) with
      | .error err =>
        .ok (imh1, { w2 with Errors := w2.Errors ++ [.withDetail .ManifestUnknown err] },
          Response.empty)
      | .ok manifest => GetImageManifest.negotiate hx manifests imh1 r w2 manifest

/-- The loop of `handlePutError` over the entries of an `ErrManifestVerification`; `err` is
the verification error as a whole. -/
def handlePutError.verification (err : Error) : List VerificationError → List ApiError
  | [] => []
  | verificationError :: rest =>
    (match verificationError with
      | .ErrManifestBlobUnknown dgst => [.withText .ManifestBlobUnknown dgst]
      | .ErrManifestNameInvalid => [.withDetail .NameInvalid err]
      | .ErrManifestUnverified => [.code .ManifestUnverified]
      | .errcodeError _ => [.plain err]
      | .ErrDigestInvalidFormat => [.code .DigestInvalid]
      | .other msg => [.code .Unknown, .plain (.errorf msg)]) ++
      handlePutError.verification err rest

/-- The method `handlePutError`: the world with the errors it appends. -/
def handlePutError (w : World) (err : Error) : World :=
  match err with
  | .ErrUnsupported => { w with Errors := w.Errors ++ [.code .Unsupported] }
  | .ErrAccessDenied => { w with Errors := w.Errors ++ [.code .Denied] }
  | .ErrManifestVerification errs =>
    { w with Errors := w.Errors ++ handlePutError.verification err errs }
  | _ => { w with Errors := w.Errors ++ [.withDetail .Unknown err] }

/-- The method `handleDeleteError`: the world with the error it appends. -/
def handleDeleteError (w : World) (err : Error) : World :=
  match err with
  | .ErrDigestUnsupported => w
  | .ErrDigestInvalidFormat => { w with Errors := w.Errors ++ [.code .DigestInvalid] }
  | .ErrBlobUnknown => { w with Errors := w.Errors ++ [.code .ManifestUnknown] }
  | .ErrUnsupported => { w with Errors := w.Errors ++ [.code .Unsupported] }
  | _ => { w with Errors := w.Errors ++ [.code .Unknown] }

/-- The closure `PutImageManifest` hands to `Update`. -/
def PutImageManifest.f (hx : HandlerExternals) (x : Externals) (manifests : manifestService)
    (imh : imageManifestHandler) (manifest : Manifest) (desc : Descriptor) :
    MetadataUpdateFunc :=
  fun _ w =>
    match manifests.Put hx w manifest with
    | .error e => .error e
    | .ok ((_, some err), w1) => .ok (some err, handlePutError w1 err)
    | .ok ((_, none), w1) =>
      if imh.Tag ≠ "" then
        match (imh.Repository.Tags w1.state).1.Tag x
            { w1 with state := (imh.Repository.Tags w1.state).2 } imh.Tag desc with
        | .error e => .error e
        | .ok (some err, w2) => .ok (some err, handlePutError w2 err)
        | .ok (none, w2) => .ok (none, w2)
      else .ok (none, w1)

/-- The call of `Update` in `PutImageManifest`, for the manifest and descriptor that
`UnmarshalManifest` returned: the error of `Update` and the world it leaves. The context of
the handler carries no transaction of its own. -/
def PutImageManifest.update (hx : HandlerExternals) (x : Externals) (imh : imageManifestHandler)
    (manifest : Manifest) (desc : Descriptor) (id : String) (fuel : Nat) (w : World) :
    Except Fault (Option Error × World) :=
  Update (some imh.Repository.name) id
    (PutImageManifest.f hx x (imh.Repository.Manifests w.state).1 imh manifest desc)
    { w with state := (imh.Repository.Manifests w.state).2 } fuel

/-- The method `PutImageManifest`; `id` is the uuid of the transaction `Update` begins. -/
def PutImageManifest (hx : HandlerExternals) (x : Externals) (imh : imageManifestHandler)
    (r : Request) (id : String) (fuel : Nat) (w : World) :
    Except Fault (imageManifestHandler × World × Response) :=
  let w1 : World := { w with state := (imh.Repository.Manifests w.state).2 }
  match r.Body with
  | none => .ok (imh, w1, Response.empty)
  | some jsonBuf =>
    match hx.UnmarshalManifest r.ContentType jsonBuf with
    | .error err =>
      .ok (imh, { w1 with Errors := w1.Errors ++ [.withDetail .ManifestInvalid err] },
        Response.empty)
    | .ok (manifest, desc) =>
      if imh.Digest ≠ "" ∧ desc.Digest ≠ imh.Digest then
        .ok (imh, { w1 with Errors := w1.Errors ++ [.code .DigestInvalid] }, Response.empty)
      else if imh.Digest = "" ∧ imh.Tag = "" then
        .ok (imh, { w1 with Errors := w1.Errors ++
          [.withText .TagInvalid "no tag or digest specified"] }, Response.empty)
      else
        let imh1 : imageManifestHandler :=
          if imh.Digest ≠ "" then imh else { imh with Digest := desc.Digest }
        match PutImageManifest.update hx x imh1 manifest desc id fuel w with
        | .error e => .error e
        | .ok (some _, w2) => .ok (imh1, { w2 with tx := w.tx }, Response.empty)
        | .ok (none, w2) =>
          match hx.WithDigest imh1.Repository.name imh1.Digest with
          | some err =>
            .ok (imh1, { w2 with tx := w.tx,
                                 Errors := w2.Errors ++ [.withDetail .Unknown err] },
              Response.empty)
          | none =>
            .ok (imh1, { w2 with tx := w.tx },
              { status := some 201
                header := GoMap.set (GoMap.set [] "Location"
                    (hx.BuildManifestURL imh1.Repository.name imh1.Digest))
                  "Docker-Content-Digest" imh1.Digest
                body := none })

/-- The loop of the closure of `DeleteImageManifest` over the tags that `Lookup` returned. -/
def DeleteImageManifest.untagAll (tagService : TagService) : List String → World → Option Error × World
  | [], w => (none, w)
  | tag :: rest, w =>
    match tagService.Untag w tag with
    | (some err, w') => (some err, { w' with Errors := w'.Errors ++ [.plain err] })
    | (none, w') => DeleteImageManifest.untagAll tagService rest w'

/-- The closure `DeleteImageManifest` hands to `Update`. -/
def DeleteImageManifest.f (x : Externals) (manifests : manifestService) (tagService : TagService)
    (imh : imageManifestHandler) : MetadataUpdateFunc :=
  fun _ w =>
    match manifests.Delete w imh.Digest with
    | (some err, w1) => .ok (some err, handleDeleteError w1 err)
    | (none, w1) =>
      match tagService.Lookup x w1.state { MediaType := "", Size := 0, Digest := imh.Digest } with
      | .error e => .error e
      | .ok (_, some err) => .ok (some err, { w1 with Errors := w1.Errors ++ [.plain err] })
      | .ok (tags, none) => .ok (DeleteImageManifest.untagAll tagService tags w1)

/-- The method `DeleteImageManifest`; `id` is the uuid of the transaction `Update` begins. -/
def DeleteImageManifest (x : Externals) (imh : imageManifestHandler) (id : String) (fuel : Nat)
    (w : World) : Except Fault (World × Response) :=
  let manifests := (imh.Repository.Manifests w.state).1
  let s1 := (imh.Repository.Manifests w.state).2
  let tagService := (imh.Repository.Tags s1).1
  let s2 := (imh.Repository.Tags s1).2
  match Update (some imh.Repository.name) id (DeleteImageManifest.f x manifests tagService imh)
      { w with state := s2 } fuel with
  | .error e => .error e
  | .ok (some _, w') => .ok ({ w' with tx := w.tx }, Response.empty)
  | .ok (none, w') => .ok ({ w' with tx := w.tx }, { Response.empty with status := some 202 })


/-! ## Sample data for the handlers -/

/-- The payload of the sample schema2 manifest. -/
def schema2Payload : PayloadResult :=
  { mediaType := "application/vnd.docker.distribution.manifest.v2+json",
    payload := some [2, 2], err := none }

/-- A schema2 manifest, stored under the digest `sha256:22`. -/
def sampleSchema2 : Manifest :=
  .DeserializedManifest { MediaType := "application/octet-stream", Size := 1, Digest := "sha256:c0" }
    [] schema2Payload

/-- The `amd64`/`linux` entry of the sample manifest list: the manifest `sha256:22`. -/
def amd64Entry : ManifestDescriptor :=
  { Descriptor := { MediaType := "", Size := 0, Digest := "sha256:22" },
    Platform := { Architecture := "amd64", OS := "linux" } }

/-- The entries of the sample manifest list. -/
def sampleListEntries : List ManifestDescriptor :=
  [{ Descriptor := { MediaType := "", Size := 0, Digest := "sha256:33" },
     Platform := { Architecture := "arm64", OS := "linux" } },
   amd64Entry]

/-- The payload of the sample manifest list. -/
def sampleListPayload : PayloadResult :=
  { mediaType := "application/vnd.docker.distribution.manifest.list.v2+json",
    payload := some [1, 1], err := none }

/-- A manifest list, stored under the digest `sha256:11`, whose `amd64`/`linux` entry is
the manifest `sha256:22`. -/
def sampleList : Manifest := .DeserializedManifestList sampleListEntries sampleListPayload

/-- The signed manifest the sample builder builds. -/
def sampleSigned : Manifest :=
  .SignedManifest [7]
    { mediaType := "application/vnd.docker.distribution.manifest.v1+prettyjws",
      payload := some [7, 7], err := none }

/-- Sample collaborators: a manifest store that holds `sampleList` and `sampleSchema2` and
stores every manifest under `sha256:ab` without touching the metadata store, an
unmarshaller that reads every body as `sampleSchema2` with the descriptor `sampleDesc`, and
a builder that builds `sampleSigned`. -/
def sampleHandlerExternals : HandlerExternals :=
  { manifestStoreGet := fun dgst _ =>
      if dgst = "sha256:11" then .ok sampleList
      else if dgst = "sha256:22" then .ok sampleSchema2
      else .error (.errorf "unknown blob")
    manifestStorePut := fun _ s => (("sha256:ab", none), s)
    UnmarshalManifest := fun _ _ => .ok (sampleSchema2, sampleDesc)
    FromBytes := fun _ => "sha256:77"
    blobsGet := fun _ => .ok [0]
    WithTag := fun _ _ => none
    AppendReference := fun _ => none
    Build := fun _ _ _ => .ok sampleSigned
    WithDigest := fun _ _ => none
    BuildManifestURL := fun name dgst => "/v2/" ++ name ++ "/manifests/" ++ dgst
    MediaTypeManifest := "application/vnd.docker.distribution.manifest.v2+json"
    MediaTypeManifestList := "application/vnd.docker.distribution.manifest.list.v2+json" }

/-- The repository `r` of the registry, deletion enabled. -/
def sampleRepository : metadataRepository := { name := "r", deleteEnabled := true }

/-- A state in which repository `r` holds the manifests `sha256:11` and `sha256:22` and the
tag `list`, which points to the manifest list, and the tag `img`, which points to the
schema2 manifest. -/
def listState : State :=
  [("r", [("manifest::sha256:11", some (.digest "sha256:11")),
          ("manifest::sha256:22", some (.digest "sha256:22")),
          ("tag::list", some (.descriptor { MediaType := "", Size := 2, Digest := "sha256:11" })),
          ("tag::img", some (.descriptor { MediaType := "", Size := 2, Digest := "sha256:22" }))])]

/-- The descriptor the tag `list` holds. -/
def listDesc : Descriptor := { MediaType := "", Size := 2, Digest := "sha256:11" }

/-- The handler of a request for the tag `list` of repository `r`. -/
def listByTag : imageManifestHandler := { Repository := sampleRepository, Tag := "list", Digest := "" }

/-- A request without headers or body. -/
def plainRequest : Request := { Accept := [], IfNoneMatch := [], ContentType := "", Body := none }

/-- A request of a client that accepts schema2 manifests but not manifest lists. -/
def schema2Request : Request :=
  { plainRequest with
    Accept := ["application/vnd.docker.distribution.manifest.v1+prettyjws, application/vnd.docker.distribution.manifest.v2+json; q=0.9"] }


/-! ## Sample data for `PutImageManifest` -/

/-- The handler of a request addressed by the digest `sha256:00`, which is not the digest of
`sampleDesc`. -/
def mismatched : imageManifestHandler :=
  { Repository := sampleRepository, Tag := "", Digest := "sha256:00" }

/-- A request with a body. -/
def putRequest : Request := { plainRequest with Body := some [1] }


/-! ## The first invariant of the data model -/

/-- The first invariant of the data model on one repository map: every key `tag::<t>` that
holds a descriptor has the key `manifest::<digest>` of that descriptor beside it. -/
def tagsResolveIn (rp : repository) : Bool :=
  rp.keys.all fun k =>
    match stripPrefix "tag::" k, rp.get? k with
    | some _, some (some (.descriptor d)) =>
      (rp.get? (Key.ManifestDigestKey d.Digest).String).isSome
    | _, _ => true

/-- The first invariant of the data model on the store: it holds in every repository. -/
def tagsResolve (s : State) : Bool :=
  s.keys.all fun r =>
    match s.get? r with
    | some rp => tagsResolveIn rp
    | none => true

/-- The store after `RepositoryScoped` on the empty store for repository `r`. -/
def freshState : State := (inMemoryMetadataStore.RepositoryScoped [] "r").state

/-- The tag service of repository `r`. -/
def rTags : TagService := { repo := "r", store := some "r" }

/-- The manifest service of repository `r`, deletion enabled. -/
def rManifests : manifestService := { repo := "r", store := some "r", deleteEnabled := true }


/-- The entry of key `k` in the map of repository `r`: `none` when the key, or the
repository, is missing. -/
def entryOf (s : State) (r k : String) : Option (Option Value) :=
  ((s.get? r).getD []).get? k


/-- The stores `s` and `s'` hold the same entries under the `tag::` and `manifest::` keys of
repository `r`. -/
def sameTagsAndManifests (r : String) (s s' : State) : Prop :=
  (∀ t, entryOf s' r (Key.TagKey t).String = entryOf s r (Key.TagKey t).String) ∧
  (∀ d, entryOf s' r (Key.ManifestDigestKey d).String =
    entryOf s r (Key.ManifestDigestKey d).String)

/-- The handler of a PUT of the tag `a` of repository `r`. -/
def putByTag : imageManifestHandler := { Repository := sampleRepository, Tag := "a", Digest := "" }


/-! ## Sample data for `DeleteImageManifest` -/

/-- The handler of a DELETE of the manifest `sha256:22` of repository `r`. -/
def deleteByDigest : imageManifestHandler :=
  { Repository := sampleRepository, Tag := "", Digest := "sha256:22" }

/-- The state `listState` without the manifest `sha256:22` and without the tag `img`, which
pointed to it. -/
def listStateAfterDelete : State :=
  [("r", [("manifest::sha256:11", some (.digest "sha256:11")),
          ("tag::list", some (.descriptor { MediaType := "", Size := 2, Digest := "sha256:11" }))])]


/-! ## Sample data for the iteration over blob keys -/

/-- A state in which repository `r` holds a blob key, a manifest key and a tag. -/
def blobState : State :=
  [("r", [("blob::sha256:ab", some (.descriptor sampleDesc)),
          ("manifest::sha256:ab", some (.digest "sha256:ab")),
          ("tag::a", some (.descriptor sampleDesc))])]

/-- The view of `blobState` scoped to `r`. -/
def blobView : inMemoryMetadataStore := { state := blobState, repo := some "r" }


/-- The view of the empty repository `r`. -/
def emptyView : inMemoryMetadataStore := { state := [("r", [])], repo := some "r" }


/-! ## Writes through a view -/

/-- A write through a view of the store: `Put`, `Delete` or `BatchPut`. -/
inductive StoreWrite where
  | Put (key : String) (value : Option Value)
  | Delete (key : String)
  | BatchPut (updates : GoMap MetadataUpdateRecord)
deriving DecidableEq, Repr

/-- One write through the view `m`: the error it returns and the state it leaves. -/
def StoreWrite.run (m : inMemoryMetadataStore) : StoreWrite → Except Fault (Option Error × State)
  | .Put key value => m.Put key value
  | .Delete key => .ok (m.Delete key)
  | .BatchPut updates => m.BatchPut updates


/-- The manifest service of repository `r`, deletion disabled. -/
def readOnlyManifests : manifestService :=
  { repo := "r", store := some "r", deleteEnabled := false }


/-! ## Blob statter (`statter.go`) -/

/-- What the blob statter and the blob store call outside the files at hand, taken as
parameters: `digest.ParseDigest` (the digest it returns, or its error), the `Stat` of the
registry-wide statter that the blob statter delegates to, `reference.ParseNamed` (the name it
returns, or its error), `pathFor` on an `uploadDataPathSpec` (repository name and upload id),
the error of the driver's `Writer` (path and append flag), the error of `time.Parse` with the
layout `time.RFC3339`, `fmt.Sprint` on a stored value, and, of the `blobWriter` of an upload
id, which works on the driver alone: `cleanup`, the `Commit` of its file writer, `Size`,
`validateBlob` and `moveBlob`. -/
structure BlobExternals where
  ParseDigest : String → Except Error String
  statterStat : String → Except Error Descriptor
  ParseNamed : String → Except Error String
  pathFor : String → String → Except Error String
  driverWriter : String → Bool → Option Error
  timeParse : String → Option Error
  Sprint : Option Value → String
  cleanup : String → Option Error
  fileWriterCommit : String → Option Error
  Size : String → Int
  validateBlob : String → Descriptor → Except Error Descriptor
  moveBlob : String → Descriptor → Option Error

/-- The struct `metadataBlobStatter`, without the statter it delegates to. -/
structure metadataBlobStatter where
  metadataService : MetadataService
  repository : String
deriving DecidableEq, Repr

namespace metadataBlobStatter

/-- The method `Stat`. -/
def Stat (bx : BlobExternals) (mbs : metadataBlobStatter) (s : State) (dgst : String) :
    Except Error Descriptor :=
  match bx.ParseDigest dgst with
  | .error err => .error err
  | .ok dgst =>
    let key := (Key.BlobKey dgst).String
    match (mbs.metadataService.on s).Get key with
    | (_, some err) => .error err
    | (none, none) => .error .ErrBlobUnknown
    | (some _, none) => bx.statterStat dgst

/-- The method `Clear`. -/
def Clear (mbs : metadataBlobStatter) (s : State) (dgst : String) : Option Error × State :=
  (mbs.metadataService.on s).Delete (Key.BlobKey dgst).String

/-- The method `SetDescriptor`. -/
def SetDescriptor (mbs : metadataBlobStatter) (s : State) (dgst : String) (desc : Descriptor) :
    Except Fault (Option Error × State) :=
  match (mbs.metadataService.on s).Put (Key.BlobKey dgst).String (some (.descriptor desc)) with
  | .error e => .error e
  | .ok (some err, s') => .ok (some err, s')
  | .ok (none, s') => .ok (none, s')

end metadataBlobStatter

/-! ## Blob store of the metadata-backed repository (`metadatablobstore.go`) -/

/-- The struct `metadataBlobStore`: the repository and the blob statter of the embedded
`linkedBlobStore`, and the view of the metadata service. -/
structure metadataBlobStore where
  repository : metadataRepository
  blobAccessController : metadataBlobStatter
  metadataService : MetadataService
deriving DecidableEq, Repr

/-- The method `Blobs` of `metadataRepository` (`metadataregistry.go`): one call of
`MetadataService` scopes the view of the blob statter, a second one the view of the blob
store. -/
def metadataRepository.Blobs (repo : metadataRepository) (s : State) : metadataBlobStore × State :=
  let s1 := (repo.MetadataService s).2
  ({ repository := repo,
     blobAccessController :=
       { metadataService := (repo.MetadataService s).1, repository := repo.name },
     metadataService := (repo.MetadataService s1).1 }, (repo.MetadataService s1).2)

/-- The struct `blobWriter`, as far as the blob store sets it up: the upload id and the
path. -/
structure blobWriter where
  id : String
  path : String
deriving DecidableEq, Repr

/-- The struct `distribution.CreateOptions`; `Mount.From` is a canonical reference, a name
with a digest. -/
structure CreateOptions where
  ShouldMount : Bool
  FromName : String
  FromDigest : String
deriving DecidableEq, Repr

/-- The type `distribution.BlobCreateOption`: its method `Apply` on the options. -/
abbrev BlobCreateOption := CreateOptions → Except Error CreateOptions

/-- Modelled from the spec: the method `Stat` of the embedded `linkedBlobStore`, which is not
among the files at hand; the blob store stats a digest through its blob statter. -/
def linkedBlobStore.Stat (bx : BlobExternals) (mbs : metadataBlobStore) (s : State)
    (dgst : String) : Except Error Descriptor :=
  mbs.blobAccessController.Stat bx s dgst

namespace metadataBlobStore

/-- The loop of `Create` over its options. -/
def Create.options : List BlobCreateOption → CreateOptions → Except Error CreateOptions
  | [], opts => .ok opts
  | option :: rest, opts =>
    match option opts with
    | .error err => .error err
    | .ok opts' => Create.options rest opts'

/-- The method `newBlobUpload`, without the closures it attaches to the writer. -/
def newBlobUpload (bx : BlobExternals) (uuid path : String) (append : Bool) :
    Except Error blobWriter :=
  match bx.driverWriter path append with
  | some err => .error err
  | none => .ok { id := uuid, path := path }

/-- The closure that `cleanupFunc` hands to `Update`: it deletes the two upload keys through
the view of the blob store, not through the transaction of the context. -/
def newBlobUpload.cleanupFunc.f (mbs : metadataBlobStore) (uuid : String) : MetadataUpdateFunc :=
  fun _ w =>
    match (mbs.metadataService.on w.state).Delete (Key.UploadStartedAtKey uuid).String with
    | (some err, s1) => .ok (some err, { w with state := s1 })
    | (none, s1) =>
      match (mbs.metadataService.on s1).Delete (Key.UploadPathKey uuid).String with
      | (some err, s2) => .ok (some err, { w with state := s2 })
      | (none, s2) => .ok (none, { w with state := s2 })

/-- The closure `cleanupFunc` of the writer of upload `uuid`; `id` is the uuid of the
transaction `Update` begins. The transaction of `Update` does not leave `Update`. -/
def newBlobUpload.cleanupFunc (bx : BlobExternals) (mbs : metadataBlobStore) (uuid id : String)
    (fuel : Nat) (w : World) : Except Fault (Option Error × World) :=
  match bx.cleanup uuid with
  | some err => .ok (some err, w)
  | none =>
    match Update (some mbs.repository.name) id (newBlobUpload.cleanupFunc.f mbs uuid) w fuel with
    | .error e => .error e
    | .ok (err, w') => .ok (err, { w' with tx := w.tx })

/-- The closure `commitFunc` of the writer of upload `uuid`: the canonical descriptor or the
error, and the world it leaves. -/
def newBlobUpload.commitFunc (bx : BlobExternals) (mbs : metadataBlobStore) (uuid id : String)
    (fuel : Nat) (desc : Descriptor) (w : World) :
    Except Fault (Except Error Descriptor × World) :=
  match bx.fileWriterCommit uuid with
  | some err => .ok (.error err, w)
  | none =>
    match bx.validateBlob uuid { desc with Size := bx.Size uuid } with
    | .error err => .ok (.error err, w)
    | .ok canonical =>
      match bx.moveBlob uuid canonical with
      | some err => .ok (.error err, w)
      | none =>
        match newBlobUpload.cleanupFunc bx mbs uuid id fuel w with
        | .error e => .error e
        | .ok (some err, w1) => .ok (.error err, w1)
        | .ok (none, w1) =>
          match mbs.blobAccessController.SetDescriptor w1.state canonical.Digest canonical with
          | .error e => .error e
          | .ok (some err, s2) => .ok (.error err, { w1 with state := s2 })
          | .ok (none, s2) => .ok (.ok canonical, { w1 with state := s2 })

/-- The method `mount`: the descriptor and the error it returns, and the state it leaves.
The registry hands out the source repository under the name `ParseNamed` returned. -/
def mount (bx : BlobExternals) (mbs : metadataBlobStore) (s : State) (source dgst : String) :
    Except Fault ((Descriptor × Option Error) × State) :=
  match bx.ParseNamed source with
  | .error err => .ok (({ MediaType := "", Size := 0, Digest := "" }, some err), s)
  | .ok sourceNamed =>
    let sourceRepo : metadataRepository :=
      { name := sourceNamed, deleteEnabled := mbs.repository.deleteEnabled }
    match linkedBlobStore.Stat bx (sourceRepo.Blobs s).1 (sourceRepo.Blobs s).2 dgst with
    | .error err =>
      .ok (({ MediaType := "", Size := 0, Digest := "" }, some err), (sourceRepo.Blobs s).2)
    | .ok stat =>
      let desc : Descriptor :=
        { Size := stat.Size, MediaType := "application/octet-stream", Digest := dgst }
      match mbs.blobAccessController.SetDescriptor (sourceRepo.Blobs s).2 dgst desc with
      | .error e => .error e
      | .ok (err, s2) => .ok ((desc, err), s2)

/-- The part of `Create` that opens an upload session; `uuid` is the result of
`uuid.Generate()` and `startedAt` the time `time.Now().UTC()` in the format `time.RFC3339`. -/
def Create.upload (bx : BlobExternals) (mbs : metadataBlobStore) (uuid startedAt : String)
    (s : State) : Except Fault (Except Error blobWriter × State) :=
  match (mbs.metadataService.on s).Put (Key.UploadStartedAtKey uuid).String
      (some (.string startedAt)) with
  | .error e => .error e
  | .ok (some err, s1) => .ok (.error err, s1)
  | .ok (none, s1) =>
    match bx.pathFor mbs.repository.name uuid with
    | .error err => .ok (.error err, s1)
    | .ok uploadPath =>
      match (mbs.metadataService.on s1).Put (Key.UploadPathKey uuid).String
          (some (.string uploadPath)) with
      | .error e => .error e
      | .ok (some err, s2) => .ok (.error err, s2)
      | .ok (none, s2) => .ok (newBlobUpload bx uuid uploadPath false, s2)

/-- The method `Create`: the writer or the error it returns, and the state it leaves. -/
def Create (bx : BlobExternals) (mbs : metadataBlobStore) (options : List BlobCreateOption)
    (uuid startedAt : String) (s : State) : Except Fault (Except Error blobWriter × State) :=
  match Create.options options { ShouldMount := false, FromName := "", FromDigest := "" } with
  | .error err => .ok (.error err, s)
  | .ok opts =>
    if opts.ShouldMount then
      match mbs.mount bx s opts.FromName opts.FromDigest with
      | .error e => .error e
      | .ok ((desc, none), s1) =>
        .ok (.error (.ErrBlobMounted opts.FromName opts.FromDigest desc), s1)
      | .ok ((_, some _), s1) => Create.upload bx mbs uuid startedAt s1
    else Create.upload bx mbs uuid startedAt s

/-- The method `Resume`. -/
def Resume (bx : BlobExternals) (mbs : metadataBlobStore) (s : State) (id : String) :
    Except Error blobWriter :=
  match (mbs.metadataService.on s).Get (Key.UploadStartedAtKey id).String with
  | (none, _) => .error .ErrBlobUploadUnknown
  | (some _, some err) => .error err
  | (some startedAtVal, none) =>
    match bx.timeParse (bx.Sprint (some startedAtVal)) with
    | some err => .error err
    | none =>
      match (mbs.metadataService.on s).Get (Key.UploadPathKey id).String with
      | (_, some err) => .error err
      | (uploadPath, none) => newBlobUpload bx id (bx.Sprint uploadPath) true

end metadataBlobStore


/-! ## Upload sessions, step by step -/

/-- The invariant 3 of the data model: in every repository, for every upload id, the key
`upload::<id>::startedat` exists exactly when the key `upload::<id>::path` exists. -/
def uploadKeysPaired (s : State) : Prop :=
  ∀ r id, (entryOf s r (Key.UploadStartedAtKey id).String).isSome =
    (entryOf s r (Key.UploadPathKey id).String).isSome

/-- A step of an upload session on the blob store of a repository: `Create` without options
(so without mount), `Resume`, the cleanup that `Cancel` runs, and the commit function that
`Commit` runs; `id` is the uuid of the transaction of the cleanup. -/
inductive UploadOp where
  | Create (repo uuid startedAt : String)
  | Resume (repo uuid : String)
  | Cancel (repo uuid id : String)
  | Commit (repo uuid id : String) (desc : Descriptor)
deriving DecidableEq, Repr

/-- One step on the blob store that `Blobs` returns for the repository, with the externals
as they behave during the step: the state the step leaves, whatever it returns. -/
def UploadOp.run (deleteEnabled : Bool) (fuel : Nat) (bx : BlobExternals) (s : State) :
    UploadOp → Except Fault State
  | .Create repo uuid startedAt =>
    match ((metadataRepository.mk repo deleteEnabled).Blobs s).1.Create bx [] uuid startedAt
        ((metadataRepository.mk repo deleteEnabled).Blobs s).2 with
    | .error e => .error e
    | .ok (_, s') => .ok s'
  | .Resume repo uuid =>
    match ((metadataRepository.mk repo deleteEnabled).Blobs s).1.Resume bx
        ((metadataRepository.mk repo deleteEnabled).Blobs s).2 uuid with
    | .error _ => .ok ((metadataRepository.mk repo deleteEnabled).Blobs s).2
    | .ok _ => .ok ((metadataRepository.mk repo deleteEnabled).Blobs s).2
  | .Cancel repo uuid id =>
    match metadataBlobStore.newBlobUpload.cleanupFunc bx
        ((metadataRepository.mk repo deleteEnabled).Blobs s).1 uuid id fuel
        (World.mk ((metadataRepository.mk repo deleteEnabled).Blobs s).2 none []) with
    | .error e => .error e
    | .ok (_, w') => .ok w'.state
  | .Commit repo uuid id desc =>
    match metadataBlobStore.newBlobUpload.commitFunc bx
        ((metadataRepository.mk repo deleteEnabled).Blobs s).1 uuid id fuel desc
        (World.mk ((metadataRepository.mk repo deleteEnabled).Blobs s).2 none []) with
    | .error e => .error e
    | .ok (_, w') => .ok w'.state

/-- A sequence of steps, each on the state its predecessor left. -/
def UploadOp.runAll (deleteEnabled : Bool) (fuel : Nat) :
    State → List (BlobExternals × UploadOp) → Except Fault State
  | s, [] => .ok s
  | s, (bx, op) :: rest =>
    match op.run deleteEnabled fuel bx s with
    | .error e => .error e
    | .ok s' => UploadOp.runAll deleteEnabled fuel s' rest

/-- Sample collaborators of the blob store: every call succeeds; the statter knows every
digest as a blob of 5 bytes, the upload path is built from the repository name and the
upload id, and the blob of every upload validates to `sampleDesc`. -/
def sampleBlobExternals : BlobExternals :=
  { ParseDigest := fun s => if specDigestRegexp s then .ok s else .error .ErrDigestInvalidFormat
    statterStat := fun dgst => .ok { MediaType := "application/octet-stream", Size := 5, Digest := dgst }
    ParseNamed := fun s => .ok s
    pathFor := fun name id => .ok ("/docker/registry/v2/repositories/" ++ name ++ "/_uploads/" ++ id ++ "/data")
    driverWriter := fun _ _ => none
    timeParse := fun _ => none
    Sprint := fun v => match v with
      | some (.string s) => s
      | _ => "<nil>"
    cleanup := fun _ => none
    fileWriterCommit := fun _ => none
    Size := fun _ => 2
    validateBlob := fun _ _ => .ok sampleDesc
    moveBlob := fun _ _ => none }


/-- The invariant 3 of the data model on one repository map. -/
def uploadKeysPairedIn (rp : repository) : Prop :=
  ∀ id, (rp.get? (Key.UploadStartedAtKey id).String).isSome =
    (rp.get? (Key.UploadPathKey id).String).isSome


/-- A sample upload session on repository `r`: the upload `u1` is created, resumed and
committed; the upload `u2` is created and cancelled. -/
def sampleUploadSteps : List (BlobExternals × UploadOp) :=
  [(sampleBlobExternals, .Create "r" "u1" "2016-03-01T10:00:00Z"),
   (sampleBlobExternals, .Create "r" "u2" "2016-03-01T10:00:05Z"),
   (sampleBlobExternals, .Resume "r" "u1"),
   (sampleBlobExternals, .Commit "r" "u1" "tx-1" { MediaType := "", Size := 0, Digest := "" }),
   (sampleBlobExternals, .Cancel "r" "u2" "tx-2")]


/-- The state after `Create` of the upload `u1` on the empty store, in repository `r`. -/
def uploadingState : State :=
  [("r", [("upload::u1::startedat", some (.string "2016-03-01T10:00:00Z")),
          ("upload::u1::path",
            some (.string "/docker/registry/v2/repositories/r/_uploads/u1/data"))])]


/-- A sample option for `Create`: mount the blob `dgst` from the repository `name`. -/
def mountFrom (name dgst : String) : BlobCreateOption :=
  fun opts => .ok { opts with ShouldMount := true, FromName := name, FromDigest := dgst }

/-- A state in which repository `q` holds the blob `sha256:ab`. -/
def mountState : State := [("q", [("blob::sha256:ab", some (.descriptor sampleDesc))])]

/-- The descriptor the sample statter returns for the blob `sha256:ab`. -/
def mountedStat : Descriptor :=
  { MediaType := "application/octet-stream", Size := 5, Digest := "sha256:ab" }


/-! ## Digests in keys -/

/-- The lowercase canonical form of a digest string, in the words of the spec: the
algorithm as it is, the hex letters after the colon in lower case. -/
def canonicalLower (d : String) : String :=
  String.mk (d.toList.takeWhile (fun c => c ≠ ':') ++
    (d.toList.dropWhile (fun c => c ≠ ':')).map Char.toLower)

/-- The sha256 digest of the empty blob, in lower case. -/
def lowerDigest : String :=
  "sha256:e3b0c44298fc1c149afbf4c8996fb92427ae41e4649b934ca495991b7852b855"

/-- The same digest with its hex letters in upper case. -/
def upperDigest : String :=
  "sha256:E3B0C44298FC1C149AFBF4C8996FB92427AE41E4649B934CA495991B7852B855"

/-- A state in which repository `r` holds the manifest and the blob of `lowerDigest`. -/
def lowerState : State :=
  [("r", [("manifest::sha256:e3b0c44298fc1c149afbf4c8996fb92427ae41e4649b934ca495991b7852b855",
             some (.digest lowerDigest)),
          ("blob::sha256:e3b0c44298fc1c149afbf4c8996fb92427ae41e4649b934ca495991b7852b855",
             some (.descriptor { MediaType := "application/octet-stream", Size := 0,
                                 Digest := lowerDigest }))])]

/-- The blob statter of repository `r`. -/
def rStatter : metadataBlobStatter := { metadataService := some "r", repository := "r" }


/-- The loop of `Update` (the label `try`) with two counters added: besides the result of
`Update.try` it returns how often the closure `f` was invoked and how often
`Transaction.Commit` was called. -/
def Update.tryCounted (f : MetadataUpdateFunc) :
    Nat → Nat → Transaction → World → Except Fault (Option Error × World) × Nat × Nat
  | 0, _, _, _ => (.error .outOfFuel, 0, 0)
  | fuel + 1, attempts, tx, w =>
    match f attempts { w with tx := some tx } with
    | .error e => (.error e, 1, 0)
    | .ok (some err, w1) => (.ok (some err, { w1 with tx := some (w1.tx.getD tx) }), 1, 0)
    | .ok (none, w1) =>
      let tx1 := w1.tx.getD tx
      if attempts = 1 then
        (.ok (some (.errorf "transaction failed: %s"), { w1 with tx := some tx1 }), 1, 0)
      else
        match tx1.Commit w1.state with
        | .error e => (.error e, 1, 1)
        | .ok (none, tx2, s2) => (.ok (none, { w1 with state := s2, tx := some tx2 }), 1, 1)
        | .ok (some txErr, tx2, s2) =>
          if canRetry txErr then
            let r := Update.tryCounted f fuel (attempts + 1) tx2 { w1 with state := s2 }
            (r.1, r.2.1 + 1, r.2.2 + 1)
          else (.ok (some txErr, { w1 with state := s2, tx := some tx2 }), 1, 1)

/-- The function `Update` on a metadata-backed repository with the counters of
`Update.tryCounted`: its result, the number of invocations of `f` and the number of calls of
`Transaction.Commit`. -/
def Update.counted (name id : String) (f : MetadataUpdateFunc) (w : World) (fuel : Nat) :
    Except Fault (Option Error × World) × Nat × Nat :=
  let view := inMemoryMetadataStore.RepositoryScoped w.state name
  Update.tryCounted f fuel 0 (BeginTx id view.repo) { w with state := view.state }

/-- The closure `contendedTag` of the examples: tag `a` of repository `r` is set to
`sampleDesc` while another writer sets it to `otherDesc`. -/
def contended : MetadataUpdateFunc := contendedTag sampleExternals sampleTags sampleDesc otherDesc

/-- The state `mountState` once the blob stores of `r` and `q` have been handed out. -/
def mountScopedState : State :=
  [("q", [("blob::sha256:ab", some (.descriptor sampleDesc))]), ("r", [])]

/-- The closure `Enumerate` passes to `Iterate`; `σ` is the state the callback `f` captures,
and the digest `digest.ParseDigest` returns is the string it accepted. -/
def manifestService.Enumerate.iterFunc {σ : Type} (x : Externals)
    (f : σ → String → Option Error × σ) : IterFunc σ :=
  fun acc key _ =>
    match x.ParseDigest key with
    | some err => (some err, acc)
    | none => f acc key

/-- The method `manifestService.Enumerate`. -/
def manifestService.Enumerate {σ : Type} (x : Externals) (t : manifestService) (s : State)
    (f : σ → String → Option Error × σ) (acc : σ) : Except Fault (Option Error × σ) :=
  (t.store.on s).Iterate x { IterType := some (.ManifestDigestKey ""), From := "" }
    (manifestService.Enumerate.iterFunc x f) acc

/-! ## Fastly tokens (`fastly.go`) -/

/-- The bytes of a Go string whose text is `c`: the UTF-8 encoding of the character. -/
def utf8EncodeChar (c : Char) : List Nat :=
  let v := c.toNat
  if v < 0x80 then [v]
  else if v < 0x800 then [0xc0 + v / 64, 0x80 + v % 64]
  else if v < 0x10000 then [0xe0 + v / 4096, 0x80 + v / 64 % 64, 0x80 + v % 64]
  else [0xf0 + v / 262144, 0x80 + v / 4096 % 64, 0x80 + v / 64 % 64, 0x80 + v % 64]

/-- The conversion `[]byte(s)` of a Go string: its bytes, as numbers below 256. -/
def bytesOfString (s : String) : List Nat := s.toList.flatMap utf8EncodeChar

/-- The verb `%x` of `fmt` on an `int64`: lowercase hexadecimal without leading zeros, with a
minus sign before the magnitude of a negative number. -/
def fmtHexInt (v : Int) : String :=
  if v < 0 then "-" ++ String.mk (Nat.toDigits 16 v.natAbs) else String.mk (Nat.toDigits 16 v.toNat)

/-- The verb `%x` of `fmt` on a byte slice: two lowercase hexadecimal digits a byte. -/
def fmtHexBytes (bs : List Nat) : String :=
  String.mk (bs.flatMap (fun b => [Nat.digitChar (b / 16), Nat.digitChar (b % 16)]))

namespace sha1

/-- Rotation of a 32-bit word to the left by `n` bits. -/
def rotl (n x : Nat) : Nat := ((x <<< n) ||| (x >>> (32 - n))) % 2 ^ 32

/-- The round function of SHA-1 (FIPS 180-4, section 4.1.1) at round `t`. -/
def f (t b c d : Nat) : Nat :=
  if t < 20 then (b &&& c) ||| ((0xFFFFFFFF ^^^ b) &&& d)
  else if t < 40 then b ^^^ c ^^^ d
  else if t < 60 then (b &&& c) ||| (b &&& d) ||| (c &&& d)
  else b ^^^ c ^^^ d

/-- The round constant of SHA-1 at round `t`. -/
def K (t : Nat) : Nat :=
  if t < 20 then 0x5A827999
  else if t < 40 then 0x6ED9EBA1
  else if t < 60 then 0x8F1BBCDC
  else 0xCA62C1D6

/-- The five 32-bit words of the hash value. -/
structure digest where
  h0 : Nat
  h1 : Nat
  h2 : Nat
  h3 : Nat
  h4 : Nat
deriving DecidableEq, Repr

/-- The initial hash value. -/
def init : digest :=
  { h0 := 0x67452301, h1 := 0xEFCDAB89, h2 := 0x98BADCFE, h3 := 0x10325476, h4 := 0xC3D2E1F0 }

/-- The big-endian 32-bit words of a block of bytes. -/
def words : List Nat → List Nat
  | b0 :: b1 :: b2 :: b3 :: rest => (b0 * 2 ^ 24 + b1 * 2 ^ 16 + b2 * 2 ^ 8 + b3) :: words rest
  | _ => []

/-- The rounds `t`, `t + 1`, ... of the compression of one block, `n` of them: `w` holds the
sixteen words of the message schedule from `W t` on, and each round appends the word
`W (t + 16)`. -/
def rounds : Nat → Nat → List Nat → digest → digest
  | 0, _, _, v => v
  | n + 1, t, w, v =>
    let temp := (rotl 5 v.h0 + f t v.h1 v.h2 v.h3 + v.h4 + K t + w.getD 0 0) % 2 ^ 32
    let next := rotl 1 (w.getD 13 0 ^^^ w.getD 8 0 ^^^ w.getD 2 0 ^^^ w.getD 0 0)
    rounds n (t + 1) (w.drop 1 ++ [next])
      { h0 := temp, h1 := v.h0, h2 := rotl 30 v.h1, h3 := v.h2, h4 := v.h3 }

/-- The compression of one 64-byte block into the hash value `h`. -/
def block (h : digest) (bytes : List Nat) : digest :=
  let v := rounds 80 0 (words bytes) h
  { h0 := (h.h0 + v.h0) % 2 ^ 32, h1 := (h.h1 + v.h1) % 2 ^ 32, h2 := (h.h2 + v.h2) % 2 ^ 32,
    h3 := (h.h3 + v.h3) % 2 ^ 32, h4 := (h.h4 + v.h4) % 2 ^ 32 }

/-- The blocks of the padded message, one after the other; the fuel counts the blocks. -/
def blocks : Nat → digest → List Nat → digest
  | 0, h, _ => h
  | n + 1, h, bytes => blocks n (block h (bytes.take 64)) (bytes.drop 64)

/-- The big-endian bytes of `v`, `n` of them. -/
def bigEndian : Nat → Nat → List Nat
  | 0, _ => []
  | n + 1, v => (v / 256 ^ n) % 256 :: bigEndian n v

/-- The padding of a message: the byte `0x80`, zero bytes up to 56 modulo 64, and the length
in bits as a 64-bit big-endian number. -/
def pad (msg : List Nat) : List Nat :=
  msg ++ [0x80] ++ List.replicate ((119 - msg.length % 64) % 64) 0 ++
    bigEndian 8 (8 * msg.length % 2 ^ 64)

/-- The function `sha1.Sum`: the 20 bytes of the SHA-1 hash of `msg`. -/
def Sum (msg : List Nat) : List Nat :=
  let h := blocks ((pad msg).length / 64) init (pad msg)
  bigEndian 4 h.h0 ++ bigEndian 4 h.h1 ++ bigEndian 4 h.h2 ++ bigEndian 4 h.h3 ++
    bigEndian 4 h.h4

end sha1

/-- The state of the hash `hmac.New(sha1.New, key)` returns: the two pads made of the key and
the bytes written to the inner hash so far. -/
structure hmac where
  opad : List Nat
  ipad : List Nat
  inner : List Nat
deriving DecidableEq, Repr

namespace hmac

/-- The function `hmac.New` with `sha1.New` (block size 64): a key longer than a block is
hashed first, the key is padded with zero bytes to a block, and the inner hash starts with
the inner pad. -/
def New (key : List Nat) : hmac :=
  let k := if 64 < key.length then sha1.Sum key else key
  let block := k ++ List.replicate (64 - k.length) 0
  { opad := block.map (fun b => b ^^^ 0x5c)
    ipad := block.map (fun b => b ^^^ 0x36)
    inner := block.map (fun b => b ^^^ 0x36) }

/-- The method `Write`. -/
def Write (h : hmac) (p : List Nat) : hmac := { h with inner := h.inner ++ p }

/-- The method `Sum`: the bytes `b` followed by the outer hash of the inner hash. -/
def Sum (h : hmac) (b : List Nat) : List Nat := b ++ sha1.Sum (h.opad ++ sha1.Sum h.inner)

end hmac

/-- The function `makeFastlyToken`; `expiration` is the result of `expiration.Unix()`. -/
def makeFastlyToken (path key : String) (expiration : Int) : String :=
  let keyBytes := bytesOfString key
  let expirationHex := fmtHexInt expiration
  let toSign := path ++ expirationHex
  let mac := (hmac.New keyBytes).Write (bytesOfString toSign)
  let signature := "0x" ++ fmtHexBytes (mac.Sum [])
  let token := expirationHex ++ "_" ++ signature
  token

/-- HMAC-SHA1 (RFC 2104 with the hash of FIPS 180-4): `H (K xor opad, H (K xor ipad, text))`,
the key `K` hashed first when longer than a block and padded with zeros to 64 bytes. -/
def hmacSHA1 (key text : List Nat) : List Nat :=
  let k := if 64 < key.length then sha1.Sum key else key
  let K := k ++ List.replicate (64 - k.length) 0
  sha1.Sum (K.map (fun b => b ^^^ 0x5c) ++ sha1.Sum (K.map (fun b => b ^^^ 0x36) ++ text))

end Registry

namespace Registry

/-! # Verified properties -/

/-! ## Lemmas on Go maps -/

namespace GoMap

variable {α : Type}

theorem get?_set_self (m : GoMap α) (k : String) (v : α) : (m.set k v).get? k = some v := by
  induction m with
  | nil => simp [set, get?]
  | cons e m ih =>
    obtain ⟨k', v'⟩ := e
    by_cases h : k' = k
    · simp [set, get?, h]
    · simp [set, get?, h, ih]

theorem get?_set_ne (m : GoMap α) {k k' : String} (v : α) (h : k' ≠ k) :
    (m.set k v).get? k' = m.get? k' := by
  induction m with
  | nil => simp [set, get?, Ne.symm h]
  | cons e m ih =>
    obtain ⟨k0, v0⟩ := e
    by_cases h0 : k0 = k
    · subst h0
      simp [set, get?, Ne.symm h]
    · by_cases h1 : k0 = k'
      · subst h1
        simp [set, get?, h0]
      · simp [set, get?, h0, h1, ih]

theorem get?_delete_self (m : GoMap α) (k : String) : (m.delete k).get? k = none := by
  induction m with
  | nil => simp [delete, get?]
  | cons e m ih =>
    obtain ⟨k0, v0⟩ := e
    by_cases h0 : k0 = k
    · simp [delete, h0, ih]
    · simp [delete, h0, get?, ih]

theorem get?_delete_ne (m : GoMap α) {k k' : String} (h : k' ≠ k) :
    (m.delete k).get? k' = m.get? k' := by
  induction m with
  | nil => simp [delete, get?]
  | cons e m ih =>
    obtain ⟨k0, v0⟩ := e
    by_cases h0 : k0 = k
    · subst h0
      simp [delete, get?, Ne.symm h, ih]
    · by_cases h1 : k0 = k'
      · subst h1
        simp [delete, h0, get?]
      · simp [delete, h0, get?, h1, ih]

theorem set_eq_self (m : GoMap α) {k : String} {v : α} (h : m.get? k = some v) :
    m.set k v = m := by
  induction m with
  | nil => simp [get?] at h
  | cons e m ih =>
    obtain ⟨k0, v0⟩ := e
    by_cases h0 : k0 = k
    · subst h0
      simp [get?] at h
      simp [set, h]
    · simp [get?, h0] at h
      simp [set, h0, ih h]

theorem get?_eq_none_of_not_mem_keys (m : GoMap α) {k : String} (h : k ∉ m.keys) :
    m.get? k = none := by
  induction m with
  | nil => rfl
  | cons e m ih =>
    obtain ⟨k0, v0⟩ := e
    have h0 : ¬ k0 = k := fun hk => h (by simp [keys, hk])
    have hm : k ∉ keys m := fun hk => h (by
      simp only [keys, List.map_cons, List.mem_cons]
      exact Or.inr hk)
    simp [get?, h0, ih hm]

end GoMap

/-! ## The in-memory store -/

namespace inMemoryMetadataStore

theorem conflict_eq_true_iff (m : inMemoryMetadataStore) (updates : GoMap MetadataUpdateRecord) :
    BatchPut.conflict m updates = true ↔ ∃ e ∈ updates, m.getOrNil e.1 ≠ e.2.Expected := by
  induction updates with
  | nil => simp [BatchPut.conflict]
  | cons e rest ih =>
    obtain ⟨k, v⟩ := e
    by_cases h : m.getOrNil k = v.Expected
    · simp [BatchPut.conflict, h, ih]
    · simp [BatchPut.conflict, h]

theorem conflict_eq_false_iff (m : inMemoryMetadataStore) (updates : GoMap MetadataUpdateRecord) :
    BatchPut.conflict m updates = false ↔ ∀ e ∈ updates, m.getOrNil e.1 = e.2.Expected := by
  rw [← Bool.not_eq_true, conflict_eq_true_iff]
  push_neg
  rfl

/-- The second loop of `BatchPut` on a non-nil map returns, and the map it leaves holds, for
every key of the set, the record's `Actual` (nothing when `Actual` is nil) and for every
other key what it held before. -/
theorem apply_some (updates : GoMap MetadataUpdateRecord) :
    ∀ rp : repository, updates.WF →
      ∃ rp' : repository, BatchPut.apply (some rp) updates = .ok (some rp') ∧
        (∀ k r, (k, r) ∈ updates → rp'.get? k = r.Actual.map some) ∧
        (∀ k, k ∉ updates.keys → rp'.get? k = rp.get? k) := by
  induction updates with
  | nil =>
    intro rp _
    exact ⟨rp, rfl, by simp, by simp⟩
  | cons e rest ih =>
    obtain ⟨k0, r0⟩ := e
    intro rp hwf
    have hwf' : (k0 ∉ GoMap.keys rest) ∧ GoMap.WF rest := by
      simpa [GoMap.WF, GoMap.keys] using hwf
    have key : ∀ rp1 : repository, rp1.get? k0 = r0.Actual.map some →
        (∀ k, k ≠ k0 → rp1.get? k = rp.get? k) →
        ∀ rp' : repository,
          ((∀ k r, (k, r) ∈ rest → rp'.get? k = r.Actual.map some) ∧
            (∀ k, k ∉ GoMap.keys rest → rp'.get? k = rp1.get? k)) →
          (∀ k r, (k, r) ∈ (k0, r0) :: rest → rp'.get? k = r.Actual.map some) ∧
            (∀ k, k ∉ GoMap.keys ((k0, r0) :: rest) → rp'.get? k = rp.get? k) := by
      intro rp1 h1 h2 rp' hrp'
      refine ⟨?_, ?_⟩
      · intro k r hmem
        rcases List.mem_cons.1 hmem with heq | hmem'
        · cases heq
          rw [hrp'.2 k0 hwf'.1, h1]
        · exact hrp'.1 k r hmem'
      · intro k hk
        have hk0 : k ≠ k0 := fun h => hk (by simp [GoMap.keys, h])
        have hkr : k ∉ GoMap.keys rest := fun h => hk (by
          simp only [GoMap.keys, List.map_cons, List.mem_cons]
          exact Or.inr h)
        rw [hrp'.2 k hkr, h2 k hk0]
    cases hA : r0.Actual with
    | none =>
      obtain ⟨rp', happ, hprops⟩ := ih (rp.delete k0) hwf'.2
      refine ⟨rp', ?_, ?_⟩
      · simp [BatchPut.apply, hA, happ]
      · exact key (rp.delete k0) (by simp [hA, GoMap.get?_delete_self])
          (fun k hk => GoMap.get?_delete_ne rp hk) rp' hprops
    | some a =>
      obtain ⟨rp', happ, hprops⟩ := ih (rp.set k0 (some a)) hwf'.2
      refine ⟨rp', ?_, ?_⟩
      · simp [BatchPut.apply, hA, happ]
      · exact key (rp.set k0 (some a)) (by simp [hA, GoMap.get?_set_self])
          (fun k hk => GoMap.get?_set_ne rp (some a) hk) rp' hprops

theorem repoMap_withRepoMap (m : inMemoryMetadataStore) (hs : m.Scoped) (rp : repository) :
    ({ m with state := m.withRepoMap rp }).repoMap = some rp := by
  unfold Scoped repoMap at hs
  unfold repoMap withRepoMap
  cases hr : m.repo with
  | none => simp [hr] at hs
  | some r => simp [GoMap.get?_set_self]

theorem get?_withRepoMap_ne (m : inMemoryMetadataStore) (rp : repository) (r' : String)
    (h : m.repo ≠ some r') : (m.withRepoMap rp).get? r' = m.state.get? r' := by
  unfold withRepoMap
  cases hr : m.repo with
  | none => rfl
  | some r =>
    have : r' ≠ r := fun e => h (by rw [hr, e])
    simp [GoMap.get?_set_ne _ _ this]

end inMemoryMetadataStore

/-- C1: when, for at least one key of the update set, the store's current value (nil for an
absent key) differs from the record's `Expected`, `BatchPut` returns
`ErrTransactionCanRetry` and the state it leaves is the state it found, whole. -/
theorem C1_BatchPut_conflict_leaves_state (m : inMemoryMetadataStore)
    (updates : GoMap MetadataUpdateRecord)
    (h : ∃ e ∈ updates, m.getOrNil e.1 ≠ e.2.Expected) :
    m.BatchPut updates = .ok (some .ErrTransactionCanRetry, m.state) := by
  have hc := (inMemoryMetadataStore.conflict_eq_true_iff m updates).2 h
  simp [inMemoryMetadataStore.BatchPut, hc]

/-- Witness of C1: a store whose tag `a` holds a string, and a record expecting nil. -/
theorem C1_BatchPut_conflict_leaves_state_witness :
    (∃ e ∈ ([("tag::a", { Actual := none, Expected := none })] : GoMap MetadataUpdateRecord),
        inMemoryMetadataStore.getOrNil
          { state := [("r", [("tag::a", some (.string "v"))])], repo := some "r" } e.1 ≠
          e.2.Expected) ∧
      inMemoryMetadataStore.BatchPut
          { state := [("r", [("tag::a", some (.string "v"))])], repo := some "r" }
          [("tag::a", { Actual := none, Expected := none })] =
        .ok (some .ErrTransactionCanRetry, [("r", [("tag::a", some (.string "v"))])]) :=
  ⟨⟨_, List.mem_singleton.2 rfl, by decide⟩,
    C1_BatchPut_conflict_leaves_state _ _ ⟨_, List.mem_singleton.2 rfl, by decide⟩⟩

/-- C2: on a repository-scoped view, when every key's current value equals its record's
`Expected`, `BatchPut` returns nil and in the state it leaves every key of the set with a
non-nil `Actual` maps to that `Actual`, every key of the set with a nil `Actual` is absent,
every key outside the set maps to what it mapped to before, and every other repository is
what it was. -/
theorem C2_BatchPut_applies_all (m : inMemoryMetadataStore)
    (updates : GoMap MetadataUpdateRecord) (hs : m.Scoped) (hwf : updates.WF)
    (hexp : ∀ e ∈ updates, m.getOrNil e.1 = e.2.Expected) :
    ∃ (s' : State) (rp rp' : repository),
      m.BatchPut updates = .ok (none, s') ∧
      m.repoMap = some rp ∧
      ({ m with state := s' }).repoMap = some rp' ∧
      (∀ k r a, (k, r) ∈ updates → r.Actual = some a → rp'.get? k = some (some a)) ∧
      (∀ k r, (k, r) ∈ updates → r.Actual = none → rp'.get? k = none) ∧
      (∀ k, k ∉ updates.keys → rp'.get? k = rp.get? k) ∧
      (∀ r', m.repo ≠ some r' → s'.get? r' = m.state.get? r') := by
  have hc := (inMemoryMetadataStore.conflict_eq_false_iff m updates).2 hexp
  cases hrp : m.repoMap with
  | none => exact absurd hrp hs
  | some rp =>
    obtain ⟨rp', happ, h1, h2⟩ := inMemoryMetadataStore.apply_some updates rp hwf
    refine ⟨m.withRepoMap rp', rp, rp', ?_, rfl,
      inMemoryMetadataStore.repoMap_withRepoMap m hs rp', ?_, ?_, h2, ?_⟩
    · simp [inMemoryMetadataStore.BatchPut, hc, hrp, happ]
    · intro k r a hmem hA
      rw [h1 k r hmem, hA]
      rfl
    · intro k r hmem hA
      rw [h1 k r hmem, hA]
      rfl
    · intro r' hr'
      exact inMemoryMetadataStore.get?_withRepoMap_ne m rp' r' hr'

/-- Witness of C2 on the sample view and update set. -/
theorem C2_BatchPut_applies_all_witness :
    sampleView.Scoped ∧ sampleUpdates.WF ∧
      (∀ e ∈ sampleUpdates, sampleView.getOrNil e.1 = e.2.Expected) ∧
      ∃ (s' : State) (rp rp' : repository),
        sampleView.BatchPut sampleUpdates = .ok (none, s') ∧
        sampleView.repoMap = some rp ∧
        ({ sampleView with state := s' }).repoMap = some rp' ∧
        (∀ k r a, (k, r) ∈ sampleUpdates → r.Actual = some a → rp'.get? k = some (some a)) ∧
        (∀ k r, (k, r) ∈ sampleUpdates → r.Actual = none → rp'.get? k = none) ∧
        (∀ k, k ∉ sampleUpdates.keys → rp'.get? k = rp.get? k) ∧
        (∀ r', sampleView.repo ≠ some r' → s'.get? r' = sampleView.state.get? r') :=
  ⟨by decide, by decide, by decide,
    C2_BatchPut_applies_all sampleView sampleUpdates (by decide) (by decide) (by decide)⟩

/-- C3 (evaluation of the code): `Update` runs `contendedTag` on repository `r`. The first
`Commit` fails with `ErrTransactionCanRetry`, since another writer changed tag `a`; the
closure is run again, and `Update` then returns the error `transaction failed` without a
second `Commit`: the store keeps the other writer's descriptor and the closure's write
stays in the prepared set of the uncommitted transaction. -/
theorem C3_Update_retry_returns_error :
    Update (some "r") "tx-1" (contendedTag sampleExternals sampleTags sampleDesc otherDesc)
        { state := [], tx := none } 2 =
      .ok (some (.errorf "transaction failed: %s"),
        { state := [("r", [("tag::a", some (.descriptor otherDesc))])],
          tx := some { id := "tx-1", store := some "r",
                       prepared := [("tag::a", { Actual := some (.descriptor sampleDesc),
                                                 Expected := some (.descriptor otherDesc) })],
                       committed := false } }) := by
  decide


/-! ## Transactions -/

theorem BatchPut_error_inv (m : inMemoryMetadataStore) (updates : GoMap MetadataUpdateRecord)
    (e : Error) (s' : State) (h : m.BatchPut updates = .ok (some e, s')) :
    e = .ErrTransactionCanRetry ∧ s' = m.state := by
  unfold inMemoryMetadataStore.BatchPut at h
  split at h
  · simp only [Except.ok.injEq, Prod.mk.injEq, Option.some.injEq] at h
    exact ⟨h.1.symm, h.2.symm⟩
  · split at h <;> simp at h

/-- C4 (counterexample): a transaction updates tag `a` twice; between the two calls another
writer moves the tag from `sampleDesc` to `otherDesc`. The prepared record's `Expected` is
`otherDesc`, the value at the second call, not the value the store held at the first. -/
theorem C4_Expected_first_snapshot_counterexample :
    ((sampleTx.Update sampleState "tag::a" (some (.string "v1"))).2.Update movedState "tag::a"
        (some (.string "v2"))).2.prepared.get? "tag::a" =
      some { Actual := some (.string "v2"), Expected := some (.descriptor otherDesc) } ∧
    sampleView.getOrNil "tag::a" = some (.descriptor sampleDesc) ∧
    ((sampleTx.Update sampleState "tag::a" (some (.string "v1"))).2.Update movedState "tag::a"
        (some (.string "v2"))).2.prepared.get? "tag::a" ≠
      some { Actual := some (.string "v2"), Expected := sampleView.getOrNil "tag::a" } := by
  decide

/-- C4 (amended): when `Transaction.Update` is called twice on one key of an uncommitted
transaction, both calls return nil and the prepared record for the key holds the latest
value as `Actual` and, as `Expected`, the value the store holds for the key at the latest
call; this is the value of the first call whenever the store's value for the key is the
same at both calls. -/
theorem C4_Update_twice_records_latest_read (t : Transaction) (s₁ s₂ : State) (key : String)
    (v₁ v₂ : Option Value) (h : t.committed = false) :
    (t.Update s₁ key v₁).1 = none ∧
    ((t.Update s₁ key v₁).2.Update s₂ key v₂).1 = none ∧
    ((t.Update s₁ key v₁).2.Update s₂ key v₂).2.prepared.get? key =
      some { Actual := v₂, Expected := (t.store.on s₂).getOrNil key } ∧
    ((t.store.on s₂).getOrNil key = (t.store.on s₁).getOrNil key →
      ((t.Update s₁ key v₁).2.Update s₂ key v₂).2.prepared.get? key =
        some { Actual := v₂, Expected := (t.store.on s₁).getOrNil key }) := by
  have e : ((t.Update s₁ key v₁).2.Update s₂ key v₂).2.prepared.get? key =
      some { Actual := v₂, Expected := (t.store.on s₂).getOrNil key } := by
    simp [Transaction.Update, h, inMemoryMetadataStore.Get, GoMap.get?_set_self,
      MetadataService.on]
  refine ⟨?_, ?_, e, ?_⟩
  · simp [Transaction.Update, h, inMemoryMetadataStore.Get]
  · simp [Transaction.Update, h, inMemoryMetadataStore.Get]
  · intro hsame
    rw [e, hsame]

/-- Witness of C4 (amended) on the fresh sample transaction and the two sample states. -/
theorem C4_Update_twice_records_latest_read_witness :
    sampleTx.committed = false ∧
    ((sampleTx.Update sampleState "tag::a" none).2.Update movedState "tag::a"
        (some (.string "v2"))).2.prepared.get? "tag::a" =
      some { Actual := some (.string "v2"),
             Expected := (sampleTx.store.on movedState).getOrNil "tag::a" } :=
  ⟨by decide,
    (C4_Update_twice_records_latest_read sampleTx sampleState movedState "tag::a" none
      (some (.string "v2")) (by decide)).2.2.1⟩

theorem ServiceCall.run_with_tx (x : Externals) (ts : TagService) (ms : manifestService)
    (s : State) (t : Transaction) (c : ServiceCall) :
    ∃ e t', c.run x ts ms { state := s, tx := some t } = .ok (e, { state := s, tx := some t' }) := by
  cases c with
  | Tag tag desc =>
    simp only [ServiceCall.run, TagService.Tag]
    cases x.ParseDigest desc.Digest with
    | some err => exact ⟨_, _, rfl⟩
    | none =>
      simp only
      split <;> exact ⟨_, _, rfl⟩
  | Untag tag =>
    simp only [ServiceCall.run, TagService.Untag]
    split <;> exact ⟨_, _, rfl⟩
  | Delete dgst =>
    simp only [ServiceCall.run, manifestService.Delete]
    split
    · exact ⟨_, _, rfl⟩
    · split
      · exact ⟨_, _, rfl⟩
      · exact ⟨_, _, rfl⟩
      · split <;> exact ⟨_, _, rfl⟩

/-- C5: every sequence of `TagService.Tag`, `TagService.Untag` and `manifestService.Delete`
calls made with a transaction in the context returns (no call panics) and leaves the state
of the store exactly as it was, so that `Get`, `Exists` and `Iterate`, which read the state
only, see the entries of before the transaction; the calls change the transaction alone. -/
theorem C5_calls_in_transaction_leave_store (x : Externals) (ts : TagService)
    (ms : manifestService) (calls : List ServiceCall) (s : State) (t : Transaction) :
    ∃ t', ServiceCall.runAll x ts ms { state := s, tx := some t } calls =
      .ok { state := s, tx := some t' } := by
  induction calls generalizing t with
  | nil => exact ⟨t, rfl⟩
  | cons c cs ih =>
    obtain ⟨e, t1, h1⟩ := ServiceCall.run_with_tx x ts ms s t c
    obtain ⟨t2, h2⟩ := ih t1
    exact ⟨t2, by simp [ServiceCall.runAll, h1, h2]⟩

/-- C6: `Commit` of an uncommitted transaction hands the prepared set to `BatchPut`. When
`BatchPut` returns nil, `Commit` returns nil with the state `BatchPut` left and the
transaction is committed; from then on `Update`, `Commit` and `Rollback` return an error and
leave the transaction (its prepared set included) and the store as they are. When `BatchPut`
returns `ErrTransactionCanRetry`, `Commit` returns that error, the store is unchanged and
the transaction is as before, uncommitted. -/
theorem C6_Commit_marks_committed_or_passes_retry (t : Transaction) (s : State)
    (h : t.committed = false) :
    (∀ s', (t.store.on s).BatchPut t.prepared = .ok (none, s') →
      ∃ t', t.Commit s = .ok (none, t', s') ∧ t'.committed = true ∧
        t'.prepared = t.prepared ∧
        (∀ s₂ key val, ∃ e, t'.Update s₂ key val = (some e, t')) ∧
        (∀ s₂, ∃ e, t'.Commit s₂ = .ok (some e, t', s₂)) ∧
        (∃ e, t'.Rollback = (some e, t'))) ∧
    (∀ s', (t.store.on s).BatchPut t.prepared = .ok (some .ErrTransactionCanRetry, s') →
      t.Commit s = .ok (some .ErrTransactionCanRetry, t, s) ∧ s' = s ∧ t.committed = false) := by
  refine ⟨?_, ?_⟩
  · intro s' hb
    refine ⟨{ t with committed := true }, ?_, rfl, rfl, ?_, ?_, ?_⟩
    · simp [Transaction.Commit, h, hb]
    · intro s₂ key val
      exact ⟨.errorf "Unable to update %s, already committed", by simp [Transaction.Update]⟩
    · intro s₂
      exact ⟨.errorf "Unable to commit %s, already committed", by simp [Transaction.Commit]⟩
    · exact ⟨.errorf "Unable to rollback %s, already committed", by simp [Transaction.Rollback]⟩
  · intro s' hb
    have hs : s' = s := (BatchPut_error_inv _ _ _ _ hb).2
    subst hs
    exact ⟨by simp [Transaction.Commit, h, hb], rfl, h⟩


/-- Witness of C6: the prepared sample transaction commits on `sampleState`. -/
theorem C6_Commit_marks_committed_or_passes_retry_witness :
    preparedTx.committed = false ∧
    ∃ t', preparedTx.Commit sampleState =
        .ok (none, t', sampleState.set "r" ((sampleState.get? "r").getD [] |>.set "tag::c"
          (some (.descriptor sampleDesc)))) ∧
      t'.committed = true ∧ t'.prepared = preparedTx.prepared ∧
      (∀ s₂ key val, ∃ e, t'.Update s₂ key val = (some e, t')) ∧
      (∀ s₂, ∃ e, t'.Commit s₂ = .ok (some e, t', s₂)) ∧
      (∃ e, t'.Rollback = (some e, t')) :=
  ⟨by decide,
    (C6_Commit_marks_committed_or_passes_retry preparedTx sampleState (by decide)).1 _ rfl⟩


/-! ## Typed keys -/

theorem stripPrefix_append (p t : String) : stripPrefix p (p ++ t) = some t := by
  unfold stripPrefix
  have h1 : (p ++ t).toList = p.toList ++ t.toList := by simp
  have h2 : p.toList.isPrefixOf (p.toList ++ t.toList) = true := by
    rw [List.isPrefixOf_iff_prefix]
    exact List.prefix_append _ _
  have h3 : p.length = p.toList.length := by simp
  rw [h1, h2, h3, List.drop_left]
  simp

theorem stripPrefix_eq_some {p s t : String} (h : stripPrefix p s = some t) : s = p ++ t := by
  unfold stripPrefix at h
  split at h
  · rename_i hp
    rw [List.isPrefixOf_iff_prefix] at hp
    obtain ⟨r, hr⟩ := hp
    simp only [Option.some.injEq] at h
    apply String.ext
    rw [String.data_append, ← h]
    have h3 : p.length = p.toList.length := by simp
    rw [h3, ← hr]
    simp
    exact hr.symm
  · simp at h

theorem KeyFromString_manifest (x : Externals) (d : String) (h : x.DigestRegexp d = true) :
    KeyFromString x (Key.ManifestDigestKey d).String = .ok (some (.ManifestDigestKey d)) := by
  simp [KeyFromString, Key.String, stripPrefix_append, Option.filter, h]

theorem KeyFromString_tag (x : Externals) (t : String) (h : x.TagRegexp t = true) :
    KeyFromString x (Key.TagKey t).String = .ok (some (.TagKey t)) := by
  have h1 : stripPrefix "manifest::" ("tag::" ++ t) = none := by
    simp [stripPrefix, List.isPrefixOf]
  simp [KeyFromString, Key.String, stripPrefix_append, Option.filter, h, h1]

theorem KeyFromString_blob (x : Externals) (d : String) (h : x.DigestRegexp d = true) :
    KeyFromString x (Key.BlobKey d).String = .ok (some (.BlobKey d)) := by
  have h1 : stripPrefix "manifest::" ("blob::" ++ d) = none := by
    simp [stripPrefix, List.isPrefixOf]
  have h2 : stripPrefix "tag::" ("blob::" ++ d) = none := by
    simp [stripPrefix, List.isPrefixOf]
  simp [KeyFromString, Key.String, stripPrefix_append, Option.filter, h, h1, h2]

theorem KeyFromString_repo (x : Externals) (r : String)
    (h : repoRegexpCapture (Key.RepoKey r).String = some r) :
    KeyFromString x (Key.RepoKey r).String = .ok (some (.RepoKey r)) := by
  have h1 : stripPrefix "manifest::" ("repo::" ++ r) = none := by
    simp [stripPrefix, List.isPrefixOf]
  have h2 : stripPrefix "tag::" ("repo::" ++ r) = none := by
    simp [stripPrefix, List.isPrefixOf]
  have h3 : stripPrefix "blob::" ("repo::" ++ r) = none := by
    simp [stripPrefix, List.isPrefixOf]
  simp only [Key.String] at h
  simp [KeyFromString, Key.String, Option.filter, h, h1, h2, h3]

theorem KeyFromString_upload (x : Externals) (u : String) (h : ∀ c ∈ u.toList, c ≠ '\n') :
    KeyFromString x ("upload::" ++ u) = .ok none := by
  have h1 : stripPrefix "manifest::" ("upload::" ++ u) = none := by
    simp [stripPrefix, List.isPrefixOf]
  have h2 : stripPrefix "tag::" ("upload::" ++ u) = none := by
    simp [stripPrefix, List.isPrefixOf]
  have h3 : stripPrefix "blob::" ("upload::" ++ u) = none := by
    simp [stripPrefix, List.isPrefixOf]
  have h4 : stripPrefix "repo::" ("upload::" ++ u) = none := by
    simp [stripPrefix, List.isPrefixOf]
  have h5 : (u.toList.all fun c => decide (c ≠ '\n')) = true := by
    rw [List.all_eq_true]
    intro c hc
    simpa using h c hc
  simp only [KeyFromString, repoRegexpCapture, h1, h2, h3, h4, stripPrefix_append, Option.filter,
    h5]
  simp


/-- C7 (counterexample): the string of an upload key parses to the nil `iterable`, not to
the key, and the string of the repository key `library/ubuntu` parses to the key of
`library`. -/
theorem C7_KeyFromString_roundtrip_counterexample :
    KeyFromString sampleExternals (Key.UploadStartedAtKey "u1").String = .ok none ∧
    KeyFromString sampleExternals (Key.UploadPathKey "u1").String = .ok none ∧
    KeyFromString sampleExternals (Key.RepoKey "library/ubuntu").String =
      .ok (some (.RepoKey "library")) ∧
    KeyFromString sampleExternals (Key.UploadStartedAtKey "u1").String ≠
      .ok (some (Key.UploadStartedAtKey "u1")) := by
  decide

/-- C7 (amended): whatever the digest and tag grammars are, `KeyFromString(k.String())`
equals `k` for every `ManifestDigestKey` and `BlobKey` whose digest matches the digest
grammar, for every `TagKey` whose tag matches the tag grammar, and for every `RepoKey`
whose name the repository pattern captures whole; for every `UploadStartedAtKey` and
`UploadPathKey` whose id has no newline it is the nil `iterable`. -/
theorem C7_KeyFromString_roundtrip_matching (x : Externals) :
    (∀ d, x.DigestRegexp d = true →
      KeyFromString x (Key.ManifestDigestKey d).String = .ok (some (.ManifestDigestKey d))) ∧
    (∀ t, x.TagRegexp t = true →
      KeyFromString x (Key.TagKey t).String = .ok (some (.TagKey t))) ∧
    (∀ d, x.DigestRegexp d = true →
      KeyFromString x (Key.BlobKey d).String = .ok (some (.BlobKey d))) ∧
    (∀ r, repoRegexpCapture (Key.RepoKey r).String = some r →
      KeyFromString x (Key.RepoKey r).String = .ok (some (.RepoKey r))) ∧
    (∀ i : String, (∀ c ∈ i.toList, c ≠ '\n') →
      KeyFromString x (Key.UploadStartedAtKey i).String = .ok none ∧
      KeyFromString x (Key.UploadPathKey i).String = .ok none) := by
  refine ⟨KeyFromString_manifest x, KeyFromString_tag x, KeyFromString_blob x,
    KeyFromString_repo x, ?_⟩
  intro i hi
  constructor
  · simp only [Key.String, String.append_assoc]
    apply KeyFromString_upload
    intro c hc
    simp only [String.toList, String.data_append, List.mem_append] at hc
    rcases hc with hc | hc
    · exact hi c hc
    · revert c
      decide
  · simp only [Key.String, String.append_assoc]
    apply KeyFromString_upload
    intro c hc
    simp only [String.toList, String.data_append, List.mem_append] at hc
    rcases hc with hc | hc
    · exact hi c hc
    · revert c
      decide

/-- Witness of C7 (amended): a manifest key, a tag key, a blob key, a repository key and an
upload key under the sample grammars. -/
theorem C7_KeyFromString_roundtrip_matching_witness :
    (sampleExternals.DigestRegexp "sha256:ab" = true ∧
      KeyFromString sampleExternals (Key.ManifestDigestKey "sha256:ab").String =
        .ok (some (.ManifestDigestKey "sha256:ab"))) ∧
    (sampleExternals.TagRegexp "latest" = true ∧
      KeyFromString sampleExternals (Key.TagKey "latest").String =
        .ok (some (.TagKey "latest"))) ∧
    (repoRegexpCapture (Key.RepoKey "ubuntu").String = some "ubuntu" ∧
      KeyFromString sampleExternals (Key.RepoKey "ubuntu").String =
        .ok (some (.RepoKey "ubuntu"))) ∧
    ((∀ c ∈ "u1".toList, c ≠ '\n') ∧
      KeyFromString sampleExternals (Key.UploadPathKey "u1").String = .ok none) :=
  ⟨⟨by decide, (C7_KeyFromString_roundtrip_matching sampleExternals).1 _ (by decide)⟩,
    ⟨by decide, (C7_KeyFromString_roundtrip_matching sampleExternals).2.1 _ (by decide)⟩,
    ⟨by decide, (C7_KeyFromString_roundtrip_matching sampleExternals).2.2.2.1 _ (by decide)⟩,
    ⟨by decide, ((C7_KeyFromString_roundtrip_matching sampleExternals).2.2.2.2 _ (by decide)).2⟩⟩


/-! ## Reading back what `BatchPut` and `Put` wrote -/

namespace GoMap

variable {α : Type}

theorem mem_of_get? (m : GoMap α) {k : String} {v : α} (h : m.get? k = some v) :
    (k, v) ∈ m := by
  induction m with
  | nil => simp [get?] at h
  | cons e m ih =>
    obtain ⟨k0, v0⟩ := e
    by_cases h0 : k0 = k
    · subst h0
      simp [get?] at h
      simp [h]
    · simp [get?, h0] at h
      exact List.mem_cons_of_mem _ (ih h)

theorem keys_set (m : GoMap α) (k : String) (v : α) :
    keys (m.set k v) = if k ∈ keys m then keys m else keys m ++ [k] := by
  induction m with
  | nil => simp [set, keys]
  | cons e m ih =>
    obtain ⟨k0, v0⟩ := e
    by_cases h0 : k0 = k
    · subst h0
      simp [set, keys]
    · have h0' : ¬ k = k0 := fun h => h0 h.symm
      have ih' : List.map Prod.fst (set m k v) =
          if k ∈ List.map Prod.fst m then List.map Prod.fst m else List.map Prod.fst m ++ [k] := ih
      simp only [set, h0, if_false, keys, List.map_cons, List.mem_cons, h0', false_or, ih']
      split <;> simp

theorem WF_set (m : GoMap α) (k : String) (v : α) (h : m.WF) : (m.set k v).WF := by
  unfold WF at *
  rw [keys_set]
  split
  · exact h
  · rename_i hk
    exact List.Nodup.append h (List.nodup_singleton k) (by
      intro a ha hb
      rw [List.mem_singleton] at hb
      exact hk (hb ▸ ha))

end GoMap

namespace inMemoryMetadataStore

theorem apply_none (updates : GoMap MetadataUpdateRecord) (res : Option repository)
    (h : BatchPut.apply none updates = .ok res) :
    res = none ∧ ∀ k r, (k, r) ∈ updates → r.Actual = none := by
  induction updates with
  | nil =>
    simp [BatchPut.apply] at h
    exact ⟨h.symm, by simp⟩
  | cons e rest ih =>
    obtain ⟨k0, r0⟩ := e
    cases hA : r0.Actual with
    | some a => simp [BatchPut.apply, hA] at h
    | none =>
      simp only [BatchPut.apply, hA, Option.map_none'] at h
      obtain ⟨h1, h2⟩ := ih h
      refine ⟨h1, ?_⟩
      intro k r hmem
      rcases List.mem_cons.1 hmem with heq | hmem'
      · cases heq
        exact hA
      · exact h2 k r hmem'

theorem getOrNil_eq_some {m : inMemoryMetadataStore} {k : String} {v : Value}
    (h : m.getOrNil k = some v) : ∃ rp, m.repoMap = some rp ∧ rp.get? k = some (some v) := by
  unfold getOrNil at h
  cases hrp : m.repoMap with
  | none => simp [hrp] at h
  | some rp =>
    simp only [hrp] at h
    cases hk : rp.get? k with
    | none => simp [hk] at h
    | some val =>
      simp only [hk] at h
      exact ⟨rp, rfl, by rw [hk, h]⟩

theorem getOrNil_of_repoMap {m : inMemoryMetadataStore} {rp : repository}
    (h : m.repoMap = some rp) (k : String) : m.getOrNil k = (rp.get? k).getD none := by
  unfold getOrNil
  rw [h]
  cases hk : rp.get? k <;> simp [hk]

/-- After a `BatchPut` that returned nil, every key of the set reads as the record's
`Actual` and every other key reads as before. -/
theorem BatchPut_ok_getOrNil (m : inMemoryMetadataStore) (updates : GoMap MetadataUpdateRecord)
    (s' : State) (hwf : updates.WF) (h : m.BatchPut updates = .ok (none, s')) :
    (∀ k r, (k, r) ∈ updates → ({ m with state := s' }).getOrNil k = r.Actual) ∧
    (∀ k, k ∉ updates.keys → ({ m with state := s' }).getOrNil k = m.getOrNil k) := by
  unfold BatchPut at h
  split at h
  · simp at h
  · cases hrp : m.repoMap with
    | none =>
      rw [hrp] at h
      cases happ : BatchPut.apply none updates with
      | error e => simp [happ] at h
      | ok res =>
        obtain ⟨hres, hall⟩ := apply_none updates res happ
        subst hres
        simp only [happ, Except.ok.injEq, Prod.mk.injEq, true_and] at h
        subst h
        have hnil : ∀ k, m.getOrNil k = none := fun k => by simp [getOrNil, hrp]
        exact ⟨fun k r hmem => by rw [hall k r hmem]; exact hnil k, fun k _ => rfl⟩
    | some rp =>
      rw [hrp] at h
      obtain ⟨rp', happ, h1, h2⟩ := apply_some updates rp hwf
      simp only [happ, Except.ok.injEq, Prod.mk.injEq, true_and] at h
      subst h
      have hs : m.Scoped := by simp [Scoped, hrp]
      have hrp' := repoMap_withRepoMap m hs rp'
      refine ⟨?_, ?_⟩
      · intro k r hmem
        rw [getOrNil_of_repoMap hrp', h1 k r hmem]
        cases r.Actual <;> rfl
      · intro k hk
        rw [getOrNil_of_repoMap hrp', getOrNil_of_repoMap hrp, h2 k hk]

theorem Put_ok_inv (m : inMemoryMetadataStore) (key : String) (v : Option Value)
    (e : Option Error) (s' : State) (h : m.Put key v = .ok (e, s')) :
    e = none ∧ ({ m with state := s' }).getOrNil key = v ∧
      ∀ k, k ≠ key → ({ m with state := s' }).getOrNil k = m.getOrNil k := by
  unfold Put at h
  cases hrp : m.repoMap with
  | none => simp [hrp] at h
  | some rp =>
    simp only [hrp, Except.ok.injEq, Prod.mk.injEq] at h
    obtain ⟨he, hs'⟩ := h
    subst hs'
    have hs : m.Scoped := by simp [Scoped, hrp]
    have hrp' := repoMap_withRepoMap m hs (rp.set key v)
    refine ⟨he.symm, ?_, ?_⟩
    · rw [getOrNil_of_repoMap hrp', GoMap.get?_set_self]
      rfl
    · intro k hk
      rw [getOrNil_of_repoMap hrp', getOrNil_of_repoMap hrp, GoMap.get?_set_ne _ _ hk]

/-- Putting under a key the non-nil value the key already holds changes nothing. -/
theorem Put_same (m : inMemoryMetadataStore) (key : String) (v : Value)
    (h : m.getOrNil key = some v) : m.Put key (some v) = .ok (none, m.state) := by
  obtain ⟨rp, hrp, hk⟩ := getOrNil_eq_some h
  unfold Put
  rw [hrp]
  simp only [GoMap.set_eq_self rp hk]
  unfold withRepoMap
  unfold repoMap at hrp
  cases hr : m.repo with
  | none => rfl
  | some r =>
    rw [hr] at hrp
    simp only [GoMap.set_eq_self m.state hrp]

end inMemoryMetadataStore


/-! ## Tag service -/

namespace TagService

theorem Get_of_getOrNil_descriptor (ts : TagService) (s : State) (tag : String)
    (desc : Descriptor)
    (h : (ts.store.on s).getOrNil (Key.TagKey tag).String = some (.descriptor desc)) :
    ts.Get s tag = (desc, none) := by
  simp [Get, inMemoryMetadataStore.Get, h]

theorem Get_of_getOrNil_none (ts : TagService) (s : State) (tag : String)
    (h : (ts.store.on s).getOrNil (Key.TagKey tag).String = none) :
    ts.Get s tag = ({ MediaType := "", Size := 0, Digest := "" }, some (.ErrTagUnknown tag)) := by
  simp [Get, inMemoryMetadataStore.Get, h]

theorem Get_congr (ts : TagService) (s s' : State) (tag : String)
    (h : (ts.store.on s').getOrNil (Key.TagKey tag).String =
      (ts.store.on s).getOrNil (Key.TagKey tag).String) :
    ts.Get s' tag = ts.Get s tag := by
  simp [Get, inMemoryMetadataStore.Get, h]

/-- A direct `Tag` of the descriptor the tag already holds returns nil and changes nothing. -/
theorem Tag_same (x : Externals) (ts : TagService) (s : State) (tag : String)
    (desc : Descriptor) (hp : x.ParseDigest desc.Digest = none)
    (h : (ts.store.on s).getOrNil (Key.TagKey tag).String = some (.descriptor desc)) :
    ts.Tag x { state := s, tx := none } tag desc = .ok (none, { state := s, tx := none }) := by
  have hput := inMemoryMetadataStore.Put_same (ts.store.on s) _ _ h
  simp only [Tag, hp, hput]
  rfl

/-- A direct `Tag` that returns nil: the digest parsed and the tag reads as the descriptor. -/
theorem Tag_direct_inv (x : Externals) (ts : TagService) (s : State) (tag : String)
    (desc : Descriptor) (w' : World)
    (h : ts.Tag x { state := s, tx := none } tag desc = .ok (none, w')) :
    x.ParseDigest desc.Digest = none ∧ (w'.tx = none ∧ w'.Errors = []) ∧
      (ts.store.on w'.state).getOrNil (Key.TagKey tag).String = some (.descriptor desc) ∧
      ∀ k, k ≠ (Key.TagKey tag).String →
        (ts.store.on w'.state).getOrNil k = (ts.store.on s).getOrNil k := by
  unfold Tag at h
  cases hp : x.ParseDigest desc.Digest with
  | some err => simp [hp] at h
  | none =>
    simp only [hp] at h
    cases hput : (ts.store.on s).Put (Key.TagKey tag).String (some (.descriptor desc)) with
    | error e => simp [hput] at h
    | ok r =>
      obtain ⟨e, s'⟩ := r
      simp only [hput, Except.ok.injEq, Prod.mk.injEq] at h
      obtain ⟨_, hw⟩ := h
      subst hw
      obtain ⟨_, h2, h3⟩ := inMemoryMetadataStore.Put_ok_inv _ _ _ _ _ hput
      exact ⟨rfl, ⟨rfl, rfl⟩, h2, h3⟩

/-- A `Tag` through an uncommitted transaction that returns nil: the digest parsed, the
state is untouched and the prepared set holds the descriptor as `Actual` for the tag key. -/
theorem Tag_tx_inv (x : Externals) (ts : TagService) (s : State) (tx : Transaction)
    (tag : String) (desc : Descriptor) (w' : World)
    (h : ts.Tag x { state := s, tx := some tx } tag desc = .ok (none, w')) :
    x.ParseDigest desc.Digest = none ∧ tx.committed = false ∧
      w' = World.mk s (some (Transaction.mk tx.id tx.store
        (tx.prepared.set (Key.TagKey tag).String
          (MetadataUpdateRecord.mk (some (.descriptor desc))
            ((tx.store.on s).getOrNil (Key.TagKey tag).String)))
        tx.committed)) [] := by
  unfold Tag at h
  cases hp : x.ParseDigest desc.Digest with
  | some err => simp [hp] at h
  | none =>
    simp only [hp] at h
    cases hc : tx.committed with
    | true => simp [Transaction.Update, hc] at h
    | false =>
      simp [Transaction.Update, hc, inMemoryMetadataStore.Get] at h
      exact ⟨rfl, rfl, h.symm⟩

end TagService

theorem Transaction.Commit_ok_inv (t : Transaction) (s s' : State) (t' : Transaction)
    (h : t.Commit s = .ok (none, t', s')) :
    t.committed = false ∧ (t.store.on s).BatchPut t.prepared = .ok (none, s') ∧
      t' = { t with committed := true } := by
  unfold Transaction.Commit at h
  cases hc : t.committed with
  | true => simp [hc] at h
  | false =>
    simp only [hc] at h
    cases hb : (t.store.on s).BatchPut t.prepared with
    | error e => simp [hb] at h
    | ok r =>
      obtain ⟨e, s2⟩ := r
      cases e with
      | some err => simp [hb] at h
      | none =>
        simp [hb] at h
        exact ⟨rfl, by rw [h.2], h.1.symm⟩

/-- C8: after a `Tag(t, desc)` that returned nil, written directly or through a transaction
that then commits, `Get(t)` through the same view returns exactly `desc` with a nil error,
and the direct `Tag(t, Get(t))` of the descriptor read back returns nil and leaves the store
as it is. -/
theorem C8_Tag_Get_roundtrip (x : Externals) (ts : TagService) (t : String)
    (desc : Descriptor) :
    (∀ s w', ts.Tag x { state := s, tx := none } t desc = .ok (none, w') →
      ts.Get w'.state t = (desc, none) ∧
      ts.Tag x w' t (ts.Get w'.state t).1 = .ok (none, w')) ∧
    (∀ s tx w₁ t₁ s₂ t₂ s₃, tx.store = ts.store → tx.prepared.WF →
      ts.Tag x { state := s, tx := some tx } t desc = .ok (none, w₁) → w₁.tx = some t₁ →
      t₁.Commit s₂ = .ok (none, t₂, s₃) →
      ts.Get s₃ t = (desc, none) ∧
      ts.Tag x { state := s₃, tx := none } t (ts.Get s₃ t).1 =
        .ok (none, { state := s₃, tx := none })) := by
  refine ⟨?_, ?_⟩
  · intro s w' h
    obtain ⟨hp, htx, hget, _⟩ := TagService.Tag_direct_inv x ts s t desc w' h
    have hG := TagService.Get_of_getOrNil_descriptor ts w'.state t desc hget
    refine ⟨hG, ?_⟩
    rw [hG]
    have hw : w' = { state := w'.state, tx := none } := by
      obtain ⟨h1, h2⟩ := htx
      cases w'
      simp_all
    have := TagService.Tag_same x ts w'.state t desc hp hget
    rw [← hw] at this
    exact this
  · intro s tx w₁ t₁ s₂ t₂ s₃ hstore hwf h htx hcommit
    obtain ⟨hp, _, hw⟩ := TagService.Tag_tx_inv x ts s tx t desc w₁ h
    subst hw
    simp only [Option.some.injEq] at htx
    subst htx
    obtain ⟨_, hb, _⟩ := Transaction.Commit_ok_inv _ _ _ _ hcommit
    simp only at hb
    have hmem := GoMap.mem_of_get? _ (GoMap.get?_set_self tx.prepared (Key.TagKey t).String
      { Actual := some (.descriptor desc),
        Expected := (tx.store.on s).getOrNil (Key.TagKey t).String })
    have hget := (inMemoryMetadataStore.BatchPut_ok_getOrNil _ _ _
      (GoMap.WF_set _ _ _ hwf) hb).1 _ _ hmem
    simp only [MetadataService.on, hstore] at hget
    have hget' : (ts.store.on s₃).getOrNil (Key.TagKey t).String = some (.descriptor desc) :=
      hget
    have hG := TagService.Get_of_getOrNil_descriptor ts s₃ t desc hget'
    exact ⟨hG, by rw [hG]; exact TagService.Tag_same x ts s₃ t desc hp hget'⟩


/-- Witness of C8: tag `c` written directly on `sampleState`, and written through the fresh
sample transaction, which then commits on `sampleState`. -/
theorem C8_Tag_Get_roundtrip_witness :
    (sampleTags.Tag sampleExternals directWorld "c" sampleDesc =
        .ok (none, { state := taggedState, tx := none }) ∧
      sampleTags.Get taggedState "c" = (sampleDesc, none)) ∧
    (sampleTx.store = sampleTags.store ∧ sampleTx.prepared.WF ∧
      sampleTags.Tag sampleExternals txWorld "c" sampleDesc =
        .ok (none, { state := sampleState, tx := some preparedTx }) ∧
      preparedTx.Commit sampleState =
        .ok (none, { preparedTx with committed := true }, taggedState) ∧
      sampleTags.Get taggedState "c" = (sampleDesc, none)) :=
  ⟨⟨rfl, ((C8_Tag_Get_roundtrip sampleExternals sampleTags "c" sampleDesc).1
      sampleState _ rfl).1⟩,
    ⟨rfl, by decide, rfl, rfl,
      ((C8_Tag_Get_roundtrip sampleExternals sampleTags "c" sampleDesc).2
        sampleState sampleTx _ preparedTx sampleState _ taggedState rfl (by decide) rfl rfl
        rfl).1⟩⟩

theorem TagKey_String_injective {t t' : String}
    (h : (Key.TagKey t').String = (Key.TagKey t).String) : t' = t := by
  have h1 := stripPrefix_append "tag::" t'
  have h2 := stripPrefix_append "tag::" t
  simp only [Key.String] at h
  rw [h, h2] at h1
  exact (Option.some.inj h1).symm

theorem inMemoryMetadataStore.Delete_ok_inv (m : inMemoryMetadataStore) (key : String)
    (s' : State) (h : m.Delete key = (none, s')) :
    ({ m with state := s' }).getOrNil key = none ∧
      ∀ k, k ≠ key → ({ m with state := s' }).getOrNil k = m.getOrNil k := by
  unfold inMemoryMetadataStore.Delete at h
  cases hrp : m.repoMap with
  | none => simp [hrp] at h
  | some rp =>
    simp only [hrp] at h
    cases hk : rp.get? key with
    | none => simp [hk] at h
    | some v =>
      simp only [hk, Prod.mk.injEq, true_and] at h
      subst h
      have hs : m.Scoped := by simp [inMemoryMetadataStore.Scoped, hrp]
      have hrp' := inMemoryMetadataStore.repoMap_withRepoMap m hs (rp.delete key)
      refine ⟨?_, ?_⟩
      · rw [inMemoryMetadataStore.getOrNil_of_repoMap hrp', GoMap.get?_delete_self]
        rfl
      · intro k hne
        rw [inMemoryMetadataStore.getOrNil_of_repoMap hrp',
          inMemoryMetadataStore.getOrNil_of_repoMap hrp, GoMap.get?_delete_ne _ hne]

/-- An `Untag` through a transaction that returns nil: the transaction was uncommitted, the
state is untouched and the prepared set holds a nil `Actual` for the tag key. -/
theorem TagService.Untag_tx_inv (ts : TagService) (s : State) (tx : Transaction)
    (tag : String) (w' : World)
    (h : ts.Untag { state := s, tx := some tx } tag = (none, w')) :
    tx.committed = false ∧
      w' = World.mk s (some (Transaction.mk tx.id tx.store
        (tx.prepared.set (Key.TagKey tag).String
          (MetadataUpdateRecord.mk none ((tx.store.on s).getOrNil (Key.TagKey tag).String)))
        tx.committed)) [] := by
  unfold TagService.Untag at h
  cases hc : tx.committed with
  | true => simp [Transaction.Update, hc] at h
  | false =>
    simp [Transaction.Update, hc, inMemoryMetadataStore.Get] at h
    exact ⟨rfl, h.symm⟩

/-- C9: after an `Untag(t)` that returned nil, made directly or through a transaction that
then commits, `Get(t)` fails with `ErrTagUnknown` and `Get` of every other tag (in the
transactional case: every other tag the transaction held no write for) returns what it
returned before. -/
theorem C9_Untag_then_Get_unknown (ts : TagService) (t : String) :
    (∀ s w', ts.Untag { state := s, tx := none } t = (none, w') →
      ts.Get w'.state t =
        ({ MediaType := "", Size := 0, Digest := "" }, some (.ErrTagUnknown t)) ∧
      ∀ t', t' ≠ t → ts.Get w'.state t' = ts.Get s t') ∧
    (∀ s tx w₁ t₁ s₂ t₂ s₃, tx.store = ts.store → tx.prepared.WF →
      ts.Untag { state := s, tx := some tx } t = (none, w₁) → w₁.tx = some t₁ →
      t₁.Commit s₂ = .ok (none, t₂, s₃) →
      ts.Get s₃ t =
        ({ MediaType := "", Size := 0, Digest := "" }, some (.ErrTagUnknown t)) ∧
      ∀ t', t' ≠ t → (Key.TagKey t').String ∉ tx.prepared.keys →
        ts.Get s₃ t' = ts.Get s₂ t') := by
  refine ⟨?_, ?_⟩
  · intro s w' h
    have hd : (ts.store.on s).Delete (Key.TagKey t).String = (none, w'.state) := by
      simp only [TagService.Untag] at h
      rw [Prod.mk.injEq] at h
      obtain ⟨h1, h2⟩ := h
      rw [← h2]
      exact Prod.ext h1 rfl
    obtain ⟨h1, h2⟩ := inMemoryMetadataStore.Delete_ok_inv _ _ _ hd
    refine ⟨TagService.Get_of_getOrNil_none ts _ t h1, ?_⟩
    intro t' hne
    exact TagService.Get_congr ts s w'.state t'
      (h2 _ (fun e => hne (TagKey_String_injective e)))
  · intro s tx w₁ t₁ s₂ t₂ s₃ hstore hwf h htx hcommit
    obtain ⟨_, hw⟩ := TagService.Untag_tx_inv ts s tx t w₁ h
    subst hw
    simp only [Option.some.injEq] at htx
    subst htx
    obtain ⟨_, hb, _⟩ := Transaction.Commit_ok_inv _ _ _ _ hcommit
    simp only at hb
    have hmem := GoMap.mem_of_get? _ (GoMap.get?_set_self tx.prepared (Key.TagKey t).String
      (MetadataUpdateRecord.mk none ((tx.store.on s).getOrNil (Key.TagKey t).String)))
    obtain ⟨hin, hout⟩ := inMemoryMetadataStore.BatchPut_ok_getOrNil _ _ _
      (GoMap.WF_set _ _ _ hwf) hb
    have hget := hin _ _ hmem
    simp only [MetadataService.on, hstore] at hget hout
    refine ⟨TagService.Get_of_getOrNil_none ts s₃ t hget, ?_⟩
    intro t' hne hnot
    apply TagService.Get_congr ts s₂ s₃ t'
    apply hout
    rw [GoMap.keys_set]
    split
    · exact hnot
    · intro hmem'
      rcases List.mem_append.1 hmem' with h1 | h1
      · exact hnot h1
      · rw [List.mem_singleton] at h1
        exact hne (TagKey_String_injective h1)

/-- Witness of C9: tag `a` removed directly from `sampleState`, and removed through the
fresh sample transaction, which then commits on `sampleState`. -/
theorem C9_Untag_then_Get_unknown_witness :
    (sampleTags.Untag directWorld "a" = (none, { state := untaggedState, tx := none }) ∧
      sampleTags.Get untaggedState "a" =
        ({ MediaType := "", Size := 0, Digest := "" }, some (.ErrTagUnknown "a")) ∧
      sampleTags.Get untaggedState "b" = sampleTags.Get sampleState "b") ∧
    (sampleTx.store = sampleTags.store ∧ sampleTx.prepared.WF ∧
      (sampleTags.Untag txWorld "a").1 = none ∧
      sampleTags.Get untaggedState "a" =
        ({ MediaType := "", Size := 0, Digest := "" }, some (.ErrTagUnknown "a"))) :=
  ⟨⟨rfl, ((C9_Untag_then_Get_unknown sampleTags "a").1 sampleState _ rfl).1,
      ((C9_Untag_then_Get_unknown sampleTags "a").1 sampleState _ rfl).2 "b" (by decide)⟩,
    ⟨rfl, by decide, rfl,
      ((C9_Untag_then_Get_unknown sampleTags "a").2 sampleState sampleTx
        (sampleTags.Untag txWorld "a").2 (sampleTx.Update sampleState "tag::a" none).2
        sampleState { (sampleTx.Update sampleState "tag::a" none).2 with committed := true }
        untaggedState rfl (by decide) rfl rfl rfl).1⟩⟩


/-! ## Iteration and `Lookup` -/

theorem leChars_total (a b : List Char) : leChars a b = true ∨ leChars b a = true := by
  induction a generalizing b with
  | nil => exact Or.inl (by simp [leChars])
  | cons c cs ih =>
    cases b with
    | nil => exact Or.inr (by simp [leChars])
    | cons d ds =>
      by_cases h1 : c.toNat < d.toNat
      · exact Or.inl (by simp [leChars, h1])
      · by_cases h2 : d.toNat < c.toNat
        · exact Or.inr (by simp [leChars, h2])
        · simpa [leChars, h1, h2] using ih ds

theorem leChars_trans (a b c : List Char) (hab : leChars a b = true) (hbc : leChars b c = true) :
    leChars a c = true := by
  induction a generalizing b c with
  | nil => simp [leChars]
  | cons a0 as ih =>
    cases b with
    | nil => simp [leChars] at hab
    | cons b0 bs =>
      cases c with
      | nil => simp [leChars] at hbc
      | cons c0 cs =>
        simp only [leChars] at hab hbc ⊢
        by_cases h1 : a0.toNat < b0.toNat
        · by_cases h2 : b0.toNat < c0.toNat
          · have : a0.toNat < c0.toNat := by omega
            simp [this]
          · by_cases h3 : c0.toNat < b0.toNat
            · simp [h2, h3] at hbc
            · have : a0.toNat < c0.toNat := by omega
              simp [this]
        · by_cases h1' : b0.toNat < a0.toNat
          · simp [h1, h1'] at hab
          · simp only [h1, h1', if_false] at hab
            by_cases h2 : b0.toNat < c0.toNat
            · have : a0.toNat < c0.toNat := by omega
              simp [this]
            · by_cases h3 : c0.toNat < b0.toNat
              · simp [h2, h3] at hbc
              · simp only [h2, h3, if_false] at hbc
                have e1 : ¬ a0.toNat < c0.toNat := by omega
                have e2 : ¬ c0.toNat < a0.toNat := by omega
                simp only [e1, e2, if_false]
                exact ih bs cs hab hbc

theorem leChars_append_left (p a b : List Char) : leChars (p ++ a) (p ++ b) = leChars a b := by
  induction p with
  | nil => rfl
  | cons c cs ih => simp [leChars, ih]

instance : IsTotal String strLe := ⟨fun a b => leChars_total a.toList b.toList⟩

instance : IsTrans String strLe := ⟨fun a b c => leChars_trans a.toList b.toList c.toList⟩

theorem sortStrings_sorted (l : List String) : (sortStrings l).Sorted strLe :=
  List.sorted_insertionSort strLe l

theorem sortStrings_perm (l : List String) : (sortStrings l).Perm l :=
  List.perm_insertionSort strLe l

theorem sortStrings_strict (l : List String) (h : l.Nodup) :
    (sortStrings l).Pairwise (fun a b => strLe a b ∧ a ≠ b) := by
  have h1 : (sortStrings l).Pairwise strLe := sortStrings_sorted l
  have h2 : (sortStrings l).Pairwise (fun a b => a ≠ b) :=
    (sortStrings_perm l).nodup_iff.2 h
  exact h1.and h2


theorem KeyFromString_TagKey_inv (x : Externals) (k tag : String)
    (h : KeyFromString x k = .ok (some (.TagKey tag))) : k = (Key.TagKey tag).String := by
  unfold KeyFromString at h
  split at h
  · simp at h
  · split at h
    · rename_i t ht
      simp only [Except.ok.injEq, Option.some.injEq, Key.TagKey.injEq] at h
      subst h
      have hs : stripPrefix "tag::" k = some t := by
        cases hsp : stripPrefix "tag::" k with
        | none => simp [hsp, Option.filter] at ht
        | some t' =>
          simp only [hsp, Option.filter] at ht
          split at ht
          · exact ht
          · simp at ht
      exact stripPrefix_eq_some hs
    · split at h
      · simp at h
      · split at h
        · simp at h
        · split at h <;> simp at h

theorem KeyFromString_tag_reject (x : Externals) (t : String) (h : x.TagRegexp t = false) :
    KeyFromString x (Key.TagKey t).String = .error (.panic "error on key match: ") := by
  have h1 : stripPrefix "manifest::" ("tag::" ++ t) = none := by
    simp [stripPrefix, List.isPrefixOf]
  have h3 : stripPrefix "blob::" ("tag::" ++ t) = none := by
    simp [stripPrefix, List.isPrefixOf]
  have h4 : stripPrefix "repo::" ("tag::" ++ t) = none := by
    simp [stripPrefix, List.isPrefixOf]
  have h5 : stripPrefix "upload::" ("tag::" ++ t) = none := by
    simp [stripPrefix, List.isPrefixOf]
  simp [KeyFromString, Key.String, repoRegexpCapture, stripPrefix_append, Option.filter, h, h1,
    h3, h4, h5]

/-- A tag key that `KeyFromString` accepts is parsed to the tag key itself. -/
theorem KeyFromString_tag_of_ok (x : Externals) (t : String) (g : Option Key)
    (h : KeyFromString x (Key.TagKey t).String = .ok g) : g = some (.TagKey t) := by
  cases ht : x.TagRegexp t with
  | true =>
    rw [KeyFromString_tag x t ht] at h
    exact (Except.ok.inj h).symm
  | false =>
    rw [KeyFromString_tag_reject x t ht] at h
    cases h

namespace inMemoryMetadataStore

/-- On keys that all parse and whose tag entries hold descriptors, the loop of
`iterateRepository` run with the closure of `Lookup` ends with a nil error after appending
the picked tag names in the order of the keys. -/
theorem loop_Lookup (x : Externals) (rp : repository) (desc : Descriptor) :
    ∀ (ks : List String) (acc : List String),
      (∀ k ∈ ks, ∃ g, KeyFromString x k = .ok g) →
      (∀ k ∈ ks, ∀ tag, KeyFromString x k = .ok (some (.TagKey tag)) →
        ∃ d, rp.get? k = some (some (.descriptor d))) →
      iterateRepository.loop x { IterType := some (.TagKey ""), From := "" }
          (TagService.Lookup.iterFunc desc) rp ks acc =
        .ok (none, acc ++ ks.filterMap (TagService.Lookup.pick x rp desc)) := by
  intro ks
  induction ks with
  | nil =>
    intro acc _ _
    simp [iterateRepository.loop]
  | cons k ks ih =>
    intro acc hparse hdesc
    obtain ⟨g, hg⟩ := hparse k (List.mem_cons_self _ _)
    have ih' := fun acc' => ih acc' (fun k' hk' => hparse k' (List.mem_cons_of_mem _ hk'))
      (fun k' hk' => hdesc k' (List.mem_cons_of_mem _ hk'))
    cases g with
    | none =>
      simp [iterateRepository.loop, hg, TagService.Lookup.pick, ih']
    | some key =>
      cases key with
      | TagKey tag =>
        obtain ⟨d, hd⟩ := hdesc k (List.mem_cons_self _ _) tag hg
        by_cases hdig : desc.Digest = d.Digest
        · simp [iterateRepository.loop, hg, TagService.Lookup.pick, hd,
            TagService.Lookup.iterFunc, hdig, ih']
        · simp [iterateRepository.loop, hg, TagService.Lookup.pick, hd,
            TagService.Lookup.iterFunc, hdig, ih']
      | ManifestDigestKey dg =>
        simp [iterateRepository.loop, hg, TagService.Lookup.pick, ih']
      | RepoKey rn =>
        simp [iterateRepository.loop, hg, TagService.Lookup.pick, ih']
      | BlobKey dg =>
        simp [iterateRepository.loop, hg, TagService.Lookup.pick, ih']
      | UploadStartedAtKey i =>
        simp [iterateRepository.loop, hg, TagService.Lookup.pick, ih']
      | UploadPathKey i =>
        simp [iterateRepository.loop, hg, TagService.Lookup.pick, ih']

end inMemoryMetadataStore


theorem GoMap.get?_of_mem_keys {α : Type} (m : GoMap α) {k : String} (h : k ∈ m.keys) :
    ∃ v, m.get? k = some v := by
  induction m with
  | nil => simp [GoMap.keys] at h
  | cons e m ih =>
    obtain ⟨k0, v0⟩ := e
    by_cases h0 : k0 = k
    · exact ⟨v0, by simp [GoMap.get?, h0]⟩
    · have hm : k ∈ GoMap.keys m := by
        simp only [GoMap.keys, List.map_cons, List.mem_cons] at h
        rcases h with h | h
        · exact absurd h.symm h0
        · exact h
      obtain ⟨v, hv⟩ := ih hm
      exact ⟨v, by simp [GoMap.get?, h0, hv]⟩

theorem GoMap.mem_keys_of_get? {α : Type} (m : GoMap α) {k : String} {v : α}
    (h : m.get? k = some v) : k ∈ m.keys := by
  have := GoMap.mem_of_get? m h
  exact List.mem_map.2 ⟨(k, v), this, rfl⟩

theorem TagService.Lookup.pick_eq_some_inv (x : Externals) (rp : repository) (desc : Descriptor)
    (k tag : String) (h : TagService.Lookup.pick x rp desc k = some tag) :
    k = (Key.TagKey tag).String ∧
      ∃ d, rp.get? k = some (some (.descriptor d)) ∧ desc.Digest = d.Digest := by
  unfold TagService.Lookup.pick at h
  split at h
  · rename_i tag' hk
    split at h
    · rename_i d hd
      split at h
      · rename_i hdig
        simp only [Option.some.injEq] at h
        subst h
        exact ⟨KeyFromString_TagKey_inv x k tag' hk, d, hd, hdig⟩
      · simp at h
    · simp at h
  · simp at h

theorem TagService.Lookup.pick_tag (x : Externals) (rp : repository) (desc : Descriptor)
    (tag : String) (d : Descriptor) (g : Option Key)
    (hg : KeyFromString x (Key.TagKey tag).String = .ok g)
    (hd : rp.get? (Key.TagKey tag).String = some (some (.descriptor d)))
    (hdig : d.Digest = desc.Digest) :
    TagService.Lookup.pick x rp desc (Key.TagKey tag).String = some tag := by
  have := KeyFromString_tag_of_ok x tag g hg
  subst this
  simp [TagService.Lookup.pick, hg, hd, hdig]

theorem strLe_TagKey {a b : String} (h : strLe (Key.TagKey a).String (Key.TagKey b).String) :
    strLe a b := by
  unfold strLe at *
  simp only [Key.String, String.toList, String.data_append] at h
  rw [leChars_append_left] at h
  exact h

/-- The result of `Lookup` on a scoped view whose keys all parse and whose tag entries hold
descriptors: the picked tag names over the sorted keys. -/
theorem TagService.Lookup_eq (x : Externals) (ts : TagService) (r : String) (s : State)
    (desc : Descriptor) (rp : repository) (hstore : ts.store = some r)
    (hrp : (s.get? r).getD [] = rp)
    (hparse : ∀ k ∈ rp.keys, ∃ g, KeyFromString x k = .ok g)
    (hdesc : ∀ tag v, rp.get? (Key.TagKey tag).String = some v → ∃ d, v = some (.descriptor d)) :
    ts.Lookup x s desc =
      .ok ((sortStrings rp.keys).filterMap (TagService.Lookup.pick x rp desc), none) := by
  have hmemkeys : ∀ k, k ∈ sortStrings rp.keys → k ∈ rp.keys :=
    fun k hk => (sortStrings_perm rp.keys).mem_iff.1 hk
  have hloop := inMemoryMetadataStore.loop_Lookup x rp desc (sortStrings rp.keys) []
    (fun k hk => hparse k (hmemkeys k hk))
    (fun k hk tag htag => by
      obtain ⟨v, hv⟩ := GoMap.get?_of_mem_keys rp (hmemkeys k hk)
      have hkeq := KeyFromString_TagKey_inv x k tag htag
      subst hkeq
      obtain ⟨d, hd⟩ := hdesc tag v hv
      exact ⟨d, by rw [hv, hd]⟩)
  have hrm : (ts.store.on s).repoMap.getD [] = rp := by
    simp [MetadataService.on, inMemoryMetadataStore.repoMap, hstore, hrp]
  have hrepo : (ts.store.on s).repo = some r := by
    simp [MetadataService.on, hstore]
  unfold TagService.Lookup inMemoryMetadataStore.Iterate inMemoryMetadataStore.iterateRepository
  rw [hrm]
  by_cases hlen : (sortStrings (GoMap.keys rp)).length = 0
  · have hnil : sortStrings (GoMap.keys rp) = [] := List.length_eq_zero.1 hlen
    simp [hnil, hrepo]
  · simp only [hlen, if_false, hloop]
    simp


/-- C10 (counterexample): `Tag` accepts the empty tag name and stores the key `tag::` with
the descriptor, so every tag entry of the repository holds a descriptor; `KeyFromString`
matches no pattern on that key (the tag grammar rejects the empty name) and `Lookup`
panics instead of returning the tag names. -/
theorem C10_Lookup_counterexample :
    sampleTags.Tag sampleExternals { state := [("r", [])], tx := none } "" sampleDesc =
      .ok (none, { state := emptyTagState, tx := none }) ∧
    sampleTags.Lookup sampleExternals emptyTagState sampleDesc =
      .error (.panic "error on key match: ") := by
  decide

/-- C10 (amended): on a view scoped to a repository whose keys all parse (`KeyFromString`
returns on each) and whose tag entries all hold descriptors, `Lookup(desc)` returns, with a
nil error, exactly the tag names whose stored descriptor has the digest of `desc`, each
once, in ascending order; on a repository with no key at all it returns the empty list
and a nil error. -/
theorem C10_Lookup_tags_of_digest (x : Externals) (ts : TagService) (r : String) (s : State)
    (desc : Descriptor) (hstore : ts.store = some r) :
    (∀ rp, s.get? r = some rp → rp.WF →
      (∀ k ∈ rp.keys, keyParses x k = true) →
      (∀ e ∈ rp, isTagEntry x e.1 = true → holdsDescriptor e.2 = true) →
      ∃ tags, ts.Lookup x s desc = .ok (tags, none) ∧
        (∀ tag, tag ∈ tags ↔
          ∃ d, rp.get? (Key.TagKey tag).String = some (some (.descriptor d)) ∧
            d.Digest = desc.Digest) ∧
        tags.Pairwise (fun a b => strLe a b ∧ a ≠ b)) ∧
    ((s.get? r).getD [] = [] → ts.Lookup x s desc = .ok ([], none)) := by
  refine ⟨?_, ?_⟩
  · intro rp hrp hwf hparse hdesc
    have hparse' : ∀ k ∈ rp.keys, ∃ g, KeyFromString x k = .ok g := by
      intro k hk
      have := hparse k hk
      unfold keyParses at this
      split at this
      · rename_i g hg
        exact ⟨g, hg⟩
      · simp at this
    have hdesc' : ∀ tag v, rp.get? (Key.TagKey tag).String = some v →
        ∃ d, v = some (.descriptor d) := by
      intro tag v hv
      obtain ⟨g, hg⟩ := hparse' _ (GoMap.mem_keys_of_get? rp hv)
      have hgt := KeyFromString_tag_of_ok x tag g hg
      subst hgt
      have hte : isTagEntry x (Key.TagKey tag).String = true := by
        simp [isTagEntry, hg]
      have hd := hdesc _ (GoMap.mem_of_get? rp hv) hte
      unfold holdsDescriptor at hd
      split at hd
      · rename_i d hv'
        exact ⟨d, hv'⟩
      · simp at hd
    have heq := TagService.Lookup_eq x ts r s desc rp hstore (by simp [hrp]) hparse' hdesc'
    refine ⟨_, heq, ?_, ?_⟩
    · intro tag
      rw [List.mem_filterMap]
      constructor
      · rintro ⟨k, _, hpick⟩
        obtain ⟨hk, d, hd, hdig⟩ := TagService.Lookup.pick_eq_some_inv x rp desc k tag hpick
        subst hk
        exact ⟨d, hd, hdig.symm⟩
      · rintro ⟨d, hd, hdig⟩
        have hk := GoMap.mem_keys_of_get? rp hd
        obtain ⟨g, hg⟩ := hparse' _ hk
        exact ⟨_, (sortStrings_perm rp.keys).mem_iff.2 hk,
          TagService.Lookup.pick_tag x rp desc tag d g hg hd hdig⟩
    · refine List.Pairwise.filterMap _ ?_ (sortStrings_strict rp.keys hwf)
      intro a a' haa' b hb b' hb'
      obtain ⟨ha, _⟩ := TagService.Lookup.pick_eq_some_inv x rp desc a b (Option.mem_def.1 hb)
      obtain ⟨ha', _⟩ := TagService.Lookup.pick_eq_some_inv x rp desc a' b' (Option.mem_def.1 hb')
      subst ha ha'
      exact ⟨strLe_TagKey haa'.1, fun e => haa'.2 (by rw [e])⟩
  · intro hnil
    have heq := TagService.Lookup_eq x ts r s desc [] hstore hnil (by simp [GoMap.keys])
      (by simp [GoMap.get?])
    simpa [GoMap.keys, sortStrings] using heq

/-- Witness of C10 (amended): on the repository `r` of `sampleState`, `Lookup` of
`sampleDesc` returns the tag `a`. -/
theorem C10_Lookup_tags_of_digest_witness :
    sampleTags.store = some "r" ∧
    (∃ rp : repository, sampleState.get? "r" = some rp ∧ rp.WF ∧
      (∀ k ∈ rp.keys, keyParses sampleExternals k = true) ∧
      (∀ e ∈ rp, isTagEntry sampleExternals e.1 = true → holdsDescriptor e.2 = true)) ∧
    sampleTags.Lookup sampleExternals sampleState sampleDesc = .ok (["a"], none) ∧
    ∃ tags, sampleTags.Lookup sampleExternals sampleState sampleDesc = .ok (tags, none) ∧
      tags.Pairwise (fun a b => strLe a b ∧ a ≠ b) :=
  ⟨rfl, ⟨_, rfl, by decide, by decide, by decide⟩, rfl,
    match (C10_Lookup_tags_of_digest sampleExternals sampleTags "r" sampleState sampleDesc
      rfl).1 _ rfl (by decide) (by decide) (by decide) with
    | ⟨tags, h1, _, h3⟩ => ⟨tags, h1, h3⟩⟩


/-! ## `Iterate` over one variant -/

theorem KeyFromString_ManifestDigestKey_inv (x : Externals) (k d : String)
    (h : KeyFromString x k = .ok (some (.ManifestDigestKey d))) :
    k = (Key.ManifestDigestKey d).String := by
  unfold KeyFromString at h
  split at h
  · rename_i d' hd
    simp only [Except.ok.injEq, Option.some.injEq, Key.ManifestDigestKey.injEq] at h
    subst h
    have hs : stripPrefix "manifest::" k = some d' := by
      cases hsp : stripPrefix "manifest::" k with
      | none => simp [hsp, Option.filter] at hd
      | some t' =>
        simp only [hsp, Option.filter] at hd
        split at hd
        · exact hd
        · simp at hd
    exact stripPrefix_eq_some hs
  · split at h
    · simp at h
    · split at h
      · simp at h
      · split at h
        · simp at h
        · split at h <;> simp at h

theorem KeyFromString_manifest_reject (x : Externals) (d : String)
    (h : x.DigestRegexp d = false) :
    KeyFromString x (Key.ManifestDigestKey d).String = .error (.panic "error on key match: ") := by
  have h2 : stripPrefix "tag::" ("manifest::" ++ d) = none := by
    simp [stripPrefix, List.isPrefixOf]
  have h3 : stripPrefix "blob::" ("manifest::" ++ d) = none := by
    simp [stripPrefix, List.isPrefixOf]
  have h4 : stripPrefix "repo::" ("manifest::" ++ d) = none := by
    simp [stripPrefix, List.isPrefixOf]
  have h5 : stripPrefix "upload::" ("manifest::" ++ d) = none := by
    simp [stripPrefix, List.isPrefixOf]
  simp [KeyFromString, Key.String, repoRegexpCapture, stripPrefix_append, Option.filter, h, h2,
    h3, h4, h5]

/-- A manifest key that `KeyFromString` accepts is parsed to the manifest key itself. -/
theorem KeyFromString_manifest_of_ok (x : Externals) (d : String) (g : Option Key)
    (h : KeyFromString x (Key.ManifestDigestKey d).String = .ok g) :
    g = some (.ManifestDigestKey d) := by
  cases hd : x.DigestRegexp d with
  | true =>
    rw [KeyFromString_manifest x d hd] at h
    exact (Except.ok.inj h).symm
  | false =>
    rw [KeyFromString_manifest_reject x d hd] at h
    cases h

/-- On a key that parses, the parse is a `TagKey` exactly when the key has the form
`tag::<name>`, and the tag is the name. -/
theorem KeyFromString_tag_iff (x : Externals) (k : String) (g : Option Key)
    (h : KeyFromString x k = .ok g) (n : String) :
    stripPrefix "tag::" k = some n ↔ g = some (.TagKey n) := by
  constructor
  · intro hs
    have hk := stripPrefix_eq_some hs
    subst hk
    exact KeyFromString_tag_of_ok x n g h
  · intro hg
    subst hg
    have hk := KeyFromString_TagKey_inv x k n h
    rw [hk]
    exact stripPrefix_append "tag::" n

/-- On a key that parses, the parse is a `ManifestDigestKey` exactly when the key has the
form `manifest::<digest>`, and the digest is the rest of the key. -/
theorem KeyFromString_manifest_iff (x : Externals) (k : String) (g : Option Key)
    (h : KeyFromString x k = .ok g) (n : String) :
    stripPrefix "manifest::" k = some n ↔ g = some (.ManifestDigestKey n) := by
  constructor
  · intro hs
    have hk := stripPrefix_eq_some hs
    subst hk
    exact KeyFromString_manifest_of_ok x n g h
  · intro hg
    subst hg
    have hk := KeyFromString_ManifestDigestKey_inv x k n h
    rw [hk]
    exact stripPrefix_append "manifest::" n


namespace inMemoryMetadataStore

theorem stripPrefix_tag_none_of_parse (x : Externals) (k : String) (g : Option Key)
    (h : KeyFromString x k = .ok g) (hg : ∀ n, g ≠ some (.TagKey n)) :
    stripPrefix "tag::" k = none := by
  cases hs : stripPrefix "tag::" k with
  | none => rfl
  | some n => exact absurd ((KeyFromString_tag_iff x k g h n).1 hs) (hg n)

theorem stripPrefix_manifest_none_of_parse (x : Externals) (k : String) (g : Option Key)
    (h : KeyFromString x k = .ok g) (hg : ∀ n, g ≠ some (.ManifestDigestKey n)) :
    stripPrefix "manifest::" k = none := by
  cases hs : stripPrefix "manifest::" k with
  | none => rfl
  | some n => exact absurd ((KeyFromString_manifest_iff x k g h n).1 hs) (hg n)

/-- The loop of `iterateRepository` for `IterType` `TagKey{}` on keys that all parse makes
the calls of `deliverAll` on the entries of the form `tag::<name>`, in the order of the
keys. -/
theorem loop_TagKey {σ : Type} (x : Externals) (rp : repository) (frm : String)
    (fn : IterFunc σ) :
    ∀ (ks : List String) (acc : σ), (∀ k ∈ ks, ∃ g, KeyFromString x k = .ok g) →
      iterateRepository.loop x { IterType := some (.TagKey ""), From := frm } fn rp ks acc =
        .ok (deliverAll fn (ks.filterMap (entryWithPrefix "tag::" rp)) acc) := by
  intro ks
  induction ks with
  | nil =>
    intro acc _
    simp [iterateRepository.loop, deliverAll]
  | cons k ks ih =>
    intro acc hparse
    obtain ⟨g, hg⟩ := hparse k (List.mem_cons_self _ _)
    have ih' := fun acc' => ih acc' (fun k' hk' => hparse k' (List.mem_cons_of_mem _ hk'))
    have hskip : (∀ n, g ≠ some (.TagKey n)) →
        List.filterMap (entryWithPrefix "tag::" rp) (k :: ks) =
          List.filterMap (entryWithPrefix "tag::" rp) ks := by
      intro hne
      have hs := stripPrefix_tag_none_of_parse x k g hg hne
      simp [List.filterMap_cons, entryWithPrefix, hs]
    cases g with
    | none =>
      rw [hskip (by simp)]
      simp [iterateRepository.loop, hg, ih']
    | some key =>
      cases key with
      | TagKey tag =>
        have hs := (KeyFromString_tag_iff x k _ hg tag).2 rfl
        have hfm : List.filterMap (entryWithPrefix "tag::" rp) (k :: ks) =
            (tag, (rp.get? k).getD none) :: List.filterMap (entryWithPrefix "tag::" rp) ks := by
          simp [List.filterMap_cons, entryWithPrefix, hs]
        rw [hfm]
        cases hfn : fn acc tag ((rp.get? k).getD none) with
        | mk e acc' =>
          cases e with
          | none => simp [iterateRepository.loop, hg, deliverAll, hfn, ih']
          | some err => simp [iterateRepository.loop, hg, deliverAll, hfn]
      | ManifestDigestKey dg =>
        rw [hskip (by simp)]
        simp [iterateRepository.loop, hg, ih']
      | RepoKey rn =>
        rw [hskip (by simp)]
        simp [iterateRepository.loop, hg, ih']
      | BlobKey dg =>
        rw [hskip (by simp)]
        simp [iterateRepository.loop, hg, ih']
      | UploadStartedAtKey i =>
        rw [hskip (by simp)]
        simp [iterateRepository.loop, hg, ih']
      | UploadPathKey i =>
        rw [hskip (by simp)]
        simp [iterateRepository.loop, hg, ih']

/-- The loop of `iterateRepository` for `IterType` `ManifestDigestKey{}` on keys that all
parse makes the calls of `deliverAll` on the entries of the form `manifest::<digest>`, in
the order of the keys. -/
theorem loop_ManifestDigestKey {σ : Type} (x : Externals) (rp : repository) (frm : String)
    (fn : IterFunc σ) :
    ∀ (ks : List String) (acc : σ), (∀ k ∈ ks, ∃ g, KeyFromString x k = .ok g) →
      iterateRepository.loop x { IterType := some (.ManifestDigestKey ""), From := frm } fn rp
          ks acc =
        .ok (deliverAll fn (ks.filterMap (entryWithPrefix "manifest::" rp)) acc) := by
  intro ks
  induction ks with
  | nil =>
    intro acc _
    simp [iterateRepository.loop, deliverAll]
  | cons k ks ih =>
    intro acc hparse
    obtain ⟨g, hg⟩ := hparse k (List.mem_cons_self _ _)
    have ih' := fun acc' => ih acc' (fun k' hk' => hparse k' (List.mem_cons_of_mem _ hk'))
    have hskip : (∀ n, g ≠ some (.ManifestDigestKey n)) →
        List.filterMap (entryWithPrefix "manifest::" rp) (k :: ks) =
          List.filterMap (entryWithPrefix "manifest::" rp) ks := by
      intro hne
      have hs := stripPrefix_manifest_none_of_parse x k g hg hne
      simp [List.filterMap_cons, entryWithPrefix, hs]
    cases g with
    | none =>
      rw [hskip (by simp)]
      simp [iterateRepository.loop, hg, ih']
    | some key =>
      cases key with
      | ManifestDigestKey dg =>
        have hs := (KeyFromString_manifest_iff x k _ hg dg).2 rfl
        have hfm : List.filterMap (entryWithPrefix "manifest::" rp) (k :: ks) =
            (dg, (rp.get? k).getD none) ::
              List.filterMap (entryWithPrefix "manifest::" rp) ks := by
          simp [List.filterMap_cons, entryWithPrefix, hs]
        rw [hfm]
        cases hfn : fn acc dg ((rp.get? k).getD none) with
        | mk e acc' =>
          cases e with
          | none => simp [iterateRepository.loop, hg, deliverAll, hfn, ih']
          | some err => simp [iterateRepository.loop, hg, deliverAll, hfn]
      | TagKey tag =>
        rw [hskip (by simp)]
        simp [iterateRepository.loop, hg, ih']
      | RepoKey rn =>
        rw [hskip (by simp)]
        simp [iterateRepository.loop, hg, ih']
      | BlobKey dg =>
        rw [hskip (by simp)]
        simp [iterateRepository.loop, hg, ih']
      | UploadStartedAtKey i =>
        rw [hskip (by simp)]
        simp [iterateRepository.loop, hg, ih']
      | UploadPathKey i =>
        rw [hskip (by simp)]
        simp [iterateRepository.loop, hg, ih']

end inMemoryMetadataStore

theorem keyParses_iff (x : Externals) (k : String) :
    keyParses x k = true ↔ ∃ g, KeyFromString x k = .ok g := by
  unfold keyParses
  constructor
  · intro h
    split at h
    · rename_i g hg
      exact ⟨g, hg⟩
    · simp at h
  · rintro ⟨g, hg⟩
    simp [hg]

/-- C20: on a view scoped to a non-empty repository whose keys all parse, `Iterate` with
`IterType` `TagKey{}` (respectively `ManifestDigestKey{}`) returns, and what it does is to
call `fn` once for each stored entry whose key has the form `tag::<name>` (respectively
`manifest::<digest>`), in ascending key order, with the name (respectively digest) without
its prefix and the stored value, on no other entry, stopping at the first non-nil error of
`fn`, which is then its result. -/
theorem C20_Iterate_delivers_variant {σ : Type} (x : Externals) (m : inMemoryMetadataStore)
    (rp : repository) (frm : String) (fn : IterFunc σ) (acc : σ)
    (hrp : m.repoMap = some rp) (hne : rp ≠ []) (hwf : rp.WF)
    (hparse : ∀ k ∈ rp.keys, keyParses x k = true) :
    ∃ ks : List String, ks.Perm rp.keys ∧ ks.Pairwise (fun a b => strLe a b ∧ a ≠ b) ∧
      m.Iterate x { IterType := some (.TagKey ""), From := frm } fn acc =
        .ok (deliverAll fn (ks.filterMap (entryWithPrefix "tag::" rp)) acc) ∧
      m.Iterate x { IterType := some (.ManifestDigestKey ""), From := frm } fn acc =
        .ok (deliverAll fn (ks.filterMap (entryWithPrefix "manifest::" rp)) acc) := by
  have hperm := sortStrings_perm rp.keys
  have hparse' : ∀ k ∈ sortStrings rp.keys, ∃ g, KeyFromString x k = .ok g :=
    fun k hk => (keyParses_iff x k).1 (hparse k (hperm.mem_iff.1 hk))
  have hlen : ¬ (sortStrings (GoMap.keys rp)).length = 0 := by
    rw [hperm.length_eq]
    cases rp with
    | nil => exact absurd rfl hne
    | cons e rest => simp [GoMap.keys]
  refine ⟨sortStrings rp.keys, hperm, sortStrings_strict rp.keys hwf, ?_, ?_⟩
  · simp only [inMemoryMetadataStore.Iterate, inMemoryMetadataStore.iterateRepository, hrp,
      Option.getD_some, hlen, if_false]
    rw [inMemoryMetadataStore.loop_TagKey x rp frm fn _ acc hparse']
    simp
  · simp only [inMemoryMetadataStore.Iterate, inMemoryMetadataStore.iterateRepository, hrp,
      Option.getD_some, hlen, if_false]
    rw [inMemoryMetadataStore.loop_ManifestDigestKey x rp frm fn _ acc hparse']
    simp

/-- Witness of C20: on the repository `r` of `sampleState` a recording closure that fails
on `b` is called on tag `a` and on tag `b`; one that never fails is called on the one
manifest. -/
theorem C20_Iterate_delivers_variant_witness :
    sampleView.repoMap = some ((sampleState.get? "r").getD []) ∧
    ((sampleState.get? "r").getD [] : repository) ≠ [] ∧
    GoMap.WF ((sampleState.get? "r").getD [] : repository) ∧
    (∀ k ∈ GoMap.keys ((sampleState.get? "r").getD [] : repository),
      keyParses sampleExternals k = true) ∧
    sampleView.Iterate sampleExternals { IterType := some (.TagKey ""), From := "" }
        (recordUntil "b") [] =
      .ok (some (.errorf "stop"),
        [("a", some (.descriptor sampleDesc)), ("b", some (.descriptor otherDesc))]) ∧
    ∃ ks : List String, ks.Perm (GoMap.keys ((sampleState.get? "r").getD [] : repository)) ∧
      sampleView.Iterate sampleExternals { IterType := some (.ManifestDigestKey ""), From := "" }
          (recordUntil "") [] =
        .ok (deliverAll (recordUntil "")
          (ks.filterMap (entryWithPrefix "manifest::" ((sampleState.get? "r").getD []))) []) :=
  ⟨rfl, by decide, by decide, by decide, rfl,
    match C20_Iterate_delivers_variant sampleExternals sampleView
      ((sampleState.get? "r").getD []) "" (recordUntil "") [] rfl (by decide) (by decide)
      (by decide) with
    | ⟨ks, h1, _, _, h4⟩ => ⟨ks, h1, h4⟩⟩


/-! ## Paging through the repositories of the metadata-backed registry -/

theorem leChars_antisymm (a b : List Char) (hab : leChars a b = true) (hba : leChars b a = true) :
    a = b := by
  induction a generalizing b with
  | nil =>
    cases b with
    | nil => rfl
    | cons d ds => simp [leChars] at hba
  | cons c cs ih =>
    cases b with
    | nil => simp [leChars] at hab
    | cons d ds =>
      simp only [leChars] at hab hba
      by_cases h1 : c.toNat < d.toNat
      · have h2 : ¬ d.toNat < c.toNat := by omega
        simp [h1, h2] at hba
      · by_cases h2 : d.toNat < c.toNat
        · simp [h1, h2] at hab
        · simp only [h1, h2, if_false] at hab hba
          have hcd : c = d := by
            apply Char.ext
            exact UInt32.ext (by
              have : c.toNat = d.toNat := by omega
              simpa [Char.toNat, UInt32.toNat] using this)
          rw [hcd, ih ds hab hba]

theorem strLe_antisymm {a b : String} (hab : strLe a b) (hba : strLe b a) : a = b :=
  String.ext (leChars_antisymm a.toList b.toList hab hba)

theorem strLe_refl (a : String) : strLe a a := by
  rcases leChars_total a.toList a.toList with h | h <;> exact h

theorem pastCursor_eq_true (frm r : String) :
    pastCursor frm r = true ↔ ¬ (frm ≠ "" ∧ strLe r frm) := by
  unfold pastCursor
  exact decide_eq_true_iff

/-- The loop of `iterateRepositories` run with the closure of `Repositories`: it appends the
names that pass the cursor test, stopping with `ErrFinishedWalk` when `size` names are
held. -/
theorem iterateRepositories_loop_eq (size : Nat) (frm : String) :
    ∀ (rs items : List String), items.length < size →
      inMemoryMetadataStore.iterateRepositories.loop
          { IterType := some (.RepoKey ""), From := frm }
          (metadataRegistry.Repositories.iterFunc size) rs items =
        if items.length + (rs.filter (pastCursor frm)).length < size then
          (none, items ++ rs.filter (pastCursor frm))
        else
          (some .ErrFinishedWalk,
            items ++ (rs.filter (pastCursor frm)).take (size - items.length)) := by
  intro rs
  induction rs with
  | nil =>
    intro items hlt
    simp [inMemoryMetadataStore.iterateRepositories.loop, hlt]
  | cons r rs ih =>
    intro items hlt
    by_cases hskip : frm ≠ "" ∧ strLe r frm
    · have hp : ¬ pastCursor frm r = true := fun h => (pastCursor_eq_true frm r).1 h hskip
      rw [List.filter_cons_of_neg hp]
      rw [← ih items hlt]
      simp only [inMemoryMetadataStore.iterateRepositories.loop]
      rw [if_pos hskip]
    · have hp : pastCursor frm r = true := (pastCursor_eq_true frm r).2 hskip
      rw [List.filter_cons_of_pos hp]
      simp only [inMemoryMetadataStore.iterateRepositories.loop]
      rw [if_neg hskip]
      simp only [metadataRegistry.Repositories.iterFunc, List.length_append, List.length_cons,
        List.length_nil]
      by_cases hfull : items.length + (0 + 1) ≥ size
      · have h1 : ¬ (items.length + ((rs.filter (pastCursor frm)).length + 1) < size) := by
          omega
        have h2 : size - items.length = 0 + 1 := by omega
        rw [if_pos hfull, if_neg h1, h2, List.take_succ_cons]
        simp
      · rw [if_neg hfull]
        have hlt' : (items ++ [r]).length < size := by
          simp only [List.length_append, List.length_cons, List.length_nil]
          omega
        show inMemoryMetadataStore.iterateRepositories.loop _ _ rs (items ++ [r]) = _
        rw [ih (items ++ [r]) hlt']
        simp only [List.length_append, List.length_cons, List.length_nil]
        by_cases hc : items.length + (0 + 1) + (rs.filter (pastCursor frm)).length < size
        · have hc' : items.length + ((rs.filter (pastCursor frm)).length + 1) < size := by
            omega
          rw [if_pos hc, if_pos hc']
          simp
        · have hc' : ¬ items.length + ((rs.filter (pastCursor frm)).length + 1) < size := by
            omega
          have e2 : size - items.length = (size - (items.length + (0 + 1))) + 1 := by omega
          rw [if_neg hc, if_neg hc', e2, List.take_succ_cons]
          simp

/-- The method `Repositories` of the metadata-backed registry returns the first `size`
names that pass the cursor test, in ascending order, with `io.EOF` when fewer than `size`
pass it. -/
theorem metadataRegistry.Repositories_eq (x : Externals) (s : State) (size : Nat)
    (last : String) (hsize : 0 < size) :
    metadataRegistry.Repositories x s size last =
      .ok (((sortStrings s.keys).filter (pastCursor last)).take size,
        if ((sortStrings s.keys).filter (pastCursor last)).length < size then some .EOF
        else none) := by
  have hne : ¬ size = 0 := by omega
  have hloop := iterateRepositories_loop_eq size last (sortStrings s.keys) [] (by simpa using hsize)
  simp only [List.length_nil, zero_add, List.nil_append, Nat.sub_zero] at hloop
  simp only [metadataRegistry.Repositories, hne, if_false, inMemoryMetadataStore.Iterate,
    if_true, inMemoryMetadataStore.iterateRepositories, hloop]
  by_cases hc : ((sortStrings s.keys).filter (pastCursor last)).length < size
  · have ht : ((sortStrings s.keys).filter (pastCursor last)).take size =
        (sortStrings s.keys).filter (pastCursor last) := List.take_of_length_le (by omega)
    simp [hc, ht]
  · have hl : (((sortStrings s.keys).filter (pastCursor last)).take size).length = size := by
      rw [List.length_take]
      omega
    simp [hc, hl]


/-- In an ascending list of distinct non-empty names cut into `A ++ R`, the names that pass
the test of the cursor "last name of `A`" (the empty cursor when `A` is empty) are `R`. -/
theorem filter_pastCursor_cut (A R : List String)
    (hs : (A ++ R).Pairwise (fun a b => strLe a b ∧ a ≠ b))
    (hne : ∀ a ∈ A ++ R, a ≠ "") :
    (A ++ R).filter (pastCursor (A.getLast?.getD "")) = R := by
  cases hA : A.getLast? with
  | none =>
    have : A = [] := List.getLast?_eq_none_iff.1 hA
    subst this
    simp only [Option.getD_none, List.nil_append]
    rw [List.filter_eq_self]
    intro a _
    rw [pastCursor_eq_true]
    intro h
    exact h.1 rfl
  | some c =>
    obtain ⟨A', hA'⟩ := List.getLast?_eq_some_iff.1 hA
    subst hA'
    simp only [Option.getD_some]
    have hc : c ≠ "" := hne c (by simp)
    obtain ⟨hpA, hpR, hAR⟩ := List.pairwise_append.1 hs
    obtain ⟨_, _, hA'c⟩ := List.pairwise_append.1 hpA
    have h1 : (A' ++ [c]).filter (pastCursor c) = [] := by
      rw [List.filter_eq_nil_iff]
      intro a ha
      rw [pastCursor_eq_true]
      intro hnot
      apply hnot
      refine ⟨hc, ?_⟩
      rcases List.mem_append.1 ha with ha' | ha'
      · exact (hA'c a ha' c (by simp)).1
      · rw [List.mem_singleton] at ha'
        rw [ha']
        exact strLe_refl c
    have h2 : R.filter (pastCursor c) = R := by
      rw [List.filter_eq_self]
      intro b hb
      rw [pastCursor_eq_true]
      rintro ⟨_, hbc⟩
      have hcb := hAR c (by simp) b hb
      exact hcb.2 (strLe_antisymm hcb.1 hbc)
    rw [List.filter_append, h1, h2]
    rfl

theorem foreachRepository.ingest_collect (page acc : List String) :
    foreachRepository.ingest collect page acc = (none, acc ++ page) := by
  induction page generalizing acc with
  | nil => simp [foreachRepository.ingest]
  | cons r rest ih => simp [foreachRepository.ingest, collect, ih]

/-- The loop of `foreachRepository` over the metadata-backed registry, started with the
cursor "last name of `A`" where the sorted names are `A ++ R`, collects `R` and returns
nil, given more fuel than `R` has names. -/
theorem foreachRepository.loop_collect (x : Externals) (s : State) (size : Nat)
    (hsize : 0 < size) (hne : ∀ a ∈ sortStrings s.keys, a ≠ "")
    (hs : (sortStrings s.keys).Pairwise (fun a b => strLe a b ∧ a ≠ b)) :
    ∀ (fuel : Nat) (A R acc : List String), sortStrings s.keys = A ++ R → R.length < fuel →
      foreachRepository.loop (metadataRegistry.Repositories x s size) collect fuel
          (A.getLast?.getD "") acc =
        .ok (none, acc ++ R) := by
  intro fuel
  induction fuel with
  | zero =>
    intro A R acc _ hlt
    omega
  | succ fuel ih =>
    intro A R acc hL hlt
    have hcut : (sortStrings s.keys).filter (pastCursor (A.getLast?.getD "")) = R := by
      rw [hL]
      exact filter_pastCursor_cut A R (hL ▸ hs) (hL ▸ hne)
    have hrep := metadataRegistry.Repositories_eq x s size (A.getLast?.getD "") hsize
    rw [hcut] at hrep
    simp only [foreachRepository.loop, hrep]
    have hcond : ∀ e : Option Error, e = some .EOF ∨ e = none →
        ¬ (e ≠ none ∧ e ≠ some .EOF) := by
      rintro e (he | he) <;> simp [he]
    have herr : ¬ ((if R.length < size then some Error.EOF else none) ≠ none ∧
        (if R.length < size then some Error.EOF else none) ≠ some .EOF) := by
      apply hcond
      by_cases hshort : R.length < size
      · exact Or.inl (if_pos hshort)
      · exact Or.inr (if_neg hshort)
    simp only [herr, if_false]
    cases hR : R with
    | nil => simp
    | cons r rest =>
      rw [← hR]
      have hRne : R ≠ [] := by rw [hR]; simp
      have hRlen : 0 < R.length := List.length_pos.2 hRne
      have hpne : R.take size ≠ [] := by
        intro h
        have := congrArg List.length h
        rw [List.length_take] at this
        simp only [List.length_nil] at this
        omega
      have hlen0 : ¬ (R.take size).length = 0 := by
        intro h
        exact hpne (List.length_eq_zero.1 h)
      simp only [hlen0, if_false, foreachRepository.ingest_collect]
      have hcur : (R.take size).getLast?.getD "" = ((A ++ R.take size).getLast?).getD "" := by
        rw [List.getLast?_append_of_ne_nil A hpne]
      have hL' : sortStrings s.keys = (A ++ R.take size) ++ R.drop size := by
        rw [List.append_assoc, List.take_append_drop]
        exact hL
      have hlt' : (R.drop size).length < fuel := by
        rw [List.length_drop]
        omega
      have hrec := ih (A ++ R.take size) (R.drop size) (acc ++ R.take size) hL' hlt'
      rw [← hcur] at hrec
      simp only [List.append_assoc, List.take_append_drop] at hrec
      simpa using hrec


/-- The paging of the description over the metadata-backed registry, started with the cursor
"last name of `A`" where the sorted names are `A ++ R`: it returns nil, no page is longer
than the buffer, and the pages concatenated are `R`, given more fuel than `R` has names. -/
theorem pagesUntilEOF_metadata (x : Externals) (s : State) (size : Nat)
    (hsize : 0 < size) (hne : ∀ a ∈ sortStrings s.keys, a ≠ "")
    (hs : (sortStrings s.keys).Pairwise (fun a b => strLe a b ∧ a ≠ b)) :
    ∀ (fuel : Nat) (A R : List String), sortStrings s.keys = A ++ R → R.length < fuel →
      ∃ pages, pagesUntilEOF (metadataRegistry.Repositories x s size) fuel
          (A.getLast?.getD "") = .ok (none, pages) ∧
        pages.flatten = R ∧ ∀ p ∈ pages, p.length ≤ size := by
  intro fuel
  induction fuel with
  | zero =>
    intro A R _ hlt
    omega
  | succ fuel ih =>
    intro A R hL hlt
    have hcut : (sortStrings s.keys).filter (pastCursor (A.getLast?.getD "")) = R := by
      rw [hL]
      exact filter_pastCursor_cut A R (hL ▸ hs) (hL ▸ hne)
    have hrep := metadataRegistry.Repositories_eq x s size (A.getLast?.getD "") hsize
    rw [hcut] at hrep
    simp only [pagesUntilEOF, hrep]
    by_cases hshort : R.length < size
    · have ht : R.take size = R := List.take_of_length_le (by omega)
      simp only [hshort, if_true, ht]
      refine ⟨[R], by simp, by simp, ?_⟩
      intro p hp
      rw [List.mem_singleton] at hp
      rw [hp]
      omega
    · have hlen : (R.take size).length = size := by
        rw [List.length_take]
        omega
      have hpne : R.take size ≠ [] := by
        intro h
        rw [h] at hlen
        simp at hlen
        omega
      have hlen0 : ¬ (R.take size).length = 0 := by omega
      have hcur : (R.take size).getLast?.getD "" = ((A ++ R.take size).getLast?).getD "" := by
        rw [List.getLast?_append_of_ne_nil A hpne]
      have hL' : sortStrings s.keys = (A ++ R.take size) ++ R.drop size := by
        rw [List.append_assoc, List.take_append_drop]
        exact hL
      have hlt' : (R.drop size).length < fuel := by
        rw [List.length_drop]
        omega
      obtain ⟨pages, hrec, hflat, hsz⟩ := ih (A ++ R.take size) (R.drop size) hL' hlt'
      rw [← hcur] at hrec
      refine ⟨R.take size :: pages, ?_, ?_, ?_⟩
      · have hor : ¬ ((R.take size).length = 0 ∨ (none : Option Error) = some .EOF) := by
          rintro (h | h)
          · exact hlen0 h
          · exact Option.noConfusion h
        simp only [hshort, if_false, ne_eq, not_true_eq_false, false_and, hor, hrec]
      · simp [hflat]
      · intro p hp
        rcases List.mem_cons.1 hp with h | h
        · rw [h, hlen]
        · exact hsz p h


/-- C18: for the metadata-backed registry, every state whose repositories have distinct
non-empty names and every buffer size of at least 1: the loop of `foreachRepository` (cursor
`""` first, then the last name of each page) terminates with a nil error, and the names of
its pages, in the order they are handed to the ingester, are the ascending sorted list of
all repository names, each once; its test for `io.EOF` reads the result of the ingester, so
it ends at the empty page. The paging that stops at the first empty page or at `io.EOF`
returns pages no longer than the buffer whose concatenation is the same list. -/
theorem C18_metadata_paging_yields_sorted_names (x : Externals) (s : State) (size fuel : Nat)
    (hsize : 1 ≤ size) (hwf : s.WF) (hne : ∀ r ∈ s.keys, r ≠ "")
    (hfuel : s.keys.length < fuel) :
    foreachRepository size (metadataRegistry.Repositories x s) collect [] fuel =
      .ok (none, sortStrings s.keys) ∧
    (∃ pages, pagesUntilEOF (metadataRegistry.Repositories x s size) fuel "" =
        .ok (none, pages) ∧
      pages.flatten = sortStrings s.keys ∧ ∀ p ∈ pages, p.length ≤ size) ∧
    (sortStrings s.keys).Perm s.keys ∧
    (sortStrings s.keys).Pairwise (fun a b => strLe a b ∧ a ≠ b) := by
  have hperm := sortStrings_perm s.keys
  have hs := sortStrings_strict s.keys hwf
  refine ⟨?_, ?_, hperm, hs⟩
  · have h := foreachRepository.loop_collect x s size (by omega)
      (fun a ha => hne a (hperm.mem_iff.1 ha)) hs fuel [] (sortStrings s.keys) [] (by simp)
      (by rw [hperm.length_eq]; exact hfuel)
    simpa [foreachRepository] using h
  · exact pagesUntilEOF_metadata x s size (by omega)
      (fun a ha => hne a (hperm.mem_iff.1 ha)) hs fuel [] (sortStrings s.keys) (by simp)
      (by rw [hperm.length_eq]; exact hfuel)

/-- Witness of C18: the two repositories of `sampleState`, paged with a buffer of one
name; the third call returns the empty page. With a buffer of three names the one page
comes with `io.EOF`, and `foreachRepository` still makes a second call. -/
theorem C18_metadata_paging_yields_sorted_names_witness :
    1 ≤ 1 ∧ sampleState.WF ∧ (∀ r ∈ sampleState.keys, r ≠ "") ∧ sampleState.keys.length < 3 ∧
    foreachRepository 1 (metadataRegistry.Repositories sampleExternals sampleState) collect [] 3 =
      .ok (none, ["q", "r"]) ∧
    pagesUntilEOF (metadataRegistry.Repositories sampleExternals sampleState 1) 3 "" =
      .ok (none, [["q"], ["r"], []]) ∧
    metadataRegistry.Repositories sampleExternals sampleState 3 "" =
      .ok (["q", "r"], some .EOF) ∧
    foreachRepository 3 (metadataRegistry.Repositories sampleExternals sampleState) collect [] 1 =
      .error .outOfFuel ∧
    foreachRepository 3 (metadataRegistry.Repositories sampleExternals sampleState) collect [] 2 =
      .ok (none, ["q", "r"]) ∧
    pagesUntilEOF (metadataRegistry.Repositories sampleExternals sampleState 3) 1 "" =
      .ok (none, [["q", "r"]]) ∧
    foreachRepository 1 (metadataRegistry.Repositories sampleExternals sampleState) collect [] 3 =
      .ok (none, sortStrings sampleState.keys) ∧
    ∃ pages, pagesUntilEOF (metadataRegistry.Repositories sampleExternals sampleState 1) 3 "" =
        .ok (none, pages) ∧
      pages.flatten = sortStrings sampleState.keys ∧ ∀ p ∈ pages, p.length ≤ 1 :=
  ⟨by decide, by decide, by decide, by decide, by decide, by decide, by decide, by decide,
    by decide, by decide,
    (C18_metadata_paging_yields_sorted_names sampleExternals sampleState 1 3 (by decide)
      (by decide) (by decide) (by decide)).1,
    (C18_metadata_paging_yields_sorted_names sampleExternals sampleState 1 3 (by decide)
      (by decide) (by decide) (by decide)).2.1⟩


/-! ## Paging through the repositories of the filesystem-walk registry -/

/-- C19 (evaluation of the code): the driver tree holds the repositories `a/b` and `a-b`.
The walk reaches `a/b` first, although `a-b` sorts before `a/b`. With a buffer of one name
the first page is `a/b` (the walk stops with `ErrFinishedWalk`), and the page after the
cursor `a/b` is empty with `io.EOF`: `a-b` is never returned, and `foreachRepository`
returns the error of the first page without handing any name to the ingester. With a
buffer of two names the one page is `a/b`, `a-b`, which is not ascending. -/
theorem C19_walk_paging_skips_repository :
    registry.Repositories sampleDriver 5 1 "" = .ok (["a/b"], some .ErrFinishedWalk) ∧
    registry.Repositories sampleDriver 5 1 "a/b" = .ok ([], some .EOF) ∧
    registry.Repositories sampleDriver 5 2 "" = .ok (["a/b", "a-b"], some .EOF) ∧
    strLe "a-b" "a/b" ∧ ¬ strLe "a/b" "a-b" ∧
    foreachRepository 1 (registry.Repositories sampleDriver 5) collect [] 5 =
      .ok (some .ErrFinishedWalk, []) := by
  refine ⟨by rfl, by rfl, by rfl, by decide, by decide, by rfl⟩


/-! ## The manifest GET handler -/

/-- C15 (evaluation of the code): the tag `list` points to the manifest list `sha256:11`,
whose `amd64`/`linux` entry is the schema2 manifest stored under `sha256:22`; the client
accepts schema2 manifests but not manifest lists. `GetImageManifest` writes the payload of
the manifest `sha256:22`, with `Docker-Content-Digest` and `Etag` of `sha256:11`, the digest
of the list: in the manifest-list branch `imh.Digest` is set only by the conversion to
schema1, which does not happen here. -/
theorem C15_submanifest_served_with_list_digest :
    ∃ imh' w' resp,
      GetImageManifest sampleHandlerExternals
          { Repository := sampleRepository, Tag := "list", Digest := "" } schema2Request
          { state := listState, tx := none } = .ok (imh', w', resp) ∧
      resp.body = some (some [2, 2]) ∧
      resp.header.get? "Docker-Content-Digest" = some "sha256:11" ∧
      resp.header.get? "Etag" = some "\"sha256:11\"" ∧
      sampleHandlerExternals.manifestStoreGet "sha256:22" none = .ok sampleSchema2 ∧
      sampleSchema2.Payload.payload = some [2, 2] ∧
      sampleHandlerExternals.manifestStoreGet "sha256:11" (some "list") = .ok sampleList ∧
      sampleList.Payload.payload ≠ some [2, 2] :=
  ⟨_, _, _, rfl, rfl, rfl, rfl, rfl, rfl, rfl, by decide⟩

theorem GetImageManifest.write_body (imh : imageManifestHandler) (manifest : Manifest)
    (p : Option (List Nat))
    (h : (GetImageManifest.write imh manifest Response.empty).body = some p) :
    manifest.Payload.err = none ∧ manifest.Payload.payload = p ∧
      (GetImageManifest.write imh manifest Response.empty).header.get? "Docker-Content-Digest" =
        some imh.Digest ∧
      (GetImageManifest.write imh manifest Response.empty).header.get? "Etag" =
        some ("\"" ++ imh.Digest ++ "\"") := by
  unfold GetImageManifest.write at h ⊢
  cases herr : manifest.Payload.err with
  | some e => simp [herr, Response.empty] at h
  | none =>
    simp only [herr] at h ⊢
    refine ⟨trivial, Option.some.inj h, ?_, ?_⟩
    · rw [GoMap.get?_set_ne _ _ (by decide), GoMap.get?_set_self]
    · rw [GoMap.get?_set_self]

theorem metadataRepository.MetadataService_idem (repo : metadataRepository) (s : State) :
    repo.MetadataService (repo.MetadataService s).2 = repo.MetadataService s := by
  unfold metadataRepository.MetadataService inMemoryMetadataStore.RepositoryScoped
  cases h : s.get? repo.name with
  | some rp => simp [h]
  | none => simp [h, GoMap.get?_set_self]

theorem metadataRepository.MetadataService_fst (repo : metadataRepository) (s : State) :
    (repo.MetadataService s).1 = some repo.name := by
  unfold metadataRepository.MetadataService inMemoryMetadataStore.RepositoryScoped
  cases h : s.get? repo.name <;> simp [h]

theorem metadataRepository.Manifests_eq (repo : metadataRepository) (s : State) :
    repo.Manifests s =
      ({ repo := repo.name, store := some repo.name, deleteEnabled := repo.deleteEnabled },
        (inMemoryMetadataStore.RepositoryScoped s repo.name).state) := by
  simp only [metadataRepository.Manifests, metadataRepository.MetadataService_idem,
    metadataRepository.MetadataService_fst]
  rfl

theorem metadataRepository.Tags_eq (repo : metadataRepository) (s : State) :
    repo.Tags s =
      ({ repo := repo.name, store := some repo.name },
        (inMemoryMetadataStore.RepositoryScoped s repo.name).state) := by
  simp only [metadataRepository.Tags, metadataRepository.MetadataService_fst]
  rfl


theorem GetImageManifest.negotiate_no_tag (hx : HandlerExternals) (manifests : manifestService)
    (imh : imageManifestHandler) (r : Request) (w : World) (manifest : Manifest)
    (hTag : imh.Tag = "") :
    GetImageManifest.negotiate hx manifests imh r w manifest =
      .ok (imh, w, GetImageManifest.write imh manifest Response.empty) := by
  cases manifest <;> simp [GetImageManifest.negotiate, hTag]

/-- The end of `GetImageManifest` on a manifest whose payload is available: the payload is
the body, with its media type, its length, and the digest of the handler in
`Docker-Content-Digest` and, quoted, in `Etag`. -/
theorem GetImageManifest.write_ok (imh : imageManifestHandler) (manifest : Manifest)
    (h : manifest.Payload.err = none) :
    (GetImageManifest.write imh manifest Response.empty).body = some manifest.Payload.payload ∧
      (GetImageManifest.write imh manifest Response.empty).header.get? "Content-Type" =
        some manifest.Payload.mediaType ∧
      (GetImageManifest.write imh manifest Response.empty).header.get? "Docker-Content-Digest" =
        some imh.Digest ∧
      (GetImageManifest.write imh manifest Response.empty).header.get? "Etag" =
        some ("\"" ++ imh.Digest ++ "\"") := by
  unfold GetImageManifest.write
  simp only [h]
  refine ⟨trivial, ?_, ?_, ?_⟩
  · rw [GoMap.get?_set_ne _ _ (by decide), GoMap.get?_set_ne _ _ (by decide),
      GoMap.get?_set_ne _ _ (by decide), GoMap.get?_set_self]
  · rw [GoMap.get?_set_ne _ _ (by decide), GoMap.get?_set_self]
  · rw [GoMap.get?_set_self]

/-- C16: for a request by digest (no tag) and every list of `Accept` and `If-None-Match`
headers, `GetImageManifest` returns and the handler's digest is never changed. When the
digest matches no `If-None-Match` value and the manifest service returns the manifest stored
under the requested digest, whose payload is available, the body written is that payload,
`Content-Type` its media type, and `Docker-Content-Digest` the requested digest (`Etag` the
same, quoted). Conversely a body is written only so: whenever there is one, it is the
payload of the manifest the manifest service holds under the requested digest. -/
theorem C16_by_digest_never_rewritten (hx : HandlerExternals) (imh : imageManifestHandler)
    (r : Request) (w : World) (hTag : imh.Tag = "") :
    ∃ imh' w' resp, GetImageManifest hx imh r w = .ok (imh', w', resp) ∧
      imh'.Digest = imh.Digest ∧
      (∀ p, resp.body = some p →
        ∃ manifest,
          (imh.Repository.Manifests w.state).1.Get hx w'.state imh.Digest none = .ok manifest ∧
          manifest.Payload.err = none ∧ manifest.Payload.payload = p ∧
          resp.header.get? "Docker-Content-Digest" = some imh.Digest ∧
          resp.header.get? "Etag" = some ("\"" ++ imh.Digest ++ "\"")) ∧
      (∀ manifest, etagMatch r imh.Digest = false →
        (imh.Repository.Manifests w.state).1.Get hx w'.state imh.Digest none = .ok manifest →
        manifest.Payload.err = none →
        resp.body = some manifest.Payload.payload ∧
        resp.header.get? "Content-Type" = some manifest.Payload.mediaType ∧
        resp.header.get? "Docker-Content-Digest" = some imh.Digest ∧
        resp.header.get? "Etag" = some ("\"" ++ imh.Digest ++ "\"")) := by
  unfold GetImageManifest
  simp only [hTag, ne_eq, not_true_eq_false, if_false]
  by_cases he : etagMatch r imh.Digest = true
  · simp only [he, if_true]
    exact ⟨_, _, _, rfl, rfl, by simp [Response.empty], fun _ h => by simp at h⟩
  · simp only [he, if_false]
    cases hg : (imh.Repository.Manifests w.state).1.Get hx (imh.Repository.Manifests w.state).2
        imh.Digest none with
    | error err =>
      refine ⟨_, _, _, rfl, rfl, by simp [Response.empty], ?_⟩
      intro manifest _ hget _
      simp only [hg] at hget
      exact Except.noConfusion hget
    | ok manifest =>
      simp only [GetImageManifest.negotiate_no_tag hx _ imh r _ manifest hTag]
      refine ⟨_, _, _, rfl, rfl, ?_, ?_⟩
      · intro p hp
        obtain ⟨h1, h2, h3, h4⟩ := GetImageManifest.write_body imh manifest p hp
        exact ⟨manifest, hg, h1, h2, h3, h4⟩
      · intro manifest' _ hget hpay
        simp only [hg, Except.ok.injEq] at hget
        subst hget
        exact GetImageManifest.write_ok imh manifest hpay

/-- Witness of C16: the manifest list `sha256:11` requested by digest by a client that does
not accept manifest lists is served as it is stored, payload and digest. -/
theorem C16_by_digest_never_rewritten_witness :
    (⟨sampleRepository, "", "sha256:11"⟩ : imageManifestHandler).Tag = "" ∧
    (∃ imh' w' resp,
      GetImageManifest sampleHandlerExternals ⟨sampleRepository, "", "sha256:11"⟩ schema2Request
          { state := listState, tx := none } = .ok (imh', w', resp) ∧
      resp.body = some sampleList.Payload.payload ∧
      sampleList.Payload.payload = some [1, 1] ∧
      resp.header.get? "Content-Type" = some sampleList.Payload.mediaType ∧
      resp.header.get? "Docker-Content-Digest" = some "sha256:11" ∧
      resp.header.get? "Etag" = some "\"sha256:11\"") ∧
    ∃ imh' w' resp,
      GetImageManifest sampleHandlerExternals ⟨sampleRepository, "", "sha256:11"⟩ schema2Request
          { state := listState, tx := none } = .ok (imh', w', resp) ∧
      imh'.Digest = "sha256:11" ∧
      (∀ p, resp.body = some p →
        ∃ manifest,
          ((⟨sampleRepository, "", "sha256:11"⟩ : imageManifestHandler).Repository.Manifests
              listState).1.Get sampleHandlerExternals w'.state "sha256:11" none = .ok manifest ∧
          manifest.Payload.err = none ∧ manifest.Payload.payload = p ∧
          resp.header.get? "Docker-Content-Digest" = some "sha256:11" ∧
          resp.header.get? "Etag" = some ("\"" ++ "sha256:11" ++ "\"")) ∧
      (∀ manifest, etagMatch schema2Request "sha256:11" = false →
        ((⟨sampleRepository, "", "sha256:11"⟩ : imageManifestHandler).Repository.Manifests
            listState).1.Get sampleHandlerExternals w'.state "sha256:11" none = .ok manifest →
        manifest.Payload.err = none →
        resp.body = some manifest.Payload.payload ∧
        resp.header.get? "Content-Type" = some manifest.Payload.mediaType ∧
        resp.header.get? "Docker-Content-Digest" = some "sha256:11" ∧
        resp.header.get? "Etag" = some ("\"" ++ "sha256:11" ++ "\"")) :=
  ⟨rfl, ⟨_, _, _, rfl, rfl, rfl, rfl, rfl, rfl⟩,
    C16_by_digest_never_rewritten sampleHandlerExternals ⟨sampleRepository, "", "sha256:11"⟩
      schema2Request { state := listState, tx := none } rfl⟩

theorem GetImageManifest.manifestDigest_find (list : List ManifestDescriptor) :
    GetImageManifest.manifestDigest list =
      ((list.find? (fun md =>
        decide (md.Platform.Architecture = defaultArch ∧ md.Platform.OS = defaultOS))).map
          (fun md => md.Descriptor.Digest)).getD "" := by
  induction list with
  | nil => rfl
  | cons md rest ih =>
    by_cases h : md.Platform.Architecture = defaultArch ∧ md.Platform.OS = defaultOS
    · simp [GetImageManifest.manifestDigest, List.find?_cons, h]
    · simp only [GetImageManifest.manifestDigest, h, if_false, List.find?_cons,
        decide_False, ih]


theorem RepositoryScoped_state_idem (s : State) (r : String) :
    (inMemoryMetadataStore.RepositoryScoped
      (inMemoryMetadataStore.RepositoryScoped s r).state r).state =
      (inMemoryMetadataStore.RepositoryScoped s r).state := by
  unfold inMemoryMetadataStore.RepositoryScoped
  cases h : s.get? r with
  | some rp => simp [h]
  | none => simp [h, GoMap.get?_set_self]

/-- A request by tag whose tag resolves, whose digest matches no `If-None-Match` value and
whose manifest is loaded goes on to the negotiation with the digest of the tag. -/
theorem GetImageManifest_by_tag (hx : HandlerExternals) (imh : imageManifestHandler)
    (r : Request) (w : World) (desc : Descriptor) (manifest : Manifest)
    (hTag : imh.Tag ≠ "")
    (hget : TagService.Get { repo := imh.Repository.name, store := some imh.Repository.name }
      (inMemoryMetadataStore.RepositoryScoped w.state imh.Repository.name).state imh.Tag =
        (desc, none))
    (hetag : etagMatch r desc.Digest = false)
    (hman : manifestService.Get hx
      { repo := imh.Repository.name, store := some imh.Repository.name,
        deleteEnabled := imh.Repository.deleteEnabled }
      (inMemoryMetadataStore.RepositoryScoped w.state imh.Repository.name).state desc.Digest
      (some imh.Tag) = .ok manifest) :
    GetImageManifest hx imh r w =
      GetImageManifest.negotiate hx
        { repo := imh.Repository.name, store := some imh.Repository.name,
          deleteEnabled := imh.Repository.deleteEnabled }
        { imh with Digest := desc.Digest } r
        { w with state :=
          (inMemoryMetadataStore.RepositoryScoped w.state imh.Repository.name).state }
        manifest := by
  unfold GetImageManifest
  simp only [metadataRepository.Manifests_eq, metadataRepository.Tags_eq,
    RepositoryScoped_state_idem, hTag, ne_eq, not_false_eq_true, if_true, hget, hetag, hman]
  simp

/-- C17: a manifest list is requested by tag (the tag resolves, no `If-None-Match` value
matches, the manifest service holds a manifest list under the tag's digest) and no `Accept`
value names the manifest-list media type. When no descriptor of the list has the platform
`amd64`/`linux`, the handler records `ManifestUnknown` and writes nothing. Otherwise it asks
the manifest service for the digest of the first such descriptor in list order (a non-empty
digest): an error is recorded as `ManifestUnknown` with nothing written; a sub-manifest that
needs no conversion is written as it is; a schema2 sub-manifest for a client that does not
accept schema2 is handed to `convertSchema2Manifest`. -/
theorem C17_manifest_list_default_platform (hx : HandlerExternals) (imh : imageManifestHandler)
    (r : Request) (w : World) (desc : Descriptor) (list : List ManifestDescriptor)
    (p : PayloadResult) (hTag : imh.Tag ≠ "")
    (hget : TagService.Get { repo := imh.Repository.name, store := some imh.Repository.name }
      (inMemoryMetadataStore.RepositoryScoped w.state imh.Repository.name).state imh.Tag =
        (desc, none))
    (hetag : etagMatch r desc.Digest = false)
    (hman : manifestService.Get hx
      { repo := imh.Repository.name, store := some imh.Repository.name,
        deleteEnabled := imh.Repository.deleteEnabled }
      (inMemoryMetadataStore.RepositoryScoped w.state imh.Repository.name).state desc.Digest
      (some imh.Tag) = .ok (.DeserializedManifestList list p))
    (hsup : supportsManifestList hx r = false) :
    (list.find? (fun md => decide (md.Platform.Architecture = "amd64" ∧ md.Platform.OS = "linux")) =
        none →
      GetImageManifest hx imh r w =
        .ok ({ imh with Digest := desc.Digest },
          { w with
            state := (inMemoryMetadataStore.RepositoryScoped w.state imh.Repository.name).state
            Errors := w.Errors ++ [.code .ManifestUnknown] },
          Response.empty)) ∧
    (∀ md, list.find? (fun md =>
        decide (md.Platform.Architecture = "amd64" ∧ md.Platform.OS = "linux")) = some md →
      md.Descriptor.Digest ≠ "" →
      (∀ err, manifestService.Get hx
          { repo := imh.Repository.name, store := some imh.Repository.name,
            deleteEnabled := imh.Repository.deleteEnabled }
          (inMemoryMetadataStore.RepositoryScoped w.state imh.Repository.name).state
          md.Descriptor.Digest none = .error err →
        GetImageManifest hx imh r w =
          .ok ({ imh with Digest := desc.Digest },
            { w with
              state := (inMemoryMetadataStore.RepositoryScoped w.state imh.Repository.name).state
              Errors := w.Errors ++ [.withDetail .ManifestUnknown err] },
            Response.empty)) ∧
      (∀ sub, manifestService.Get hx
          { repo := imh.Repository.name, store := some imh.Repository.name,
            deleteEnabled := imh.Repository.deleteEnabled }
          (inMemoryMetadataStore.RepositoryScoped w.state imh.Repository.name).state
          md.Descriptor.Digest none = .ok sub →
        (supportsSchema2 hx r = true ∨ ∀ t refs q, sub ≠ .DeserializedManifest t refs q) →
        GetImageManifest hx imh r w =
          .ok ({ imh with Digest := desc.Digest },
            { w with state :=
              (inMemoryMetadataStore.RepositoryScoped w.state imh.Repository.name).state },
            GetImageManifest.write { imh with Digest := desc.Digest } sub Response.empty)) ∧
      (∀ t refs q, manifestService.Get hx
          { repo := imh.Repository.name, store := some imh.Repository.name,
            deleteEnabled := imh.Repository.deleteEnabled }
          (inMemoryMetadataStore.RepositoryScoped w.state imh.Repository.name).state
          md.Descriptor.Digest none = .ok (.DeserializedManifest t refs q) →
        supportsSchema2 hx r = false →
        GetImageManifest hx imh r w =
          match convertSchema2Manifest hx { imh with Digest := desc.Digest }
              { w with state :=
                (inMemoryMetadataStore.RepositoryScoped w.state imh.Repository.name).state }
              t refs with
          | .error e => .error e
          | .ok (.error _, imh', w') => .ok (imh', w', Response.empty)
          | .ok (.ok converted, imh', w') =>
            .ok (imh', w', GetImageManifest.write imh' converted Response.empty))) := by
  have hbase := GetImageManifest_by_tag hx imh r w desc _ hTag hget hetag hman
  refine ⟨?_, ?_⟩
  · intro hnone
    have hd : GetImageManifest.manifestDigest list = "" := by
      rw [GetImageManifest.manifestDigest_find]
      simp only [defaultArch, defaultOS, hnone]
      rfl
    rw [hbase]
    simp [GetImageManifest.negotiate, hTag, hsup, hd]
  · intro md hmd hne
    have hd : GetImageManifest.manifestDigest list = md.Descriptor.Digest := by
      rw [GetImageManifest.manifestDigest_find]
      simp only [defaultArch, defaultOS, hmd]
      rfl
    refine ⟨?_, ?_, ?_⟩
    · intro err herr
      rw [hbase]
      simp [GetImageManifest.negotiate, hTag, hsup, hd, hne, herr]
    · intro sub hsub hnoconv
      rw [hbase]
      cases sub with
      | DeserializedManifest t refs q =>
        rcases hnoconv with h2 | h2
        · simp [GetImageManifest.negotiate, hTag, hsup, hd, hne, hsub, h2]
        · exact absurd rfl (h2 t refs q)
      | SignedManifest c q => simp [GetImageManifest.negotiate, hTag, hsup, hd, hne, hsub]
      | DeserializedManifestList l q =>
        simp [GetImageManifest.negotiate, hTag, hsup, hd, hne, hsub]
    · intro t refs q hsub h2
      rw [hbase]
      simp [GetImageManifest.negotiate, hTag, hsup, hd, hne, hsub, h2]

/-- Witness of C17: the tag `list` requested by a client that accepts schema2 manifests but
no manifest lists; the handler writes the `amd64`/`linux` sub-manifest `sha256:22`. -/
theorem C17_manifest_list_default_platform_witness :
    listByTag.Tag ≠ "" ∧
    TagService.Get { repo := listByTag.Repository.name, store := some listByTag.Repository.name }
      (inMemoryMetadataStore.RepositoryScoped listState listByTag.Repository.name).state
      listByTag.Tag = (listDesc, none) ∧
    etagMatch schema2Request listDesc.Digest = false ∧
    supportsManifestList sampleHandlerExternals schema2Request = false ∧
    sampleListEntries.find? (fun md =>
      decide (md.Platform.Architecture = "amd64" ∧ md.Platform.OS = "linux")) = some amd64Entry ∧
    amd64Entry.Descriptor.Digest ≠ "" ∧
    GetImageManifest sampleHandlerExternals listByTag schema2Request
        { state := listState, tx := none } =
      .ok ({ listByTag with Digest := listDesc.Digest },
        { state := (inMemoryMetadataStore.RepositoryScoped listState
            listByTag.Repository.name).state, tx := none },
        GetImageManifest.write { listByTag with Digest := listDesc.Digest } sampleSchema2
          Response.empty) :=
  ⟨by decide, rfl, rfl, rfl, rfl, by decide,
    ((C17_manifest_list_default_platform sampleHandlerExternals listByTag schema2Request
      { state := listState, tx := none } listDesc sampleListEntries sampleListPayload (by decide)
      rfl rfl rfl rfl).2 amd64Entry rfl (by decide)).2.1 sampleSchema2 rfl (Or.inl rfl)⟩


/-! ## C14: a PUT whose digest does not match the payload -/

/-- Scoping a view of a repository changes no repository map, a missing one read as the
empty map. -/
theorem RepositoryScoped_get? (s : State) (r r' : String) :
    ((inMemoryMetadataStore.RepositoryScoped s r).state.get? r').getD [] =
      (s.get? r').getD [] := by
  unfold inMemoryMetadataStore.RepositoryScoped
  cases h : s.get? r with
  | some rp => rfl
  | none =>
    by_cases hr : r' = r
    · subst hr
      simp [GoMap.get?_set_self, h]
    · simp [GoMap.get?_set_ne _ _ hr]

/-- Counterexample to C14 as stated: a PUT by a mismatching digest into a store without the
repository leaves the store with an (empty) entry for the repository, so the metadata store
is not unchanged. -/
theorem C14_digest_mismatch_counterexample :
    sampleHandlerExternals.UnmarshalManifest putRequest.ContentType [1] =
      .ok (sampleSchema2, sampleDesc) ∧
    mismatched.Digest ≠ "" ∧ sampleDesc.Digest ≠ mismatched.Digest ∧
    PutImageManifest sampleHandlerExternals sampleExternals mismatched putRequest "tx" 2
        { state := [], tx := none } =
      .ok (mismatched,
        { state := [("r", [])], tx := none, Errors := [ApiError.code .DigestInvalid] },
        Response.empty) ∧
    ([("r", [])] : State) ≠ [] :=
  ⟨rfl, by decide, by decide, rfl, by decide⟩

/-- C14 (amended): a PUT addressed by a digest that differs from the digest of the payload
returns without a response (so without status 201), appends exactly `DigestInvalid` to the
errors, leaves the transaction of the context as it was, and writes no key: every repository
map, a missing one read as empty, is what it was. The store itself is unchanged when the
repository had an entry; otherwise it gains the empty entry that scoping the view creates. -/
theorem C14_digest_mismatch_writes_no_key (hx : HandlerExternals) (x : Externals)
    (imh : imageManifestHandler) (r : Request) (id : String) (fuel : Nat) (w : World)
    (jsonBuf : List Nat) (manifest : Manifest) (desc : Descriptor)
    (hbody : r.Body = some jsonBuf)
    (hun : hx.UnmarshalManifest r.ContentType jsonBuf = .ok (manifest, desc))
    (hd : imh.Digest ≠ "") (hne : desc.Digest ≠ imh.Digest) :
    ∃ w', PutImageManifest hx x imh r id fuel w = .ok (imh, w', Response.empty) ∧
      Response.empty.status = none ∧
      w'.Errors = w.Errors ++ [.code .DigestInvalid] ∧
      w'.tx = w.tx ∧
      (∀ r', (w'.state.get? r').getD [] = (w.state.get? r').getD []) ∧
      (w.state.get? imh.Repository.name ≠ none → w'.state = w.state) ∧
      (w.state.get? imh.Repository.name = none →
        w'.state = w.state.set imh.Repository.name []) := by
  refine ⟨{ w with state := (inMemoryMetadataStore.RepositoryScoped w.state
      imh.Repository.name).state, Errors := w.Errors ++ [.code .DigestInvalid] }, ?_, rfl, rfl,
    rfl, ?_, ?_, ?_⟩
  · simp [PutImageManifest, hbody, hun, hd, hne, metadataRepository.Manifests_eq]
  · intro r'
    exact RepositoryScoped_get? w.state imh.Repository.name r'
  · intro h
    show (inMemoryMetadataStore.RepositoryScoped w.state imh.Repository.name).state = w.state
    unfold inMemoryMetadataStore.RepositoryScoped
    cases h' : w.state.get? imh.Repository.name with
    | some rp => rfl
    | none => exact absurd h' h
  · intro h
    show (inMemoryMetadataStore.RepositoryScoped w.state imh.Repository.name).state = _
    unfold inMemoryMetadataStore.RepositoryScoped
    simp [h]

/-- Witness of C14 (amended): the PUT by `sha256:00` of a payload whose digest is that of
`sampleDesc`, into the store with the manifest list. -/
theorem C14_digest_mismatch_writes_no_key_witness :
    putRequest.Body = some [1] ∧
    sampleHandlerExternals.UnmarshalManifest putRequest.ContentType [1] =
      .ok (sampleSchema2, sampleDesc) ∧
    mismatched.Digest ≠ "" ∧ sampleDesc.Digest ≠ mismatched.Digest ∧
    ∃ w', PutImageManifest sampleHandlerExternals sampleExternals mismatched putRequest "tx" 2
        { state := listState, tx := none } = .ok (mismatched, w', Response.empty) ∧
      Response.empty.status = none ∧
      w'.Errors = ([] : List ApiError) ++ [.code .DigestInvalid] ∧
      w'.tx = none ∧
      (∀ r', (w'.state.get? r').getD [] = (listState.get? r').getD []) ∧
      (listState.get? mismatched.Repository.name ≠ none → w'.state = listState) ∧
      (listState.get? mismatched.Repository.name = none →
        w'.state = listState.set mismatched.Repository.name []) :=
  ⟨rfl, rfl, by decide, by decide,
    C14_digest_mismatch_writes_no_key sampleHandlerExternals sampleExternals mismatched
      putRequest "tx" 2 { state := listState, tx := none } [1] sampleSchema2 sampleDesc rfl rfl
      (by decide) (by decide)⟩


/-! ## C12: the tags of a repository resolve to manifests of the repository -/

theorem TagKey_ne_ManifestDigestKey (t d : String) :
    (Key.TagKey t).String ≠ (Key.ManifestDigestKey d).String := by
  intro h
  have h1 := stripPrefix_append "tag::" t
  have h2 : stripPrefix "tag::" ("manifest::" ++ d) = none := by
    simp [stripPrefix, List.isPrefixOf]
  simp only [Key.String] at h
  rw [h, h2] at h1
  exact absurd h1 (by simp)

theorem ManifestDigestKey_String_injective {d d' : String}
    (h : (Key.ManifestDigestKey d').String = (Key.ManifestDigestKey d).String) : d' = d := by
  have h1 := stripPrefix_append "manifest::" d'
  have h2 := stripPrefix_append "manifest::" d
  simp only [Key.String] at h
  rw [h, h2] at h1
  exact (Option.some.inj h1).symm

theorem tagsResolveIn_iff (rp : repository) :
    tagsResolveIn rp = true ↔
      ∀ t d, rp.get? (Key.TagKey t).String = some (some (.descriptor d)) →
        rp.get? (Key.ManifestDigestKey d.Digest).String ≠ none := by
  unfold tagsResolveIn
  rw [List.all_eq_true]
  constructor
  · intro h t d htd
    have hk := h _ (GoMap.mem_keys_of_get? rp htd)
    have hs : stripPrefix "tag::" (Key.TagKey t).String = some t := stripPrefix_append "tag::" t
    rw [hs, htd] at hk
    simp only [Option.isSome_iff_ne_none] at hk
    exact hk
  · intro h k _
    split
    · rename_i t d hs hg
      have hk := stripPrefix_eq_some hs
      subst hk
      rw [Option.isSome_iff_ne_none]
      exact h _ d hg
    · rfl

theorem tagsResolve_iff (s : State) :
    tagsResolve s = true ↔ ∀ r rp, s.get? r = some rp → tagsResolveIn rp = true := by
  unfold tagsResolve
  rw [List.all_eq_true]
  constructor
  · intro h r rp hr
    have hk := h _ (GoMap.mem_keys_of_get? s hr)
    rw [hr] at hk
    exact hk
  · intro h r _
    split
    · rename_i rp hr
      exact h r rp hr
    · rfl

theorem tagsResolve_set (s : State) (r : String) (rp : repository)
    (h : tagsResolve s = true) (hrp : tagsResolveIn rp = true) :
    tagsResolve (s.set r rp) = true := by
  rw [tagsResolve_iff] at h ⊢
  intro r0 rp0 h0
  by_cases hr : r0 = r
  · subst hr
    rw [GoMap.get?_set_self] at h0
    cases h0
    exact hrp
  · rw [GoMap.get?_set_ne _ _ hr] at h0
    exact h r0 rp0 h0

theorem tagsResolveIn_set_tag (rp : repository) (tag : String) (desc : Descriptor)
    (h : tagsResolveIn rp = true)
    (hm : rp.get? (Key.ManifestDigestKey desc.Digest).String ≠ none) :
    tagsResolveIn (rp.set (Key.TagKey tag).String (some (.descriptor desc))) = true := by
  rw [tagsResolveIn_iff] at h ⊢
  intro t d htd
  rw [GoMap.get?_set_ne _ _ (TagKey_ne_ManifestDigestKey tag d.Digest).symm]
  by_cases ht : (Key.TagKey t).String = (Key.TagKey tag).String
  · rw [ht, GoMap.get?_set_self] at htd
    cases htd
    exact hm
  · rw [GoMap.get?_set_ne _ _ ht] at htd
    exact h t d htd

theorem tagsResolveIn_delete_tag (rp : repository) (tag : String)
    (h : tagsResolveIn rp = true) :
    tagsResolveIn (rp.delete (Key.TagKey tag).String) = true := by
  rw [tagsResolveIn_iff] at h ⊢
  intro t d htd
  rw [GoMap.get?_delete_ne _ (TagKey_ne_ManifestDigestKey tag d.Digest).symm]
  by_cases ht : (Key.TagKey t).String = (Key.TagKey tag).String
  · rw [ht, GoMap.get?_delete_self] at htd
    cases htd
  · rw [GoMap.get?_delete_ne _ ht] at htd
    exact h t d htd

theorem tagsResolveIn_set_manifest (rp : repository) (dgst : String) (v : Option Value)
    (h : tagsResolveIn rp = true) :
    tagsResolveIn (rp.set (Key.ManifestDigestKey dgst).String v) = true := by
  rw [tagsResolveIn_iff] at h ⊢
  intro t d htd
  rw [GoMap.get?_set_ne _ _ (TagKey_ne_ManifestDigestKey t dgst)] at htd
  by_cases hd : (Key.ManifestDigestKey d.Digest).String = (Key.ManifestDigestKey dgst).String
  · rw [hd, GoMap.get?_set_self]
    simp
  · rw [GoMap.get?_set_ne _ _ hd]
    exact h t d htd

theorem tagsResolveIn_delete_manifest (rp : repository) (dgst : String)
    (h : tagsResolveIn rp = true)
    (hno : ∀ t d, rp.get? (Key.TagKey t).String = some (some (.descriptor d)) →
      d.Digest ≠ dgst) :
    tagsResolveIn (rp.delete (Key.ManifestDigestKey dgst).String) = true := by
  rw [tagsResolveIn_iff] at h ⊢
  intro t d htd
  rw [GoMap.get?_delete_ne _ (TagKey_ne_ManifestDigestKey t dgst)] at htd
  have hd : (Key.ManifestDigestKey d.Digest).String ≠ (Key.ManifestDigestKey dgst).String :=
    fun e => hno t d htd (ManifestDigestKey_String_injective e)
  rw [GoMap.get?_delete_ne _ hd]
  exact h t d htd


/-- Counterexample to C12 as stated: on the store right after `RepositoryScoped` on the empty
store, a direct `Tag` of a descriptor whose manifest was never put returns nil and leaves a
tag without its manifest key; and a direct `Delete` of a manifest that a tag points to
returns nil and leaves that tag without its manifest key. -/
theorem C12_preserve_counterexample :
    freshState = [("r", [])] ∧ tagsResolve freshState = true ∧
    rTags.Tag sampleExternals { state := freshState, tx := none } "a" sampleDesc =
      .ok (none, { state := [("r", [("tag::a", some (.descriptor sampleDesc))])],
                   tx := none }) ∧
    tagsResolve [("r", [("tag::a", some (.descriptor sampleDesc))])] = false ∧
    tagsResolve listState = true ∧
    (rManifests.Delete { state := listState, tx := none } "sha256:22").1 = none ∧
    tagsResolve (rManifests.Delete { state := listState, tx := none } "sha256:22").2.state =
      false :=
  ⟨rfl, rfl, rfl, rfl, rfl, rfl, rfl⟩

/-- C12 (amended): on a store in which every tag of every repository resolves to a manifest
key of its repository, through the services of a repository that has an entry: `Untag`
keeps the invariant; `Tag` returns and keeps it when the manifest key of the descriptor
exists; `Put` returns and keeps it when the schema-aware store it calls first keeps it (and
the entry of the repository); `Delete` keeps it when no tag of the repository resolves to
the digest. With a transaction in the context `Tag`, `Untag` and `Delete` leave the store
as it is, and `Put` leaves it as the schema-aware store left it. -/
theorem C12_operations_preserve_tags_resolve (hx : HandlerExternals) (x : Externals)
    (ts : TagService) (ms : manifestService) (r : String) (w : World)
    (hts : ts.store = some r) (hms : ms.store = some r)
    (hsc : w.state.get? r ≠ none)
    (hinv : tagsResolve w.state = true) :
    (∀ tag, tagsResolve (ts.Untag w tag).2.state = true) ∧
    (∀ tag desc, (ms.Exists w.state desc.Digest).1 = true →
      ∃ err w', ts.Tag x w tag desc = .ok (err, w') ∧ tagsResolve w'.state = true) ∧
    (∀ manifest, tagsResolve (hx.manifestStorePut manifest w.state).2 = true →
      (hx.manifestStorePut manifest w.state).2.get? r ≠ none →
      ∃ res w', ms.Put hx w manifest = .ok (res, w') ∧ tagsResolve w'.state = true) ∧
    (∀ dgst, (∀ tag, (ts.Get w.state tag).2 = none → (ts.Get w.state tag).1.Digest ≠ dgst) →
      tagsResolve (ms.Delete w dgst).2.state = true) ∧
    (w.tx ≠ none →
      (∀ tag, (ts.Untag w tag).2.state = w.state) ∧
      (∀ tag desc, ∃ err w', ts.Tag x w tag desc = .ok (err, w') ∧ w'.state = w.state) ∧
      (∀ manifest, ∃ res w', ms.Put hx w manifest = .ok (res, w') ∧
        w'.state = (hx.manifestStorePut manifest w.state).2) ∧
      (∀ dgst, (ms.Delete w dgst).2.state = w.state)) := by
  cases hrp : w.state.get? r with
  | none => exact absurd hrp hsc
  | some rp =>
  have hin : tagsResolveIn rp = true := (tagsResolve_iff w.state).1 hinv r rp hrp
  refine ⟨?_, ?_, ?_, ?_, ?_⟩
  · intro tag
    unfold TagService.Untag
    cases htx : w.tx with
    | none =>
      simp only [inMemoryMetadataStore.Delete, inMemoryMetadataStore.repoMap,
        MetadataService.on, hts, hrp, inMemoryMetadataStore.withRepoMap]
      cases rp.get? (Key.TagKey tag).String with
      | none => exact hinv
      | some v => exact tagsResolve_set _ _ _ hinv (tagsResolveIn_delete_tag rp tag hin)
    | some tx =>
      simp only
      split <;> exact hinv
  · intro tag desc hex
    have hm : rp.get? (Key.ManifestDigestKey desc.Digest).String ≠ none := by
      simp only [manifestService.Exists, inMemoryMetadataStore.Exists,
        inMemoryMetadataStore.repoMap, MetadataService.on, hms, hrp] at hex
      intro hn
      rw [hn] at hex
      cases hex
    unfold TagService.Tag
    cases x.ParseDigest desc.Digest with
    | some err => exact ⟨_, _, rfl, hinv⟩
    | none =>
      cases htx : w.tx with
      | none =>
        simp only [inMemoryMetadataStore.Put, inMemoryMetadataStore.repoMap,
          MetadataService.on, hts, hrp, inMemoryMetadataStore.withRepoMap]
        exact ⟨_, _, rfl, tagsResolve_set _ _ _ hinv (tagsResolveIn_set_tag rp tag desc hin hm)⟩
      | some tx =>
        simp only
        split <;> exact ⟨_, _, rfl, hinv⟩
  · intro manifest hinv1 hsc1
    unfold manifestService.Put
    cases hput : hx.manifestStorePut manifest w.state with
    | mk res s1 =>
      rw [hput] at hinv1 hsc1
      simp only at hinv1 hsc1
      obtain ⟨dgst, err⟩ := res
      cases err with
      | some e => exact ⟨_, _, rfl, hinv1⟩
      | none =>
        cases hrp1 : s1.get? r with
        | none => exact absurd hrp1 hsc1
        | some rp1 =>
          have hin1 : tagsResolveIn rp1 = true := (tagsResolve_iff s1).1 hinv1 r rp1 hrp1
          cases htx : w.tx with
          | none =>
            simp only [inMemoryMetadataStore.Put, inMemoryMetadataStore.repoMap,
              MetadataService.on, hms, hrp1, inMemoryMetadataStore.withRepoMap]
            exact ⟨_, _, rfl,
              tagsResolve_set _ _ _ hinv1 (tagsResolveIn_set_manifest rp1 dgst _ hin1)⟩
          | some tx =>
            simp only
            cases manifest.Payload.err with
            | some e => exact ⟨_, _, rfl, hinv1⟩
            | none =>
              simp only
              split <;> exact ⟨_, _, rfl, hinv1⟩
  · intro dgst hno
    have hno' : ∀ t d, rp.get? (Key.TagKey t).String = some (some (.descriptor d)) →
        d.Digest ≠ dgst := by
      intro t d htd
      have hg : (ts.store.on w.state).getOrNil (Key.TagKey t).String = some (.descriptor d) := by
        have hm : (ts.store.on w.state).repoMap = some rp := by
          simp [inMemoryMetadataStore.repoMap, MetadataService.on, hts, hrp]
        rw [inMemoryMetadataStore.getOrNil_of_repoMap hm, htd]
        rfl
      have hget := TagService.Get_of_getOrNil_descriptor ts w.state t d hg
      have := hno t (by rw [hget])
      rw [hget] at this
      exact this
    unfold manifestService.Delete
    split
    · exact hinv
    · simp only [manifestService.Exists, inMemoryMetadataStore.Exists,
        inMemoryMetadataStore.repoMap, MetadataService.on, hms, hrp]
      cases hk : rp.get? (Key.ManifestDigestKey dgst).String with
      | none => exact hinv
      | some v =>
        simp only
        cases htx : w.tx with
        | none =>
          simp only [inMemoryMetadataStore.Delete, inMemoryMetadataStore.repoMap, hrp, hk,
            inMemoryMetadataStore.withRepoMap]
          exact tagsResolve_set _ _ _ hinv (tagsResolveIn_delete_manifest rp dgst hin hno')
        | some tx =>
          simp only
          split <;> exact hinv
  · intro htx
    cases htx' : w.tx with
    | none => exact absurd htx' htx
    | some tx =>
      refine ⟨?_, ?_, ?_, ?_⟩
      · intro tag
        simp only [TagService.Untag, htx']
        split <;> rfl
      · intro tag desc
        simp only [TagService.Tag, htx']
        cases x.ParseDigest desc.Digest with
        | some err => exact ⟨_, _, rfl, rfl⟩
        | none =>
          simp only
          split <;> exact ⟨_, _, rfl, rfl⟩
      · intro manifest
        simp only [manifestService.Put, htx']
        cases hput : hx.manifestStorePut manifest w.state with
        | mk res s1 =>
          obtain ⟨dgst, err⟩ := res
          cases err with
          | some e => exact ⟨_, _, rfl, rfl⟩
          | none =>
            simp only
            cases manifest.Payload.err with
            | some e => exact ⟨_, _, rfl, rfl⟩
            | none =>
              simp only
              split <;> exact ⟨_, _, rfl, rfl⟩
      · intro dgst
        simp only [manifestService.Delete, htx']
        split
        · rfl
        · split <;> first | rfl | (split <;> rfl)


/-- Witness of C12 (amended): the services of repository `r` on the store with the manifest
list, in which every tag resolves, outside a transaction and with the transaction
`sampleTx` in the context. -/
theorem C12_operations_preserve_tags_resolve_witness :
    rTags.store = some "r" ∧ rManifests.store = some "r" ∧
    (World.mk listState none []).state.get? "r" ≠ none ∧
    tagsResolve (World.mk listState none []).state = true ∧
    (World.mk listState (some sampleTx) []).tx ≠ none ∧
    ((∀ tag, tagsResolve (rTags.Untag (World.mk listState none []) tag).2.state = true) ∧
    (∀ tag desc, (rManifests.Exists (World.mk listState none []).state desc.Digest).1 = true →
      ∃ err w', rTags.Tag sampleExternals (World.mk listState none []) tag desc = .ok (err, w') ∧
        tagsResolve w'.state = true) ∧
    (∀ manifest,
      tagsResolve (sampleHandlerExternals.manifestStorePut manifest
        (World.mk listState none []).state).2 = true →
      (sampleHandlerExternals.manifestStorePut manifest
        (World.mk listState none []).state).2.get? "r" ≠ none →
      ∃ res w', rManifests.Put sampleHandlerExternals (World.mk listState none []) manifest =
          .ok (res, w') ∧ tagsResolve w'.state = true) ∧
    (∀ dgst, (∀ tag, (rTags.Get (World.mk listState none []).state tag).2 = none →
        (rTags.Get (World.mk listState none []).state tag).1.Digest ≠ dgst) →
      tagsResolve (rManifests.Delete (World.mk listState none []) dgst).2.state = true)) ∧
    ((∀ tag, (rTags.Untag (World.mk listState (some sampleTx) []) tag).2.state =
        (World.mk listState (some sampleTx) []).state) ∧
      (∀ tag desc, ∃ err w',
        rTags.Tag sampleExternals (World.mk listState (some sampleTx) []) tag desc =
          .ok (err, w') ∧
        w'.state = (World.mk listState (some sampleTx) []).state) ∧
      (∀ manifest, ∃ res w',
        rManifests.Put sampleHandlerExternals (World.mk listState (some sampleTx) []) manifest =
          .ok (res, w') ∧
        w'.state = (sampleHandlerExternals.manifestStorePut manifest
          (World.mk listState (some sampleTx) []).state).2) ∧
      (∀ dgst, (rManifests.Delete (World.mk listState (some sampleTx) []) dgst).2.state =
        (World.mk listState (some sampleTx) []).state)) :=
  ⟨rfl, rfl, by decide, rfl, by decide,
    ⟨(C12_operations_preserve_tags_resolve sampleHandlerExternals sampleExternals rTags
        rManifests "r" (World.mk listState none []) rfl rfl (by decide) rfl).1,
      (C12_operations_preserve_tags_resolve sampleHandlerExternals sampleExternals rTags
        rManifests "r" (World.mk listState none []) rfl rfl (by decide) rfl).2.1,
      (C12_operations_preserve_tags_resolve sampleHandlerExternals sampleExternals rTags
        rManifests "r" (World.mk listState none []) rfl rfl (by decide) rfl).2.2.1,
      (C12_operations_preserve_tags_resolve sampleHandlerExternals sampleExternals rTags
        rManifests "r" (World.mk listState none []) rfl rfl (by decide) rfl).2.2.2.1⟩,
    (C12_operations_preserve_tags_resolve sampleHandlerExternals sampleExternals rTags
      rManifests "r" (World.mk listState (some sampleTx) []) rfl rfl (by decide) rfl).2.2.2.2
      (by decide)⟩


/-! ## C13: a PUT by tag writes the manifest key and the tag in one transaction -/

theorem RepositoryScoped_repo (s : State) (r : String) :
    (inMemoryMetadataStore.RepositoryScoped s r).repo = some r := by
  unfold inMemoryMetadataStore.RepositoryScoped
  cases s.get? r <;> rfl

theorem RepositoryScoped_entry (s : State) (r : String) :
    (inMemoryMetadataStore.RepositoryScoped s r).state.get? r = some ((s.get? r).getD []) := by
  unfold inMemoryMetadataStore.RepositoryScoped
  cases h : s.get? r with
  | some rp => simp [h]
  | none => simp [h, GoMap.get?_set_self]

theorem entryOf_RepositoryScoped (s : State) (r r' k : String) :
    entryOf (inMemoryMetadataStore.RepositoryScoped s r).state r' k = entryOf s r' k := by
  unfold entryOf
  rw [RepositoryScoped_get?]

theorem getOrNil_eq_entryOf (s : State) (r k : String) :
    inMemoryMetadataStore.getOrNil { state := s, repo := some r } k =
      (entryOf s r k).getD none := by
  unfold inMemoryMetadataStore.getOrNil inMemoryMetadataStore.repoMap entryOf
  cases h : s.get? r with
  | none => simp [h, GoMap.get?]
  | some rp =>
    cases hk : rp.get? k <;> simp [h, hk]

theorem getOrNil_RepositoryScoped (s : State) (r r' k : String) :
    inMemoryMetadataStore.getOrNil
        { state := (inMemoryMetadataStore.RepositoryScoped s r).state, repo := some r' } k =
      inMemoryMetadataStore.getOrNil { state := s, repo := some r' } k := by
  rw [getOrNil_eq_entryOf, getOrNil_eq_entryOf, entryOf_RepositoryScoped]

theorem handlePutError_state (w : World) (err : Error) :
    (handlePutError w err).state = w.state ∧ (handlePutError w err).tx = w.tx := by
  cases err <;> exact ⟨rfl, rfl⟩


/-- The run of `Update` in `PutImageManifest` for a tagged request when the schema-aware
store stores the manifest, its payload is available and the digest of the descriptor
parses: the closure prepares the manifest key and the tag key, the commit applies both, and
`Update` returns nil. -/
theorem PutImageManifest.update_ok (hx : HandlerExternals) (x : Externals)
    (imh : imageManifestHandler) (manifest : Manifest) (desc : Descriptor) (id : String)
    (fuel : Nat) (w : World) (dgst : String) (s1 : State)
    (hTag : imh.Tag ≠ "")
    (hput : hx.manifestStorePut manifest
      (inMemoryMetadataStore.RepositoryScoped w.state imh.Repository.name).state =
        ((dgst, none), s1))
    (hpay : manifest.Payload.err = none) (hparse : x.ParseDigest desc.Digest = none) :
    ∃ tx', PutImageManifest.update hx x imh manifest desc id (fuel + 1) w =
      .ok (none, World.mk
        ((inMemoryMetadataStore.RepositoryScoped s1 imh.Repository.name).state.set
          imh.Repository.name
          ((((s1.get? imh.Repository.name).getD []).set (Key.ManifestDigestKey dgst).String
            (some (.bytes manifest.Payload.payload))).set (Key.TagKey imh.Tag).String
              (some (.descriptor desc))))
        (some tx') w.Errors) := by
  have hne : (Key.ManifestDigestKey dgst).String ≠ (Key.TagKey imh.Tag).String :=
    (TagKey_ne_ManifestDigestKey imh.Tag dgst).symm
  have hne' : (Key.TagKey imh.Tag).String ≠ (Key.ManifestDigestKey dgst).String :=
    TagKey_ne_ManifestDigestKey imh.Tag dgst
  simp only [PutImageManifest.update, Update, Update.try, metadataRepository.Manifests_eq,
    metadataRepository.Tags_eq, RepositoryScoped_state_idem, RepositoryScoped_repo,
    PutImageManifest.f, manifestService.Put, hput, hpay, TagService.Tag, hparse,
    Transaction.Update, BeginTx, inMemoryMetadataStore.Get, hTag, MetadataService.on,
    ne_eq, not_false_eq_true, if_true, Bool.false_eq_true, if_false, Option.getD_some,
    GoMap.set, hne, Transaction.Commit, inMemoryMetadataStore.BatchPut,
    inMemoryMetadataStore.BatchPut.conflict, getOrNil_RepositoryScoped,
    inMemoryMetadataStore.BatchPut.apply, inMemoryMetadataStore.repoMap,
    RepositoryScoped_entry, inMemoryMetadataStore.withRepoMap]
  simp


/-- The run of `Update` in `PutImageManifest` for a tagged request when the schema-aware
store fails, or the payload of the manifest is not available, or the digest of the
descriptor does not parse: `Update` returns the error of the closure, nothing is committed,
and the store is as the schema-aware store (and the scoping of views) left it. -/
theorem PutImageManifest.update_err (hx : HandlerExternals) (x : Externals)
    (imh : imageManifestHandler) (manifest : Manifest) (desc : Descriptor) (id : String)
    (fuel : Nat) (w : World) (dgst : String) (e0 : Option Error) (s1 : State)
    (hTag : imh.Tag ≠ "")
    (hput : hx.manifestStorePut manifest
      (inMemoryMetadataStore.RepositoryScoped w.state imh.Repository.name).state =
        ((dgst, e0), s1))
    (hfail : e0 ≠ none ∨ manifest.Payload.err ≠ none ∨ x.ParseDigest desc.Digest ≠ none) :
    ∃ err w', PutImageManifest.update hx x imh manifest desc id (fuel + 1) w =
        .ok (some err, w') ∧
      (w'.state = s1 ∨
        w'.state = (inMemoryMetadataStore.RepositoryScoped s1 imh.Repository.name).state) := by
  cases e0 with
  | some e =>
    simp only [PutImageManifest.update, Update, Update.try, metadataRepository.Manifests_eq,
      RepositoryScoped_state_idem, RepositoryScoped_repo, PutImageManifest.f,
      manifestService.Put, hput]
    exact ⟨_, _, rfl, Or.inl (handlePutError_state _ e).1⟩
  | none =>
    cases hpay : manifest.Payload.err with
    | some e =>
      simp only [PutImageManifest.update, Update, Update.try, metadataRepository.Manifests_eq,
        RepositoryScoped_state_idem, RepositoryScoped_repo, PutImageManifest.f,
        manifestService.Put, hput, hpay]
      exact ⟨_, _, rfl, Or.inl (handlePutError_state _ e).1⟩
    | none =>
      cases hparse : x.ParseDigest desc.Digest with
      | none => simp [hpay, hparse] at hfail
      | some e =>
        simp only [PutImageManifest.update, Update, Update.try,
          metadataRepository.Manifests_eq, metadataRepository.Tags_eq,
          RepositoryScoped_state_idem, RepositoryScoped_repo, PutImageManifest.f,
          manifestService.Put, hput, hpay, TagService.Tag, hparse, Transaction.Update, BeginTx,
          inMemoryMetadataStore.Get, hTag, MetadataService.on, ne_eq, not_false_eq_true,
          if_true, Bool.false_eq_true, if_false]
        exact ⟨_, _, rfl, Or.inr (handlePutError_state _ e).1⟩


/-- A `Commit` that returns an error leaves the store and the transaction as they were. -/
theorem Transaction.Commit_error_inv (t : Transaction) (s s' : State) (t' : Transaction)
    (err : Error) (h : t.Commit s = .ok (some err, t', s')) : s' = s ∧ t' = t := by
  unfold Transaction.Commit at h
  split at h
  · simp only [Except.ok.injEq, Prod.mk.injEq] at h
    exact ⟨h.2.2.symm, h.2.1.symm⟩
  · cases hb : (t.store.on s).BatchPut t.prepared with
    | error e => simp [hb] at h
    | ok r =>
      obtain ⟨e, s2⟩ := r
      cases e with
      | none => simp [hb] at h
      | some e2 =>
        simp only [hb, Except.ok.injEq, Prod.mk.injEq] at h
        have := (BatchPut_error_inv _ _ _ _ hb).2
        exact ⟨by rw [← h.2.2, this]; rfl, h.2.1.symm⟩

theorem sameTagsAndManifests_refl (r : String) (s : State) : sameTagsAndManifests r s s :=
  ⟨fun _ => rfl, fun _ => rfl⟩

theorem sameTagsAndManifests_trans {r : String} {s1 s2 s3 : State}
    (h12 : sameTagsAndManifests r s1 s2) (h23 : sameTagsAndManifests r s2 s3) :
    sameTagsAndManifests r s1 s3 :=
  ⟨fun t => (h23.1 t).trans (h12.1 t), fun d => (h23.2 d).trans (h12.2 d)⟩

theorem sameTagsAndManifests_RepositoryScoped (r r' : String) (s : State) :
    sameTagsAndManifests r s (inMemoryMetadataStore.RepositoryScoped s r').state :=
  ⟨fun _ => entryOf_RepositoryScoped s r' r _, fun _ => entryOf_RepositoryScoped s r' r _⟩

/-- When `Update` returns an error, a relation between stores that every invocation of the
closure keeps also holds between the store `Update` found and the store it leaves: the
failed `Commit` has written nothing. -/
theorem Update.try_error_rel (f : MetadataUpdateFunc) (R : State → State → Prop)
    (htrans : ∀ s1 s2 s3, R s1 s2 → R s2 s3 → R s1 s3)
    (hf : ∀ n w0 e w1, w0.tx ≠ none → f n w0 = .ok (e, w1) → R w0.state w1.state) :
    ∀ (fuel attempts : Nat) (tx : Transaction) (w : World) (err : Error) (w' : World),
      Update.try f fuel attempts tx w = .ok (some err, w') → R w.state w'.state := by
  intro fuel
  induction fuel with
  | zero =>
    intro attempts tx w err w' h
    simp [Update.try] at h
  | succ fuel ih =>
    intro attempts tx w err w' h
    unfold Update.try at h
    cases hf1 : f attempts { w with tx := some tx } with
    | error e => simp [hf1] at h
    | ok r =>
      obtain ⟨e, w1⟩ := r
      have hR : R w.state w1.state := hf attempts { w with tx := some tx } e w1 (by simp) hf1
      cases e with
      | some e1 =>
        simp only [hf1, Except.ok.injEq, Prod.mk.injEq] at h
        rw [← h.2]
        exact hR
      | none =>
        simp only [hf1] at h
        split at h
        · simp only [Except.ok.injEq, Prod.mk.injEq] at h
          rw [← h.2]
          exact hR
        · cases hc : (w1.tx.getD tx).Commit w1.state with
          | error e => simp [hc] at h
          | ok r2 =>
            obtain ⟨e2, tx2, s2⟩ := r2
            cases e2 with
            | none => simp [hc] at h
            | some txErr =>
              obtain ⟨hs2, _⟩ := Transaction.Commit_error_inv _ _ _ _ _ hc
              subst hs2
              simp only [hc] at h
              split at h
              · exact htrans _ _ _ hR (ih _ _ _ _ _ h)
              · simp only [Except.ok.injEq, Prod.mk.injEq] at h
                rw [← h.2]
                exact hR


/-- C13: a `PutImageManifest` request for a tag runs one `Update`, which returns. It returns
nil exactly when the schema-aware store stored the manifest, the payload of the manifest is
available and the digest of the descriptor parses. When it
returns nil, the schema-aware store stored the manifest under a digest whose manifest key
now exists, and `Get` of the tag returns the descriptor of the manifest: the commit wrote
both. When it returns an error (of `manifests.Put`, of `tags.Tag` or of the commit), every
`tag::` and `manifest::` entry of the repository is what it was, provided the schema-aware
store writes none of them. The same holds for any closure run in place of the handler's
(the handler's closure interleaved with other writers, for one) that keeps a relation
between stores: when `Update` returns an error, its commit has not disturbed the
relation. -/
theorem C13_put_by_tag_atomic (hx : HandlerExternals) (x : Externals)
    (imh : imageManifestHandler) (manifest : Manifest) (desc : Descriptor) (id : String)
    (fuel : Nat) (w : World) (hTag : imh.Tag ≠ "") :
    (∃ e w', PutImageManifest.update hx x imh manifest desc id (fuel + 1) w = .ok (e, w') ∧
      (e = none ↔
        (hx.manifestStorePut manifest
          (inMemoryMetadataStore.RepositoryScoped w.state imh.Repository.name).state).1.2 =
            none ∧
        manifest.Payload.err = none ∧ x.ParseDigest desc.Digest = none) ∧
      (e = none → ∃ dgst s1,
        hx.manifestStorePut manifest
          (inMemoryMetadataStore.RepositoryScoped w.state imh.Repository.name).state =
            ((dgst, none), s1) ∧
        manifestService.Exists (manifestService.mk imh.Repository.name
          (some imh.Repository.name) imh.Repository.deleteEnabled) w'.state dgst =
            (true, none) ∧
        TagService.Get { repo := imh.Repository.name, store := some imh.Repository.name }
          w'.state imh.Tag = (desc, none)) ∧
      (e ≠ none →
        (∀ m s, sameTagsAndManifests imh.Repository.name s (hx.manifestStorePut m s).2) →
        sameTagsAndManifests imh.Repository.name w.state w'.state)) ∧
    (∀ (g : MetadataUpdateFunc) (R : State → State → Prop) (fuel' : Nat) (err : Error)
        (w' : World),
      (∀ s1 s2 s3, R s1 s2 → R s2 s3 → R s1 s3) →
      (∀ s, R s (inMemoryMetadataStore.RepositoryScoped s imh.Repository.name).state) →
      (∀ n w0 e w1, w0.tx ≠ none → g n w0 = .ok (e, w1) → R w0.state w1.state) →
      Update (some imh.Repository.name) id g w fuel' = .ok (some err, w') →
      R w.state w'.state) := by
  constructor
  · cases hput : hx.manifestStorePut manifest
        (inMemoryMetadataStore.RepositoryScoped w.state imh.Repository.name).state with
    | mk res s1 =>
      obtain ⟨dgst, e0⟩ := res
      by_cases hfail : e0 ≠ none ∨ manifest.Payload.err ≠ none ∨ x.ParseDigest desc.Digest ≠ none
      · obtain ⟨err, w', hu, hst⟩ :=
          PutImageManifest.update_err hx x imh manifest desc id fuel w dgst e0 s1 hTag hput hfail
        have hiff : (some err : Option Error) = none ↔
            (e0 = none ∧ manifest.Payload.err = none ∧ x.ParseDigest desc.Digest = none) := by
          constructor
          · intro h
            exact Option.noConfusion h
          · rintro ⟨h1, h2, h3⟩
            rcases hfail with h | h | h
            · exact absurd h1 h
            · exact absurd h2 h
            · exact absurd h3 h
        refine ⟨some err, w', hu, hiff, fun h => Option.noConfusion h, fun _ hframe => ?_⟩
        have h01 := sameTagsAndManifests_trans
          (sameTagsAndManifests_RepositoryScoped imh.Repository.name imh.Repository.name w.state)
          (hframe manifest _)
        rw [hput] at h01
        rcases hst with hst | hst
        · rw [hst]
          exact h01
        · rw [hst]
          exact sameTagsAndManifests_trans h01
            (sameTagsAndManifests_RepositoryScoped imh.Repository.name imh.Repository.name s1)
      · simp only [not_or, not_not] at hfail
        obtain ⟨h0, hpay, hparse⟩ := hfail
        subst h0
        obtain ⟨tx', hu⟩ :=
          PutImageManifest.update_ok hx x imh manifest desc id fuel w dgst s1 hTag hput hpay hparse
        refine ⟨none, _, hu, ⟨fun _ => ⟨rfl, hpay, hparse⟩, fun _ => rfl⟩,
          fun _ => ⟨dgst, s1, rfl, ?_, ?_⟩, fun h => absurd rfl h⟩
        · simp [manifestService.Exists, inMemoryMetadataStore.Exists,
            inMemoryMetadataStore.repoMap, MetadataService.on, GoMap.get?_set_self,
            GoMap.get?_set_ne _ _ (TagKey_ne_ManifestDigestKey imh.Tag dgst).symm]
        · apply TagService.Get_of_getOrNil_descriptor
          simp [inMemoryMetadataStore.getOrNil, inMemoryMetadataStore.repoMap,
            MetadataService.on, GoMap.get?_set_self]
  · intro g R fuel' err w' htrans hsc hg hu
    simp only [Update] at hu
    have h1 := Update.try_error_rel g R htrans hg _ _ _ _ _ _ hu
    exact htrans _ _ _ (hsc w.state) h1


/-- Witness of C13: the PUT of the tag `a` of repository `r` into the empty store succeeds:
the one transaction of `Update` is committed with the manifest key and the tag key, and the
handler responds 201. -/
theorem C13_put_by_tag_atomic_witness :
    putByTag.Tag ≠ "" ∧
    PutImageManifest.update sampleHandlerExternals sampleExternals putByTag sampleSchema2
        sampleDesc "tx" (0 + 1) (World.mk [] none []) =
      .ok (none, World.mk
        [("r", [("manifest::sha256:ab", some (.bytes (some [2, 2]))),
                ("tag::a", some (.descriptor sampleDesc))])]
        (some (Transaction.mk "tx" (some "r")
          [("manifest::sha256:ab",
              MetadataUpdateRecord.mk (some (.bytes (some [2, 2]))) none),
            ("tag::a", MetadataUpdateRecord.mk (some (.descriptor sampleDesc)) none)] true))
        []) ∧
    (∃ imh' w' resp,
      PutImageManifest sampleHandlerExternals sampleExternals putByTag putRequest "tx" 1
          (World.mk [] none []) = .ok (imh', w', resp) ∧
      resp.status = some 201 ∧ w'.Errors = [] ∧
      manifestService.Exists (manifestService.mk "r" (some "r") true) w'.state "sha256:ab" =
        (true, none) ∧
      TagService.Get { repo := "r", store := some "r" } w'.state "a" = (sampleDesc, none)) ∧
    ((∃ e w', PutImageManifest.update sampleHandlerExternals sampleExternals putByTag
        sampleSchema2 sampleDesc "tx" (0 + 1) (World.mk [] none []) = .ok (e, w') ∧
      (e = none ↔
        (sampleHandlerExternals.manifestStorePut sampleSchema2
          (inMemoryMetadataStore.RepositoryScoped (World.mk [] none []).state
            putByTag.Repository.name).state).1.2 = none ∧
        sampleSchema2.Payload.err = none ∧
        sampleExternals.ParseDigest sampleDesc.Digest = none) ∧
      (e = none → ∃ dgst s1,
        sampleHandlerExternals.manifestStorePut sampleSchema2
          (inMemoryMetadataStore.RepositoryScoped (World.mk [] none []).state
            putByTag.Repository.name).state = ((dgst, none), s1) ∧
        manifestService.Exists (manifestService.mk putByTag.Repository.name
          (some putByTag.Repository.name) putByTag.Repository.deleteEnabled) w'.state dgst =
            (true, none) ∧
        TagService.Get { repo := putByTag.Repository.name, store := some putByTag.Repository.name }
          w'.state putByTag.Tag = (sampleDesc, none)) ∧
      (e ≠ none →
        (∀ m s, sameTagsAndManifests putByTag.Repository.name s
          (sampleHandlerExternals.manifestStorePut m s).2) →
        sameTagsAndManifests putByTag.Repository.name (World.mk [] none []).state w'.state)) ∧
    (∀ (g : MetadataUpdateFunc) (R : State → State → Prop) (fuel' : Nat) (err : Error)
        (w' : World),
      (∀ s1 s2 s3, R s1 s2 → R s2 s3 → R s1 s3) →
      (∀ s, R s (inMemoryMetadataStore.RepositoryScoped s putByTag.Repository.name).state) →
      (∀ n w0 e w1, w0.tx ≠ none → g n w0 = .ok (e, w1) → R w0.state w1.state) →
      Update (some putByTag.Repository.name) "tx" g (World.mk [] none []) fuel' =
        .ok (some err, w') →
      R (World.mk [] none []).state w'.state)) :=
  ⟨by decide, rfl, ⟨_, _, _, rfl, rfl, rfl, rfl, rfl⟩,
    C13_put_by_tag_atomic sampleHandlerExternals sampleExternals putByTag sampleSchema2
      sampleDesc "tx" 0 (World.mk [] none []) (by decide)⟩


/-! ## C11: DELETE of a manifest -/

theorem GoMap.mem_set {α : Type} (m : GoMap α) (k : String) (v : α) (k' : String) (v' : α)
    (h : (k', v') ∈ m.set k v) : (k', v') ∈ m ∨ (k' = k ∧ v' = v) := by
  induction m with
  | nil =>
    simp only [GoMap.set, List.mem_singleton, Prod.mk.injEq] at h
    exact Or.inr h
  | cons e m ih =>
    obtain ⟨k0, v0⟩ := e
    by_cases h0 : k0 = k
    · simp only [GoMap.set, h0, if_true, List.mem_cons, Prod.mk.injEq] at h
      rcases h with h | h
      · exact Or.inr h
      · exact Or.inl (List.mem_cons_of_mem _ h)
    · simp only [GoMap.set, h0, if_false, List.mem_cons, Prod.mk.injEq] at h
      rcases h with h | h
      · exact Or.inl (by rw [h.1, h.2]; exact List.mem_cons_self _ _)
      · rcases ih h with h' | h'
        · exact Or.inl (List.mem_cons_of_mem _ h')
        · exact Or.inr h'

theorem GoMap.mem_keys_set {α : Type} (m : GoMap α) (k : String) (v : α) (k' : String) :
    k' ∈ (m.set k v).keys ↔ k' ∈ m.keys ∨ k' = k := by
  rw [GoMap.keys_set]
  split
  · rename_i hk
    constructor
    · exact Or.inl
    · rintro (h | h)
      · exact h
      · rw [h]
        exact hk
  · simp

/-- An `Update` that returns nil has run the closure once, got nil from it, and committed the
transaction the closure left. -/
theorem Update.try_ok_inv (f : MetadataUpdateFunc) (fuel : Nat) (tx : Transaction)
    (w w' : World) (h : Update.try f fuel 0 tx w = .ok (none, w')) :
    ∃ w1 tx2, f 0 { w with tx := some tx } = .ok (none, w1) ∧
      (w1.tx.getD tx).Commit w1.state = .ok (none, tx2, w'.state) ∧ w'.Errors = w1.Errors := by
  cases fuel with
  | zero => simp [Update.try] at h
  | succ fuel =>
    unfold Update.try at h
    cases hf : f 0 { w with tx := some tx } with
    | error e => simp [hf] at h
    | ok r =>
      obtain ⟨e, w1⟩ := r
      cases e with
      | some e1 => simp [hf] at h
      | none =>
        simp only [hf] at h
        split at h
        · simp at h
        · cases hc : (w1.tx.getD tx).Commit w1.state with
          | error e => simp [hc] at h
          | ok r2 =>
            obtain ⟨e2, tx2, s2⟩ := r2
            cases e2 with
            | none =>
              simp only [hc, Except.ok.injEq, Prod.mk.injEq, true_and] at h
              subst h
              exact ⟨w1, tx2, rfl, hc, rfl⟩
            | some txErr =>
              simp only [hc] at h
              split at h
              · cases fuel with
                | zero => simp [Update.try] at h
                | succ fuel =>
                  unfold Update.try at h
                  split at h
                  · simp at h
                  · simp at h
                  · simp at h
              · simp at h

namespace inMemoryMetadataStore

/-- After a `BatchPut` that returned nil on a view whose repository has an entry, the entry
holds the map in which every key of the set is bound to the record's `Actual`, or missing
when that is nil, and every other key is as before. -/
theorem BatchPut_ok_repoMap (m : inMemoryMetadataStore) (updates : GoMap MetadataUpdateRecord)
    (s' : State) (rp : repository) (hrp : m.repoMap = some rp) (hwf : updates.WF)
    (h : m.BatchPut updates = .ok (none, s')) :
    ∃ rp', s' = m.withRepoMap rp' ∧
      (∀ k r, (k, r) ∈ updates → rp'.get? k = r.Actual.map some) ∧
      (∀ k, k ∉ updates.keys → rp'.get? k = rp.get? k) := by
  unfold BatchPut at h
  split at h
  · simp at h
  · rw [hrp] at h
    obtain ⟨rp', happ, h1, h2⟩ := apply_some updates rp hwf
    simp only [happ, Except.ok.injEq, Prod.mk.injEq, true_and] at h
    exact ⟨rp', h.symm, h1, h2⟩

end inMemoryMetadataStore


namespace inMemoryMetadataStore

/-- When the loop of `iterateRepository` run with the closure of `Lookup` ends without the
error of the closure, every key it went through parsed and every tag entry among them held a
descriptor. -/
theorem loop_Lookup_inv (x : Externals) (rp : repository) (desc : Descriptor) :
    ∀ (ks : List String) (acc : List String) (e : Option Error) (out : List String),
      iterateRepository.loop x { IterType := some (.TagKey ""), From := "" }
          (TagService.Lookup.iterFunc desc) rp ks acc = .ok (e, out) →
      (∀ msg, e ≠ some (.errorf msg)) →
      (∀ k ∈ ks, ∃ g, KeyFromString x k = .ok g) ∧
      (∀ k ∈ ks, ∀ tag, KeyFromString x k = .ok (some (.TagKey tag)) →
        ∃ d, rp.get? k = some (some (.descriptor d))) := by
  intro ks
  induction ks with
  | nil =>
    intro acc e out _ _
    exact ⟨fun k hk => absurd hk (List.not_mem_nil k), fun k hk => absurd hk (List.not_mem_nil k)⟩
  | cons k ks ih =>
    intro acc e out h he
    unfold iterateRepository.loop at h
    cases hg : KeyFromString x k with
    | error err => simp [hg] at h
    | ok g =>
      have step : ∀ acc', iterateRepository.loop x { IterType := some (.TagKey ""), From := "" }
          (TagService.Lookup.iterFunc desc) rp ks acc' = .ok (e, out) →
          (∀ tag, g = some (.TagKey tag) → ∃ d, rp.get? k = some (some (.descriptor d))) →
          (∀ k' ∈ k :: ks, ∃ g, KeyFromString x k' = .ok g) ∧
          (∀ k' ∈ k :: ks, ∀ tag, KeyFromString x k' = .ok (some (.TagKey tag)) →
            ∃ d, rp.get? k' = some (some (.descriptor d))) := by
        intro acc' h' hk
        obtain ⟨h1, h2⟩ := ih acc' e out h' he
        refine ⟨?_, ?_⟩
        · intro k' hk'
          rcases List.mem_cons.1 hk' with hk' | hk'
          · rw [hk']
            exact ⟨g, hg⟩
          · exact h1 k' hk'
        · intro k' hk' tag htag
          rcases List.mem_cons.1 hk' with hk' | hk'
          · subst hk'
            rw [hg] at htag
            exact hk tag (Except.ok.inj htag)
          · exact h2 k' hk' tag htag
      cases g with
      | none =>
        simp only [hg] at h
        exact step acc h (fun tag ht => by cases ht)
      | some key =>
        cases key with
        | TagKey tag =>
          simp only [hg, if_true] at h
          cases hv : rp.get? k with
          | none =>
            simp [hv, TagService.Lookup.iterFunc] at h
            exact absurd h.1.symm (he _)
          | some v =>
            cases v with
            | none =>
              simp [hv, TagService.Lookup.iterFunc] at h
              exact absurd h.1.symm (he _)
            | some val =>
              cases val with
              | descriptor d =>
                by_cases hdig : desc.Digest = d.Digest
                · simp only [hv, TagService.Lookup.iterFunc, Option.getD_some, hdig,
                    if_true] at h
                  exact step _ h (fun tag' _ => ⟨d, hv⟩)
                · simp only [hv, TagService.Lookup.iterFunc, Option.getD_some, hdig,
                    if_false] at h
                  exact step _ h (fun tag' _ => ⟨d, hv⟩)
              | digest dg =>
                simp [hv, TagService.Lookup.iterFunc] at h
                exact absurd h.1.symm (he _)
              | bytes p =>
                simp [hv, TagService.Lookup.iterFunc] at h
                exact absurd h.1.symm (he _)
              | string str =>
                simp [hv, TagService.Lookup.iterFunc] at h
                exact absurd h.1.symm (he _)
        | ManifestDigestKey dg =>
          simp [hg] at h
          exact step acc h (fun tag ht => by cases ht)
        | RepoKey rn =>
          simp only [hg] at h
          exact step acc h (fun tag ht => by cases ht)
        | BlobKey dg =>
          simp only [hg] at h
          exact step acc h (fun tag ht => by cases ht)
        | UploadStartedAtKey i =>
          simp only [hg] at h
          exact step acc h (fun tag ht => by cases ht)
        | UploadPathKey i =>
          simp only [hg] at h
          exact step acc h (fun tag ht => by cases ht)

end inMemoryMetadataStore


/-- A `Lookup` that returns with a nil error went through every key of the repository: each
key parses and each tag entry holds a descriptor. -/
theorem TagService.Lookup_inv (x : Externals) (ts : TagService) (r : String) (s : State)
    (desc : Descriptor) (tags : List String) (hstore : ts.store = some r)
    (h : ts.Lookup x s desc = .ok (tags, none)) :
    (∀ k ∈ ((s.get? r).getD []).keys, ∃ g, KeyFromString x k = .ok g) ∧
    (∀ tag v, ((s.get? r).getD []).get? (Key.TagKey tag).String = some v →
      ∃ d, v = some (.descriptor d)) := by
  have hrm : (ts.store.on s).repoMap.getD [] = (s.get? r).getD [] := by
    simp [MetadataService.on, inMemoryMetadataStore.repoMap, hstore]
  have hall : (∀ k ∈ sortStrings ((s.get? r).getD []).keys, ∃ g, KeyFromString x k = .ok g) ∧
      (∀ k ∈ sortStrings ((s.get? r).getD []).keys, ∀ tag,
        KeyFromString x k = .ok (some (.TagKey tag)) →
        ∃ d, ((s.get? r).getD []).get? k = some (some (.descriptor d))) := by
    unfold TagService.Lookup inMemoryMetadataStore.Iterate
      inMemoryMetadataStore.iterateRepository at h
    rw [hrm] at h
    by_cases hlen : (sortStrings (GoMap.keys ((s.get? r).getD []))).length = 0
    · have hnil : sortStrings (GoMap.keys ((s.get? r).getD [])) = [] :=
        List.length_eq_zero.1 hlen
      rw [hnil]
      exact ⟨fun k hk => absurd hk (List.not_mem_nil k),
        fun k hk => absurd hk (List.not_mem_nil k)⟩
    · simp only [hlen, if_false] at h
      cases hl : inMemoryMetadataStore.iterateRepository.loop x
          { IterType := some (.TagKey ""), From := "" } (TagService.Lookup.iterFunc desc)
          ((s.get? r).getD []) (sortStrings (GoMap.keys ((s.get? r).getD []))) [] with
      | error e =>
        simp [hl] at h
      | ok res =>
        obtain ⟨e, out⟩ := res
        refine inMemoryMetadataStore.loop_Lookup_inv x _ desc _ [] e out hl ?_
        intro msg he
        subst he
        simp [hl] at h
  have hmem : ∀ k, k ∈ ((s.get? r).getD []).keys → k ∈ sortStrings ((s.get? r).getD []).keys :=
    fun k hk => (sortStrings_perm _).mem_iff.2 hk
  refine ⟨fun k hk => hall.1 k (hmem k hk), ?_⟩
  intro tag v hv
  have hk := GoMap.mem_keys_of_get? _ hv
  obtain ⟨g, hg⟩ := hall.1 _ (hmem _ hk)
  have hgt := KeyFromString_tag_of_ok x tag g hg
  subst hgt
  obtain ⟨d, hd⟩ := hall.2 _ (hmem _ hk) tag hg
  rw [hv] at hd
  exact ⟨d, Option.some.inj hd⟩


/-- A `Delete` through an uncommitted transaction that returns nil: the manifest key exists
in the store, which is untouched, and the prepared set binds the manifest key to nil. -/
theorem manifestService.Delete_tx_inv (t : manifestService) (s : State) (tx : Transaction)
    (E : List ApiError) (dgst : String) (w' : World)
    (h : t.Delete (World.mk s (some tx) E) dgst = (none, w')) :
    t.Exists s dgst = (true, none) ∧ tx.committed = false ∧
      w' = World.mk s (some (Transaction.mk tx.id tx.store
        (tx.prepared.set (Key.ManifestDigestKey dgst).String
          (MetadataUpdateRecord.mk none
            ((tx.store.on s).getOrNil (Key.ManifestDigestKey dgst).String)))
        tx.committed)) E := by
  unfold manifestService.Delete at h
  split at h
  · simp at h
  · split at h
    · simp at h
    · simp at h
    · rename_i hex
      cases hc : tx.committed with
      | true => simp [Transaction.Update, hc] at h
      | false =>
        simp [Transaction.Update, hc, inMemoryMetadataStore.Get] at h
        exact ⟨hex, rfl, h.symm⟩

/-- The loop over the tags of `Lookup`, run through an uncommitted transaction, returns nil,
leaves the store untouched and binds the key of each tag to nil in the prepared set. -/
theorem DeleteImageManifest.untagAll_tx (ts : TagService) (s : State) (E : List ApiError) :
    ∀ (tags : List String) (tx : Transaction), tx.committed = false → tx.prepared.WF →
      (∀ k r, (k, r) ∈ tx.prepared → r.Actual = none) →
      ∃ tx', DeleteImageManifest.untagAll ts tags (World.mk s (some tx) E) =
          (none, World.mk s (some tx') E) ∧
        tx'.committed = false ∧ tx'.store = tx.store ∧ tx'.prepared.WF ∧
        (∀ k r, (k, r) ∈ tx'.prepared → r.Actual = none) ∧
        (∀ k, k ∈ tx'.prepared.keys ↔
          k ∈ tx.prepared.keys ∨ ∃ tag ∈ tags, k = (Key.TagKey tag).String) := by
  intro tags
  induction tags with
  | nil =>
    intro tx hc hwf hact
    exact ⟨tx, rfl, hc, rfl, hwf, hact, fun k => by simp⟩
  | cons tag rest ih =>
    intro tx hc hwf hact
    have hun : ts.Untag (World.mk s (some tx) E) tag =
        (none, World.mk s (some (Transaction.mk tx.id tx.store
          (tx.prepared.set (Key.TagKey tag).String
            (MetadataUpdateRecord.mk none ((tx.store.on s).getOrNil (Key.TagKey tag).String)))
          false)) E) := by
      simp [TagService.Untag, Transaction.Update, hc, inMemoryMetadataStore.Get]
    obtain ⟨tx', h1, h2, h3, h4, h5, h6⟩ := ih
      (Transaction.mk tx.id tx.store
        (tx.prepared.set (Key.TagKey tag).String
          (MetadataUpdateRecord.mk none ((tx.store.on s).getOrNil (Key.TagKey tag).String)))
        false) rfl (GoMap.WF_set _ _ _ hwf)
      (fun k r hmem => by
        rcases GoMap.mem_set _ _ _ _ _ hmem with h | h
        · exact hact k r h
        · rw [h.2])
    refine ⟨tx', ?_, h2, h3, h4, h5, ?_⟩
    · simp only [DeleteImageManifest.untagAll, hun]
      exact h1
    · intro k
      rw [h6, GoMap.mem_keys_set]
      constructor
      · rintro ((h | h) | ⟨t, ht, h⟩)
        · exact Or.inl h
        · exact Or.inr ⟨tag, List.mem_cons_self _ _, h⟩
        · exact Or.inr ⟨t, List.mem_cons_of_mem _ ht, h⟩
      · rintro (h | ⟨t, ht, h⟩)
        · exact Or.inl (Or.inl h)
        · rcases List.mem_cons.1 ht with ht | ht
          · exact Or.inl (Or.inr (by rw [h, ht]))
          · exact Or.inr ⟨t, ht, h⟩


theorem TagService.Get_ok_inv (ts : TagService) (s : State) (tag : String) (d : Descriptor)
    (h : ts.Get s tag = (d, none)) :
    (ts.store.on s).getOrNil (Key.TagKey tag).String = some (.descriptor d) := by
  unfold TagService.Get inMemoryMetadataStore.Get at h
  cases hv : (ts.store.on s).getOrNil (Key.TagKey tag).String with
  | none => simp [hv] at h
  | some v =>
    cases v with
    | descriptor d0 =>
      simp [hv] at h
      rw [h]
    | digest dg => simp [hv] at h
    | bytes p => simp [hv] at h
    | string str => simp [hv] at h

/-- What a `DeleteImageManifest` that responds 202 has done: deletion is enabled, the
manifest key existed, `Lookup` returned the tags of the digest, and the store now holds, for
the repository, a map in which the manifest key and the keys of those tags are missing and
every other key is as before. -/
theorem DeleteImageManifest_accepted_inv (x : Externals) (imh : imageManifestHandler)
    (id : String) (fuel : Nat) (w w' : World) (resp : Response)
    (h : DeleteImageManifest x imh id fuel w = .ok (w', resp))
    (h202 : resp.status = some 202) :
    ∃ (tags : List String) (rp' : repository),
      imh.Repository.deleteEnabled = true ∧
      manifestService.Exists (manifestService.mk imh.Repository.name
        (some imh.Repository.name) imh.Repository.deleteEnabled)
        (inMemoryMetadataStore.RepositoryScoped w.state imh.Repository.name).state
        imh.Digest = (true, none) ∧
      TagService.Lookup x { repo := imh.Repository.name, store := some imh.Repository.name }
        (inMemoryMetadataStore.RepositoryScoped w.state imh.Repository.name).state
        { MediaType := "", Size := 0, Digest := imh.Digest } = .ok (tags, none) ∧
      w'.tx = w.tx ∧
      w'.state = (inMemoryMetadataStore.RepositoryScoped w.state imh.Repository.name).state.set
        imh.Repository.name rp' ∧
      rp'.get? (Key.ManifestDigestKey imh.Digest).String = none ∧
      (∀ tag ∈ tags, rp'.get? (Key.TagKey tag).String = none) ∧
      (∀ k, k ≠ (Key.ManifestDigestKey imh.Digest).String →
        (∀ tag ∈ tags, k ≠ (Key.TagKey tag).String) →
        rp'.get? k = ((w.state.get? imh.Repository.name).getD []).get? k) := by
  unfold DeleteImageManifest at h
  simp only [metadataRepository.Manifests_eq, metadataRepository.Tags_eq,
    RepositoryScoped_state_idem] at h
  cases hU : Update (some imh.Repository.name) id
      (DeleteImageManifest.f x
        { repo := imh.Repository.name, store := some imh.Repository.name,
          deleteEnabled := imh.Repository.deleteEnabled }
        { repo := imh.Repository.name, store := some imh.Repository.name } imh)
      { w with state := (inMemoryMetadataStore.RepositoryScoped w.state
          imh.Repository.name).state } fuel with
  | error e => simp [hU] at h
  | ok res =>
    obtain ⟨e, w2⟩ := res
    cases e with
    | some err =>
      simp only [hU, Except.ok.injEq, Prod.mk.injEq] at h
      rw [← h.2] at h202
      simp [Response.empty] at h202
    | none =>
      simp only [hU, Except.ok.injEq, Prod.mk.injEq] at h
      obtain ⟨hw', _⟩ := h
      simp only [Update, RepositoryScoped_state_idem, RepositoryScoped_repo] at hU
      obtain ⟨w1, tx2, hf, hcommit, _⟩ := Update.try_ok_inv _ _ _ _ _ hU
      simp only [DeleteImageManifest.f] at hf
      cases hD : manifestService.Delete
          { repo := imh.Repository.name, store := some imh.Repository.name,
            deleteEnabled := imh.Repository.deleteEnabled }
          (World.mk (inMemoryMetadataStore.RepositoryScoped w.state imh.Repository.name).state
            (some (BeginTx id (some imh.Repository.name))) w.Errors) imh.Digest with
      | mk eD w1a =>
        cases eD with
        | some err => simp [hD] at hf
        | none =>
          obtain ⟨hex, _, hw1a⟩ := manifestService.Delete_tx_inv _ _ _ _ _ _ hD
          have hen : imh.Repository.deleteEnabled = true := by
            cases hde : imh.Repository.deleteEnabled with
            | true => rfl
            | false => simp [manifestService.Delete, hde] at hD
          subst hw1a
          simp only [hD] at hf
          cases hL : TagService.Lookup x
              { repo := imh.Repository.name, store := some imh.Repository.name }
              (inMemoryMetadataStore.RepositoryScoped w.state imh.Repository.name).state
              { MediaType := "", Size := 0, Digest := imh.Digest } with
          | error e => simp [hL] at hf
          | ok resL =>
            obtain ⟨tags, eL⟩ := resL
            cases eL with
            | some err => simp [hL] at hf
            | none =>
              simp only [hL, Except.ok.injEq] at hf
              obtain ⟨tx', hun, hc', hst', hwf', hact', hkeys'⟩ :=
                DeleteImageManifest.untagAll_tx
                  { repo := imh.Repository.name, store := some imh.Repository.name }
                  (inMemoryMetadataStore.RepositoryScoped w.state imh.Repository.name).state
                  w.Errors tags
                  (Transaction.mk id (some imh.Repository.name)
                    (GoMap.set [] (Key.ManifestDigestKey imh.Digest).String
                      (MetadataUpdateRecord.mk none
                        ((MetadataService.on (some imh.Repository.name)
                          (inMemoryMetadataStore.RepositoryScoped w.state
                            imh.Repository.name).state).getOrNil
                          (Key.ManifestDigestKey imh.Digest).String)))
                    false) rfl (GoMap.WF_set _ _ _ (by simp [GoMap.WF, GoMap.keys]))
                  (fun k r hmem => by
                    rcases GoMap.mem_set _ _ _ _ _ hmem with h | h
                    · cases h
                    · rw [h.2])
              simp only [BeginTx] at hf
              rw [hun] at hf
              simp only [Prod.mk.injEq, true_and] at hf
              subst hf
              simp only [Option.getD_some] at hcommit
              obtain ⟨_, hbp, _⟩ := Transaction.Commit_ok_inv _ _ _ _ hcommit
              rw [hst'] at hbp
              have hrp0 : (MetadataService.on (some imh.Repository.name)
                  (inMemoryMetadataStore.RepositoryScoped w.state
                    imh.Repository.name).state).repoMap =
                  some ((w.state.get? imh.Repository.name).getD []) := by
                simp [MetadataService.on, inMemoryMetadataStore.repoMap, RepositoryScoped_entry]
              obtain ⟨rp', hs', h1, h2⟩ :=
                inMemoryMetadataStore.BatchPut_ok_repoMap _ _ _ _ hrp0 hwf' hbp
              have hnone : ∀ k, k ∈ tx'.prepared.keys → rp'.get? k = none := by
                intro k hk
                obtain ⟨⟨k0, r⟩, hmem, hk0⟩ := List.mem_map.1 hk
                simp only at hk0
                subst hk0
                rw [h1 k0 r hmem, hact' k0 r hmem]
                rfl
              refine ⟨tags, rp', hen, hex, rfl, ?_, ?_, ?_, ?_, ?_⟩
              · rw [← hw']
              · rw [← hw', hs']
                rfl
              · apply hnone
                rw [hkeys']
                exact Or.inl (by simp [GoMap.set, GoMap.keys])
              · intro tag htag
                apply hnone
                rw [hkeys']
                exact Or.inr ⟨tag, htag, rfl⟩
              · intro k hk1 hk2
                apply h2
                rw [hkeys']
                rintro (h | ⟨tag, htag, h⟩)
                · simp [GoMap.set, GoMap.keys] at h
                  exact hk1 h
                · exact hk2 tag htag h


theorem Exists_eq_entryOf (s : State) (r k : String) :
    inMemoryMetadataStore.Exists { state := s, repo := some r } k =
      ((entryOf s r k).isSome, none) := by
  unfold inMemoryMetadataStore.Exists inMemoryMetadataStore.repoMap entryOf
  cases h : s.get? r with
  | none => simp [h, GoMap.get?]
  | some rp => cases hk : rp.get? k <;> simp [h, hk]

theorem entryOf_set_self (s : State) (r k : String) (rp : repository) :
    entryOf (s.set r rp) r k = rp.get? k := by
  unfold entryOf
  rw [GoMap.get?_set_self]
  rfl

/-- C11: when `DeleteImageManifest` responds 202 (its `Update` returned nil, so the one
transaction committed), deletion was enabled and the manifest key of the digest existed;
afterwards `Exists` of the digest is false, `Lookup` of a descriptor with the digest returns
the empty list with a nil error, and every tag that resolved to a descriptor of another
digest resolves to the same descriptor. -/
theorem C11_delete_removes_manifest_and_tags (x : Externals) (imh : imageManifestHandler)
    (id : String) (fuel : Nat) (w w' : World) (resp : Response)
    (h : DeleteImageManifest x imh id fuel w = .ok (w', resp))
    (h202 : resp.status = some 202) :
    imh.Repository.deleteEnabled = true ∧
    manifestService.Exists (manifestService.mk imh.Repository.name
      (some imh.Repository.name) imh.Repository.deleteEnabled) w.state imh.Digest =
        (true, none) ∧
    manifestService.Exists (manifestService.mk imh.Repository.name
      (some imh.Repository.name) imh.Repository.deleteEnabled) w'.state imh.Digest =
        (false, none) ∧
    (∀ desc : Descriptor, desc.Digest = imh.Digest →
      TagService.Lookup x { repo := imh.Repository.name, store := some imh.Repository.name }
        w'.state desc = .ok ([], none)) ∧
    (∀ tag d,
      TagService.Get { repo := imh.Repository.name, store := some imh.Repository.name }
        w.state tag = (d, none) →
      d.Digest ≠ imh.Digest →
      TagService.Get { repo := imh.Repository.name, store := some imh.Repository.name }
        w'.state tag = (d, none)) := by
  obtain ⟨tags, rp', hen, hex, hL, _, hs', hm, ht, hother⟩ :=
    DeleteImageManifest_accepted_inv x imh id fuel w w' resp h h202
  have hrp0 : ((inMemoryMetadataStore.RepositoryScoped w.state imh.Repository.name).state.get?
      imh.Repository.name).getD [] = (w.state.get? imh.Repository.name).getD [] := by
    rw [RepositoryScoped_entry]
    rfl
  obtain ⟨hp0, hd0⟩ := TagService.Lookup_inv x
    { repo := imh.Repository.name, store := some imh.Repository.name } imh.Repository.name _ _
    tags rfl hL
  rw [hrp0] at hp0 hd0
  have hLeq := TagService.Lookup_eq x
    { repo := imh.Repository.name, store := some imh.Repository.name } imh.Repository.name
    (inMemoryMetadataStore.RepositoryScoped w.state imh.Repository.name).state
    { MediaType := "", Size := 0, Digest := imh.Digest }
    ((w.state.get? imh.Repository.name).getD []) rfl hrp0 hp0 hd0
  rw [hL] at hLeq
  have htags : tags = (sortStrings ((w.state.get? imh.Repository.name).getD []).keys).filterMap
      (TagService.Lookup.pick x ((w.state.get? imh.Repository.name).getD [])
        { MediaType := "", Size := 0, Digest := imh.Digest }) := by
    have := Except.ok.inj hLeq
    exact (Prod.mk.inj this).1
  -- the tags of `Lookup` are the tags whose descriptor has the digest
  have hmemtags : ∀ tag dd,
      ((w.state.get? imh.Repository.name).getD []).get? (Key.TagKey tag).String =
        some (some (.descriptor dd)) → dd.Digest = imh.Digest → tag ∈ tags := by
    intro tag dd hd hdig
    rw [htags, List.mem_filterMap]
    have hk := GoMap.mem_keys_of_get? _ hd
    obtain ⟨g, hg⟩ := hp0 _ hk
    exact ⟨(Key.TagKey tag).String, (sortStrings_perm _).mem_iff.2 hk,
      TagService.Lookup.pick_tag x _ _ tag dd g hg hd hdig⟩
  have htagsmem : ∀ tag, tag ∈ tags → ∃ dd,
      ((w.state.get? imh.Repository.name).getD []).get? (Key.TagKey tag).String =
        some (some (.descriptor dd)) ∧ dd.Digest = imh.Digest := by
    intro tag htag
    rw [htags, List.mem_filterMap] at htag
    obtain ⟨k, _, hpick⟩ := htag
    obtain ⟨hk, dd, hd, hdig⟩ := TagService.Lookup.pick_eq_some_inv x _ _ k tag hpick
    subst hk
    exact ⟨dd, hd, hdig.symm⟩
  -- what is left in the map was there before, under a key that was not deleted
  have hleft : ∀ k v, rp'.get? k = some v →
      ((w.state.get? imh.Repository.name).getD []).get? k = some v := by
    intro k v hv
    rw [← hother k]
    · exact hv
    · intro hk
      rw [hk, hm] at hv
      cases hv
    · intro tag htag hk
      rw [hk, ht tag htag] at hv
      cases hv
  have hrp' : (w'.state.get? imh.Repository.name).getD [] = rp' := by
    rw [hs', GoMap.get?_set_self]
    rfl
  refine ⟨hen, ?_, ?_, ?_, ?_⟩
  · simp only [manifestService.Exists, MetadataService.on, Exists_eq_entryOf] at hex ⊢
    rw [entryOf_RepositoryScoped] at hex
    exact hex
  · simp only [manifestService.Exists, MetadataService.on, Exists_eq_entryOf]
    rw [hs', entryOf_set_self, hm]
    rfl
  · intro desc hdesc
    rw [TagService.Lookup_eq x _ imh.Repository.name w'.state desc rp' rfl hrp'
      (fun k hk => by
        obtain ⟨v, hv⟩ := GoMap.get?_of_mem_keys rp' hk
        exact hp0 k (GoMap.mem_keys_of_get? _ (hleft k v hv)))
      (fun tag v hv => hd0 tag v (hleft _ v hv))]
    have hnil : (sortStrings rp'.keys).filterMap (TagService.Lookup.pick x rp' desc) = [] := by
      rw [List.eq_nil_iff_forall_not_mem]
      intro tag htag
      rw [List.mem_filterMap] at htag
      obtain ⟨k, _, hpick⟩ := htag
      obtain ⟨hk, dd, hd, hdig⟩ := TagService.Lookup.pick_eq_some_inv x _ _ k tag hpick
      subst hk
      have hin := hmemtags tag dd (hleft _ _ hd) (by rw [← hdig, hdesc])
      rw [ht tag hin] at hd
      cases hd
    rw [hnil]
  · intro tag d hget hne
    have hg := TagService.Get_ok_inv _ _ _ _ hget
    simp only [MetadataService.on, getOrNil_eq_entryOf] at hg
    have hd : ((w.state.get? imh.Repository.name).getD []).get? (Key.TagKey tag).String =
        some (some (.descriptor d)) := by
      unfold entryOf at hg
      cases hv : ((w.state.get? imh.Repository.name).getD []).get? (Key.TagKey tag).String with
      | none => simp [hv] at hg
      | some v =>
        rw [hv] at hg
        simp only [Option.getD_some] at hg
        rw [hg]
    apply TagService.Get_of_getOrNil_descriptor
    simp only [MetadataService.on, getOrNil_eq_entryOf]
    rw [hs', entryOf_set_self, hother _ (TagKey_ne_ManifestDigestKey tag imh.Digest), hd]
    · rfl
    · intro tag' htag' hk
      have := TagKey_String_injective hk
      subst this
      obtain ⟨dd, hdd, hdig⟩ := htagsmem _ htag'
      rw [hd] at hdd
      simp only [Option.some.injEq, Value.descriptor.injEq] at hdd
      subst hdd
      exact hne hdig


/-- Witness of C11: the DELETE of the manifest `sha256:22`, to which the tag `img` points,
from the store with the manifest list; the tag `list` still resolves to the list. -/
theorem C11_delete_removes_manifest_and_tags_witness :
    DeleteImageManifest sampleExternals deleteByDigest "tx" 1 (World.mk listState none []) =
      .ok (World.mk listStateAfterDelete none [], { Response.empty with status := some 202 }) ∧
    ({ Response.empty with status := some 202 } : Response).status = some 202 ∧
    (deleteByDigest.Repository.deleteEnabled = true ∧
    manifestService.Exists (manifestService.mk deleteByDigest.Repository.name
      (some deleteByDigest.Repository.name) deleteByDigest.Repository.deleteEnabled)
      (World.mk listState none []).state deleteByDigest.Digest = (true, none) ∧
    manifestService.Exists (manifestService.mk deleteByDigest.Repository.name
      (some deleteByDigest.Repository.name) deleteByDigest.Repository.deleteEnabled)
      (World.mk listStateAfterDelete none []).state deleteByDigest.Digest = (false, none) ∧
    (∀ desc : Descriptor, desc.Digest = deleteByDigest.Digest →
      TagService.Lookup sampleExternals
        { repo := deleteByDigest.Repository.name, store := some deleteByDigest.Repository.name }
        (World.mk listStateAfterDelete none []).state desc = .ok ([], none)) ∧
    (∀ tag d,
      TagService.Get
        { repo := deleteByDigest.Repository.name, store := some deleteByDigest.Repository.name }
        (World.mk listState none []).state tag = (d, none) →
      d.Digest ≠ deleteByDigest.Digest →
      TagService.Get
        { repo := deleteByDigest.Repository.name, store := some deleteByDigest.Repository.name }
        (World.mk listStateAfterDelete none []).state tag = (d, none))) :=
  ⟨rfl, rfl,
    C11_delete_removes_manifest_and_tags sampleExternals deleteByDigest "tx" 1
      (World.mk listState none []) (World.mk listStateAfterDelete none [])
      { Response.empty with status := some 202 } rfl rfl⟩


/-! ## C21: the cursor of a repository-scoped iteration -/

namespace inMemoryMetadataStore

/-- The loop of `iterateRepository` never reads `params.From`. -/
theorem loop_From {σ : Type} (x : Externals) (it : Option Key) (frm : String)
    (fn : IterFunc σ) (rp : repository) :
    ∀ (ks : List String) (acc : σ),
      iterateRepository.loop x { IterType := it, From := frm } fn rp ks acc =
        iterateRepository.loop x { IterType := it, From := "" } fn rp ks acc := by
  intro ks
  induction ks with
  | nil =>
    intro acc
    rfl
  | cons k ks ih =>
    intro acc
    unfold iterateRepository.loop
    cases hg : KeyFromString x k with
    | error e => rfl
    | ok g =>
      cases g with
      | none => exact ih acc
      | some key =>
        cases key with
        | ManifestDigestKey dg =>
          simp only
          split
          · split
            · rfl
            · exact ih _
          · exact ih acc
        | TagKey tag =>
          simp only
          split
          · split
            · rfl
            · exact ih _
          · exact ih acc
        | RepoKey rn => exact ih acc
        | BlobKey dg => exact ih acc
        | UploadStartedAtKey i => exact ih acc
        | UploadPathKey i => exact ih acc

/-- A repository-scoped `Iterate` does the same whatever `params.From` is. -/
theorem Iterate_From {σ : Type} (x : Externals) (m : inMemoryMetadataStore) (it : Option Key)
    (frm : String) (fn : IterFunc σ) (acc : σ) (hit : it ≠ some (.RepoKey "")) :
    m.Iterate x { IterType := it, From := frm } fn acc =
      m.Iterate x { IterType := it, From := "" } fn acc := by
  simp only [Iterate, hit, if_false, iterateRepository]
  split
  · rfl
  · exact loop_From x it frm fn _ _ acc

end inMemoryMetadataStore

/-- C21 (evaluation of the code): `iterateRepository` never reads `params.From`. On the
repository `r` of `sampleState`, `Iterate` with `IterType` `TagKey{}` and the cursor `zzz`
delivers the tags `a` and `b`, whose keys `tag::a` and `tag::b` (and whose names) sort
before the cursor, and with `ManifestDigestKey{}` it delivers the manifest, whose key sorts
before the cursor; for every store, non-Repo type and cursor the iteration is the one
without cursor. -/
theorem C21_Iterate_ignores_From :
    sampleView.Iterate sampleExternals { IterType := some (.TagKey ""), From := "zzz" }
        (recordUntil "") [] =
      .ok (none, [("a", some (.descriptor sampleDesc)), ("b", some (.descriptor otherDesc))]) ∧
    sampleView.Iterate sampleExternals { IterType := some (.ManifestDigestKey ""), From := "zzz" }
        (recordUntil "") [] =
      .ok (none, [("sha256:ab", some (.digest "sha256:ab"))]) ∧
    (strLe "tag::a" "zzz" ∧ ¬ strLe "zzz" "tag::a") ∧
    (strLe "tag::b" "zzz" ∧ ¬ strLe "zzz" "tag::b") ∧
    (strLe "manifest::sha256:ab" "zzz" ∧ ¬ strLe "zzz" "manifest::sha256:ab") ∧
    (strLe "a" "zzz" ∧ ¬ strLe "zzz" "a") ∧
    (∀ (m : inMemoryMetadataStore) (it : Option Key) (frm : String)
        (fn : IterFunc (List (String × Option Value))) (acc : List (String × Option Value)),
      it ≠ some (.RepoKey "") →
      m.Iterate sampleExternals { IterType := it, From := frm } fn acc =
        m.Iterate sampleExternals { IterType := it, From := "" } fn acc) :=
  ⟨rfl, rfl, by decide, by decide, by decide, by decide,
    fun m it frm fn acc hit => inMemoryMetadataStore.Iterate_From sampleExternals m it frm fn acc hit⟩


/-! ## C22, C23: what a repository-scoped iteration delivers -/

namespace inMemoryMetadataStore

/-- On keys that all parse, none to a variant that `IterType` selects, the loop of
`iterateRepository` ends with a nil error without a call of the closure. -/
theorem loop_no_delivery {σ : Type} (x : Externals) (it : Option Key) (frm : String)
    (fn : IterFunc σ) (rp : repository) :
    ∀ (ks : List String) (acc : σ),
      (∀ k ∈ ks, ∃ g, KeyFromString x k = .ok g ∧
        (∀ d, g = some (.ManifestDigestKey d) → it ≠ some (.ManifestDigestKey "")) ∧
        (∀ t, g = some (.TagKey t) → it ≠ some (.TagKey ""))) →
      iterateRepository.loop x { IterType := it, From := frm } fn rp ks acc =
        .ok (none, acc) := by
  intro ks
  induction ks with
  | nil =>
    intro acc _
    rfl
  | cons k ks ih =>
    intro acc h
    obtain ⟨g, hg, hm, ht⟩ := h k (List.mem_cons_self _ _)
    have ih' := ih acc (fun k' hk' => h k' (List.mem_cons_of_mem _ hk'))
    unfold iterateRepository.loop
    rw [hg]
    cases g with
    | none => exact ih'
    | some key =>
      cases key with
      | ManifestDigestKey dg =>
        simp only [hm dg rfl, if_false]
        exact ih'
      | TagKey tag =>
        simp only [ht tag rfl, if_false]
        exact ih'
      | RepoKey rn => exact ih'
      | BlobKey dg => exact ih'
      | UploadStartedAtKey i => exact ih'
      | UploadPathKey i => exact ih'

end inMemoryMetadataStore

/-- C22 (evaluation of the code): the switch of `iterateRepository` has a case for
`ManifestDigestKey` and one for `TagKey` and none for `BlobKey`. On the repository `r` of
`blobState`, whose key `blob::sha256:ab` `KeyFromString` decodes to a `BlobKey`, `Iterate`
with `IterType` `BlobKey{}` returns nil without a call of the closure, while the manifest
and the tag are delivered under their types; on every repository with keys, all of which
parse, `Iterate` with a `BlobKey` as `IterType` returns nil and delivers nothing. -/
theorem C22_Iterate_never_delivers_blobs :
    KeyFromString sampleExternals "blob::sha256:ab" = .ok (some (.BlobKey "sha256:ab")) ∧
    blobView.Exists (Key.BlobKey "sha256:ab").String = (true, none) ∧
    blobView.Iterate sampleExternals { IterType := some (.BlobKey ""), From := "" }
        (recordUntil "") [] = .ok (none, []) ∧
    blobView.Iterate sampleExternals { IterType := some (.ManifestDigestKey ""), From := "" }
        (recordUntil "") [] = .ok (none, [("sha256:ab", some (.digest "sha256:ab"))]) ∧
    blobView.Iterate sampleExternals { IterType := some (.TagKey ""), From := "" }
        (recordUntil "") [] = .ok (none, [("a", some (.descriptor sampleDesc))]) ∧
    (∀ (x : Externals) (m : inMemoryMetadataStore) (rp : repository) (dgst frm : String)
        (fn : IterFunc (List (String × Option Value))) (acc : List (String × Option Value)),
      m.repoMap = some rp → rp ≠ [] → (∀ k ∈ rp.keys, keyParses x k = true) →
      m.Iterate x { IterType := some (.BlobKey dgst), From := frm } fn acc =
        .ok (none, acc)) := by
  refine ⟨rfl, rfl, rfl, rfl, rfl, ?_⟩
  intro x m rp dgst frm fn acc hrp hne hparse
  have hperm := sortStrings_perm rp.keys
  have hlen : ¬ (sortStrings (GoMap.keys rp)).length = 0 := by
    rw [hperm.length_eq]
    cases rp with
    | nil => exact absurd rfl hne
    | cons e rest => simp [GoMap.keys]
  simp only [inMemoryMetadataStore.Iterate, inMemoryMetadataStore.iterateRepository, hrp,
    Option.getD_some, hlen, if_false]
  have hne' : (some (Key.BlobKey dgst) = some (Key.RepoKey "")) = False := by simp
  simp only [hne', if_false]
  apply inMemoryMetadataStore.loop_no_delivery
  intro k hk
  obtain ⟨g, hg⟩ := (keyParses_iff x k).1 (hparse k (hperm.mem_iff.1 hk))
  exact ⟨g, hg, fun _ _ => by simp, fun _ _ => by simp⟩


/-- Counterexample to C23 as stated: the direct `Tag` of the empty tag name leaves
repository `r` with the one key `tag::`, which is no manifest key; `Iterate` with `IterType`
`ManifestDigestKey{}` then meets a key that `KeyFromString` matches against no pattern and
panics instead of returning nil. -/
theorem C23_Iterate_no_match_counterexample :
    sampleTags.Tag sampleExternals { state := [("r", [])], tx := none } "" sampleDesc =
      .ok (none, { state := emptyTagState, tx := none }) ∧
    GoMap.keys ((emptyTagState.get? "r").getD []) = ["tag::"] ∧
    stripPrefix "manifest::" "tag::" = none ∧
    inMemoryMetadataStore.Iterate sampleExternals { state := emptyTagState, repo := some "r" }
        { IterType := some (.ManifestDigestKey ""), From := "" } (recordUntil "") [] =
      .error (.panic "error on key match: ") :=
  ⟨rfl, rfl, rfl, rfl⟩

/-- C23 (amended): through a view scoped to repository `r`, with a non-Repo `IterType`:
when the repository holds no key, `Iterate` returns `ErrRepositoryUnknown` for `r` without a
call of `fn`; when it holds keys, all of which `KeyFromString` parses, and none of the
variant that `IterType` selects (no `tag::` key for `TagKey{}`, no `manifest::` key for
`ManifestDigestKey{}`, any keys for another type), it returns nil without a call of `fn`. -/
theorem C23_Iterate_empty_or_no_match {σ : Type} (x : Externals) (m : inMemoryMetadataStore)
    (r : String) (it : Option Key) (frm : String) (fn : IterFunc σ) (acc : σ)
    (hr : m.repo = some r) (hit : it ≠ some (.RepoKey "")) :
    (m.repoMap.getD [] = [] →
      m.Iterate x { IterType := it, From := frm } fn acc =
        .ok (some (.ErrRepositoryUnknown r), acc)) ∧
    (∀ rp, m.repoMap = some rp → rp ≠ [] → (∀ k ∈ rp.keys, keyParses x k = true) →
      (it = some (.TagKey "") → ∀ k ∈ rp.keys, stripPrefix "tag::" k = none) →
      (it = some (.ManifestDigestKey "") → ∀ k ∈ rp.keys, stripPrefix "manifest::" k = none) →
      m.Iterate x { IterType := it, From := frm } fn acc = .ok (none, acc)) := by
  refine ⟨?_, ?_⟩
  · intro hempty
    simp [inMemoryMetadataStore.Iterate, hit, inMemoryMetadataStore.iterateRepository, hempty,
      GoMap.keys, sortStrings, hr]
  · intro rp hrp hne hparse htag hman
    have hperm := sortStrings_perm rp.keys
    have hlen : ¬ (sortStrings (GoMap.keys rp)).length = 0 := by
      rw [hperm.length_eq]
      cases rp with
      | nil => exact absurd rfl hne
      | cons e rest => simp [GoMap.keys]
    simp only [inMemoryMetadataStore.Iterate, hit, inMemoryMetadataStore.iterateRepository, hrp,
      Option.getD_some, hlen, if_false]
    apply inMemoryMetadataStore.loop_no_delivery
    intro k hk
    have hk' := hperm.mem_iff.1 hk
    obtain ⟨g, hg⟩ := (keyParses_iff x k).1 (hparse k hk')
    refine ⟨g, hg, ?_, ?_⟩
    · intro d hd hit'
      have := (KeyFromString_manifest_iff x k g hg d).2 hd
      rw [hman hit' k hk'] at this
      cases this
    · intro t ht hit'
      have := (KeyFromString_tag_iff x k g hg t).2 ht
      rw [htag hit' k hk'] at this
      cases this


/-- Witness of C23 (amended): the view of the empty repository `r`, on which `Iterate` over
the tags returns `ErrRepositoryUnknown`. -/
theorem C23_Iterate_empty_or_no_match_witness :
    emptyView.repo = some "r" ∧ (some (Key.TagKey "") : Option Key) ≠ some (.RepoKey "") ∧
    emptyView.Iterate sampleExternals { IterType := some (.TagKey ""), From := "" }
      (recordUntil "") [] = .ok (some (.ErrRepositoryUnknown "r"), []) ∧
    ((emptyView.repoMap.getD [] = [] →
      emptyView.Iterate sampleExternals { IterType := some (.TagKey ""), From := "" }
        (recordUntil "") [] = .ok (some (.ErrRepositoryUnknown "r"), [])) ∧
    (∀ rp, emptyView.repoMap = some rp → rp ≠ [] →
      (∀ k ∈ rp.keys, keyParses sampleExternals k = true) →
      ((some (Key.TagKey "") : Option Key) = some (.TagKey "") →
        ∀ k ∈ rp.keys, stripPrefix "tag::" k = none) →
      ((some (Key.TagKey "") : Option Key) = some (.ManifestDigestKey "") →
        ∀ k ∈ rp.keys, stripPrefix "manifest::" k = none) →
      emptyView.Iterate sampleExternals { IterType := some (.TagKey ""), From := "" }
        (recordUntil "") [] = .ok (none, []))) :=
  ⟨rfl, by decide, rfl,
    C23_Iterate_empty_or_no_match sampleExternals emptyView "r" (some (.TagKey "")) ""
      (recordUntil "") [] rfl (by decide)⟩


/-! ## C24: views share the state, repositories are apart -/

namespace inMemoryMetadataStore

theorem keys_withRepoMap (m : inMemoryMetadataStore) (rp rp' : repository)
    (h : m.repoMap = some rp) : GoMap.keys (m.withRepoMap rp') = GoMap.keys m.state := by
  unfold repoMap at h
  unfold withRepoMap
  cases hr : m.repo with
  | none => rfl
  | some r =>
    rw [hr] at h
    simp only at h ⊢
    rw [GoMap.keys_set, if_pos (GoMap.mem_keys_of_get? _ h)]

/-- A write through a view that returns leaves the list of repositories and the map of
every other repository as they were. -/
theorem StoreWrite_frame (m : inMemoryMetadataStore) (op : StoreWrite) (e : Option Error)
    (s' : State) (h : op.run m = .ok (e, s')) :
    GoMap.keys s' = GoMap.keys m.state ∧
      ∀ r', m.repo ≠ some r' → s'.get? r' = m.state.get? r' := by
  cases op with
  | Put key value =>
    simp only [StoreWrite.run, Put] at h
    cases hrp : m.repoMap with
    | none => simp [hrp] at h
    | some rp =>
      simp only [hrp, Except.ok.injEq, Prod.mk.injEq] at h
      rw [← h.2]
      exact ⟨keys_withRepoMap m rp _ hrp, fun r' hr' => get?_withRepoMap_ne m _ r' hr'⟩
  | Delete key =>
    simp only [StoreWrite.run, Delete, Except.ok.injEq] at h
    cases hrp : m.repoMap with
    | none =>
      simp only [hrp, Prod.mk.injEq] at h
      rw [← h.2]
      exact ⟨rfl, fun _ _ => rfl⟩
    | some rp =>
      simp only [hrp] at h
      cases hk : rp.get? key with
      | none =>
        simp only [hk, Prod.mk.injEq] at h
        rw [← h.2]
        exact ⟨rfl, fun _ _ => rfl⟩
      | some v =>
        simp only [hk, Prod.mk.injEq] at h
        rw [← h.2]
        exact ⟨keys_withRepoMap m rp _ hrp, fun r' hr' => get?_withRepoMap_ne m _ r' hr'⟩
  | BatchPut updates =>
    simp only [StoreWrite.run, BatchPut] at h
    split at h
    · simp only [Except.ok.injEq, Prod.mk.injEq] at h
      rw [← h.2]
      exact ⟨rfl, fun _ _ => rfl⟩
    · cases hrp : m.repoMap with
      | none =>
        rw [hrp] at h
        cases happ : BatchPut.apply none updates with
        | error err => simp [happ] at h
        | ok res =>
          obtain ⟨hres, _⟩ := apply_none updates res happ
          subst hres
          simp only [happ, Except.ok.injEq, Prod.mk.injEq] at h
          rw [← h.2]
          exact ⟨rfl, fun _ _ => rfl⟩
      | some rp =>
        rw [hrp] at h
        cases happ : BatchPut.apply (some rp) updates with
        | error err => simp [happ] at h
        | ok res =>
          cases res with
          | none =>
            simp only [happ, Except.ok.injEq, Prod.mk.injEq] at h
            rw [← h.2]
            exact ⟨rfl, fun _ _ => rfl⟩
          | some rp' =>
            simp only [happ, Except.ok.injEq, Prod.mk.injEq] at h
            rw [← h.2]
            exact ⟨keys_withRepoMap m rp _ hrp, fun r' hr' => get?_withRepoMap_ne m _ r' hr'⟩

/-- What a view reads depends on the list of repositories and on the map of its own
repository only. -/
theorem reads_congr {σ : Type} (x : Externals) (b : MetadataService) (s s' : State)
    (hkeys : GoMap.keys s' = GoMap.keys s)
    (hmap : (b.on s').repoMap = (b.on s).repoMap) :
    (∀ k, (b.on s').Get k = (b.on s).Get k) ∧
    (∀ k, (b.on s').Exists k = (b.on s).Exists k) ∧
    (∀ (params : IterateParameters) (fn : IterFunc σ) (acc : σ),
      (b.on s').Iterate x params fn acc = (b.on s).Iterate x params fn acc) := by
  refine ⟨?_, ?_, ?_⟩
  · intro k
    simp only [Get, getOrNil, hmap]
  · intro k
    simp only [Exists, hmap]
  · intro params fn acc
    simp only [Iterate, iterateRepositories, iterateRepository, hmap]
    simp only [MetadataService.on, hkeys]

end inMemoryMetadataStore


/-- C24: a `Put(k, v)` through a view that `RepositoryScoped` returned for repository `A`
returns nil, and `Get(k)` through another view that `RepositoryScoped` returned for `A`
then returns `v`; and for every repository `B` other than `A`, whatever `Put`, `Delete` or
`BatchPut` through a view scoped to `A` returns, `Get`, `Exists` and `Iterate` through a view
scoped to `B` return afterwards what they returned before. -/
theorem C24_views_share_state_repositories_apart {σ : Type} (x : Externals) (s : State)
    (A B : String) (hAB : B ≠ A) :
    (∀ k v, ∃ s',
      inMemoryMetadataStore.Put
        { state := (inMemoryMetadataStore.RepositoryScoped
            (inMemoryMetadataStore.RepositoryScoped s A).state A).state,
          repo := (inMemoryMetadataStore.RepositoryScoped s A).repo } k v = .ok (none, s') ∧
      inMemoryMetadataStore.Get
        { state := s',
          repo := (inMemoryMetadataStore.RepositoryScoped
            (inMemoryMetadataStore.RepositoryScoped s A).state A).repo } k = (v, none)) ∧
    (∀ (op : StoreWrite) (e : Option Error) (s' : State),
      op.run (MetadataService.on (some A) s) = .ok (e, s') →
      (∀ k, (MetadataService.on (some B) s').Get k = (MetadataService.on (some B) s).Get k) ∧
      (∀ k, (MetadataService.on (some B) s').Exists k =
        (MetadataService.on (some B) s).Exists k) ∧
      (∀ (params : IterateParameters) (fn : IterFunc σ) (acc : σ),
        (MetadataService.on (some B) s').Iterate x params fn acc =
          (MetadataService.on (some B) s).Iterate x params fn acc)) := by
  refine ⟨?_, ?_⟩
  · intro k v
    rw [RepositoryScoped_state_idem, RepositoryScoped_repo, RepositoryScoped_repo]
    refine ⟨(inMemoryMetadataStore.RepositoryScoped s A).state.set A
      (((s.get? A).getD []).set k v), ?_, ?_⟩
    · simp [inMemoryMetadataStore.Put, inMemoryMetadataStore.repoMap, RepositoryScoped_entry,
        inMemoryMetadataStore.withRepoMap]
    · simp [inMemoryMetadataStore.Get, inMemoryMetadataStore.getOrNil,
        inMemoryMetadataStore.repoMap, GoMap.get?_set_self]
  · intro op e s' h
    obtain ⟨hkeys, hother⟩ := inMemoryMetadataStore.StoreWrite_frame _ op e s' h
    have hne : (MetadataService.on (some A) s).repo ≠ some B := by
      simp only [MetadataService.on, ne_eq, Option.some.injEq]
      exact fun e => hAB e.symm
    apply inMemoryMetadataStore.reads_congr x (some B) s s' hkeys
    simp only [MetadataService.on, inMemoryMetadataStore.repoMap]
    exact hother B hne

/-- Witness of C24: the repositories `r` and `q` of `sampleState`. -/
theorem C24_views_share_state_repositories_apart_witness :
    ("q" : String) ≠ "r" ∧
    (StoreWrite.Delete "tag::a").run (MetadataService.on (some "r") sampleState) =
      .ok (none, untaggedState) ∧
    (MetadataService.on (some "q") untaggedState).Get "tag::a" =
      (some (.descriptor otherDesc), none) ∧
    ((∀ k v, ∃ s',
      inMemoryMetadataStore.Put
        { state := (inMemoryMetadataStore.RepositoryScoped
            (inMemoryMetadataStore.RepositoryScoped sampleState "r").state "r").state,
          repo := (inMemoryMetadataStore.RepositoryScoped sampleState "r").repo } k v =
        .ok (none, s') ∧
      inMemoryMetadataStore.Get
        { state := s',
          repo := (inMemoryMetadataStore.RepositoryScoped
            (inMemoryMetadataStore.RepositoryScoped sampleState "r").state "r").repo } k =
        (v, none)) ∧
    (∀ (op : StoreWrite) (e : Option Error) (s' : State),
      op.run (MetadataService.on (some "r") sampleState) = .ok (e, s') →
      (∀ k, (MetadataService.on (some "q") s').Get k =
        (MetadataService.on (some "q") sampleState).Get k) ∧
      (∀ k, (MetadataService.on (some "q") s').Exists k =
        (MetadataService.on (some "q") sampleState).Exists k) ∧
      (∀ (params : IterateParameters) (fn : IterFunc (List (String × Option Value)))
          (acc : List (String × Option Value)),
        (MetadataService.on (some "q") s').Iterate sampleExternals params fn acc =
          (MetadataService.on (some "q") sampleState).Iterate sampleExternals params fn
            acc))) :=
  ⟨by decide, rfl, rfl,
    C24_views_share_state_repositories_apart sampleExternals sampleState "r" "q" (by decide)⟩


/-! ## C25: which repositories the enumeration lists -/

/-- C25 (evaluation of the code): on the empty store the enumeration of the metadata-backed
registry lists nothing. Obtaining the scoped view, the tag service or the manifest service of
repository `r` calls `RepositoryScoped`, which creates the entry of `r` with an empty map; so
does a GET of a manifest that does not exist. No key is stored under `r`, and the
enumeration now lists `r`. -/
theorem C25_scoped_view_lists_repository :
    metadataRegistry.Repositories sampleExternals [] 10 "" = .ok ([], some .EOF) ∧
    (sampleRepository.MetadataService []).2 = [("r", [])] ∧
    (sampleRepository.Tags []).2 = [("r", [])] ∧
    (sampleRepository.Manifests []).2 = [("r", [])] ∧
    (GetImageManifest sampleHandlerExternals deleteByDigest plainRequest
      { state := [], tx := none }).map (fun res => (res.2.1.state, res.2.2.status)) =
        .ok ([("r", [])], none) ∧
    GoMap.keys ((GoMap.get? ([("r", [])] : State) "r").getD []) = [] ∧
    metadataRegistry.Repositories sampleExternals [("r", [])] 10 "" = .ok (["r"], some .EOF) :=
  ⟨rfl, rfl, rfl, rfl, rfl, rfl, rfl⟩


/-! ## C27: the refusals of `manifestService.Delete` -/

/-- C27: with `deleteEnabled` false, `Delete` returns `ErrUnsupported` for every digest and
every world, and leaves the world (the store and the transaction of the context) as it is;
with `deleteEnabled` true and the manifest key absent, it returns the error `ErrBlobUnknown`
and leaves the world as it is. -/
theorem C27_Delete_refusals (t : manifestService) (w : World) (dgst : String) :
    (t.deleteEnabled = false → t.Delete w dgst = (some .ErrUnsupported, w)) ∧
    (t.deleteEnabled = true → (t.Exists w.state dgst).1 = false →
      t.Delete w dgst = (some .ErrBlobUnknown, w)) := by
  refine ⟨?_, ?_⟩
  · intro h
    simp [manifestService.Delete, h]
  · intro h hex
    simp only [manifestService.Exists, inMemoryMetadataStore.Exists] at hex
    simp only [manifestService.Delete, h, manifestService.Exists, inMemoryMetadataStore.Exists]
    cases hrp : (t.store.on w.state).repoMap with
    | none => simp
    | some rp =>
      simp only [hrp] at hex ⊢
      cases hk : rp.get? (Key.ManifestDigestKey dgst).String with
      | none => simp
      | some v => simp [hk] at hex

/-- Witness of C27: with deletion disabled the manifest `sha256:ab`, which exists in
`sampleState`, is refused inside a transaction; with deletion enabled the manifest
`sha256:cd`, which does not exist, is refused. -/
theorem C27_Delete_refusals_witness :
    readOnlyManifests.deleteEnabled = false ∧
    readOnlyManifests.Exists sampleState "sha256:ab" = (true, none) ∧
    readOnlyManifests.Delete { state := sampleState, tx := some sampleTx } "sha256:ab" =
      (some .ErrUnsupported, { state := sampleState, tx := some sampleTx }) ∧
    sampleManifests.deleteEnabled = true ∧
    (sampleManifests.Exists sampleState "sha256:cd").1 = false ∧
    sampleManifests.Delete { state := sampleState, tx := some sampleTx } "sha256:cd" =
      (some .ErrBlobUnknown, { state := sampleState, tx := some sampleTx }) :=
  ⟨rfl, rfl,
    (C27_Delete_refusals readOnlyManifests { state := sampleState, tx := some sampleTx }
      "sha256:ab").1 rfl,
    rfl, rfl,
    (C27_Delete_refusals sampleManifests { state := sampleState, tx := some sampleTx }
      "sha256:cd").2 rfl rfl⟩


/-! ## Upload keys and blob keys -/

theorem UploadStartedAtKey_ne_UploadPathKey (i j : String) :
    (Key.UploadStartedAtKey i).String ≠ (Key.UploadPathKey j).String := by
  intro h
  have h1 := congrArg (fun s : String => s.toList.reverse.head?) h
  simp [Key.String] at h1

theorem UploadStartedAtKey_String_injective {i j : String}
    (h : (Key.UploadStartedAtKey i).String = (Key.UploadStartedAtKey j).String) : i = j := by
  have h1 := congrArg String.toList h
  simp only [Key.String, String.toList, String.data_append] at h1
  have h2 := List.append_cancel_right h1
  have h3 := List.append_cancel_left h2
  exact String.ext h3

theorem UploadPathKey_String_injective {i j : String}
    (h : (Key.UploadPathKey i).String = (Key.UploadPathKey j).String) : i = j := by
  have h1 := congrArg String.toList h
  simp only [Key.String, String.toList, String.data_append] at h1
  have h2 := List.append_cancel_right h1
  have h3 := List.append_cancel_left h2
  exact String.ext h3

theorem BlobKey_ne_UploadStartedAtKey (d i : String) :
    (Key.BlobKey d).String ≠ (Key.UploadStartedAtKey i).String := by
  intro h
  have h1 := congrArg (fun s : String => s.toList.head?) h
  simp [Key.String] at h1

theorem BlobKey_ne_UploadPathKey (d i : String) :
    (Key.BlobKey d).String ≠ (Key.UploadPathKey i).String := by
  intro h
  have h1 := congrArg (fun s : String => s.toList.head?) h
  simp [Key.String] at h1

theorem BlobKey_String_injective {d d' : String}
    (h : (Key.BlobKey d').String = (Key.BlobKey d).String) : d' = d := by
  have h1 := stripPrefix_append "blob::" d'
  have h2 := stripPrefix_append "blob::" d
  simp only [Key.String] at h
  rw [h, h2] at h1
  exact (Option.some.inj h1).symm

theorem entryOf_set (s : State) (r r' k : String) (rp : repository) :
    entryOf (s.set r rp) r' k = if r' = r then rp.get? k else entryOf s r' k := by
  unfold entryOf
  by_cases h : r' = r
  · subst h
    simp [GoMap.get?_set_self]
  · simp [h, GoMap.get?_set_ne _ _ h]

theorem entryOf_of_get? {s : State} {r : String} {rp : repository} (h : s.get? r = some rp)
    (k : String) : entryOf s r k = rp.get? k := by
  unfold entryOf
  rw [h]
  rfl

theorem metadataRepository.Blobs_eq (repo : metadataRepository) (s : State) :
    repo.Blobs s =
      ({ repository := repo,
         blobAccessController := { metadataService := some repo.name, repository := repo.name },
         metadataService := some repo.name },
        (inMemoryMetadataStore.RepositoryScoped s repo.name).state) := by
  simp only [metadataRepository.Blobs, metadataRepository.MetadataService_idem,
    metadataRepository.MetadataService_fst]
  rfl


namespace inMemoryMetadataStore

theorem Put_scoped (s : State) (r k : String) (v : Option Value) (rp : repository)
    (h : s.get? r = some rp) :
    Put { state := s, repo := some r } k v = .ok (none, s.set r (rp.set k v)) := by
  simp [Put, repoMap, h, withRepoMap]

theorem Delete_scoped_none (s : State) (r k : String) (rp : repository)
    (h : s.get? r = some rp) (hk : rp.get? k = none) :
    Delete { state := s, repo := some r } k = (some (.ErrKeyNotFound k), s) := by
  simp [Delete, repoMap, h, hk]

theorem Delete_scoped_some (s : State) (r k : String) (rp : repository) (v : Option Value)
    (h : s.get? r = some rp) (hk : rp.get? k = some v) :
    Delete { state := s, repo := some r } k = (none, s.set r (rp.delete k)) := by
  simp [Delete, repoMap, h, hk, withRepoMap]

/-- A `BatchPut` of the empty set returns nil and leaves the state as it is. -/
theorem BatchPut_nil (m : inMemoryMetadataStore) : m.BatchPut [] = .ok (none, m.state) := by
  unfold BatchPut
  simp only [BatchPut.conflict, BatchPut.apply, Bool.false_eq_true, if_false]
  cases hrp : m.repoMap with
  | none => rfl
  | some rp =>
    simp only
    unfold repoMap at hrp
    unfold withRepoMap
    cases hr : m.repo with
    | none => rfl
    | some r =>
      rw [hr] at hrp
      simp only at hrp ⊢
      rw [GoMap.set_eq_self _ hrp]

end inMemoryMetadataStore

/-- The `Commit` of a transaction that holds no write returns nil and leaves the state as it
is. -/
theorem Transaction.Commit_fresh (id : String) (ms : MetadataService) (s : State) :
    (BeginTx id ms).Commit s = .ok (none, { BeginTx id ms with committed := true }, s) := by
  simp [Transaction.Commit, BeginTx, inMemoryMetadataStore.BatchPut_nil, MetadataService.on]

theorem GoMap.set_set {α : Type} (m : GoMap α) (k : String) (v v' : α) :
    (m.set k v).set k v' = m.set k v' := by
  induction m with
  | nil => simp [GoMap.set]
  | cons e m ih =>
    obtain ⟨k0, v0⟩ := e
    by_cases h0 : k0 = k
    · simp [GoMap.set, h0]
    · simp [GoMap.set, h0, ih]


/-! ## The cleanup of an upload -/

/-- What the cleanup of upload `uuid` does once the writer's own `cleanup` succeeded:
`Update` scopes the view and runs the closure once; a missing `startedat` key ends it with
`ErrKeyNotFound` and nothing deleted, a missing `path` key with `ErrKeyNotFound` and the
`startedat` key deleted; otherwise both keys are deleted and the commit of the empty
transaction returns nil. -/
theorem metadataBlobStore.cleanupFunc_eq (bx : BlobExternals) (mbs : metadataBlobStore)
    (name uuid id : String) (fuel : Nat) (w : World)
    (hname : mbs.repository.name = name) (hms : mbs.metadataService = some name)
    (hc : bx.cleanup uuid = none) :
    metadataBlobStore.newBlobUpload.cleanupFunc bx mbs uuid id (fuel + 1) w =
      match ((w.state.get? name).getD []).get? (Key.UploadStartedAtKey uuid).String with
      | none =>
        .ok (some (.ErrKeyNotFound (Key.UploadStartedAtKey uuid).String),
          World.mk (inMemoryMetadataStore.RepositoryScoped w.state name).state w.tx w.Errors)
      | some _ =>
        match ((w.state.get? name).getD []).get? (Key.UploadPathKey uuid).String with
        | none =>
          .ok (some (.ErrKeyNotFound (Key.UploadPathKey uuid).String),
            World.mk ((inMemoryMetadataStore.RepositoryScoped w.state name).state.set name
              (((w.state.get? name).getD []).delete (Key.UploadStartedAtKey uuid).String))
              w.tx w.Errors)
        | some _ =>
          .ok (none,
            World.mk ((inMemoryMetadataStore.RepositoryScoped w.state name).state.set name
              ((((w.state.get? name).getD []).delete
                (Key.UploadStartedAtKey uuid).String).delete (Key.UploadPathKey uuid).String))
              w.tx w.Errors) := by
  have hent := RepositoryScoped_entry w.state name
  have hne : (Key.UploadPathKey uuid).String ≠ (Key.UploadStartedAtKey uuid).String :=
    (UploadStartedAtKey_ne_UploadPathKey uuid uuid).symm
  simp only [metadataBlobStore.newBlobUpload.cleanupFunc, hc, hname, Update,
    RepositoryScoped_repo, Update.try, metadataBlobStore.newBlobUpload.cleanupFunc.f, hms,
    MetadataService.on]
  cases hsa : ((w.state.get? name).getD []).get? (Key.UploadStartedAtKey uuid).String with
  | none =>
    simp only [inMemoryMetadataStore.Delete_scoped_none _ _ _ _ hent hsa]
  | some v =>
    simp only [inMemoryMetadataStore.Delete_scoped_some _ _ _ _ _ hent hsa]
    have hent1 : ((inMemoryMetadataStore.RepositoryScoped w.state name).state.set name
        (((w.state.get? name).getD []).delete (Key.UploadStartedAtKey uuid).String)).get? name =
        some (((w.state.get? name).getD []).delete (Key.UploadStartedAtKey uuid).String) :=
      GoMap.get?_set_self _ _ _
    cases hpk : ((w.state.get? name).getD []).get? (Key.UploadPathKey uuid).String with
    | none =>
      have hpk1 : (((w.state.get? name).getD []).delete
          (Key.UploadStartedAtKey uuid).String).get? (Key.UploadPathKey uuid).String = none := by
        rw [GoMap.get?_delete_ne _ hne, hpk]
      simp only [inMemoryMetadataStore.Delete_scoped_none _ _ _ _ hent1 hpk1]
    | some v' =>
      have hpk1 : (((w.state.get? name).getD []).delete
          (Key.UploadStartedAtKey uuid).String).get? (Key.UploadPathKey uuid).String =
          some v' := by
        rw [GoMap.get?_delete_ne _ hne, hpk]
      simp only [inMemoryMetadataStore.Delete_scoped_some _ _ _ _ _ hent1 hpk1,
        GoMap.set_set, Option.getD_some, Transaction.Commit_fresh]
      simp


/-! ## C28: the two keys of an upload come and go together -/

theorem uploadKeysPairedIn_of (s : State) (r : String) (h : uploadKeysPaired s) :
    uploadKeysPairedIn ((s.get? r).getD []) :=
  fun id => h r id

theorem uploadKeysPaired_set (s : State) (r : String) (rp : repository)
    (h : uploadKeysPaired s) (hrp : uploadKeysPairedIn rp) : uploadKeysPaired (s.set r rp) := by
  intro r' id
  rw [entryOf_set, entryOf_set]
  by_cases hr : r' = r
  · simp only [hr, if_true]
    exact hrp id
  · simp only [hr, if_false]
    exact h r' id

theorem uploadKeysPaired_RepositoryScoped (s : State) (r : String) (h : uploadKeysPaired s) :
    uploadKeysPaired (inMemoryMetadataStore.RepositoryScoped s r).state := by
  intro r' id
  rw [entryOf_RepositoryScoped, entryOf_RepositoryScoped]
  exact h r' id

theorem uploadKeysPairedIn_create (rp : repository) (uuid : String) (v v' : Option Value)
    (h : uploadKeysPairedIn rp) :
    uploadKeysPairedIn ((rp.set (Key.UploadStartedAtKey uuid).String v).set
      (Key.UploadPathKey uuid).String v') := by
  intro id
  by_cases hid : id = uuid
  · subst hid
    rw [GoMap.get?_set_ne _ _ (UploadStartedAtKey_ne_UploadPathKey id id),
      GoMap.get?_set_self, GoMap.get?_set_self]
    rfl
  · have h1 : (Key.UploadStartedAtKey id).String ≠ (Key.UploadStartedAtKey uuid).String :=
      fun e => hid (UploadStartedAtKey_String_injective e)
    have h2 : (Key.UploadPathKey id).String ≠ (Key.UploadPathKey uuid).String :=
      fun e => hid (UploadPathKey_String_injective e)
    rw [GoMap.get?_set_ne _ _ (UploadStartedAtKey_ne_UploadPathKey id uuid),
      GoMap.get?_set_ne _ _ h1, GoMap.get?_set_ne _ _ h2,
      GoMap.get?_set_ne _ _ (UploadStartedAtKey_ne_UploadPathKey uuid id).symm]
    exact h id

theorem uploadKeysPairedIn_delete_both (rp : repository) (uuid : String)
    (h : uploadKeysPairedIn rp) :
    uploadKeysPairedIn ((rp.delete (Key.UploadStartedAtKey uuid).String).delete
      (Key.UploadPathKey uuid).String) := by
  intro id
  by_cases hid : id = uuid
  · subst hid
    rw [GoMap.get?_delete_ne _ (UploadStartedAtKey_ne_UploadPathKey id id),
      GoMap.get?_delete_self, GoMap.get?_delete_self]
  · have h1 : (Key.UploadStartedAtKey id).String ≠ (Key.UploadStartedAtKey uuid).String :=
      fun e => hid (UploadStartedAtKey_String_injective e)
    have h2 : (Key.UploadPathKey id).String ≠ (Key.UploadPathKey uuid).String :=
      fun e => hid (UploadPathKey_String_injective e)
    rw [GoMap.get?_delete_ne _ (UploadStartedAtKey_ne_UploadPathKey id uuid),
      GoMap.get?_delete_ne _ h1, GoMap.get?_delete_ne _ h2,
      GoMap.get?_delete_ne _ (UploadStartedAtKey_ne_UploadPathKey uuid id).symm]
    exact h id

theorem uploadKeysPairedIn_delete_startedat (rp : repository) (uuid : String)
    (h : uploadKeysPairedIn rp) (hpk : rp.get? (Key.UploadPathKey uuid).String = none) :
    uploadKeysPairedIn (rp.delete (Key.UploadStartedAtKey uuid).String) := by
  intro id
  by_cases hid : id = uuid
  · subst hid
    rw [GoMap.get?_delete_self,
      GoMap.get?_delete_ne _ (UploadStartedAtKey_ne_UploadPathKey id id).symm, hpk]
  · have h1 : (Key.UploadStartedAtKey id).String ≠ (Key.UploadStartedAtKey uuid).String :=
      fun e => hid (UploadStartedAtKey_String_injective e)
    rw [GoMap.get?_delete_ne _ h1,
      GoMap.get?_delete_ne _ (UploadStartedAtKey_ne_UploadPathKey uuid id).symm]
    exact h id

theorem uploadKeysPairedIn_set_blob (rp : repository) (dgst : String) (v : Option Value)
    (h : uploadKeysPairedIn rp) : uploadKeysPairedIn (rp.set (Key.BlobKey dgst).String v) := by
  intro id
  rw [GoMap.get?_set_ne _ _ (BlobKey_ne_UploadStartedAtKey dgst id).symm,
    GoMap.get?_set_ne _ _ (BlobKey_ne_UploadPathKey dgst id).symm]
  exact h id


/-- The cleanup of an upload returns; it keeps the pairing of the upload keys, and when it
returns nil the repository has an entry in which both keys of the upload are missing. -/
theorem metadataBlobStore.cleanupFunc_paired (bx : BlobExternals) (mbs : metadataBlobStore)
    (name uuid id : String) (fuel : Nat) (w : World)
    (hname : mbs.repository.name = name) (hms : mbs.metadataService = some name) :
    ∃ e s', metadataBlobStore.newBlobUpload.cleanupFunc bx mbs uuid id (fuel + 1) w =
        .ok (e, World.mk s' w.tx w.Errors) ∧
      (uploadKeysPaired w.state → uploadKeysPaired s') ∧
      (e = none → ∃ rp, s'.get? name = some rp ∧
        rp.get? (Key.UploadStartedAtKey uuid).String = none ∧
        rp.get? (Key.UploadPathKey uuid).String = none ∧
        (uploadKeysPaired w.state → uploadKeysPairedIn rp)) := by
  cases hc : bx.cleanup uuid with
  | some err =>
    refine ⟨some err, w.state, ?_, fun h => h, fun h => by cases h⟩
    simp [metadataBlobStore.newBlobUpload.cleanupFunc, hc]
  | none =>
    rw [metadataBlobStore.cleanupFunc_eq bx mbs name uuid id fuel w hname hms hc]
    cases hsa : ((w.state.get? name).getD []).get? (Key.UploadStartedAtKey uuid).String with
    | none =>
      exact ⟨_, _, rfl, fun h => uploadKeysPaired_RepositoryScoped _ _ h, fun h => by cases h⟩
    | some v =>
      cases hpk : ((w.state.get? name).getD []).get? (Key.UploadPathKey uuid).String with
      | none =>
        refine ⟨_, _, rfl, fun h => ?_, fun h => by cases h⟩
        exact uploadKeysPaired_set _ _ _ (uploadKeysPaired_RepositoryScoped _ _ h)
          (uploadKeysPairedIn_delete_startedat _ uuid (uploadKeysPairedIn_of _ name h) hpk)
      | some v' =>
        refine ⟨_, _, rfl, fun h => ?_, fun _ => ⟨_, GoMap.get?_set_self _ _ _, ?_, ?_, ?_⟩⟩
        · exact uploadKeysPaired_set _ _ _ (uploadKeysPaired_RepositoryScoped _ _ h)
            (uploadKeysPairedIn_delete_both _ uuid (uploadKeysPairedIn_of _ name h))
        · rw [GoMap.get?_delete_ne _ (UploadStartedAtKey_ne_UploadPathKey uuid uuid),
            GoMap.get?_delete_self]
        · rw [GoMap.get?_delete_self]
        · exact fun h => uploadKeysPairedIn_delete_both _ uuid (uploadKeysPairedIn_of _ name h)

/-- `Create.upload` on a repository that has an entry, when `pathFor` returns the upload
path: both upload keys are written, whatever the driver then says about the writer. -/
theorem metadataBlobStore.Create.upload_eq (bx : BlobExternals) (mbs : metadataBlobStore)
    (name uuid startedAt uploadPath : String) (s : State) (rp : Registry.repository)
    (hname : mbs.repository.name = name) (hms : mbs.metadataService = some name)
    (hrp : s.get? name = some rp) (hpath : bx.pathFor name uuid = .ok uploadPath) :
    metadataBlobStore.Create.upload bx mbs uuid startedAt s =
      .ok (metadataBlobStore.newBlobUpload bx uuid uploadPath false,
        s.set name ((rp.set (Key.UploadStartedAtKey uuid).String (some (.string startedAt))).set
          (Key.UploadPathKey uuid).String (some (.string uploadPath)))) := by
  simp only [metadataBlobStore.Create.upload, hms, MetadataService.on, hname, hpath,
    inMemoryMetadataStore.Put_scoped _ _ _ _ _ hrp,
    inMemoryMetadataStore.Put_scoped _ _ _ _ _ (GoMap.get?_set_self _ _ _), GoMap.set_set]


/-- The commit function of an upload returns; it keeps the pairing of the upload keys, and
when it returns a descriptor the repository has an entry in which both keys of the upload
are missing and the blob key of the descriptor's digest holds the descriptor. -/
theorem metadataBlobStore.commitFunc_paired (bx : BlobExternals) (mbs : metadataBlobStore)
    (name uuid id : String) (fuel : Nat) (desc : Descriptor) (w : World)
    (hname : mbs.repository.name = name) (hms : mbs.metadataService = some name)
    (hbac : mbs.blobAccessController.metadataService = some name) :
    ∃ res s', metadataBlobStore.newBlobUpload.commitFunc bx mbs uuid id (fuel + 1) desc w =
        .ok (res, World.mk s' w.tx w.Errors) ∧
      (uploadKeysPaired w.state → uploadKeysPaired s') ∧
      (∀ canonical, res = .ok canonical → ∃ rp, s'.get? name = some rp ∧
        rp.get? (Key.UploadStartedAtKey uuid).String = none ∧
        rp.get? (Key.UploadPathKey uuid).String = none ∧
        rp.get? (Key.BlobKey canonical.Digest).String = some (some (.descriptor canonical))) := by
  unfold metadataBlobStore.newBlobUpload.commitFunc
  cases h1 : bx.fileWriterCommit uuid with
  | some err =>
    exact ⟨.error err, w.state, rfl, fun h => h, fun c hc => Except.noConfusion hc⟩
  | none =>
    simp only
    cases h2 : bx.validateBlob uuid { desc with Size := bx.Size uuid } with
    | error err =>
      exact ⟨.error err, w.state, rfl, fun h => h, fun c hc => Except.noConfusion hc⟩
    | ok canonical =>
      simp only
      cases h3 : bx.moveBlob uuid canonical with
      | some err =>
        exact ⟨.error err, w.state, rfl, fun h => h, fun c hc => Except.noConfusion hc⟩
      | none =>
        simp only
        obtain ⟨e, s1, hcl, hp, hnone⟩ :=
          metadataBlobStore.cleanupFunc_paired bx mbs name uuid id fuel w hname hms
        simp only [hcl]
        cases e with
        | some err =>
          exact ⟨.error err, s1, rfl, hp, fun c hc => Except.noConfusion hc⟩
        | none =>
          obtain ⟨rp, hrp, hsa, hpk, hin⟩ := hnone rfl
          simp only [metadataBlobStatter.SetDescriptor, hbac, MetadataService.on,
            inMemoryMetadataStore.Put_scoped _ _ _ _ _ hrp]
          refine ⟨.ok canonical, _, rfl, fun h => ?_,
            fun c hc => ⟨_, GoMap.get?_set_self _ _ _, ?_, ?_, ?_⟩⟩
          · exact uploadKeysPaired_set _ _ _ (hp h) (uploadKeysPairedIn_set_blob _ _ _ (hin h))
          · rw [GoMap.get?_set_ne _ _ (BlobKey_ne_UploadStartedAtKey _ _).symm, hsa]
          · rw [GoMap.get?_set_ne _ _ (BlobKey_ne_UploadPathKey _ _).symm, hpk]
          · cases hc
            rw [GoMap.get?_set_self]


/-- Every step of an upload session returns and keeps the pairing of the upload keys, as
long as `pathFor` returns the upload path. -/
theorem UploadOp.run_paired (deleteEnabled : Bool) (fuel : Nat) (bx : BlobExternals)
    (s : State) (op : UploadOp) (hpath : ∀ name id, ∃ p, bx.pathFor name id = .ok p) :
    ∃ s', op.run deleteEnabled (fuel + 1) bx s = .ok s' ∧
      (uploadKeysPaired s → uploadKeysPaired s') := by
  cases op with
  | Create repo uuid startedAt =>
    obtain ⟨p, hp⟩ := hpath repo uuid
    simp only [UploadOp.run, metadataRepository.Blobs_eq, metadataBlobStore.Create,
      metadataBlobStore.Create.options, Bool.false_eq_true, if_false]
    rw [metadataBlobStore.Create.upload_eq bx _ repo uuid startedAt p _ _ rfl rfl
      (RepositoryScoped_entry s repo) hp]
    exact ⟨_, rfl, fun h => uploadKeysPaired_set _ _ _
      (uploadKeysPaired_RepositoryScoped _ _ h)
      (uploadKeysPairedIn_create _ uuid _ _ (uploadKeysPairedIn_of _ repo h))⟩
  | Resume repo uuid =>
    simp only [UploadOp.run, metadataRepository.Blobs_eq]
    split <;> exact ⟨_, rfl, fun h => uploadKeysPaired_RepositoryScoped _ _ h⟩
  | Cancel repo uuid id =>
    simp only [UploadOp.run, metadataRepository.Blobs_eq]
    obtain ⟨e, s', hcl, hpair, _⟩ := metadataBlobStore.cleanupFunc_paired bx
      { repository := metadataRepository.mk repo deleteEnabled,
        blobAccessController := { metadataService := some repo, repository := repo },
        metadataService := some repo } repo uuid id fuel
      (World.mk (inMemoryMetadataStore.RepositoryScoped s repo).state none []) rfl rfl
    rw [hcl]
    exact ⟨s', rfl, fun h => hpair (uploadKeysPaired_RepositoryScoped _ _ h)⟩
  | Commit repo uuid id desc =>
    simp only [UploadOp.run, metadataRepository.Blobs_eq]
    obtain ⟨res, s', hcm, hpair, _⟩ := metadataBlobStore.commitFunc_paired bx
      { repository := metadataRepository.mk repo deleteEnabled,
        blobAccessController := { metadataService := some repo, repository := repo },
        metadataService := some repo } repo uuid id fuel desc
      (World.mk (inMemoryMetadataStore.RepositoryScoped s repo).state none []) rfl rfl rfl
    rw [hcm]
    exact ⟨s', rfl, fun h => hpair (uploadKeysPaired_RepositoryScoped _ _ h)⟩

theorem UploadOp.runAll_paired (deleteEnabled : Bool) (fuel : Nat) :
    ∀ (steps : List (BlobExternals × UploadOp)) (s : State),
      (∀ step ∈ steps, ∀ name id, ∃ p, step.1.pathFor name id = .ok p) →
      uploadKeysPaired s →
      ∃ s', UploadOp.runAll deleteEnabled (fuel + 1) s steps = .ok s' ∧ uploadKeysPaired s' := by
  intro steps
  induction steps with
  | nil =>
    intro s _ h
    exact ⟨s, rfl, h⟩
  | cons step rest ih =>
    intro s hpath h
    obtain ⟨bx, op⟩ := step
    obtain ⟨s1, h1, hp1⟩ := UploadOp.run_paired deleteEnabled fuel bx s op
      (hpath (bx, op) (List.mem_cons_self _ _))
    obtain ⟨s2, h2, hp2⟩ := ih s1 (fun st hst => hpath st (List.mem_cons_of_mem _ hst)) (hp1 h)
    exact ⟨s2, by simp only [UploadOp.runAll, h1, h2], hp2⟩


/-- C28: every sequence of `Create` (without mount), `Resume`, cleanup (as `Cancel` runs it)
and commit function (as `Commit` runs it) on the blob stores of any repositories, started on
the empty store, runs through, and in the state it reaches the key `upload::<id>::startedat`
exists exactly when `upload::<id>::path` exists, in every repository and for every upload
id; `pathFor` is taken to return the upload path at each step. A `Create` writes both keys
and a cleanup that returns nil leaves both missing. -/
theorem C28_upload_keys_paired (deleteEnabled : Bool) (fuel : Nat)
    (steps : List (BlobExternals × UploadOp))
    (hpath : ∀ step ∈ steps, ∀ name id, ∃ p, step.1.pathFor name id = .ok p) :
    (∃ s, UploadOp.runAll deleteEnabled (fuel + 1) [] steps = .ok s ∧ uploadKeysPaired s) ∧
    (∀ (bx : BlobExternals) (repo uuid startedAt : String) (s : State),
      (∃ p, bx.pathFor repo uuid = .ok p) →
      ∃ res s', ((metadataRepository.mk repo deleteEnabled).Blobs s).1.Create bx [] uuid
          startedAt ((metadataRepository.mk repo deleteEnabled).Blobs s).2 = .ok (res, s') ∧
        (entryOf s' repo (Key.UploadStartedAtKey uuid).String).isSome = true ∧
        (entryOf s' repo (Key.UploadPathKey uuid).String).isSome = true) ∧
    (∀ (bx : BlobExternals) (repo uuid id : String) (s : State) (w' : World),
      metadataBlobStore.newBlobUpload.cleanupFunc bx
        ((metadataRepository.mk repo deleteEnabled).Blobs s).1 uuid id (fuel + 1)
        (World.mk ((metadataRepository.mk repo deleteEnabled).Blobs s).2 none []) =
          .ok (none, w') →
      entryOf w'.state repo (Key.UploadStartedAtKey uuid).String = none ∧
      entryOf w'.state repo (Key.UploadPathKey uuid).String = none) := by
  refine ⟨?_, ?_, ?_⟩
  · exact UploadOp.runAll_paired deleteEnabled fuel steps [] hpath (fun _ _ => rfl)
  · intro bx repo uuid startedAt s hp
    obtain ⟨p, hp⟩ := hp
    simp only [metadataRepository.Blobs_eq, metadataBlobStore.Create,
      metadataBlobStore.Create.options, Bool.false_eq_true, if_false]
    rw [metadataBlobStore.Create.upload_eq bx _ repo uuid startedAt p _ _ rfl rfl
      (RepositoryScoped_entry s repo) hp]
    refine ⟨_, _, rfl, ?_, ?_⟩
    · rw [entryOf_set, if_pos rfl,
        GoMap.get?_set_ne _ _ (UploadStartedAtKey_ne_UploadPathKey uuid uuid),
        GoMap.get?_set_self]
      rfl
    · rw [entryOf_set, if_pos rfl, GoMap.get?_set_self]
      rfl
  · intro bx repo uuid id s w' h
    simp only [metadataRepository.Blobs_eq] at h
    obtain ⟨e, s', hcl, _, hnone⟩ := metadataBlobStore.cleanupFunc_paired bx
      { repository := metadataRepository.mk repo deleteEnabled,
        blobAccessController := { metadataService := some repo, repository := repo },
        metadataService := some repo } repo uuid id fuel
      (World.mk (inMemoryMetadataStore.RepositoryScoped s repo).state none []) rfl rfl
    rw [hcl] at h
    simp only [Except.ok.injEq, Prod.mk.injEq] at h
    obtain ⟨he, hw⟩ := h
    obtain ⟨rp, hrp, hsa, hpk, _⟩ := hnone he
    subst hw
    exact ⟨by rw [entryOf_of_get? hrp, hsa], by rw [entryOf_of_get? hrp, hpk]⟩

/-- Witness of C28: the sample session, in which one upload is committed and another
cancelled, ends in a state without upload keys. -/
theorem C28_upload_keys_paired_witness :
    (∀ step ∈ sampleUploadSteps, ∀ name id, ∃ p, step.1.pathFor name id = .ok p) ∧
    UploadOp.runAll true (0 + 1) [] sampleUploadSteps =
      .ok [("r", [("blob::sha256:ab", some (.descriptor sampleDesc))])] ∧
    ((∃ s, UploadOp.runAll true (0 + 1) [] sampleUploadSteps = .ok s ∧ uploadKeysPaired s) ∧
    (∀ (bx : BlobExternals) (repo uuid startedAt : String) (s : State),
      (∃ p, bx.pathFor repo uuid = .ok p) →
      ∃ res s', ((metadataRepository.mk repo true).Blobs s).1.Create bx [] uuid
          startedAt ((metadataRepository.mk repo true).Blobs s).2 = .ok (res, s') ∧
        (entryOf s' repo (Key.UploadStartedAtKey uuid).String).isSome = true ∧
        (entryOf s' repo (Key.UploadPathKey uuid).String).isSome = true) ∧
    (∀ (bx : BlobExternals) (repo uuid id : String) (s : State) (w' : World),
      metadataBlobStore.newBlobUpload.cleanupFunc bx
        ((metadataRepository.mk repo true).Blobs s).1 uuid id (0 + 1)
        (World.mk ((metadataRepository.mk repo true).Blobs s).2 none []) =
          .ok (none, w') →
      entryOf w'.state repo (Key.UploadStartedAtKey uuid).String = none ∧
      entryOf w'.state repo (Key.UploadPathKey uuid).String = none)) :=
  ⟨fun step hs name id => by
      simp only [sampleUploadSteps, List.mem_cons, List.mem_singleton, List.not_mem_nil,
        or_false] at hs
      rcases hs with h | h | h | h | h <;> subst h <;> exact ⟨_, rfl⟩,
    rfl,
    C28_upload_keys_paired true 0 sampleUploadSteps (fun step hs name id => by
      simp only [sampleUploadSteps, List.mem_cons, List.mem_singleton, List.not_mem_nil,
        or_false] at hs
      rcases hs with h | h | h | h | h <;> subst h <;> exact ⟨_, rfl⟩)⟩


/-! ## C29: after the commit function of an upload -/

/-- C29: when the commit function of the upload `uuid` of a repository returns a descriptor
(its canonical descriptor), the repository holds neither `upload::<uuid>::startedat` nor
`upload::<uuid>::path`, the blob key of the descriptor's digest holds the descriptor, and
`Resume(uuid)` on a blob store of the repository returns `ErrBlobUploadUnknown`. -/
theorem C29_commit_removes_upload_keys (bx : BlobExternals) (deleteEnabled : Bool)
    (repo uuid id : String) (fuel : Nat) (desc canonical : Descriptor) (s : State)
    (tx : Option Transaction) (errs : List ApiError) (w' : World)
    (h : metadataBlobStore.newBlobUpload.commitFunc bx
      ((metadataRepository.mk repo deleteEnabled).Blobs s).1 uuid id fuel desc
      (World.mk ((metadataRepository.mk repo deleteEnabled).Blobs s).2 tx errs) =
        .ok (.ok canonical, w')) :
    entryOf w'.state repo (Key.UploadStartedAtKey uuid).String = none ∧
    entryOf w'.state repo (Key.UploadPathKey uuid).String = none ∧
    entryOf w'.state repo (Key.BlobKey canonical.Digest).String =
      some (some (.descriptor canonical)) ∧
    ∀ bx' : BlobExternals,
      metadataBlobStore.Resume bx' ((metadataRepository.mk repo deleteEnabled).Blobs w'.state).1
        ((metadataRepository.mk repo deleteEnabled).Blobs w'.state).2 uuid =
        .error .ErrBlobUploadUnknown := by
  simp only [metadataRepository.Blobs_eq] at h ⊢
  cases fuel with
  | zero =>
    exfalso
    unfold metadataBlobStore.newBlobUpload.commitFunc at h
    cases h1 : bx.fileWriterCommit uuid with
    | some err => simp [h1] at h
    | none =>
      simp only [h1] at h
      cases h2 : bx.validateBlob uuid { desc with Size := bx.Size uuid } with
      | error err => simp [h2] at h
      | ok c =>
        simp only [h2] at h
        cases h3 : bx.moveBlob uuid c with
        | some err => simp [h3] at h
        | none =>
          simp only [h3, metadataBlobStore.newBlobUpload.cleanupFunc] at h
          cases h4 : bx.cleanup uuid with
          | some err => simp [h4] at h
          | none => simp [h4, Update, Update.try] at h
  | succ fuel =>
    obtain ⟨res, s', hcm, _, hok⟩ := metadataBlobStore.commitFunc_paired bx
      { repository := metadataRepository.mk repo deleteEnabled,
        blobAccessController := { metadataService := some repo, repository := repo },
        metadataService := some repo } repo uuid id fuel desc
      (World.mk (inMemoryMetadataStore.RepositoryScoped s repo).state tx errs) rfl rfl rfl
    rw [hcm] at h
    simp only [Except.ok.injEq, Prod.mk.injEq] at h
    obtain ⟨hres, hw⟩ := h
    obtain ⟨rp, hrp, hsa, hpk, hblob⟩ := hok canonical hres
    subst hw
    have h1 : entryOf s' repo (Key.UploadStartedAtKey uuid).String = none := by
      rw [entryOf_of_get? hrp, hsa]
    refine ⟨h1, by rw [entryOf_of_get? hrp, hpk], by rw [entryOf_of_get? hrp, hblob], ?_⟩
    intro bx'
    simp only [metadataBlobStore.Resume, MetadataService.on, inMemoryMetadataStore.Get,
      getOrNil_eq_entryOf, entryOf_RepositoryScoped, h1]
    rfl


/-- Witness of C29: the upload `u1` of repository `r`, created on the empty store, is
committed; the repository then holds the blob key alone. -/
theorem C29_commit_removes_upload_keys_witness :
    UploadOp.runAll true 1 [] [(sampleBlobExternals, .Create "r" "u1" "2016-03-01T10:00:00Z")] =
      .ok uploadingState ∧
    metadataBlobStore.newBlobUpload.commitFunc sampleBlobExternals
      ((metadataRepository.mk "r" true).Blobs uploadingState).1 "u1" "tx-1" 1
      { MediaType := "", Size := 0, Digest := "" }
      (World.mk ((metadataRepository.mk "r" true).Blobs uploadingState).2 none []) =
        .ok (.ok sampleDesc,
          World.mk [("r", [("blob::sha256:ab", some (.descriptor sampleDesc))])] none []) ∧
    entryOf (World.mk [("r", [("blob::sha256:ab", some (.descriptor sampleDesc))])] none []).state
      "r" (Key.UploadStartedAtKey "u1").String = none ∧
    entryOf (World.mk [("r", [("blob::sha256:ab", some (.descriptor sampleDesc))])] none []).state
      "r" (Key.UploadPathKey "u1").String = none ∧
    entryOf (World.mk [("r", [("blob::sha256:ab", some (.descriptor sampleDesc))])] none []).state
      "r" (Key.BlobKey sampleDesc.Digest).String = some (some (.descriptor sampleDesc)) ∧
    ∀ bx' : BlobExternals,
      metadataBlobStore.Resume bx'
        ((metadataRepository.mk "r" true).Blobs
          (World.mk [("r", [("blob::sha256:ab", some (.descriptor sampleDesc))])] none []).state).1
        ((metadataRepository.mk "r" true).Blobs
          (World.mk [("r", [("blob::sha256:ab", some (.descriptor sampleDesc))])] none []).state).2
        "u1" = .error .ErrBlobUploadUnknown :=
  ⟨rfl, rfl,
    C29_commit_removes_upload_keys sampleBlobExternals true "r" "u1" "tx-1" 1
      { MediaType := "", Size := 0, Digest := "" } sampleDesc uploadingState none []
      (World.mk [("r", [("blob::sha256:ab", some (.descriptor sampleDesc))])] none []) rfl⟩


/-! ## C30: `Create` with a mount -/

theorem RepositoryScoped_get?_some (s : State) (r r' : String) (rp : repository)
    (h : s.get? r' = some rp) :
    (inMemoryMetadataStore.RepositoryScoped s r).state.get? r' = some rp := by
  unfold inMemoryMetadataStore.RepositoryScoped
  cases hr : s.get? r with
  | some rp0 => exact h
  | none =>
    have hne : r' ≠ r := fun e => by rw [e, hr] at h; cases h
    simp only
    rw [GoMap.get?_set_ne _ _ hne]
    exact h

/-- C30: a `Create` whose options set `Mount.ShouldMount`, when `ParseNamed` returns the
source name and the blob store of the source repository stats the digest: `Create` returns
`ErrBlobMounted` with the descriptor made of the size of the source blob, the media type
`application/octet-stream` and the digest; the blob key of the digest in the target
repository holds that descriptor and every other entry of the store, so every upload key,
is as before; and the blob store of the target then stats the digest as the source did (so
not with `ErrBlobUnknown`), `ParseDigest` returning the digest it is given. -/
theorem C30_mount_writes_blob_key (bx : BlobExternals) (repo : metadataRepository)
    (options : List BlobCreateOption) (opts : CreateOptions) (uuid startedAt : String)
    (s : State) (src : String) (stat : Descriptor)
    (hopts : metadataBlobStore.Create.options options
      { ShouldMount := false, FromName := "", FromDigest := "" } = .ok opts)
    (hmount : opts.ShouldMount = true)
    (hnamed : bx.ParseNamed opts.FromName = .ok src)
    (hstat : linkedBlobStore.Stat bx
      ((metadataRepository.mk src repo.deleteEnabled).Blobs (repo.Blobs s).2).1
      ((metadataRepository.mk src repo.deleteEnabled).Blobs (repo.Blobs s).2).2
      opts.FromDigest = .ok stat) :
    ∃ s', (repo.Blobs s).1.Create bx options uuid startedAt (repo.Blobs s).2 =
        .ok (.error (.ErrBlobMounted opts.FromName opts.FromDigest
          (Descriptor.mk "application/octet-stream" stat.Size opts.FromDigest)), s') ∧
      entryOf s' repo.name (Key.BlobKey opts.FromDigest).String =
        some (some (.descriptor (Descriptor.mk "application/octet-stream" stat.Size opts.FromDigest))) ∧
      (∀ r k, k ≠ (Key.BlobKey opts.FromDigest).String → entryOf s' r k = entryOf s r k) ∧
      (∀ r id, entryOf s' r (Key.UploadStartedAtKey id).String =
          entryOf s r (Key.UploadStartedAtKey id).String ∧
        entryOf s' r (Key.UploadPathKey id).String =
          entryOf s r (Key.UploadPathKey id).String) ∧
      (bx.ParseDigest opts.FromDigest = .ok opts.FromDigest →
        linkedBlobStore.Stat bx (repo.Blobs s').1 (repo.Blobs s').2 opts.FromDigest =
          .ok stat) := by
  simp only [metadataRepository.Blobs_eq] at hstat ⊢
  have hent : (inMemoryMetadataStore.RepositoryScoped
      (inMemoryMetadataStore.RepositoryScoped s repo.name).state src).state.get? repo.name =
      some ((s.get? repo.name).getD []) :=
    RepositoryScoped_get?_some _ _ _ _ (RepositoryScoped_entry s repo.name)
  have hother : ∀ r k, k ≠ (Key.BlobKey opts.FromDigest).String →
      entryOf ((inMemoryMetadataStore.RepositoryScoped
        (inMemoryMetadataStore.RepositoryScoped s repo.name).state src).state.set repo.name
        (((s.get? repo.name).getD []).set (Key.BlobKey opts.FromDigest).String
          (some (.descriptor (Descriptor.mk "application/octet-stream" stat.Size opts.FromDigest))))) r k = entryOf s r k := by
    intro r k hk
    rw [entryOf_set]
    by_cases hr : r = repo.name
    · rw [if_pos hr, GoMap.get?_set_ne _ _ hk, hr]
      rfl
    · rw [if_neg hr, entryOf_RepositoryScoped, entryOf_RepositoryScoped]
  refine ⟨_, ?_, ?_, hother, ?_, ?_⟩
  · simp only [metadataBlobStore.Create, hopts, hmount, if_true, metadataBlobStore.mount,
      hnamed, metadataRepository.Blobs_eq, hstat, metadataBlobStatter.SetDescriptor,
      MetadataService.on, inMemoryMetadataStore.Put_scoped _ _ _ _ _ hent]
  · rw [entryOf_set, if_pos rfl, GoMap.get?_set_self]
  · intro r id
    exact ⟨hother r _ (BlobKey_ne_UploadStartedAtKey _ _).symm,
      hother r _ (BlobKey_ne_UploadPathKey _ _).symm⟩
  · intro hid
    simp only [linkedBlobStore.Stat, metadataBlobStatter.Stat, hid, MetadataService.on,
      inMemoryMetadataStore.Get, getOrNil_eq_entryOf, entryOf_RepositoryScoped] at hstat ⊢
    rw [entryOf_set, if_pos rfl, GoMap.get?_set_self]
    simp only [Option.getD_some]
    cases hsrc : (entryOf s src (Key.BlobKey opts.FromDigest).String).getD none with
    | none => simp [hsrc] at hstat
    | some v =>
      simp only [hsrc] at hstat
      exact hstat


/-- Witness of C30: the blob `sha256:ab` of repository `q` is mounted into repository `r`. -/
theorem C30_mount_writes_blob_key_witness :
    metadataBlobStore.Create.options [mountFrom "q" "sha256:ab"]
      { ShouldMount := false, FromName := "", FromDigest := "" } =
        .ok (CreateOptions.mk true "q" "sha256:ab") ∧
    (CreateOptions.mk true "q" "sha256:ab").ShouldMount = true ∧
    sampleBlobExternals.ParseNamed (CreateOptions.mk true "q" "sha256:ab").FromName = .ok "q" ∧
    linkedBlobStore.Stat sampleBlobExternals
      ((metadataRepository.mk "q" sampleRepository.deleteEnabled).Blobs
        (sampleRepository.Blobs mountState).2).1
      ((metadataRepository.mk "q" sampleRepository.deleteEnabled).Blobs
        (sampleRepository.Blobs mountState).2).2
      (CreateOptions.mk true "q" "sha256:ab").FromDigest = .ok mountedStat ∧
    (sampleRepository.Blobs mountState).1.Create sampleBlobExternals [mountFrom "q" "sha256:ab"]
        "u1" "2016-03-01T10:00:00Z" (sampleRepository.Blobs mountState).2 =
      .ok (.error (.ErrBlobMounted "q" "sha256:ab" mountedStat),
        [("q", [("blob::sha256:ab", some (.descriptor sampleDesc))]),
         ("r", [("blob::sha256:ab", some (.descriptor mountedStat))])]) ∧
    ∃ s', (sampleRepository.Blobs mountState).1.Create sampleBlobExternals
        [mountFrom "q" "sha256:ab"] "u1" "2016-03-01T10:00:00Z"
        (sampleRepository.Blobs mountState).2 =
        .ok (.error (.ErrBlobMounted (CreateOptions.mk true "q" "sha256:ab").FromName
          (CreateOptions.mk true "q" "sha256:ab").FromDigest
          (Descriptor.mk "application/octet-stream" mountedStat.Size
            (CreateOptions.mk true "q" "sha256:ab").FromDigest)), s') ∧
      entryOf s' sampleRepository.name
          (Key.BlobKey (CreateOptions.mk true "q" "sha256:ab").FromDigest).String =
        some (some (.descriptor (Descriptor.mk "application/octet-stream" mountedStat.Size
          (CreateOptions.mk true "q" "sha256:ab").FromDigest))) ∧
      (∀ r k, k ≠ (Key.BlobKey (CreateOptions.mk true "q" "sha256:ab").FromDigest).String →
        entryOf s' r k = entryOf mountState r k) ∧
      (∀ r id, entryOf s' r (Key.UploadStartedAtKey id).String =
          entryOf mountState r (Key.UploadStartedAtKey id).String ∧
        entryOf s' r (Key.UploadPathKey id).String =
          entryOf mountState r (Key.UploadPathKey id).String) ∧
      (sampleBlobExternals.ParseDigest (CreateOptions.mk true "q" "sha256:ab").FromDigest =
          .ok (CreateOptions.mk true "q" "sha256:ab").FromDigest →
        linkedBlobStore.Stat sampleBlobExternals (sampleRepository.Blobs s').1
          (sampleRepository.Blobs s').2 (CreateOptions.mk true "q" "sha256:ab").FromDigest =
          .ok mountedStat) :=
  ⟨rfl, rfl, rfl, rfl, rfl,
    C30_mount_writes_blob_key sampleBlobExternals sampleRepository [mountFrom "q" "sha256:ab"]
      (CreateOptions.mk true "q" "sha256:ab") "u1" "2016-03-01T10:00:00Z" mountState "q"
      mountedStat rfl rfl rfl rfl⟩


/-! ## C26: digests in keys -/

/-- Counterexample to C26 as stated: two spellings of one digest, both in the digest
grammar, that differ in the case of the hex letters. Their manifest keys differ and their
blob keys differ; with the manifest and the blob stored under the lower-case spelling,
`Exists`, `Stat` and `Clear` of the upper-case spelling do not find them, and
`SetDescriptor` of the upper-case spelling writes a second key. -/
theorem C26_digest_case_counterexample :
    specDigestRegexp upperDigest = true ∧ specDigestRegexp lowerDigest = true ∧
    canonicalLower upperDigest = lowerDigest ∧ canonicalLower lowerDigest = lowerDigest ∧
    (Key.ManifestDigestKey upperDigest).String ≠ (Key.ManifestDigestKey lowerDigest).String ∧
    (Key.BlobKey upperDigest).String ≠ (Key.BlobKey lowerDigest).String ∧
    rManifests.Exists lowerState lowerDigest = (true, none) ∧
    rManifests.Exists lowerState upperDigest = (false, none) ∧
    (rStatter.Stat sampleBlobExternals lowerState lowerDigest).toOption.isSome = true ∧
    rStatter.Stat sampleBlobExternals lowerState upperDigest = .error .ErrBlobUnknown ∧
    (rStatter.Clear lowerState upperDigest).1 =
      some (.ErrKeyNotFound (Key.BlobKey upperDigest).String) ∧
    (rStatter.SetDescriptor lowerState upperDigest sampleDesc).toOption.map
        (fun res => (GoMap.keys ((res.2.get? "r").getD [])).length) = some 3 := by
  refine ⟨by rfl, by rfl, by rfl, by rfl, ?_, ?_, by rfl, by rfl, by rfl, by rfl, by rfl,
    by rfl⟩
  · intro h
    have := ManifestDigestKey_String_injective h
    revert this
    decide
  · intro h
    have := BlobKey_String_injective h
    revert this
    decide


/-- C26 (amended): a metadata key built from a digest contains the digest string as it is
passed, without case folding. `manifestService.Exists` addresses `manifest::<d>`, `Clear` and
`SetDescriptor` address `blob::<d>`, and `Stat` addresses `blob::<d'>` for the digest `d'`
that `ParseDigest` returns for `d`. Two digest strings address the same key exactly when
they are equal, so the key contains the lowercase canonical form when the digest is passed in
that form. -/
theorem C26_digest_keys_verbatim (d d' : String) :
    ((Key.ManifestDigestKey d).String = "manifest::" ++ d ∧
      (Key.BlobKey d).String = "blob::" ++ d) ∧
    ((Key.ManifestDigestKey d).String = (Key.ManifestDigestKey d').String ↔ d = d') ∧
    ((Key.BlobKey d).String = (Key.BlobKey d').String ↔ d = d') ∧
    (canonicalLower d = d →
      (Key.ManifestDigestKey d).String = "manifest::" ++ canonicalLower d ∧
      (Key.BlobKey d).String = "blob::" ++ canonicalLower d) ∧
    (∀ (t : manifestService) (s : State),
      t.Exists s d = (t.store.on s).Exists ("manifest::" ++ d)) ∧
    (∀ (mbs : metadataBlobStatter) (s : State),
      mbs.Clear s d = (mbs.metadataService.on s).Delete ("blob::" ++ d)) ∧
    (∀ (mbs : metadataBlobStatter) (s : State) (desc : Descriptor) (r : String)
        (rp : repository),
      mbs.metadataService = some r → s.get? r = some rp →
      mbs.SetDescriptor s d desc =
        .ok (none, s.set r (rp.set ("blob::" ++ d) (some (.descriptor desc))))) ∧
    (∀ (bx : BlobExternals) (mbs : metadataBlobStatter) (s : State) (dg : String),
      bx.ParseDigest d = .ok dg →
      ((mbs.metadataService.on s).getOrNil ("blob::" ++ dg) = none →
        mbs.Stat bx s d = .error .ErrBlobUnknown) ∧
      ((mbs.metadataService.on s).getOrNil ("blob::" ++ dg) ≠ none →
        mbs.Stat bx s d = bx.statterStat dg)) := by
  refine ⟨⟨rfl, rfl⟩, ⟨fun h => ManifestDigestKey_String_injective h, fun h => by rw [h]⟩,
    ⟨fun h => BlobKey_String_injective h, fun h => by rw [h]⟩, ?_, fun _ _ => rfl,
    fun _ _ => rfl, ?_, ?_⟩
  · intro h
    rw [h]
    exact ⟨rfl, rfl⟩
  · intro mbs s desc r rp hms hrp
    simp only [metadataBlobStatter.SetDescriptor, hms, MetadataService.on,
      inMemoryMetadataStore.Put_scoped _ _ _ _ _ hrp]
    rfl
  · intro bx mbs s dg hdg
    refine ⟨?_, ?_⟩
    · intro hnone
      simp only [metadataBlobStatter.Stat, hdg, inMemoryMetadataStore.Get]
      have : (mbs.metadataService.on s).getOrNil (Key.BlobKey dg).String = none := hnone
      rw [this]
    · intro hsome
      simp only [metadataBlobStatter.Stat, hdg, inMemoryMetadataStore.Get]
      have : (mbs.metadataService.on s).getOrNil (Key.BlobKey dg).String ≠ none := hsome
      cases hv : (mbs.metadataService.on s).getOrNil (Key.BlobKey dg).String with
      | none => exact absurd hv this
      | some v => rfl

/-- Witness of C26 (amended): the two spellings of the digest of the empty blob. -/
theorem C26_digest_keys_verbatim_witness :
    canonicalLower lowerDigest = lowerDigest ∧
    rStatter.metadataService = some "r" ∧
    sampleBlobExternals.ParseDigest lowerDigest = .ok lowerDigest ∧
    (((Key.ManifestDigestKey lowerDigest).String = "manifest::" ++ lowerDigest ∧
      (Key.BlobKey lowerDigest).String = "blob::" ++ lowerDigest) ∧
    ((Key.ManifestDigestKey lowerDigest).String = (Key.ManifestDigestKey upperDigest).String ↔
      lowerDigest = upperDigest) ∧
    ((Key.BlobKey lowerDigest).String = (Key.BlobKey upperDigest).String ↔
      lowerDigest = upperDigest) ∧
    (canonicalLower lowerDigest = lowerDigest →
      (Key.ManifestDigestKey lowerDigest).String = "manifest::" ++ canonicalLower lowerDigest ∧
      (Key.BlobKey lowerDigest).String = "blob::" ++ canonicalLower lowerDigest) ∧
    (∀ (t : manifestService) (s : State),
      t.Exists s lowerDigest = (t.store.on s).Exists ("manifest::" ++ lowerDigest)) ∧
    (∀ (mbs : metadataBlobStatter) (s : State),
      mbs.Clear s lowerDigest = (mbs.metadataService.on s).Delete ("blob::" ++ lowerDigest)) ∧
    (∀ (mbs : metadataBlobStatter) (s : State) (desc : Descriptor) (r : String)
        (rp : repository),
      mbs.metadataService = some r → s.get? r = some rp →
      mbs.SetDescriptor s lowerDigest desc =
        .ok (none, s.set r (rp.set ("blob::" ++ lowerDigest) (some (.descriptor desc))))) ∧
    (∀ (bx : BlobExternals) (mbs : metadataBlobStatter) (s : State) (dg : String),
      bx.ParseDigest lowerDigest = .ok dg →
      ((mbs.metadataService.on s).getOrNil ("blob::" ++ dg) = none →
        mbs.Stat bx s lowerDigest = .error .ErrBlobUnknown) ∧
      ((mbs.metadataService.on s).getOrNil ("blob::" ++ dg) ≠ none →
        mbs.Stat bx s lowerDigest = bx.statterStat dg))) :=
  ⟨by rfl, rfl, by rfl, C26_digest_keys_verbatim lowerDigest upperDigest⟩


/-! ## Key strings do not clash -/

theorem RepoKey_String_injective {r r' : String}
    (h : (Key.RepoKey r').String = (Key.RepoKey r).String) : r' = r := by
  have h1 := stripPrefix_append "repo::" r'
  have h2 := stripPrefix_append "repo::" r
  simp only [Key.String] at h
  rw [h, h2] at h1
  exact (Option.some.inj h1).symm

/-- C33: the string forms of the six key variants are pairwise disjoint and each is injective
in its field: two keys with the same `String()` are the same variant with the same
field. -/
theorem C33_Key_String_injective (k k' : Key) : k.String = k'.String ↔ k = k' := by
  constructor
  · intro h
    cases k <;> cases k' <;>
      first
      | exact congrArg _ (ManifestDigestKey_String_injective h)
      | exact congrArg _ (TagKey_String_injective h)
      | exact congrArg _ (RepoKey_String_injective h)
      | exact congrArg _ (BlobKey_String_injective h)
      | exact congrArg _ (UploadStartedAtKey_String_injective h)
      | exact congrArg _ (UploadPathKey_String_injective h)
      | exact absurd h (UploadStartedAtKey_ne_UploadPathKey _ _)
      | exact absurd h.symm (UploadStartedAtKey_ne_UploadPathKey _ _)
      | (exfalso
         have h1 := congrArg (fun s : String => s.toList.head?) h
         simp [Key.String] at h1)
  · intro h
    rw [h]
/-! ## The loop of `Update` -/

/-- The counters do not change what the loop of `Update` returns. -/
theorem Update.tryCounted_fst (f : MetadataUpdateFunc) :
    ∀ (fuel attempts : Nat) (tx : Transaction) (w : World),
      (Update.tryCounted f fuel attempts tx w).1 = Update.try f fuel attempts tx w := by
  intro fuel
  induction fuel with
  | zero => intro attempts tx w; rfl
  | succ fuel ih =>
    intro attempts tx w
    unfold Update.tryCounted Update.try
    cases hf1 : f attempts { w with tx := some tx } with
    | error e => rfl
    | ok r =>
      obtain ⟨e, w1⟩ := r
      cases e with
      | some e1 => rfl
      | none =>
        simp only
        split
        · rfl
        · cases hc : (w1.tx.getD tx).Commit w1.state with
          | error e => rfl
          | ok r2 =>
            obtain ⟨e2, tx2, s2⟩ := r2
            cases e2 with
            | none => rfl
            | some txErr =>
              simp only
              split
              · exact ih _ _ _
              · rfl

/-- The second pass of the loop (`attempts` is 1) invokes `f` once and never commits. -/
theorem Update.tryCounted_second (f : MetadataUpdateFunc) (fuel : Nat) (tx : Transaction)
    (w : World) :
    (Update.tryCounted f fuel 1 tx w).2.1 ≤ 1 ∧ (Update.tryCounted f fuel 1 tx w).2.2 = 0 := by
  cases fuel with
  | zero => exact ⟨Nat.zero_le _, rfl⟩
  | succ fuel =>
    unfold Update.tryCounted
    cases hf1 : f 1 { w with tx := some tx } with
    | error e => exact ⟨le_refl _, rfl⟩
    | ok r =>
      obtain ⟨e, w1⟩ := r
      cases e with
      | some e1 => exact ⟨le_refl _, rfl⟩
      | none => simp

/-- Started with `attempts` 0, the loop of `Update` invokes `f` at most twice and calls
`Commit` at most once, whatever the fuel. -/
theorem Update.tryCounted_le (f : MetadataUpdateFunc) (fuel : Nat) (tx : Transaction)
    (w : World) :
    (Update.tryCounted f fuel 0 tx w).2.1 ≤ 2 ∧ (Update.tryCounted f fuel 0 tx w).2.2 ≤ 1 := by
  cases fuel with
  | zero => exact ⟨Nat.zero_le _, Nat.zero_le _⟩
  | succ fuel =>
    unfold Update.tryCounted
    cases hf1 : f 0 { w with tx := some tx } with
    | error e => simp
    | ok r =>
      obtain ⟨e, w1⟩ := r
      cases e with
      | some e1 => simp
      | none =>
        simp only [Nat.zero_ne_one, if_false]
        cases hc : (w1.tx.getD tx).Commit w1.state with
        | error e => simp
        | ok r2 =>
          obtain ⟨e2, tx2, s2⟩ := r2
          cases e2 with
          | none => simp
          | some txErr =>
            simp only
            split
            · have h2 := Update.tryCounted_second f fuel tx2 { w1 with state := s2 }
              simp only [Nat.zero_add]
              omega
            · simp

theorem BatchPut.apply_fault :
    ∀ (updates : GoMap MetadataUpdateRecord) (rp : Option repository) (e : Fault),
      inMemoryMetadataStore.BatchPut.apply rp updates = .error e → e ≠ .outOfFuel := by
  intro updates
  induction updates with
  | nil => intro rp e h; simp [inMemoryMetadataStore.BatchPut.apply] at h
  | cons u rest ih =>
    intro rp e h
    obtain ⟨k, v⟩ := u
    unfold inMemoryMetadataStore.BatchPut.apply at h
    cases ha : v.Actual with
    | none =>
      simp only [ha] at h
      exact ih _ _ h
    | some a =>
      simp only [ha] at h
      cases rp with
      | none =>
        simp only [Except.error.injEq] at h
        rw [← h]
        exact fun e => Fault.noConfusion e
      | some r => exact ih _ _ h

/-- The method `Commit` has no loop of unknown length: it never runs out of fuel. -/
theorem Transaction.Commit_ne_outOfFuel (t : Transaction) (s : State) :
    t.Commit s ≠ .error .outOfFuel := by
  intro h
  unfold Transaction.Commit at h
  split at h
  · simp at h
  · cases hb : (t.store.on s).BatchPut t.prepared with
    | error e =>
      simp only [hb, Except.error.injEq] at h
      subst h
      unfold inMemoryMetadataStore.BatchPut at hb
      split at hb
      · simp at hb
      · cases ha : inMemoryMetadataStore.BatchPut.apply (t.store.on s).repoMap t.prepared with
        | error e =>
          simp only [ha, Except.error.injEq] at hb
          exact BatchPut.apply_fault _ _ _ ha hb
        | ok r => cases r <;> simp [ha] at hb
    | ok r =>
      obtain ⟨e, s1⟩ := r
      cases e <;> simp [hb] at h

/-- Two passes are all the loop of `Update` ever makes: with fuel 2 or more and a closure that
returns, it does not run out of fuel. -/
theorem Update.try_fuel (f : MetadataUpdateFunc) (hterm : ∀ n w0, f n w0 ≠ .error .outOfFuel)
    (fuel : Nat) (tx : Transaction) (w : World) :
    Update.try f (fuel + 2) 0 tx w ≠ .error .outOfFuel := by
  intro h
  unfold Update.try at h
  cases hf1 : f 0 { w with tx := some tx } with
  | error e =>
    simp only [hf1, Except.error.injEq] at h
    exact hterm _ _ (h ▸ hf1)
  | ok r =>
    obtain ⟨e, w1⟩ := r
    cases e with
    | some e1 => simp [hf1] at h
    | none =>
      simp only [hf1, Nat.zero_ne_one, if_false] at h
      cases hc : (w1.tx.getD tx).Commit w1.state with
      | error e =>
        simp only [hc, Except.error.injEq] at h
        exact Transaction.Commit_ne_outOfFuel _ _ (h ▸ hc)
      | ok r2 =>
        obtain ⟨e2, tx2, s2⟩ := r2
        cases e2 with
        | none => simp [hc] at h
        | some txErr =>
          simp only [hc] at h
          split at h
          · unfold Update.try at h
            cases hf2 : f (0 + 1) { ({ w1 with state := s2 } : World) with tx := some tx2 } with
            | error e =>
              simp only [hf2, Except.error.injEq] at h
              exact hterm _ _ (h ▸ hf2)
            | ok r3 =>
              obtain ⟨e3, w3⟩ := r3
              cases e3 <;> simp [hf2] at h
          · exact Except.noConfusion h

/-- The loop of `Update` never returns `ErrTransactionCanRetry` unless the closure does: a
`Commit` error that can be retried sends the loop back to `try`. -/
theorem Update.try_ne_CanRetry (f : MetadataUpdateFunc)
    (hf : ∀ n w0 w1, f n w0 ≠ .ok (some .ErrTransactionCanRetry, w1)) :
    ∀ (fuel attempts : Nat) (tx : Transaction) (w w' : World),
      Update.try f fuel attempts tx w ≠ .ok (some .ErrTransactionCanRetry, w') := by
  intro fuel
  induction fuel with
  | zero =>
    intro attempts tx w w' h
    simp [Update.try] at h
  | succ fuel ih =>
    intro attempts tx w w' h
    unfold Update.try at h
    cases hf1 : f attempts { w with tx := some tx } with
    | error e => simp [hf1] at h
    | ok r =>
      obtain ⟨e, w1⟩ := r
      cases e with
      | some e1 =>
        simp only [hf1, Except.ok.injEq, Prod.mk.injEq, Option.some.injEq] at h
        exact hf _ _ _ (h.1 ▸ hf1)
      | none =>
        simp only [hf1] at h
        split at h
        · simp at h
        · cases hc : (w1.tx.getD tx).Commit w1.state with
          | error e => simp [hc] at h
          | ok r2 =>
            obtain ⟨e2, tx2, s2⟩ := r2
            cases e2 with
            | none => simp [hc] at h
            | some txErr =>
              simp only [hc] at h
              split at h
              · exact ih _ _ _ _ h
              · rename_i hnr
                simp only [Except.ok.injEq, Prod.mk.injEq, Option.some.injEq] at h
                rw [h.1] at hnr
                exact hnr (by decide)

/-- C31: `ErrTransactionCanRetry` never surfaces outside `Update`. For every world, every
repository (metadata-backed or not), every closure `f` that returns and never itself returns
`ErrTransactionCanRetry`, `Update` returns (two passes of its loop suffice) and the error it
returns is not `ErrTransactionCanRetry`. -/
theorem C31_Update_never_returns_CanRetry (repo : Option String) (id : String)
    (f : MetadataUpdateFunc)
    (hf : ∀ n w0 w1, f n w0 ≠ .ok (some .ErrTransactionCanRetry, w1))
    (hterm : ∀ n w0, f n w0 ≠ .error .outOfFuel)
    (w : World) (fuel : Nat) :
    Update repo id f w (fuel + 2) ≠ .error .outOfFuel ∧
    ∀ w', Update repo id f w (fuel + 2) ≠ .ok (some .ErrTransactionCanRetry, w') := by
  cases repo with
  | none => exact ⟨hterm _ _, fun w' => hf _ _ _⟩
  | some name =>
    exact ⟨Update.try_fuel f hterm _ _ _, fun w' => Update.try_ne_CanRetry f hf _ _ _ _ _⟩
/-- The method `Tag` returns `ErrTransactionCanRetry` only when `digest.ParseDigest` does. -/
theorem TagService.Tag_ne_CanRetry (x : Externals) (ts : TagService) (w w' : World)
    (tag : String) (desc : Descriptor)
    (hp : x.ParseDigest desc.Digest ≠ some .ErrTransactionCanRetry) :
    ts.Tag x w tag desc ≠ .ok (some .ErrTransactionCanRetry, w') := by
  intro h
  unfold TagService.Tag at h
  cases hd : x.ParseDigest desc.Digest with
  | some err =>
    simp only [hd, Except.ok.injEq, Prod.mk.injEq, Option.some.injEq] at h
    exact hp (by rw [hd, h.1])
  | none =>
    simp only [hd] at h
    cases htx : w.tx with
    | none =>
      simp only [htx, inMemoryMetadataStore.Put] at h
      cases hrm : (ts.store.on w.state).repoMap <;> simp [hrm] at h
    | some tx =>
      simp only [htx, Transaction.Update, inMemoryMetadataStore.Get] at h
      split at h
      · rename_i heq
        simp only [Except.ok.injEq, Prod.mk.injEq, Option.some.injEq] at h
        rw [h.1] at heq
        split at heq <;> simp at heq
      · simp at h

/-- The method `Tag` has no loop: it never runs out of fuel. -/
theorem TagService.Tag_ne_outOfFuel (x : Externals) (ts : TagService) (w : World)
    (tag : String) (desc : Descriptor) : ts.Tag x w tag desc ≠ .error .outOfFuel := by
  intro h
  unfold TagService.Tag at h
  cases hd : x.ParseDigest desc.Digest with
  | some err => simp [hd] at h
  | none =>
    simp only [hd] at h
    cases htx : w.tx with
    | none =>
      simp only [htx, inMemoryMetadataStore.Put] at h
      cases hrm : (ts.store.on w.state).repoMap <;> simp [hrm] at h
    | some tx =>
      simp only [htx] at h
      split at h <;> simp at h

theorem contendedTag_ne_CanRetry (x : Externals) (ts : TagService) (desc other : Descriptor)
    (hp : x.ParseDigest desc.Digest ≠ some .ErrTransactionCanRetry) (n : Nat) (w0 w1 : World) :
    contendedTag x ts desc other n w0 ≠ .ok (some .ErrTransactionCanRetry, w1) := by
  intro h
  unfold contendedTag at h
  cases ht : ts.Tag x w0 "a" desc with
  | error e => simp [ht] at h
  | ok r =>
    obtain ⟨e, w2⟩ := r
    cases e with
    | some err =>
      simp only [ht, Except.ok.injEq, Prod.mk.injEq, Option.some.injEq] at h
      exact TagService.Tag_ne_CanRetry x ts w0 w2 "a" desc hp (by rw [ht, h.1])
    | none =>
      simp only [ht] at h
      split at h
      · simp only [inMemoryMetadataStore.Put] at h
        cases hrm : (ts.store.on w2.state).repoMap <;> simp [hrm] at h
      · simp at h

theorem contendedTag_ne_outOfFuel (x : Externals) (ts : TagService) (desc other : Descriptor)
    (n : Nat) (w0 : World) : contendedTag x ts desc other n w0 ≠ .error .outOfFuel := by
  intro h
  unfold contendedTag at h
  cases ht : ts.Tag x w0 "a" desc with
  | error e =>
    simp only [ht, Except.error.injEq] at h
    exact TagService.Tag_ne_outOfFuel x ts w0 "a" desc (by rw [ht, h])
  | ok r =>
    obtain ⟨e, w2⟩ := r
    cases e with
    | some err => simp [ht] at h
    | none =>
      simp only [ht] at h
      split at h
      · simp only [inMemoryMetadataStore.Put] at h
        cases hrm : (ts.store.on w2.state).repoMap <;> simp [hrm] at h
      · simp at h

/-- C31 (instance): `contendedTag` on repository `r`, whose first `Commit` fails with
`ErrTransactionCanRetry`; `Update` returns, and not that error. -/
theorem C31_Update_never_returns_CanRetry_witness :
    (∀ n w0 w1, contendedTag sampleExternals sampleTags sampleDesc otherDesc n w0 ≠
      .ok (some .ErrTransactionCanRetry, w1)) ∧
    (∀ n w0, contendedTag sampleExternals sampleTags sampleDesc otherDesc n w0 ≠
      .error .outOfFuel) ∧
    Update (some "r") "tx-1" (contendedTag sampleExternals sampleTags sampleDesc otherDesc)
        { state := [], tx := none } 2 ≠ .error .outOfFuel ∧
    ∀ w', Update (some "r") "tx-1" (contendedTag sampleExternals sampleTags sampleDesc otherDesc)
        { state := [], tx := none } 2 ≠ .ok (some .ErrTransactionCanRetry, w') :=
  ⟨contendedTag_ne_CanRetry _ _ _ _ (by decide), contendedTag_ne_outOfFuel _ _ _ _,
    C31_Update_never_returns_CanRetry (some "r") "tx-1"
      (contendedTag sampleExternals sampleTags sampleDesc otherDesc)
      (contendedTag_ne_CanRetry _ _ _ _ (by decide)) (contendedTag_ne_outOfFuel _ _ _ _)
      { state := [], tx := none } 0⟩
/-- C34: on a metadata-backed repository, for every world and every closure `f` that returns,
`Update` returns (two passes of its loop suffice), having invoked `f` at most twice and
`Transaction.Commit` at most once. When that `Commit`, made after the first invocation of `f`
returned nil, fails with `ErrTransactionCanRetry`, it leaves the store and the transaction as
`f` left them, `Update` does not return nil, and the store `Update` leaves is the one the
second invocation of `f` leaves: no prepared write has reached it. -/
theorem C34_Update_invocations_bounded (name id : String) (f : MetadataUpdateFunc)
    (hterm : ∀ n w0, f n w0 ≠ .error .outOfFuel) (w : World) (fuel : Nat) :
    (Update.counted name id f w (fuel + 2)).1 = Update (some name) id f w (fuel + 2) ∧
    Update (some name) id f w (fuel + 2) ≠ .error .outOfFuel ∧
    (Update.counted name id f w (fuel + 2)).2.1 ≤ 2 ∧
    (Update.counted name id f w (fuel + 2)).2.2 ≤ 1 ∧
    ∀ w1 tx2 s2,
      f 0 (World.mk (inMemoryMetadataStore.RepositoryScoped w.state name).state
        (some (BeginTx id (some name))) w.Errors) = .ok (none, w1) →
      (w1.tx.getD (BeginTx id (some name))).Commit w1.state =
        .ok (some .ErrTransactionCanRetry, tx2, s2) →
      s2 = w1.state ∧ tx2 = w1.tx.getD (BeginTx id (some name)) ∧
      (∀ w', Update (some name) id f w (fuel + 2) ≠ .ok (none, w')) ∧
      ∀ e w', Update (some name) id f w (fuel + 2) = .ok (e, w') →
        ∃ e2 w2, f 1 (World.mk w1.state (some tx2) w1.Errors) = .ok (e2, w2) ∧
          w'.state = w2.state ∧ w'.tx = some (w2.tx.getD tx2) := by
  refine ⟨Update.tryCounted_fst f _ _ _ _, Update.try_fuel f hterm _ _ _,
    (Update.tryCounted_le f _ _ _).1, (Update.tryCounted_le f _ _ _).2, ?_⟩
  intro w1 tx2 s2 hf0 hc
  obtain ⟨hs2, htx2⟩ := Transaction.Commit_error_inv _ _ _ _ _ hc
  have hrepo : (inMemoryMetadataStore.RepositoryScoped w.state name).repo = some name :=
    RepositoryScoped_repo _ _
  have hrun : Update (some name) id f w (fuel + 2) =
      match f 1 (World.mk w1.state (some tx2) w1.Errors) with
      | .error e => .error e
      | .ok (some err, w2) => .ok (some err, { w2 with tx := some (w2.tx.getD tx2) })
      | .ok (none, w2) =>
        .ok (some (.errorf "transaction failed: %s"), { w2 with tx := some (w2.tx.getD tx2) }) := by
    simp only [Update, hrepo]
    rw [Update.try]
    simp only [hf0, Nat.zero_ne_one, if_false, hc, canRetry, decide_True, if_true]
    rw [Update.try]
    subst hs2
    cases hf2 : f (0 + 1) { state := w1.state, tx := some tx2, Errors := w1.Errors } with
    | error e => rfl
    | ok r =>
      obtain ⟨e, w2⟩ := r
      cases e <;> rfl
  refine ⟨hs2, htx2, ?_, ?_⟩
  · intro w' h
    rw [hrun] at h
    split at h <;> simp at h
  · intro e w' h
    rw [hrun] at h
    split at h
    · simp at h
    · rename_i err w2 hf2
      simp only [Except.ok.injEq, Prod.mk.injEq] at h
      exact ⟨_, _, hf2, by rw [← h.2], by rw [← h.2]⟩
    · rename_i w2 hf2
      simp only [Except.ok.injEq, Prod.mk.injEq] at h
      exact ⟨_, _, hf2, by rw [← h.2], by rw [← h.2]⟩
/-- C34 (instance): `Update` of repository `r` with the closure `contended`, whose first
`Commit` fails with `ErrTransactionCanRetry`: the closure is invoked twice and `Commit` is
called once. -/
theorem C34_Update_invocations_bounded_witness :
    (∀ n w0, contended n w0 ≠ .error .outOfFuel) ∧
    (Update.counted "r" "tx-1" contended (World.mk [] none []) 2).2 = (2, 1) ∧
    ((Update.counted "r" "tx-1" contended (World.mk [] none []) 2).1 =
      Update (some "r") "tx-1" contended (World.mk [] none []) 2 ∧
    Update (some "r") "tx-1" contended (World.mk [] none []) 2 ≠ .error .outOfFuel ∧
    (Update.counted "r" "tx-1" contended (World.mk [] none []) 2).2.1 ≤ 2 ∧
    (Update.counted "r" "tx-1" contended (World.mk [] none []) 2).2.2 ≤ 1 ∧
    ∀ w1 tx2 s2,
      contended 0 (World.mk (inMemoryMetadataStore.RepositoryScoped [] "r").state
        (some (BeginTx "tx-1" (some "r"))) []) = .ok (none, w1) →
      (w1.tx.getD (BeginTx "tx-1" (some "r"))).Commit w1.state =
        .ok (some .ErrTransactionCanRetry, tx2, s2) →
      s2 = w1.state ∧ tx2 = w1.tx.getD (BeginTx "tx-1" (some "r")) ∧
      (∀ w', Update (some "r") "tx-1" contended (World.mk [] none []) 2 ≠ .ok (none, w')) ∧
      ∀ e w', Update (some "r") "tx-1" contended (World.mk [] none []) 2 = .ok (e, w') →
        ∃ e2 w2, contended 1 (World.mk w1.state (some tx2) w1.Errors) = .ok (e2, w2) ∧
          w'.state = w2.state ∧ w'.tx = some (w2.tx.getD tx2)) :=
  ⟨contendedTag_ne_outOfFuel _ _ _ _, by decide,
    C34_Update_invocations_bounded "r" "tx-1" contended (contendedTag_ne_outOfFuel _ _ _ _)
      (World.mk [] none []) 0⟩

/-! ## A failed mount -/

/-- A `mount` that returns an error has written nothing: it failed at `ParseNamed` or at the
`Stat` of the source, before `SetDescriptor`, which returns nil on the in-memory store. -/
theorem metadataBlobStore.mount_failed (bx : BlobExternals) (mbs : metadataBlobStore)
    (name : String) (s s1 : State) (source dgst : String) (desc : Descriptor) (err : Error)
    (rp : Registry.repository)
    (hbac : mbs.blobAccessController.metadataService = some name)
    (hrp : s.get? name = some rp)
    (h : mbs.mount bx s source dgst = .ok ((desc, some err), s1)) :
    s1.get? name = some rp ∧ (∀ r k, entryOf s1 r k = entryOf s r k) ∧
    (bx.ParseNamed source = .error err ∨
      ∃ src, bx.ParseNamed source = .ok src ∧
        linkedBlobStore.Stat bx ((metadataRepository.mk src mbs.repository.deleteEnabled).Blobs s).1
          ((metadataRepository.mk src mbs.repository.deleteEnabled).Blobs s).2 dgst =
          .error err) := by
  unfold metadataBlobStore.mount at h
  cases hn : bx.ParseNamed source with
  | error e =>
    simp only [hn, Except.ok.injEq, Prod.mk.injEq, Option.some.injEq] at h
    rw [← h.2, ← h.1.2]
    exact ⟨hrp, fun _ _ => rfl, Or.inl rfl⟩
  | ok src =>
    simp only [hn] at h
    cases hst : linkedBlobStore.Stat bx
        ((metadataRepository.mk src mbs.repository.deleteEnabled).Blobs s).1
        ((metadataRepository.mk src mbs.repository.deleteEnabled).Blobs s).2 dgst with
    | error e =>
      simp only [hst, Except.ok.injEq, Prod.mk.injEq, Option.some.injEq] at h
      rw [← h.2, ← h.1.2]
      refine ⟨?_, ?_, Or.inr ⟨src, rfl, hst⟩⟩
      · rw [metadataRepository.Blobs_eq]
        exact RepositoryScoped_get?_some _ _ _ _ hrp
      · intro r k
        rw [metadataRepository.Blobs_eq]
        exact entryOf_RepositoryScoped _ _ _ _
    | ok stat =>
      have hent : ((metadataRepository.mk src mbs.repository.deleteEnabled).Blobs s).2.get? name =
          some rp := by
        rw [metadataRepository.Blobs_eq]
        exact RepositoryScoped_get?_some _ _ _ _ hrp
      simp only [hst, metadataBlobStatter.SetDescriptor, hbac, MetadataService.on,
        inMemoryMetadataStore.Put_scoped _ _ _ _ _ hent] at h
      simp at h

/-- C35: a `Create` whose options set `Mount.ShouldMount`, on the blob store of a
metadata-backed repository, when `mount` returns an error (`ParseNamed` rejected the source
name or the source could not stat the digest; the failed mount has written nothing).
`Create` then is the ordinary upload on the state the mount left: every error it returns is
the error of `pathFor` or of the driver's `Writer`, none is made by `Create` from the mount;
when `pathFor` returns the path, both upload keys of the id are written, every other entry is
as before, and `Create` returns what `newBlobUpload` returns, the writer of the id and the
path when the driver opens it. -/
theorem C35_failed_mount_opens_upload (bx : BlobExternals) (repo : metadataRepository)
    (options : List BlobCreateOption) (opts : CreateOptions) (uuid startedAt : String)
    (s s1 : State) (desc : Descriptor) (err : Error)
    (hopts : metadataBlobStore.Create.options options
      { ShouldMount := false, FromName := "", FromDigest := "" } = .ok opts)
    (hmount : opts.ShouldMount = true)
    (hfail : (repo.Blobs s).1.mount bx (repo.Blobs s).2 opts.FromName opts.FromDigest =
      .ok ((desc, some err), s1)) :
    (repo.Blobs s).1.Create bx options uuid startedAt (repo.Blobs s).2 =
      metadataBlobStore.Create.upload bx (repo.Blobs s).1 uuid startedAt s1 ∧
    (∀ r k, entryOf s1 r k = entryOf s r k) ∧
    (∃ res s', (repo.Blobs s).1.Create bx options uuid startedAt (repo.Blobs s).2 =
      .ok (res, s')) ∧
    (∀ e s', (repo.Blobs s).1.Create bx options uuid startedAt (repo.Blobs s).2 =
        .ok (.error e, s') →
      bx.pathFor repo.name uuid = .error e ∨
        ∃ p, bx.pathFor repo.name uuid = .ok p ∧ bx.driverWriter p false = some e) ∧
    ∀ p, bx.pathFor repo.name uuid = .ok p →
      ∃ s', (repo.Blobs s).1.Create bx options uuid startedAt (repo.Blobs s).2 =
          .ok (metadataBlobStore.newBlobUpload bx uuid p false, s') ∧
        entryOf s' repo.name (Key.UploadStartedAtKey uuid).String =
          some (some (.string startedAt)) ∧
        entryOf s' repo.name (Key.UploadPathKey uuid).String = some (some (.string p)) ∧
        (∀ r k, k ≠ (Key.UploadStartedAtKey uuid).String →
          k ≠ (Key.UploadPathKey uuid).String → entryOf s' r k = entryOf s r k) ∧
        (bx.driverWriter p false = none →
          (repo.Blobs s).1.Create bx options uuid startedAt (repo.Blobs s).2 =
            .ok (.ok (blobWriter.mk uuid p), s')) := by
  have hent : (repo.Blobs s).2.get? repo.name = some ((s.get? repo.name).getD []) := by
    rw [metadataRepository.Blobs_eq]
    exact RepositoryScoped_entry s repo.name
  have hbac : (repo.Blobs s).1.blobAccessController.metadataService = some repo.name := by
    rw [metadataRepository.Blobs_eq]
  have hms : (repo.Blobs s).1.metadataService = some repo.name := by
    rw [metadataRepository.Blobs_eq]
  have hname : (repo.Blobs s).1.repository.name = repo.name := by
    rw [metadataRepository.Blobs_eq]
  obtain ⟨hrp1, hsame1, _⟩ := metadataBlobStore.mount_failed bx _ repo.name _ _ _ _ _ _ _
    hbac hent hfail
  have hsame : ∀ r k, entryOf s1 r k = entryOf s r k := by
    intro r k
    rw [hsame1, metadataRepository.Blobs_eq]
    exact entryOf_RepositoryScoped _ _ _ _
  have hcreate : (repo.Blobs s).1.Create bx options uuid startedAt (repo.Blobs s).2 =
      metadataBlobStore.Create.upload bx (repo.Blobs s).1 uuid startedAt s1 := by
    simp only [metadataBlobStore.Create, hopts, hmount, if_true, hfail]
  have hup : metadataBlobStore.Create.upload bx (repo.Blobs s).1 uuid startedAt s1 =
      match bx.pathFor repo.name uuid with
      | .error e => .ok (.error e, s1.set repo.name
          (((s.get? repo.name).getD []).set (Key.UploadStartedAtKey uuid).String
            (some (.string startedAt))))
      | .ok p => .ok (metadataBlobStore.newBlobUpload bx uuid p false, s1.set repo.name
          ((((s.get? repo.name).getD []).set (Key.UploadStartedAtKey uuid).String
            (some (.string startedAt))).set (Key.UploadPathKey uuid).String
              (some (.string p)))) := by
    cases hp : bx.pathFor repo.name uuid with
    | error e =>
      simp only [metadataBlobStore.Create.upload, hms, MetadataService.on, hname, hp,
        inMemoryMetadataStore.Put_scoped _ _ _ _ _ hrp1]
    | ok p =>
      rw [metadataBlobStore.Create.upload_eq bx (repo.Blobs s).1 repo.name uuid startedAt p s1
        ((s.get? repo.name).getD []) hname hms hrp1 hp]
  refine ⟨hcreate, hsame, ?_, ?_, ?_⟩
  · rw [hcreate, hup]
    cases bx.pathFor repo.name uuid <;> exact ⟨_, _, rfl⟩
  · intro e s' h
    rw [hcreate, hup] at h
    cases hp : bx.pathFor repo.name uuid with
    | error e1 =>
      simp only [hp, Except.ok.injEq, Prod.mk.injEq, Except.error.injEq] at h
      exact Or.inl (by rw [h.1])
    | ok p =>
      simp only [hp, Except.ok.injEq, Prod.mk.injEq, metadataBlobStore.newBlobUpload] at h
      cases hw : bx.driverWriter p false with
      | none => simp [hw] at h
      | some e2 =>
        simp only [hw, Except.error.injEq] at h
        exact Or.inr ⟨p, rfl, by rw [← h.1, hw]⟩
  · intro p hp
    rw [hcreate, hup]
    simp only [hp]
    refine ⟨_, rfl, ?_, ?_, ?_, ?_⟩
    · rw [entryOf_set, if_pos rfl,
        GoMap.get?_set_ne _ _ (UploadStartedAtKey_ne_UploadPathKey uuid uuid),
        GoMap.get?_set_self]
    · rw [entryOf_set, if_pos rfl, GoMap.get?_set_self]
    · intro r k hk1 hk2
      rw [entryOf_set]
      by_cases hr : r = repo.name
      · rw [if_pos hr, GoMap.get?_set_ne _ _ hk2, GoMap.get?_set_ne _ _ hk1, hr]
        rfl
      · rw [if_neg hr, hsame]
    · intro hw
      simp only [metadataBlobStore.newBlobUpload, hw]
/-- C35 (instance): repository `q` does not hold the blob `sha256:ff`, so the mount into `r`
fails with `ErrBlobUnknown`; `Create` opens the upload `u1` and returns its writer. -/
theorem C35_failed_mount_opens_upload_witness :
    metadataBlobStore.Create.options [mountFrom "q" "sha256:ff"]
      { ShouldMount := false, FromName := "", FromDigest := "" } =
        .ok (CreateOptions.mk true "q" "sha256:ff") ∧
    (CreateOptions.mk true "q" "sha256:ff").ShouldMount = true ∧
    (sampleRepository.Blobs mountState).1.mount sampleBlobExternals
        (sampleRepository.Blobs mountState).2 (CreateOptions.mk true "q" "sha256:ff").FromName
        (CreateOptions.mk true "q" "sha256:ff").FromDigest =
      .ok ((Descriptor.mk "" 0 "", some .ErrBlobUnknown), mountScopedState) ∧
    (sampleRepository.Blobs mountState).1.Create sampleBlobExternals [mountFrom "q" "sha256:ff"]
        "u1" "2016-03-01T10:00:00Z" (sampleRepository.Blobs mountState).2 =
      .ok (.ok (blobWriter.mk "u1" "/docker/registry/v2/repositories/r/_uploads/u1/data"),
        [("q", [("blob::sha256:ab", some (.descriptor sampleDesc))]),
         ("r", [("upload::u1::startedat", some (.string "2016-03-01T10:00:00Z")),
                ("upload::u1::path",
                  some (.string "/docker/registry/v2/repositories/r/_uploads/u1/data"))])]) ∧
    (sampleRepository.Blobs mountState).1.Create sampleBlobExternals [mountFrom "q" "sha256:ff"]
        "u1" "2016-03-01T10:00:00Z" (sampleRepository.Blobs mountState).2 =
      metadataBlobStore.Create.upload sampleBlobExternals (sampleRepository.Blobs mountState).1
        "u1" "2016-03-01T10:00:00Z" mountScopedState ∧
    ∀ e s', (sampleRepository.Blobs mountState).1.Create sampleBlobExternals
        [mountFrom "q" "sha256:ff"] "u1" "2016-03-01T10:00:00Z"
        (sampleRepository.Blobs mountState).2 = .ok (.error e, s') →
      sampleBlobExternals.pathFor sampleRepository.name "u1" = .error e ∨
        ∃ p, sampleBlobExternals.pathFor sampleRepository.name "u1" = .ok p ∧
          sampleBlobExternals.driverWriter p false = some e :=
  ⟨rfl, rfl, rfl, rfl,
    (C35_failed_mount_opens_upload sampleBlobExternals sampleRepository
      [mountFrom "q" "sha256:ff"] (CreateOptions.mk true "q" "sha256:ff") "u1"
      "2016-03-01T10:00:00Z" mountState mountScopedState (Descriptor.mk "" 0 "") .ErrBlobUnknown
      rfl rfl rfl).1,
    (C35_failed_mount_opens_upload sampleBlobExternals sampleRepository
      [mountFrom "q" "sha256:ff"] (CreateOptions.mk true "q" "sha256:ff") "u1"
      "2016-03-01T10:00:00Z" mountState mountScopedState (Descriptor.mk "" 0 "") .ErrBlobUnknown
      rfl rfl rfl).2.2.2.1⟩
/-! ## Tag names that are not checked -/

/-- Past a key that `KeyFromString` panics on, the loop of `iterateRepository` never returns
nil: it panics at that key at the latest, unless the closure returned an error before; it
panics when the closure returns nil on every entry delivered to it. -/
theorem inMemoryMetadataStore.loop_bad_key {σ : Type} (x : Externals)
    (params : IterateParameters) (fn : IterFunc σ) (rp : Registry.repository) (bad : String)
    (msg : String) (hbad : KeyFromString x bad = .error (.panic msg)) :
    ∀ (ks : List String) (acc : σ), bad ∈ ks →
      (∀ acc', inMemoryMetadataStore.iterateRepository.loop x params fn rp ks acc ≠
        .ok (none, acc')) ∧
      ((∀ a k name, k ∈ ks →
          (params.IterType = some (.ManifestDigestKey "") ∧
              KeyFromString x k = .ok (some (.ManifestDigestKey name))) ∨
            (params.IterType = some (.TagKey "") ∧
              KeyFromString x k = .ok (some (.TagKey name))) →
          (fn a name ((rp.get? k).getD none)).1 = none) →
        ∃ m, inMemoryMetadataStore.iterateRepository.loop x params fn rp ks acc =
          .error (.panic m)) := by
  intro ks
  induction ks with
  | nil => intro acc h; simp at h
  | cons k ks ih =>
    intro acc hmem
    by_cases hk : k = bad
    · subst hk
      unfold inMemoryMetadataStore.iterateRepository.loop
      simp only [hbad]
      exact ⟨fun acc' h => Except.noConfusion h, fun _ => ⟨msg, rfl⟩⟩
    · have hin : bad ∈ ks := by
        rcases List.mem_cons.1 hmem with h | h
        · exact absurd h.symm hk
        · exact h
      have ih2 : ∀ acc1,
          (∀ acc', inMemoryMetadataStore.iterateRepository.loop x params fn rp ks acc1 ≠
            .ok (none, acc')) ∧
          ((∀ a k1 name, k1 ∈ k :: ks →
              (params.IterType = some (.ManifestDigestKey "") ∧
                  KeyFromString x k1 = .ok (some (.ManifestDigestKey name))) ∨
                (params.IterType = some (.TagKey "") ∧
                  KeyFromString x k1 = .ok (some (.TagKey name))) →
              (fn a name ((rp.get? k1).getD none)).1 = none) →
            ∃ m, inMemoryMetadataStore.iterateRepository.loop x params fn rp ks acc1 =
              .error (.panic m)) :=
        fun acc1 => ⟨(ih acc1 hin).1, fun hno =>
          (ih acc1 hin).2 (fun a k1 name hk1 => hno a k1 name (List.mem_cons_of_mem _ hk1))⟩
      unfold inMemoryMetadataStore.iterateRepository.loop
      cases hkey : KeyFromString x k with
      | error e =>
        simp only
        refine ⟨fun acc' h => Except.noConfusion h, fun _ => ?_⟩
        cases e with
        | panic m => exact ⟨m, rfl⟩
        | outOfFuel =>
          exfalso
          unfold KeyFromString at hkey
          repeat' split at hkey
          all_goals simp at hkey
      | ok g =>
        cases g with
        | none => exact ih2 acc
        | some key =>
          cases key with
          | ManifestDigestKey d =>
            simp only
            split
            · rename_i hit
              cases hfn : fn acc d ((rp.get? k).getD none) with
              | mk e acc1 =>
                cases e with
                | some err =>
                  simp only
                  refine ⟨fun acc' h => ?_, fun hno => ?_⟩
                  · simp at h
                  · have := hno acc k d (List.mem_cons_self _ _) (Or.inl ⟨hit, hkey⟩)
                    rw [hfn] at this
                    simp at this
                | none => exact ih2 acc1
            · exact ih2 acc
          | TagKey t =>
            simp only
            split
            · rename_i hit
              cases hfn : fn acc t ((rp.get? k).getD none) with
              | mk e acc1 =>
                cases e with
                | some err =>
                  simp only
                  refine ⟨fun acc' h => ?_, fun hno => ?_⟩
                  · simp at h
                  · have := hno acc k t (List.mem_cons_self _ _) (Or.inr ⟨hit, hkey⟩)
                    rw [hfn] at this
                    simp at this
                | none => exact ih2 acc1
            · exact ih2 acc
          | RepoKey r => exact ih2 acc
          | BlobKey d => exact ih2 acc
          | UploadStartedAtKey i => exact ih2 acc
          | UploadPathKey i => exact ih2 acc

/-- The method `Iterate` of a view scoped to a repository that holds a key `KeyFromString`
panics on, for an `IterType` other than `RepoKey`. -/
theorem inMemoryMetadataStore.Iterate_bad_key {σ : Type} (x : Externals) (r : String)
    (s : State) (rp : Registry.repository) (params : IterateParameters) (fn : IterFunc σ)
    (acc : σ) (bad msg : String) (hget : s.get? r = some rp) (hmem : bad ∈ rp.keys)
    (hbad : KeyFromString x bad = .error (.panic msg))
    (hit : params.IterType ≠ some (.RepoKey "")) :
    (∀ acc', (MetadataService.on (some r) s).Iterate x params fn acc ≠ .ok (none, acc')) ∧
    ((∀ a k name, k ∈ rp.keys →
        (params.IterType = some (.ManifestDigestKey "") ∧
            KeyFromString x k = .ok (some (.ManifestDigestKey name))) ∨
          (params.IterType = some (.TagKey "") ∧
            KeyFromString x k = .ok (some (.TagKey name))) →
        (fn a name ((rp.get? k).getD none)).1 = none) →
      ∃ m, (MetadataService.on (some r) s).Iterate x params fn acc = .error (.panic m)) := by
  have hin : bad ∈ sortStrings (GoMap.keys rp) := (sortStrings_perm _).mem_iff.2 hmem
  have hlen : (sortStrings (GoMap.keys rp)).length ≠ 0 := by
    intro h
    rw [List.length_eq_zero] at h
    rw [h] at hin
    simp at hin
  have hI : (MetadataService.on (some r) s).Iterate x params fn acc =
      inMemoryMetadataStore.iterateRepository.loop x params fn rp
        (sortStrings (GoMap.keys rp)) acc := by
    simp only [inMemoryMetadataStore.Iterate, hit, if_false, MetadataService.on,
      inMemoryMetadataStore.repoMap, hget, Option.getD_some,
      inMemoryMetadataStore.iterateRepository, hlen]
  rw [hI]
  have h := inMemoryMetadataStore.loop_bad_key x params fn rp bad msg hbad _ acc hin
  exact ⟨h.1, fun hno => h.2 (fun a k name hk =>
    hno a k name ((sortStrings_perm _).mem_iff.1 hk))⟩

theorem KeyFromString_ManifestDigestKey_grammar (x : Externals) (k d : String)
    (h : KeyFromString x k = .ok (some (.ManifestDigestKey d))) : x.DigestRegexp d = true := by
  unfold KeyFromString at h
  split at h
  · rename_i d1 hd
    simp only [Except.ok.injEq, Option.some.injEq, Key.ManifestDigestKey.injEq] at h
    subst h
    cases hsp : stripPrefix "manifest::" k with
    | none => simp [hsp, Option.filter] at hd
    | some t =>
      simp only [hsp, Option.filter] at hd
      split at hd
      · rename_i ht
        simp only [Option.some.injEq] at hd
        rw [← hd]
        exact ht
      · simp at hd
  · split at h
    · simp at h
    · split at h
      · simp at h
      · split at h
        · simp at h
        · split at h <;> simp at h
/-- C36: `Tag` does not check the tag name, and `KeyFromString` panics on a key that no
pattern matches. For a tag name outside the tag grammar and a descriptor whose digest
parses, `Tag` on the tag service of a repository returns nil and stores the key
`tag::<name>`, on which `KeyFromString` panics. From then on an `Iterate` of the view scoped
to that repository (with an `IterType` other than `RepoKey`) never returns nil; it panics
when its closure returns nil, and whatever the closure when the repository held no other
key. So `All` panics, `Lookup` panics when the tag entries hold descriptors, and `Enumerate`
panics when its callback returns nil and `ParseDigest` accepts the digests of the grammar. -/
theorem C36_Tag_unchecked_name_breaks_Iterate (x : Externals) (ts : TagService)
    (ms : manifestService) (r : String) (s : State) (rp : Registry.repository) (tag : String)
    (desc : Descriptor) (hstore : ts.store = some r) (hms : ms.store = some r)
    (hrp : s.get? r = some rp) (htag : x.TagRegexp tag = false)
    (hdesc : x.ParseDigest desc.Digest = none) :
    ∃ s', ts.Tag x (World.mk s none []) tag desc = .ok (none, World.mk s' none []) ∧
      entryOf s' r (Key.TagKey tag).String = some (some (.descriptor desc)) ∧
      KeyFromString x (Key.TagKey tag).String = .error (.panic "error on key match: ") ∧
      (∀ (σ : Type) (params : IterateParameters) (fn : IterFunc σ) (acc : σ),
        params.IterType ≠ some (.RepoKey "") →
        (∀ acc', (MetadataService.on (some r) s').Iterate x params fn acc ≠ .ok (none, acc')) ∧
        ((∀ a k v, (fn a k v).1 = none) →
          ∃ m, (MetadataService.on (some r) s').Iterate x params fn acc = .error (.panic m)) ∧
        (rp = [] → (MetadataService.on (some r) s').Iterate x params fn acc =
          .error (.panic "error on key match: "))) ∧
      (∃ m, ts.All x s' = .error (.panic m)) ∧
      ((∀ t v, rp.get? (Key.TagKey t).String = some v → ∃ d, v = some (.descriptor d)) →
        ∀ d, ∃ m, ts.Lookup x s' d = .error (.panic m)) ∧
      (∀ (σ : Type) (f : σ → String → Option Error × σ) (acc : σ),
        (∀ a d, (f a d).1 = none) →
        (∀ d, x.DigestRegexp d = true → x.ParseDigest d = none) →
        ∃ m, ms.Enumerate x s' f acc = .error (.panic m)) := by
  have hbad := KeyFromString_tag_reject x tag htag
  have hget : (s.set r (rp.set (Key.TagKey tag).String (some (.descriptor desc)))).get? r =
      some (rp.set (Key.TagKey tag).String (some (.descriptor desc))) :=
    GoMap.get?_set_self _ _ _
  have hmem : (Key.TagKey tag).String ∈
      (rp.set (Key.TagKey tag).String (some (Value.descriptor desc))).keys :=
    (GoMap.mem_keys_set _ _ _ _).2 (Or.inr rfl)
  refine ⟨s.set r (rp.set (Key.TagKey tag).String (some (.descriptor desc))), ?_, ?_, hbad,
    ?_, ?_, ?_, ?_⟩
  · simp only [TagService.Tag, hdesc, hstore, MetadataService.on,
      inMemoryMetadataStore.Put_scoped _ _ _ _ _ hrp]
  · rw [entryOf_set_self, GoMap.get?_set_self]
  · intro σ params fn acc hit
    have h := inMemoryMetadataStore.Iterate_bad_key x r _ _ params fn acc _ _ hget hmem hbad hit
    refine ⟨h.1, fun hno => h.2 (fun a k name _ _ => hno a name _), ?_⟩
    intro hnil
    subst hnil
    have hkeys : sortStrings (GoMap.keys (GoMap.set ([] : Registry.repository)
        (Key.TagKey tag).String (some (.descriptor desc)))) = [(Key.TagKey tag).String] := rfl
    simp only [inMemoryMetadataStore.Iterate, hit, if_false, MetadataService.on,
      inMemoryMetadataStore.repoMap, hget, Option.getD_some,
      inMemoryMetadataStore.iterateRepository, hkeys, List.length_singleton,
      one_ne_zero, inMemoryMetadataStore.iterateRepository.loop, hbad]
  · have h := (inMemoryMetadataStore.Iterate_bad_key x r _ _
      (IterateParameters.mk (some (.TagKey "")) "") TagService.All.iterFunc [] _ _ hget hmem hbad
      (by decide)).2 (fun a k name _ _ => rfl)
    obtain ⟨m, hm⟩ := h
    exact ⟨m, by simp only [TagService.All, hstore, hm]⟩
  · intro hvals d
    have h := (inMemoryMetadataStore.Iterate_bad_key x r _ _
      (IterateParameters.mk (some (.TagKey "")) "") (TagService.Lookup.iterFunc d) [] _ _ hget
      hmem hbad (by decide)).2 (by
        intro a k name hk hdel
        rcases hdel with ⟨h1, _⟩ | ⟨_, hkey⟩
        · exact absurd h1 (by decide)
        · have hkeq := KeyFromString_TagKey_inv x k name hkey
          by_cases hkk : k = (Key.TagKey tag).String
          · rw [hkk, GoMap.get?_set_self]
            simp only [Option.getD_some, TagService.Lookup.iterFunc]
            split <;> rfl
          · rw [GoMap.get?_set_ne _ _ hkk]
            have hk0 : k ∈ rp.keys := by
              rcases (GoMap.mem_keys_set _ _ _ _).1 hk with h0 | h0
              · exact h0
              · exact absurd h0 hkk
            obtain ⟨v, hv⟩ := GoMap.get?_of_mem_keys rp hk0
            obtain ⟨d0, hd0⟩ := hvals name v (by rw [← hkeq]; exact hv)
            rw [hv, hd0]
            simp only [Option.getD_some, TagService.Lookup.iterFunc]
            split <;> rfl)
    obtain ⟨m, hm⟩ := h
    exact ⟨m, by simp only [TagService.Lookup, hstore, hm]⟩
  · intro σ f acc hf hparse
    have h := (inMemoryMetadataStore.Iterate_bad_key x r _ _
      (IterateParameters.mk (some (.ManifestDigestKey "")) "")
      (manifestService.Enumerate.iterFunc x f) acc _ _ hget hmem hbad (by decide)).2 (by
        intro a k name hk hdel
        rcases hdel with ⟨_, hkey⟩ | ⟨h1, _⟩
        · have hg := KeyFromString_ManifestDigestKey_grammar x k name hkey
          simp only [manifestService.Enumerate.iterFunc, hparse name hg]
          exact hf a name
        · exact absurd h1 (by decide))
    obtain ⟨m, hm⟩ := h
    exact ⟨m, by simp only [manifestService.Enumerate, hms, hm]⟩
/-- C36 (instance): the empty tag name on the fresh repository `r`; a name with a colon
does the same. -/
theorem C36_Tag_unchecked_name_breaks_Iterate_witness :
    sampleTags.store = some "r" ∧ sampleManifests.store = some "r" ∧
    GoMap.get? ([("r", [])] : State) "r" = some [] ∧
    sampleExternals.TagRegexp "" = false ∧ sampleExternals.TagRegexp "a:b" = false ∧
    sampleExternals.ParseDigest sampleDesc.Digest = none ∧
    (∃ s', sampleTags.Tag sampleExternals (World.mk [("r", [])] none []) "" sampleDesc =
        .ok (none, World.mk s' none []) ∧
      entryOf s' "r" (Key.TagKey "").String = some (some (.descriptor sampleDesc)) ∧
      KeyFromString sampleExternals (Key.TagKey "").String =
        .error (.panic "error on key match: ") ∧
      (∀ (σ : Type) (params : IterateParameters) (fn : IterFunc σ) (acc : σ),
        params.IterType ≠ some (.RepoKey "") →
        (∀ acc', (MetadataService.on (some "r") s').Iterate sampleExternals params fn acc ≠
          .ok (none, acc')) ∧
        ((∀ a k v, (fn a k v).1 = none) →
          ∃ m, (MetadataService.on (some "r") s').Iterate sampleExternals params fn acc =
            .error (.panic m)) ∧
        (([] : Registry.repository) = [] →
          (MetadataService.on (some "r") s').Iterate sampleExternals params fn acc =
            .error (.panic "error on key match: "))) ∧
      (∃ m, sampleTags.All sampleExternals s' = .error (.panic m)) ∧
      ((∀ t v, GoMap.get? ([] : Registry.repository) (Key.TagKey t).String = some v →
          ∃ d, v = some (.descriptor d)) →
        ∀ d, ∃ m, sampleTags.Lookup sampleExternals s' d = .error (.panic m)) ∧
      (∀ (σ : Type) (f : σ → String → Option Error × σ) (acc : σ),
        (∀ a d, (f a d).1 = none) →
        (∀ d, sampleExternals.DigestRegexp d = true → sampleExternals.ParseDigest d = none) →
        ∃ m, sampleManifests.Enumerate sampleExternals s' f acc = .error (.panic m))) ∧
    KeyFromString sampleExternals (Key.TagKey "a:b").String =
      .error (.panic "error on key match: ") :=
  ⟨rfl, rfl, rfl, by decide, by decide, by decide,
    C36_Tag_unchecked_name_breaks_Iterate sampleExternals sampleTags sampleManifests "r"
      [("r", [])] [] "" sampleDesc rfl rfl rfl (by decide) (by decide),
    (C36_Tag_unchecked_name_breaks_Iterate sampleExternals sampleTags sampleManifests "r"
      [("r", [])] [] "a:b" sampleDesc rfl rfl rfl (by decide) (by decide)).elim
      (fun _ h => h.2.2.1)⟩

/-! ## Fastly tokens -/

theorem bytesOfString_append (s t : String) :
    bytesOfString (s ++ t) = bytesOfString s ++ bytesOfString t := by
  simp [bytesOfString, String.toList, List.flatMap_append]

theorem sha1.bigEndian_length (n v : Nat) : (sha1.bigEndian n v).length = n := by
  induction n with
  | zero => rfl
  | succ n ih => simp [sha1.bigEndian, ih]

/-- A SHA-1 hash has 20 bytes. -/
theorem sha1.Sum_length (msg : List Nat) : (sha1.Sum msg).length = 20 := by
  simp [sha1.Sum, sha1.bigEndian_length]

theorem fmtHexBytes_length (bs : List Nat) : (fmtHexBytes bs).length = 2 * bs.length := by
  unfold fmtHexBytes
  simp only [String.length]
  induction bs with
  | nil => rfl
  | cons b bs ih =>
    simp only [List.flatMap_cons, List.length_append, List.length_cons, List.length_nil, ih]
    omega

/-- The hash `hmac.New(sha1.New, key)` after one `Write` sums to HMAC-SHA1 of the bytes
written. -/
theorem hmac.Sum_Write_New (key text : List Nat) :
    ((hmac.New key).Write text).Sum [] = hmacSHA1 key text := by
  simp [hmac.New, hmac.Write, hmac.Sum, hmacSHA1]

set_option maxRecDepth 100000 in
/-- The token of the test `TestFastlyToken`, by evaluation. -/
theorem makeFastlyToken_test_vector :
    makeFastlyToken "/path/to/data" "Bh5ubZSwcNTtXpXAeZ+xXoCkl9SUcUVqjzNDoaXIWhA=" 1428365698 =
      "55232182_0x99cdab1d7175e5f6441a4478bcae5853c440071c" := by
  rfl

/-- C32: for every path, key and expiration (its Unix seconds), `makeFastlyToken` returns the
lowercase hexadecimal of the seconds, then `_0x`, then the lowercase hexadecimal of the 20
bytes of HMAC-SHA1 keyed with the bytes of the key over the bytes of the path followed by
those of that hexadecimal expiration; on the path, key and expiration of `TestFastlyToken`
it is the token the test expects. -/
theorem C32_makeFastlyToken (path key : String) (expiration : Int) :
    makeFastlyToken path key expiration =
      fmtHexInt expiration ++ "_0x" ++
        fmtHexBytes (hmacSHA1 (bytesOfString key)
          (bytesOfString path ++ bytesOfString (fmtHexInt expiration))) ∧
    (fmtHexBytes (hmacSHA1 (bytesOfString key)
      (bytesOfString path ++ bytesOfString (fmtHexInt expiration)))).length = 40 ∧
    fmtHexInt 1428365698 = "55232182" ∧
    makeFastlyToken "/path/to/data" "Bh5ubZSwcNTtXpXAeZ+xXoCkl9SUcUVqjzNDoaXIWhA=" 1428365698 =
      "55232182_0x99cdab1d7175e5f6441a4478bcae5853c440071c" := by
  refine ⟨?_, ?_, by decide, makeFastlyToken_test_vector⟩
  · simp only [makeFastlyToken, hmac.Sum_Write_New, bytesOfString_append, String.append_assoc]
    rfl
  · rw [fmtHexBytes_length]
    simp only [hmacSHA1, sha1.Sum_length]

end Registry
